import Mathlib

/-!
# Order-matching engine (`cpp_src/orderbook.cpp`)

A shallow embedding of the C++ order book and its four execution protocols
(LIMIT, MARKET, IOC, FOK), followed by the properties proved about it.

Modelling conventions.

* `shared_ptr<Order>` handles are order ids: every order object lives in
  `orderMap` (the heap), and the price-level deques hold the ids.  Reading
  through a handle is `deref`, writing through it is `modifyOrder`, so a write
  made through the id map is seen through every queue, as with shared pointers.
* Prices (`double` in the source) are exact integers, a number of ticks
  (hundredths): the engine only compares prices and copies them, except in the
  band test of `placeOrder`, where a price of `p` ticks is the `double` nearest to
  `p / 100` (`tickValue`).  NaN is outside the model.
* Quantities and order ids (`int` in the source) are mathematical integers.  With
  placed quantities in the range of `int`, fills and remaining quantities stay in
  that range; the sum `availableQty` of the feasibility scan of `executeFOKOrder`
  can leave it, and is reduced modulo 2^32 into the range (`wrapInt`, two's
  complement: what the compiled code does on signed overflow, which is undefined
  behaviour in C++).  The id counter leaves the range at the 2^31-th placement
  only; runs that long are outside the model.
* `double` arithmetic is IEEE 754 binary64 with rounding to nearest, ties to even
  (`toDouble`), on exact rationals; infinities (magnitudes from 2^1024 on) and NaN
  are outside the model.  Reference prices and band percentages are kept as the
  decimal values passed, a reference price in ticks like the prices it is compared
  with; the band test of `placeOrder` takes the nearest `double` of each and
  computes its two limits in `double` arithmetic.
* Index values of the circuit breaker (`double` in the source) are exact
  rationals; the rounding of its percentage, and the division by a zero reference
  value in `updateMarketValue` (an infinity or NaN in C++), are outside the model.
* A `time_t` is a number of seconds, and `localtime` is taken in UTC.
* `unordered_map<string, map<double, deque>>` is a function from the symbol to
  a list of price levels kept in the map's key order (best price first); a
  symbol without an entry is the empty list.
* The `do ... while` of `matchOrders` and the outer `while` of
  `executeMarketOrder` are run with fuel and return `none` when it runs out;
  the iterator loops of the IOC / FOK sweeps are structural.
* Locks, timestamps and console output are not modelled; the lines `printOrderBook`
  writes are returned as lists (`printOrderBook`).
* A run of the engine is a sequence of calls of its public methods (`Step`, `Later`),
  every placed quantity being positive, as for `Reachable`; `Attainable` is the same
  without the restriction on the quantities.
* A handle always refers to an order object in the source; where a property is stated
  for states no call sequence produces, that is the hypothesis `Stored`.
-/

namespace StockMatching

/-! ## Data model -/

inductive OrderType where
  | BUY
  | SELL
deriving DecidableEq, Repr

inductive OrderStatus where
  | ACTIVE
  | FILLED
  | PARTIALLY_FILLED
  | CANCELLED
deriving DecidableEq, Repr

inductive OrderVariant where
  | LIMIT
  | MARKET
  | IOC
  | FOK
deriving DecidableEq, Repr

inductive MarketStatus where
  | NORMAL_TRADING
  | CIRCUIT_HALT
  | PRE_OPEN_AUCTION
  | CLOSED
deriving DecidableEq, Repr

inductive CircuitLevel where
  | NONE
  | LEVEL_1
  | LEVEL_2
  | LEVEL_3
deriving DecidableEq, Repr

open OrderType OrderStatus OrderVariant MarketStatus CircuitLevel

/-- The class `Order` (timestamp and expiry, which the engine never reads, are left out). -/
structure Order where
  id : Int
  type : OrderType
  variant : OrderVariant
  price : Int
  quantity : Int
  filled_quantity : Int
  status : OrderStatus
  symbol : String
deriving DecidableEq, Repr

/-- The default constructor `Order()`. -/
instance : Inhabited Order := ⟨⟨0, BUY, LIMIT, 0, 0, 0, ACTIVE, ""⟩⟩

/-- The constructor `Order(id, type, variant, price, quantity, sym)`. -/
def Order.create (id : Int) (type : OrderType) (variant : OrderVariant) (price quantity : Int)
    (sym : String) : Order :=
  ⟨id, type, variant, price, quantity, 0, ACTIVE, sym⟩

/-- The method `Order::getRemainingQuantity`. -/
def Order.getRemainingQuantity (o : Order) : Int :=
  o.quantity - o.filled_quantity

/-- The class `Trade` (without its timestamp). -/
structure Trade where
  buyOrderId : Int
  sellOrderId : Int
  symbol : String
  price : Int
  quantity : Int
deriving DecidableEq, Repr

/-- The class `MarketCircuitBreaker`. -/
structure MarketCircuitBreaker where
  referenceValue : ℚ
  currentValue : ℚ
  currentLevel : CircuitLevel
  status : MarketStatus
  haltStartTime : Int
  haltEndTime : Int

/-- A price-level deque of order handles, front first. -/
abbrev PriceLevel := List Int

/-- One side of a symbol's book: the `std::map` from price to deque, in key order. -/
abbrev SideBook := List (Int × PriceLevel)

/-- The heap of order objects, keyed by id (`orderMap`). -/
abbrev OrderMap := Int → Option Order

/-- The class `OrderBook` (the engine state). -/
@[ext]
structure OrderBook where
  buyOrders : String → SideBook
  sellOrders : String → SideBook
  orderMap : OrderMap
  circuitBreaker : MarketCircuitBreaker
  referencePrices : String → Option ℚ
  priceBandPercentages : String → Option ℚ
  nextOrderId : Int
  tradeHistory : List Trade

/-- The constructor `MarketCircuitBreaker(refValue)`. -/
def MarketCircuitBreaker.create (refValue : ℚ) : MarketCircuitBreaker :=
  ⟨refValue, refValue, NONE, NORMAL_TRADING, 0, 0⟩

/-- The constructor `OrderBook()`: a fresh engine. -/
def OrderBook.init : OrderBook :=
  { buyOrders := fun _ => []
    sellOrders := fun _ => []
    orderMap := fun _ => none
    circuitBreaker := MarketCircuitBreaker.create 17500
    referencePrices := fun _ => none
    priceBandPercentages := fun _ => none
    nextOrderId := 1
    tradeHistory := [] }

/-! ## Handles -/

/-- Reading the order object behind a handle. -/
def deref (m : OrderMap) (h : Int) : Order :=
  (m h).getD default

/-- Writing to the order object behind a handle. -/
def modifyOrder (m : OrderMap) (h : Int) (f : Order → Order) : OrderMap :=
  fun k => if k = h then (m k).map f else m k

/-- The assignment `orderMap[orderId] = newOrder`. -/
def storeOrder (m : OrderMap) (o : Order) : OrderMap :=
  fun k => if k = o.id then some o else m k

/-- The statement `order->filled_quantity += matchQty`. -/
def addFilled (m : OrderMap) (h : Int) (matchQty : Int) : OrderMap :=
  modifyOrder m h (fun o => { o with filled_quantity := o.filled_quantity + matchQty })

/-- The statement `order->status = st`. -/
def setStatus (m : OrderMap) (h : Int) (st : OrderStatus) : OrderMap :=
  modifyOrder m h (fun o => { o with status := st })

/-- The method `OrderBook::updateOrderStatus`, on the order object. -/
def updateOrderStatus (o : Order) : Order :=
  if o.filled_quantity ≥ o.quantity then { o with status := FILLED }
  else if o.filled_quantity > 0 then { o with status := PARTIALLY_FILLED }
  else o

/-! ## Side books -/

/-- The key order of a side's map: `greater<double>` for buys, `less<double>` for sells. -/
def better : OrderType → Int → Int → Bool
  | BUY, p, q => decide (q < p)
  | SELL, p, q => decide (p < q)

/-- The statement `book[price].push_back(handle)` on a map kept in key order. -/
def insertOrder (side : OrderType) (price : Int) (h : Int) : SideBook → SideBook
  | [] => [(price, [h])]
  | (p, q) :: rest =>
    if p = price then (p, q ++ [h]) :: rest
    else if better side price p then (price, [h]) :: (p, q) :: rest
    else (p, q) :: insertOrder side price h rest

/-- The statements `bestIt->second.pop_front(); if (bestIt->second.empty()) book.erase(bestIt);`. -/
def popBest : SideBook → SideBook
  | [] => []
  | (p, q) :: rest => if q.tail = [] then rest else (p, q.tail) :: rest

/-- Number of handles held in a side book. -/
def bookSize (bk : SideBook) : Nat :=
  (bk.map (fun l => l.2.length)).sum

/-! ## The matching pass -/

/-- What a routine working on one symbol holds: the order objects, references to the
symbol's two side books, and the trade log. -/
structure SymbolView where
  orderMap : OrderMap
  buyBook : SideBook
  sellBook : SideBook
  tradeHistory : List Trade

/-- The view `buyOrders[symbol]`, `sellOrders[symbol]` of the engine state. -/
def OrderBook.view (s : OrderBook) (symbol : String) : SymbolView :=
  ⟨s.orderMap, s.buyOrders symbol, s.sellOrders symbol, s.tradeHistory⟩

/-- Writing a symbol's view back into the engine state. -/
def OrderBook.commit (s : OrderBook) (symbol : String) (v : SymbolView) : OrderBook :=
  { s with
    orderMap := v.orderMap
    buyOrders := fun k => if k = symbol then v.buyBook else s.buyOrders k
    sellOrders := fun k => if k = symbol then v.sellBook else s.sellOrders k
    tradeHistory := v.tradeHistory }

/-- One run of the body of the `do ... while (matchFound)` loop of `matchOrders`:
`none` when `matchFound` stays false, the new state when it is set. -/
def matchStep (symbol : String) (v : SymbolView) : Option SymbolView :=
  match v.buyBook, v.sellBook with
  | (bp, b :: _) :: _, (sp, a :: _) :: _ =>
    if sp ≤ bp then
      let buyOrder := deref v.orderMap b
      let sellOrder := deref v.orderMap a
      if buyOrder.status ≠ CANCELLED ∧ sellOrder.status ≠ CANCELLED then
        let matchQuantity := min buyOrder.getRemainingQuantity sellOrder.getRemainingQuantity
        let tradePrice := sellOrder.price
        let trade : Trade := ⟨buyOrder.id, sellOrder.id, symbol, tradePrice, matchQuantity⟩
        let m1 := addFilled v.orderMap b matchQuantity
        let m2 := addFilled m1 a matchQuantity
        let m3 := modifyOrder m2 b updateOrderStatus
        let m4 := modifyOrder m3 a updateOrderStatus
        let bb := if (deref m4 b).status = FILLED ∨ (deref m4 b).status = CANCELLED
          then popBest v.buyBook else v.buyBook
        let sb := if (deref m4 a).status = FILLED ∨ (deref m4 a).status = CANCELLED
          then popBest v.sellBook else v.sellBook
        some ⟨m4, bb, sb, v.tradeHistory ++ [trade]⟩
      else
        let bb := if buyOrder.status = CANCELLED then popBest v.buyBook else v.buyBook
        let sb := if sellOrder.status = CANCELLED then popBest v.sellBook else v.sellBook
        some ⟨v.orderMap, bb, sb, v.tradeHistory⟩
    else none
  | _, _ => none

/-- The `do ... while (matchFound)` loop of `matchOrders`, with fuel. -/
def matchLoop (symbol : String) : Nat → SymbolView → Option SymbolView
  | 0, _ => none
  | n + 1, v =>
    match matchStep symbol v with
    | none => some v
    | some v' => matchLoop symbol n v'

/-- Fuel that the matching loop of a view cannot use up: each run of the body that
sets `matchFound` removes a handle from a queue. -/
def matchFuel (v : SymbolView) : Nat :=
  bookSize v.buyBook + bookSize v.sellBook + 1

/-- The method `OrderBook::matchOrders`. -/
def matchOrders (s : OrderBook) (symbol : String) : Option OrderBook :=
  (matchLoop symbol (matchFuel (s.view symbol)) (s.view symbol)).map (s.commit symbol)

/-! ## Sweeps of the opposite side (MARKET, IOC, FOK) -/

/-- The variables a sweep updates: the order objects, the trade log and the local
`remainingQty`. -/
structure Sweep where
  orderMap : OrderMap
  tradeHistory : List Trade
  remainingQty : Int

/-- The trade record of a fill: `Trade(order->id, sellOrder->id, order->symbol, matchPrice,
matchQty)` when the incoming order buys, `Trade(buyOrder->id, order->id, ...)` when it sells. -/
def Trade.ofFill (side : OrderType) (order resting : Order) (matchPrice matchQty : Int) : Trade :=
  match side with
  | BUY => ⟨order.id, resting.id, order.symbol, matchPrice, matchQty⟩
  | SELL => ⟨resting.id, order.id, order.symbol, matchPrice, matchQty⟩

/-- The id of the incoming order in a trade it made as side `side`. -/
def Trade.takerId (t : Trade) : OrderType → Int
  | BUY => t.buyOrderId
  | SELL => t.sellOrderId

/-- The id of the resting order in a trade made by an incoming order of side `side`. -/
def Trade.restingId (t : Trade) : OrderType → Int
  | BUY => t.sellOrderId
  | SELL => t.buyOrderId

/-- The block shared by the inner loops of `executeMarketOrder`, `executeIOCOrder` and
`executeFOKOrder`: trade `min(remainingQty, resting remaining)` at `matchPrice` between
the incoming order `taker` (of side `side`) and the resting order `h`. -/
def executeFill (taker : Int) (side : OrderType) (matchPrice : Int) (h : Int) (w : Sweep) :
    Sweep :=
  let order := deref w.orderMap taker
  let resting := deref w.orderMap h
  let matchQty := min w.remainingQty resting.getRemainingQuantity
  let trade := Trade.ofFill side order resting matchPrice matchQty
  let m1 := addFilled w.orderMap taker matchQty
  let m2 := addFilled m1 h matchQty
  let m3 := modifyOrder m2 h updateOrderStatus
  ⟨m3, w.tradeHistory ++ [trade], w.remainingQty - matchQty⟩

/-- The inner `while` of `executeMarketOrder` over one price level: pops cancelled and
filled fronts, and breaks after a fill that leaves the resting order unfilled. -/
def marketLevel (taker : Int) (side : OrderType) (matchPrice : Int) :
    PriceLevel → Sweep → PriceLevel × Sweep
  | [], w => ([], w)
  | h :: t, w =>
    if 0 < w.remainingQty then
      if (deref w.orderMap h).status = CANCELLED then marketLevel taker side matchPrice t w
      else
        let w' := executeFill taker side matchPrice h w
        if (deref w'.orderMap h).status = FILLED then marketLevel taker side matchPrice t w'
        else (h :: t, w')
    else (h :: t, w)

/-- The outer `while (remainingQty > 0 && !book.empty())` of `executeMarketOrder`, with fuel. -/
def marketLoop (taker : Int) (side : OrderType) : Nat → SideBook → Sweep → Option (SideBook × Sweep)
  | 0, _, _ => none
  | n + 1, bk, w =>
    if 0 < w.remainingQty then
      match bk with
      | [] => some ([], w)
      | (p, q) :: rest =>
        let r := marketLevel taker side p q w
        if r.1 = [] then marketLoop taker side n rest r.2
        else marketLoop taker side n ((p, r.1) :: rest) r.2
    else some (bk, w)

/-- The inner `for` of `executeIOCOrder` / `executeFOKOrder` over one price level:
erases cancelled and filled entries, steps over an entry left unfilled. -/
def sweepLevel (taker : Int) (side : OrderType) (matchPrice : Int) :
    PriceLevel → Sweep → PriceLevel × Sweep
  | [], w => ([], w)
  | h :: t, w =>
    if 0 < w.remainingQty then
      if (deref w.orderMap h).status = CANCELLED then sweepLevel taker side matchPrice t w
      else
        let w' := executeFill taker side matchPrice h w
        if (deref w'.orderMap h).status = FILLED then sweepLevel taker side matchPrice t w'
        else
          let r := sweepLevel taker side matchPrice t w'
          (h :: r.1, r.2)
    else (h :: t, w)

/-- The loop conditions `sellIt->first <= order->price` (incoming BUY) and
`buyIt->first >= order->price` (incoming SELL). -/
def marketable (side : OrderType) (levelPrice limit : Int) : Bool :=
  match side with
  | BUY => decide (levelPrice ≤ limit)
  | SELL => decide (limit ≤ levelPrice)

/-- The outer `for` of `executeIOCOrder` / `executeFOKOrder`: walks the levels from the
best one while quantity remains and the level is marketable; erases emptied levels. -/
def sweepBook (taker : Int) (side : OrderType) (limit : Int) :
    SideBook → Sweep → SideBook × Sweep
  | [], w => ([], w)
  | (p, q) :: rest, w =>
    if 0 < w.remainingQty ∧ marketable side p limit = true then
      let r := sweepLevel taker side p q w
      let r' := sweepBook taker side limit rest r.2
      (if r.1 = [] then r'.1 else (p, r.1) :: r'.1, r'.2)
    else ((p, q) :: rest, w)

/-- The value an `int` variable holds after an addition whose exact result is `x`: `x`
itself when it lies in the range of `int`, and `x` reduced modulo 2^32 into that range
(two's complement) when it does not. -/
def wrapInt (x : Int) : Int :=
  (x + 2147483648) % 4294967296 - 2147483648

/-- The inner range-`for` of the feasibility scan of `executeFOKOrder`: adds the remaining
quantity of the non-cancelled orders of one level to the `int availableQty`. -/
def scanLevel (m : OrderMap) (q : PriceLevel) (availableQty : Int) : Int :=
  q.foldl (fun acc h =>
    if (deref m h).status ≠ CANCELLED then wrapInt (acc + (deref m h).getRemainingQuantity)
    else acc)
    availableQty

/-- The feasibility scan of `executeFOKOrder`: the value of `canFillCompletely`. -/
def canFill (m : OrderMap) (side : OrderType) (limit quantity : Int) : SideBook → Int → Bool
  | [], _ => false
  | (p, q) :: rest, availableQty =>
    if marketable side p limit = true then
      let availableQty' := scanLevel m q availableQty
      if quantity ≤ availableQty' then true
      else canFill m side limit quantity rest availableQty'
    else false

/-- The book an incoming order of side `side` trades against. -/
def oppositeBook (v : SymbolView) : OrderType → SideBook
  | BUY => v.sellBook
  | SELL => v.buyBook

/-- Writing back the side book an incoming order of side `side` traded against. -/
def setOppositeBook (v : SymbolView) (side : OrderType) (bk : SideBook) (w : Sweep) :
    SymbolView :=
  match side with
  | BUY => ⟨w.orderMap, v.buyBook, bk, w.tradeHistory⟩
  | SELL => ⟨w.orderMap, bk, v.sellBook, w.tradeHistory⟩

/-- The method `OrderBook::executeMarketOrder`, on the view of the order's symbol. -/
def executeMarketOrder (taker : Int) (v : SymbolView) : Option SymbolView :=
  let order := deref v.orderMap taker
  let bk := oppositeBook v order.type
  (marketLoop taker order.type (bk.length + 1) bk
      ⟨v.orderMap, v.tradeHistory, order.quantity⟩).map fun r =>
    let m1 := modifyOrder r.2.orderMap taker updateOrderStatus
    let m2 := if (deref m1 taker).status ≠ FILLED then setStatus m1 taker PARTIALLY_FILLED else m1
    setOppositeBook v order.type r.1 { r.2 with orderMap := m2 }

/-- The method `OrderBook::executeIOCOrder`, on the view of the order's symbol. -/
def executeIOCOrder (taker : Int) (v : SymbolView) : SymbolView :=
  let order := deref v.orderMap taker
  let r := sweepBook taker order.type order.price (oppositeBook v order.type)
    ⟨v.orderMap, v.tradeHistory, order.quantity⟩
  let m1 := modifyOrder r.2.orderMap taker updateOrderStatus
  let m2 := if (deref m1 taker).status ≠ FILLED then
      (if (deref m1 taker).status = PARTIALLY_FILLED then setStatus m1 taker CANCELLED else m1)
    else m1
  setOppositeBook v order.type r.1 { r.2 with orderMap := m2 }

/-- The method `OrderBook::executeFOKOrder`, on the view of the order's symbol: the
returned flag and the new view. -/
def executeFOKOrder (taker : Int) (v : SymbolView) : Bool × SymbolView :=
  let order := deref v.orderMap taker
  if canFill v.orderMap order.type order.price order.quantity (oppositeBook v order.type) 0 then
    let r := sweepBook taker order.type order.price (oppositeBook v order.type)
      ⟨v.orderMap, v.tradeHistory, order.quantity⟩
    let m1 := modifyOrder r.2.orderMap taker updateOrderStatus
    (decide ((deref m1 taker).status = FILLED),
      setOppositeBook v order.type r.1 { r.2 with orderMap := m1 })
  else (false, v)

/-! ## The circuit breaker -/

/-- Hour of the day of a `time_t`, with `localtime` taken in UTC. -/
def hourOf (t : Int) : Int := (t / 3600) % 24

/-- Minute of the hour of a `time_t`. -/
def minuteOf (t : Int) : Int := (t / 60) % 60

/-- The method `MarketCircuitBreaker::triggerCircuitBreaker`. -/
def triggerCircuitBreaker (cb : MarketCircuitBreaker) (level : CircuitLevel) (currentTime : Int) :
    MarketCircuitBreaker :=
  let cb1 := { cb with currentLevel := level, status := CIRCUIT_HALT, haltStartTime := currentTime }
  let minutesSinceOpen := (hourOf currentTime - 9) * 60 + minuteOf currentTime
  match level with
  | LEVEL_1 =>
    if minutesSinceOpen < 240 then { cb1 with haltEndTime := currentTime + 45 * 60 }
    else if minutesSinceOpen < 330 then { cb1 with haltEndTime := currentTime + 15 * 60 }
    else { cb1 with status := NORMAL_TRADING, currentLevel := NONE }
  | LEVEL_2 =>
    if minutesSinceOpen < 240 then { cb1 with haltEndTime := currentTime + 105 * 60 }
    else if minutesSinceOpen < 300 then { cb1 with haltEndTime := currentTime + 45 * 60 }
    else { cb1 with haltEndTime := 0, status := CLOSED }
  | LEVEL_3 => { cb1 with haltEndTime := 0, status := CLOSED }
  | NONE => cb1

/-- The method `MarketCircuitBreaker::updateMarketValue`: the returned flag and the new
breaker state. -/
def updateMarketValue (cb : MarketCircuitBreaker) (newValue : ℚ) (currentTime : Int) :
    Bool × MarketCircuitBreaker :=
  let cb0 := { cb with currentValue := newValue }
  let percentChange := ((newValue - cb.referenceValue) / cb.referenceValue) * 100
  match cb.status with
  | NORMAL_TRADING =>
    if percentChange ≤ -20 then (true, triggerCircuitBreaker cb0 LEVEL_3 currentTime)
    else if percentChange ≤ -15 then (true, triggerCircuitBreaker cb0 LEVEL_2 currentTime)
    else if percentChange ≤ -10 then (true, triggerCircuitBreaker cb0 LEVEL_1 currentTime)
    else (false, cb0)
  | CIRCUIT_HALT =>
    if cb.haltEndTime ≤ currentTime then
      (false, { cb0 with status := PRE_OPEN_AUCTION, haltEndTime := currentTime + 15 * 60 })
    else (false, cb0)
  | PRE_OPEN_AUCTION =>
    if cb.haltEndTime ≤ currentTime then
      (false, { cb0 with status := NORMAL_TRADING, currentLevel := NONE })
    else (false, cb0)
  | CLOSED => (false, cb0)

/-! ## Double arithmetic -/

/-- Rounding of a rational to the nearest integer, a tie going to the even one. -/
def roundHalfEven (x : ℚ) : Int :=
  if x - ⌊x⌋ < 1 / 2 then ⌊x⌋
  else if 1 / 2 < x - ⌊x⌋ then ⌊x⌋ + 1
  else if ⌊x⌋ % 2 = 0 then ⌊x⌋ else ⌊x⌋ + 1

/-- The exponent `e` of the `double` format for the value `x`: `2 ^ e ≤ |x| < 2 ^ (e + 1)`
in the normal range, and -1022 below it. -/
def binade (x : ℚ) : Int :=
  max (Int.log 2 |x|) (-1022)

/-- The spacing of the `double` values around `x`: 53 significant bits. -/
def ulp (x : ℚ) : ℚ :=
  2 ^ (binade x - 52)

/-- The `double` an operation of exact result `x` returns: the multiple of `ulp x` nearest
to `x`, a tie going to the even one (IEEE 754 binary64, round to nearest even). -/
def toDouble (x : ℚ) : ℚ :=
  roundHalfEven (x / ulp x) * ulp x

/-- The `double` a price of `p` ticks is in the source: the one nearest to `p / 100`. -/
def tickValue (p : ℚ) : ℚ :=
  toDouble (p / 100)

/-! ## The engine's public operations -/

/-- The method `OrderBook::setStockPriceBand`. -/
def setStockPriceBand (s : OrderBook) (symbol : String) (referencePrice bandPercentage : ℚ) :
    OrderBook :=
  { s with
    referencePrices := fun k => if k = symbol then some referencePrice else s.referencePrices k
    priceBandPercentages :=
      fun k => if k = symbol then some bandPercentage else s.priceBandPercentages k }

/-- The method `OrderBook::updateIndexValue`. -/
def updateIndexValue (s : OrderBook) (newValue : ℚ) (currentTime : Int) : OrderBook :=
  { s with circuitBreaker := (updateMarketValue s.circuitBreaker newValue currentTime).2 }

/-- The statements `int orderId = nextOrderId++; orderMap[orderId] = newOrder;` -/
def OrderBook.register (s : OrderBook) (o : Order) : OrderBook :=
  { s with nextOrderId := s.nextOrderId + 1, orderMap := storeOrder s.orderMap o }

/-- The method `OrderBook::placeMarketOrder`: the returned id (-1 on rejection) and the new
state; `none` only if a loop ran out of fuel. -/
def placeMarketOrder (s : OrderBook) (type : OrderType) (quantity : Int) (symbol : String) :
    Option (Int × OrderBook) :=
  if s.circuitBreaker.status ≠ NORMAL_TRADING then some (-1, s)
  else
    let orderId := s.nextOrderId
    let s1 := s.register (Order.create orderId type MARKET 0 quantity symbol)
    (executeMarketOrder orderId (s1.view symbol)).map fun v => (orderId, s1.commit symbol v)

/-- The method `OrderBook::placeIOCOrder`. -/
def placeIOCOrder (s : OrderBook) (type : OrderType) (price quantity : Int) (symbol : String) :
    Int × OrderBook :=
  if s.circuitBreaker.status ≠ NORMAL_TRADING then (-1, s)
  else
    let orderId := s.nextOrderId
    let s1 := s.register (Order.create orderId type IOC price quantity symbol)
    (orderId, s1.commit symbol (executeIOCOrder orderId (s1.view symbol)))

/-- The method `OrderBook::placeFOKOrder`. -/
def placeFOKOrder (s : OrderBook) (type : OrderType) (price quantity : Int) (symbol : String) :
    Int × OrderBook :=
  if s.circuitBreaker.status ≠ NORMAL_TRADING then (-1, s)
  else
    let orderId := s.nextOrderId
    let s1 := s.register (Order.create orderId type FOK price quantity symbol)
    let r := executeFOKOrder orderId (s1.view symbol)
    let s2 := s1.commit symbol r.2
    if r.1 = false then (orderId, { s2 with orderMap := setStatus s2.orderMap orderId CANCELLED })
    else (orderId, s2)

/-- The value `upperLimit` of `placeOrder`: `refPrice * (1 + bandPct/100.0)`, each of the
three operations rounded to a `double`. -/
def upperLimit (refPrice bandPct : ℚ) : ℚ :=
  toDouble (refPrice * toDouble (1 + toDouble (bandPct / 100)))

/-- The value `lowerLimit` of `placeOrder`: `refPrice * (1 - bandPct/100.0)`, each of the
three operations rounded to a `double`. -/
def lowerLimit (refPrice bandPct : ℚ) : ℚ :=
  toDouble (refPrice * toDouble (1 - toDouble (bandPct / 100)))

/-- The price-band test of `placeOrder`: true when the price lies outside the band of a
symbol that has one.  The reference price (kept in ticks), the percentage and the price
are the `double` values nearest to the decimal values passed. -/
def bandViolation (s : OrderBook) (price : Int) (symbol : String) : Bool :=
  match s.referencePrices symbol with
  | none => false
  | some ref =>
    let refPrice := tickValue ref
    let bandPct := toDouble ((s.priceBandPercentages symbol).getD 0)
    decide (tickValue price > upperLimit refPrice bandPct ∨
      tickValue price < lowerLimit refPrice bandPct)

/-- The statements `if (type == BUY) buyOrders[symbol][price].push_back(newOrder); else
sellOrders[symbol][price].push_back(newOrder);` of `placeOrder`. -/
def OrderBook.enqueue (s : OrderBook) (type : OrderType) (price : Int) (h : Int)
    (symbol : String) : OrderBook :=
  match type with
  | BUY => { s with buyOrders := fun k =>
      if k = symbol then insertOrder BUY price h (s.buyOrders symbol) else s.buyOrders k }
  | SELL => { s with sellOrders := fun k =>
      if k = symbol then insertOrder SELL price h (s.sellOrders symbol) else s.sellOrders k }

/-- The limit-order part of `OrderBook::placeOrder` (the code after the three delegations). -/
def placeLimitOrder (s : OrderBook) (type : OrderType) (variant : OrderVariant)
    (price quantity : Int) (symbol : String) : Option (Int × OrderBook) :=
  if s.circuitBreaker.status = CIRCUIT_HALT ∨ s.circuitBreaker.status = CLOSED then some (-1, s)
  else if s.circuitBreaker.status = PRE_OPEN_AUCTION then some (-1, s)
  else if bandViolation s price symbol = true then some (-1, s)
  else
    let orderId := s.nextOrderId
    let s1 := s.register (Order.create orderId type variant price quantity symbol)
    let s2 := s1.enqueue type price orderId symbol
    (matchOrders s2 symbol).map fun s3 => (orderId, s3)

/-- The method `OrderBook::placeOrder(type, variant, price, quantity, symbol)`. -/
def placeOrder (s : OrderBook) (type : OrderType) (variant : OrderVariant)
    (price quantity : Int) (symbol : String) : Option (Int × OrderBook) :=
  match variant with
  | MARKET => placeMarketOrder s type quantity symbol
  | IOC => some (placeIOCOrder s type price quantity symbol)
  | FOK => some (placeFOKOrder s type price quantity symbol)
  | LIMIT => placeLimitOrder s type variant price quantity symbol

/-- The method `OrderBook::cancelOrder`: the returned flag and the new state. -/
def cancelOrder (s : OrderBook) (orderId : Int) : Bool × OrderBook :=
  match s.orderMap orderId with
  | none => (false, s)
  | some order =>
    if order.status = FILLED then (false, s)
    else (true, { s with orderMap := setStatus s.orderMap orderId CANCELLED })

/-- The states the engine can be in: a fresh engine, then any calls of its public
methods, every placed quantity being positive. -/
inductive Reachable : OrderBook → Prop
  | init : Reachable OrderBook.init
  | place {s s' : OrderBook} {id : Int} (type : OrderType) (variant : OrderVariant)
      (price quantity : Int) (symbol : String) :
      Reachable s → 0 < quantity →
      placeOrder s type variant price quantity symbol = some (id, s') → Reachable s'
  | cancel {s : OrderBook} (orderId : Int) : Reachable s → Reachable (cancelOrder s orderId).2
  | matchPass {s s' : OrderBook} (symbol : String) :
      Reachable s → matchOrders s symbol = some s' → Reachable s'
  | index {s : OrderBook} (newValue : ℚ) (currentTime : Int) :
      Reachable s → Reachable (updateIndexValue s newValue currentTime)
  | band {s : OrderBook} (symbol : String) (referencePrice bandPercentage : ℚ) :
      Reachable s → Reachable (setStockPriceBand s symbol referencePrice bandPercentage)

/-! ## Scenarios of `main` -/

/-- Runs a list of placements `(type, variant, price, quantity, symbol)` in order. -/
def placeAll (s : OrderBook) :
    List (OrderType × OrderVariant × Int × Int × String) → Option OrderBook
  | [] => some s
  | (t, v, p, q, sym) :: rest =>
    match placeOrder s t v p q sym with
    | none => none
    | some r => placeAll r.2 rest

/-! ## Invariants of the reachable states -/

/-- The order object `o` behind handle `h` is a live resting order of the queue at price
`p` on side `side` of the book of `symbol`. -/
structure Resting (side : OrderType) (symbol : String) (p : Int) (h : Int) (o : Order) :
    Prop where
  id_eq : o.id = h
  type_eq : o.type = side
  price_eq : o.price = p
  symbol_eq : o.symbol = symbol
  variant_eq : o.variant = LIMIT
  filled_nonneg : 0 ≤ o.filled_quantity
  filled_lt : o.filled_quantity < o.quantity
  not_filled : o.status ≠ FILLED

/-- Handle `h` refers to a live resting order of the given queue. -/
def RestingAt (m : OrderMap) (side : OrderType) (symbol : String) (p : Int) (h : Int) : Prop :=
  ∃ o, m h = some o ∧ Resting side symbol p h o

/-- Time priority inside one queue: behind an order that is not cancelled, nobody has
been filled. -/
def TimePriority (m : OrderMap) (q : PriceLevel) : Prop :=
  q.Pairwise fun h1 h2 => (deref m h1).status ≠ CANCELLED → (deref m h2).filled_quantity = 0

/-- A price level is well formed: not empty, no handle twice, live resting orders of
that price, in time priority. -/
structure LevelOK (m : OrderMap) (side : OrderType) (symbol : String) (l : Int × PriceLevel) :
    Prop where
  nonempty : l.2 ≠ []
  nodup : l.2.Nodup
  resting : ∀ h ∈ l.2, RestingAt m side symbol l.1 h
  priority : TimePriority m l.2

/-- A side book is well formed: levels in strict key order, each well formed. -/
structure SideOK (m : OrderMap) (side : OrderType) (symbol : String) (bk : SideBook) :
    Prop where
  sorted : bk.Pairwise fun l1 l2 => better side l1.1 l2.1 = true
  levels : ∀ l ∈ bk, LevelOK m side symbol l

/-- Both side books of a view are well formed. -/
structure ViewOK (symbol : String) (v : SymbolView) : Prop where
  buy : SideOK v.orderMap BUY symbol v.buyBook
  sell : SideOK v.orderMap SELL symbol v.sellBook

/-- No bid level is priced at or above an ask level. -/
def Uncrossed (buy sell : SideBook) : Prop :=
  ∀ bl ∈ buy, ∀ sl ∈ sell, bl.1 < sl.1

/-- The invariant of the reachable engine states. -/
structure Inv (s : OrderBook) : Prop where
  buy : ∀ symbol, SideOK s.orderMap BUY symbol (s.buyOrders symbol)
  sell : ∀ symbol, SideOK s.orderMap SELL symbol (s.sellOrders symbol)
  uncrossed : ∀ symbol, Uncrossed (s.buyOrders symbol) (s.sellOrders symbol)
  fresh : ∀ k o, s.orderMap k = some o → k < s.nextOrderId

/-! ## Liquidity -/

/-- The side opposite to `side`. -/
def opposite : OrderType → OrderType
  | BUY => SELL
  | SELL => BUY

/-- The remaining quantity a resting order offers: nothing once it is cancelled. -/
def available (m : OrderMap) (h : Int) : Int :=
  if (deref m h).status ≠ CANCELLED then (deref m h).getRemainingQuantity else 0

/-- The remaining quantity of the non-cancelled orders of one queue. -/
def levelLiquidity (m : OrderMap) (q : PriceLevel) : Int :=
  (q.map (available m)).sum

/-- The remaining quantity of the non-cancelled resting orders of a side book at the
levels an incoming order of side `side` and limit `limit` can trade at. -/
def marketableLiquidity (m : OrderMap) (side : OrderType) (limit : Int) (bk : SideBook) : Int :=
  ((bk.filter fun l => marketable side l.1 limit).map fun l => levelLiquidity m l.2).sum

/-- The remaining quantity of the non-cancelled resting orders of a whole side book. -/
def totalLiquidity (m : OrderMap) (bk : SideBook) : Int :=
  (bk.map fun l => levelLiquidity m l.2).sum

/-! ## What the sweeps achieve -/

/-- The sweep of a side book from the best level while quantity remains and the level
price passes `ok`: the common shape of the outer loops of the three sweeps. -/
def sweepWhile (ok : Int → Bool) (taker : Int) (side : OrderType) :
    SideBook → Sweep → SideBook × Sweep
  | [], w => ([], w)
  | (p, q) :: rest, w =>
    if 0 < w.remainingQty ∧ ok p = true then
      let r := sweepLevel taker side p q w
      let r' := sweepWhile ok taker side rest r.2
      (if r.1 = [] then r'.1 else (p, r.1) :: r'.1, r'.2)
    else ((p, q) :: rest, w)

/-- The liquidity of the leading levels whose price passes `ok`. -/
def prefixLiquidity (ok : Int → Bool) (m : OrderMap) : SideBook → Int
  | [] => 0
  | (p, q) :: rest => if ok p = true then levelLiquidity m q + prefixLiquidity ok m rest else 0

/-- What the sweep of one queue `q` at price `p` by the incoming order `T` (whose record
was `oT`) achieves, from sweep state `w` to the queue `q'` and sweep state `w'`. -/
structure LevelSwept (T : Int) (side : OrderType) (symbol : String) (p : Int) (oT : Order)
    (q : PriceLevel) (w : Sweep) (q' : PriceLevel) (w' : Sweep) : Prop where
  sub : q'.Sublist q
  resting : ∀ h ∈ q', RestingAt w'.orderMap (opposite side) symbol p h
  priority : TimePriority w'.orderMap q'
  frame : ∀ k, k ≠ T → k ∉ q → w'.orderMap k = w.orderMap k
  taker : w'.orderMap T =
    some { oT with filled_quantity := oT.filled_quantity + (w.remainingQty - w'.remainingQty) }
  rem : w'.remainingQty = w.remainingQty - min w.remainingQty (levelLiquidity w.orderMap q)
  drained : 0 < w'.remainingQty → q' = []
  trades : ∃ new, w'.tradeHistory = w.tradeHistory ++ new ∧
    (new.map Trade.quantity).sum = w.remainingQty - w'.remainingQty ∧
    ∀ t ∈ new, t.price = p ∧ t.takerId side = T ∧ t.restingId side ∈ q ∧
      t.symbol = oT.symbol ∧ 0 < t.quantity

/-- What the sweep of a side book `bk` by the incoming order `T` (whose record was `oT`)
achieves, from sweep state `w` to the book `bk'` and sweep state `w'`. -/
structure BookSwept (ok : Int → Bool) (T : Int) (side : OrderType) (symbol : String)
    (oT : Order) (bk : SideBook) (w : Sweep) (bk' : SideBook) (w' : Sweep) : Prop where
  side_ok : SideOK w'.orderMap (opposite side) symbol bk'
  prices : (bk'.map Prod.fst).Sublist (bk.map Prod.fst)
  frame : ∀ k, k ≠ T → (∀ l ∈ bk, k ∉ l.2) → w'.orderMap k = w.orderMap k
  taker : w'.orderMap T =
    some { oT with filled_quantity := oT.filled_quantity + (w.remainingQty - w'.remainingQty) }
  rem : w'.remainingQty = w.remainingQty - min w.remainingQty (prefixLiquidity ok w.orderMap bk)
  trades : ∃ new, w'.tradeHistory = w.tradeHistory ++ new ∧
    (new.map Trade.quantity).sum = w.remainingQty - w'.remainingQty ∧
    (∀ t ∈ new, ∃ l ∈ bk, ok l.1 = true ∧ t.price = l.1 ∧ t.restingId side ∈ l.2 ∧
      t.takerId side = T ∧ t.symbol = oT.symbol ∧ 0 < t.quantity) ∧
    new.Pairwise fun t1 t2 => t1.price = t2.price ∨ better (opposite side) t1.price t2.price = true

/-! ## What the matching pass achieves -/

/-- Every level of `bk'` is part of a level of `bk` at the same price. -/
def SubBook (bk' bk : SideBook) : Prop :=
  ∀ l' ∈ bk', ∃ l ∈ bk, l.1 = l'.1 ∧ ∀ h ∈ l'.2, h ∈ l.2

/-- Trade `t` of `symbol` is between a bid and an ask held in the books of view `v`, at
the price of the ask's level, which does not exceed the price of the bid's level. -/
def TradeIn (symbol : String) (v : SymbolView) (t : Trade) : Prop :=
  ∃ bl ∈ v.buyBook, ∃ sl ∈ v.sellBook, t.buyOrderId ∈ bl.2 ∧ t.sellOrderId ∈ sl.2 ∧
    t.price = sl.1 ∧ sl.1 ≤ bl.1 ∧ t.symbol = symbol ∧ 0 < t.quantity

/-- Trade `t` of `symbol` is between the front orders of the best bid and best ask levels
of view `v`, at the price of the best ask level. -/
def HeadTrade (symbol : String) (v : SymbolView) (t : Trade) : Prop :=
  ∃ bp b bq brest sp a sq srest, v.buyBook = (bp, b :: bq) :: brest ∧
    v.sellBook = (sp, a :: sq) :: srest ∧ sp ≤ bp ∧ t.buyOrderId = b ∧ t.sellOrderId = a ∧
    t.symbol = symbol ∧ t.price = sp ∧ 0 < t.quantity

/-- What one run of the body of the matching loop achieves, from view `v` to view `v'`. -/
structure MatchStepped (symbol : String) (v v' : SymbolView) : Prop where
  view_ok : ViewOK symbol v'
  buy_sub : SubBook v'.buyBook v.buyBook
  sell_sub : SubBook v'.sellBook v.sellBook
  frame : ∀ k, (∀ l ∈ v.buyBook, k ∉ l.2) → (∀ l ∈ v.sellBook, k ∉ l.2) →
    v'.orderMap k = v.orderMap k
  domain : ∀ k, (v'.orderMap k).isSome = (v.orderMap k).isSome
  smaller : bookSize v'.buyBook + bookSize v'.sellBook <
    bookSize v.buyBook + bookSize v.sellBook
  trades : v'.tradeHistory = v.tradeHistory ∨
    ∃ t, v'.tradeHistory = v.tradeHistory ++ [t] ∧ HeadTrade symbol v t

/-- What a run of the matching loop achieves, from view `v` to view `v'`. -/
structure MatchLooped (symbol : String) (v v' : SymbolView) : Prop where
  view_ok : ViewOK symbol v'
  buy_sub : SubBook v'.buyBook v.buyBook
  sell_sub : SubBook v'.sellBook v.sellBook
  frame : ∀ k, (∀ l ∈ v.buyBook, k ∉ l.2) → (∀ l ∈ v.sellBook, k ∉ l.2) →
    v'.orderMap k = v.orderMap k
  domain : ∀ k, (v'.orderMap k).isSome = (v.orderMap k).isSome
  trades : ∃ new, v'.tradeHistory = v.tradeHistory ++ new ∧ ∀ t ∈ new, TradeIn symbol v t

/-- The only level that crosses the other side is the one holding just the incoming
order `n`, of side `type` and price `P`. -/
def OnlyNewCrosses (type : OrderType) (P n : Int) (v : SymbolView) : Prop :=
  ∀ bl ∈ v.buyBook, ∀ sl ∈ v.sellBook, sl.1 ≤ bl.1 →
    match type with
    | BUY => bl = (P, [n])
    | SELL => sl = (P, [n])

/-- Trade `t` is a trade of the incoming order `n` of side `type` and limit `P`: `n` is
its buyer when it buys; `n` is its seller, and the trade is priced at `P`, when it sells. -/
def ByIncoming (type : OrderType) (P n : Int) (t : Trade) : Prop :=
  match type with
  | BUY => t.buyOrderId = n
  | SELL => t.sellOrderId = n ∧ t.price = P

/-- The views the loop of `matchOrders` passes through when it is started on `v0`: `v0`,
and the view after each run of the loop body that found a match. -/
inductive PassView (symbol : String) (v0 : SymbolView) : SymbolView → Prop
  | start : PassView symbol v0 v0
  | next {v v' : SymbolView} :
      PassView symbol v0 v → matchStep symbol v = some v' → PassView symbol v0 v'

/-- Trade `t` is made at view `v` between the best bid and the best ask: its buyer and
seller are the front orders of the first bid level and of the first ask level of `v`, no
ask level of `v` is priced below the trade, which is priced at the seller's limit, and no
bid level of `v` is priced above the buyer's limit. -/
structure BestTrade (symbol : String) (v : SymbolView) (t : Trade) : Prop where
  head : HeadTrade symbol v t
  best_ask : ∀ l ∈ v.sellBook, t.price ≤ l.1
  ask_limit : (deref v.orderMap t.sellOrderId).price = t.price
  best_bid : ∀ l ∈ v.buyBook, l.1 ≤ (deref v.orderMap t.buyOrderId).price

/-! ## Engine states after a placement -/

/-- The side book of `symbol` on side `side` in an engine state. -/
def bookOf (s : OrderBook) : OrderType → String → SideBook
  | BUY, symbol => s.buyOrders symbol
  | SELL, symbol => s.sellOrders symbol

/-- The final status of an IOC order, from its record after the sweep:
`updateOrderStatus(order)`, then `CANCELLED` if it is `PARTIALLY_FILLED`. -/
def iocFinal (o : Order) : Order :=
  if (updateOrderStatus o).status ≠ FILLED then
    if (updateOrderStatus o).status = PARTIALLY_FILLED then
      { updateOrderStatus o with status := CANCELLED }
    else updateOrderStatus o
  else updateOrderStatus o

/-- The final status of a MARKET order, from its record after the sweep:
`updateOrderStatus(order)`, then `PARTIALLY_FILLED` unless it is `FILLED`. -/
def marketFinal (o : Order) : Order :=
  if (updateOrderStatus o).status ≠ FILLED then
    { updateOrderStatus o with status := PARTIALLY_FILLED }
  else updateOrderStatus o

/-- The final status of a FOK order whose feasibility scan succeeded, from its record
after the sweep: `updateOrderStatus(order)`, then `CANCELLED` unless it is `FILLED`. -/
def fokFinal (o : Order) : Order :=
  if (updateOrderStatus o).status = FILLED then updateOrderStatus o
  else { updateOrderStatus o with status := CANCELLED }

/-- The engine state after the incoming order `o`, registered under the next id, has swept
the opposite side of `symbol` down to `bk'` with sweep state `w'`, its own record being
finished by `g`. -/
def sweptState (s : OrderBook) (o : Order) (symbol : String) (bk' : SideBook) (w' : Sweep)
    (g : Order → Order) : OrderBook :=
  { s with
    nextOrderId := s.nextOrderId + 1
    orderMap := modifyOrder w'.orderMap s.nextOrderId g
    buyOrders := fun k => if k = symbol then
      (match o.type with
        | BUY => s.buyOrders symbol
        | SELL => bk') else s.buyOrders k
    sellOrders := fun k => if k = symbol then
      (match o.type with
        | BUY => bk'
        | SELL => s.sellOrders symbol) else s.sellOrders k
    tradeHistory := w'.tradeHistory }

/-! ## Books of the test cases of `main` -/

/-- The state after a list of placements, the state itself if one of them did not return. -/
def runAll (s : OrderBook) (l : List (OrderType × OrderVariant × Int × Int × String)) :
    OrderBook :=
  (placeAll s l).getD s

/-- The price of the best level of a side book. -/
def bestPrice (bk : SideBook) : Option Int :=
  bk.head?.map Prod.fst

/-- The book of `symbol` is not crossed: a side is empty, or the best bid is priced
strictly below the best ask. -/
def NotCrossed (s : OrderBook) (symbol : String) : Prop :=
  s.buyOrders symbol = [] ∨ s.sellOrders symbol = [] ∨
    ∃ bp sp, bestPrice (s.buyOrders symbol) = some bp ∧
      bestPrice (s.sellOrders symbol) = some sp ∧ bp < sp

/-- Two bids at one price, the first partly filled by a smaller ask, and an ask above. -/
def restingBook : OrderBook :=
  runAll OrderBook.init
    [(BUY, LIMIT, 10000, 10, "AAPL"), (BUY, LIMIT, 10000, 5, "AAPL"),
      (SELL, LIMIT, 10000, 3, "AAPL"), (SELL, LIMIT, 10100, 4, "AAPL")]

/-- Test case 4 of `main` before its FOK orders: a bid at 150.00 and asks 151.00 x 5 and
152.00 x 5. -/
def amznBook : OrderBook :=
  runAll OrderBook.init
    [(BUY, LIMIT, 15000, 5, "AMZN"), (SELL, LIMIT, 15100, 5, "AMZN"),
      (SELL, LIMIT, 15200, 5, "AMZN")]

/-- Two asks of 2000000000 each at 100.00: quantities in the range of `int` whose sum is
not. -/
def largeAsks : OrderBook :=
  runAll OrderBook.init
    [(SELL, LIMIT, 10000, 2000000000, "AAPL"), (SELL, LIMIT, 10000, 2000000000, "AAPL")]

/-- Test case 3 of `main` before its IOC order: a bid 50.00 x 5 and an ask 51.00 x 10. -/
def googBook : OrderBook :=
  runAll OrderBook.init [(BUY, LIMIT, 5000, 5, "GOOG"), (SELL, LIMIT, 5100, 10, "GOOG")]

/-- Test case 2 of `main` before its MARKET order: bids 25.00 x 5 and 24.75 x 10, asks
25.50 x 5 and 26.00 x 10. -/
def msftBook : OrderBook :=
  runAll OrderBook.init
    [(BUY, LIMIT, 2500, 5, "MSFT"), (BUY, LIMIT, 2475, 10, "MSFT"),
      (SELL, LIMIT, 2550, 5, "MSFT"), (SELL, LIMIT, 2600, 10, "MSFT")]

/-- Test case 1 of `main` before its sell order: bids 100.50 x 10 and 101.00 x 5. -/
def twoBids : OrderBook :=
  runAll OrderBook.init [(BUY, LIMIT, 10050, 10, "AAPL"), (BUY, LIMIT, 10100, 5, "AAPL")]

/-! ## The book snapshot -/

/-- The lines `printOrderBook` writes for one side: for each level in key order and each
handle of its queue from the front, the level price and the order object, when the order's
status is `ACTIVE` or `PARTIALLY_FILLED`. -/
def printSide (m : OrderMap) (bk : SideBook) : List (Int × Order) :=
  bk.flatMap fun l =>
    (l.2.filter fun h =>
      decide ((deref m h).status = ACTIVE ∨ (deref m h).status = PARTIALLY_FILLED)).map
      fun h => (l.1, deref m h)

/-- The method `OrderBook::printOrderBook`: the buy lines and the sell lines. -/
def printOrderBook (s : OrderBook) (symbol : String) : List (Int × Order) × List (Int × Order) :=
  (printSide s.orderMap (s.buyOrders symbol), printSide s.orderMap (s.sellOrders symbol))

/-- Test case 2 of `main` after its MARKET order. -/
def msftAfterMarket : OrderBook :=
  runAll OrderBook.init
    [(BUY, LIMIT, 2500, 5, "MSFT"), (BUY, LIMIT, 2475, 10, "MSFT"),
      (SELL, LIMIT, 2550, 5, "MSFT"), (SELL, LIMIT, 2600, 10, "MSFT"),
      (BUY, MARKET, 0, 7, "MSFT")]

/-- A fresh engine after a BUY MARKET 7 that finds no seller. -/
def emptyMarket : OrderBook :=
  runAll OrderBook.init [(BUY, MARKET, 0, 7, "MSFT")]

/-- The book `restingBook` after the cancel of its bid 2, which stays queued behind bid 1. -/
def cancelledBid : OrderBook :=
  (cancelOrder restingBook 2).2

/-- Test case 5 of `main`: the band of 5 per cent around 2000.00 for RELIANCE. -/
def bandEngine : OrderBook :=
  setStockPriceBand OrderBook.init "RELIANCE" 200000 5

/-- A band of 15 per cent around 100.00 for INFY, whose exact upper bound is 115.00. -/
def edgeBand : OrderBook :=
  setStockPriceBand OrderBook.init "INFY" 10000 15

/-- The book `restingBook` after the cancel of its bid 1, the front order of the queue at
100.00. -/
def cancelledHead : OrderBook :=
  (cancelOrder restingBook 1).2

/-! ## Order records and the trade log -/

/-- The quantity of the trades of a log that name order `k`, as buyer or as seller. -/
def tradedQuantity (k : Int) (tr : List Trade) : Int :=
  ((tr.filter fun t => decide (t.buyOrderId = k ∨ t.sellOrderId = k)).map Trade.quantity).sum

/-- The fields of an order object agree with one another: the filled quantity lies
between 0 and the positive quantity, the status is FILLED exactly when they are equal, an
ACTIVE order has nothing filled and is not a MARKET order, and a PARTIALLY_FILLED order
has something filled unless it is a MARKET order. -/
structure OrderOK (o : Order) : Prop where
  quantity_pos : 0 < o.quantity
  filled_nonneg : 0 ≤ o.filled_quantity
  filled_le : o.filled_quantity ≤ o.quantity
  filled_iff : o.status = FILLED ↔ o.filled_quantity = o.quantity
  active : o.status = ACTIVE → o.filled_quantity = 0 ∧ o.variant ≠ MARKET
  partly : o.status = PARTIALLY_FILLED → 0 < o.filled_quantity ∨ o.variant = MARKET

/-- The trade log agrees with the order objects: an object is stored under its own id,
every trade names a stored BUY order and a stored SELL order of the trade's symbol and has
a positive quantity, and the trades naming an order add up to its filled quantity. -/
structure Ledger (m : OrderMap) (tr : List Trade) : Prop where
  ids : ∀ k o, m k = some o → o.id = k
  parties : ∀ t ∈ tr, ∃ b a, m t.buyOrderId = some b ∧ b.type = BUY ∧ b.symbol = t.symbol ∧
    m t.sellOrderId = some a ∧ a.type = SELL ∧ a.symbol = t.symbol
  positive : ∀ t ∈ tr, 0 < t.quantity
  filled : ∀ k o, m k = some o → tradedQuantity k tr = o.filled_quantity

/-- The order objects and the trade log of an engine state are consistent. -/
structure Sound (s : OrderBook) : Prop where
  ledger : Ledger s.orderMap s.tradeHistory
  orders : ∀ k o, s.orderMap k = some o → OrderOK o

/-- Consistency during the sweep of the incoming order `T`, whose own status is settled
only after the sweep. -/
structure SweepSound (T : Int) (side : OrderType) (symbol : String) (w : Sweep) : Prop where
  ledger : Ledger w.orderMap w.tradeHistory
  orders : ∀ k o, k ≠ T → w.orderMap k = some o → OrderOK o
  taker : ∃ oT, w.orderMap T = some oT ∧ oT.type = side ∧ oT.symbol = symbol

/-- Every order object that is FILLED or CANCELLED in heap `m0` is the same object in
heap `m`. -/
def TerminalKept (m0 m : OrderMap) : Prop :=
  ∀ k o, m0 k = some o → (o.status = FILLED ∨ o.status = CANCELLED) → m k = some o

/-- The record of an incoming order right after its sweep, before its status is settled. -/
structure Swept (o : Order) : Prop where
  status_eq : o.status = ACTIVE
  quantity_pos : 0 < o.quantity
  filled_nonneg : 0 ≤ o.filled_quantity
  filled_le : o.filled_quantity ≤ o.quantity

/-! ## Runs of the engine -/

/-- One call of a public method of the engine takes state `s` to state `s'`; every placed
quantity is positive. -/
inductive Step : OrderBook → OrderBook → Prop
  | place {s s' : OrderBook} {id : Int} (type : OrderType) (variant : OrderVariant)
      (price quantity : Int) (symbol : String) :
      0 < quantity → placeOrder s type variant price quantity symbol = some (id, s') → Step s s'
  | cancel (s : OrderBook) (orderId : Int) : Step s (cancelOrder s orderId).2
  | matchPass {s s' : OrderBook} (symbol : String) : matchOrders s symbol = some s' → Step s s'
  | index (s : OrderBook) (newValue : ℚ) (currentTime : Int) :
      Step s (updateIndexValue s newValue currentTime)
  | band (s : OrderBook) (symbol : String) (referencePrice bandPercentage : ℚ) :
      Step s (setStockPriceBand s symbol referencePrice bandPercentage)

/-- State `s'` is state `s` after any number of later calls of the public methods. -/
inductive Later : OrderBook → OrderBook → Prop
  | refl (s : OrderBook) : Later s s
  | step {s s1 s2 : OrderBook} : Later s s1 → Step s1 s2 → Later s s2

/-- State `s'` continues state `s`: its order objects and trade log are consistent, every
order object that was FILLED or CANCELLED in `s` is unchanged, and the trade log of `s` has
only been appended to. -/
structure Continues (s s' : OrderBook) : Prop where
  sound : Sound s'
  kept : TerminalKept s.orderMap s'.orderMap
  log : ∃ new, s'.tradeHistory = s.tradeHistory ++ new

/-! ## Runs of the circuit breaker -/

/-- The local `percentChange` of `updateMarketValue`. -/
def percentChange (cb : MarketCircuitBreaker) (newValue : ℚ) : ℚ :=
  ((newValue - cb.referenceValue) / cb.referenceValue) * 100

/-- The local `minutesSinceOpen` of `triggerCircuitBreaker`: minutes since 09:00. -/
def minutesSinceOpen (currentTime : Int) : Int :=
  (hourOf currentTime - 9) * 60 + minuteOf currentTime

/-- The breaker after a list of calls `updateMarketValue(newValue, currentTime)`. -/
def updateAll (cb : MarketCircuitBreaker) (l : List (ℚ × Int)) : MarketCircuitBreaker :=
  l.foldl (fun c u => (updateMarketValue c u.1 u.2).2) cb

/-- Test case 6 of `main`: the index falls from 17500 to 15400 at 11:30. -/
def haltedEngine : OrderBook :=
  updateIndexValue OrderBook.init 15400 41400

/-! ## What no call changes -/

/-- Order object `o'` is order object `o` up to its filled quantity and its status. -/
def SameOrder (o o' : Order) : Prop :=
  o'.id = o.id ∧ o'.type = o.type ∧ o'.variant = o.variant ∧ o'.price = o.price ∧
    o'.quantity = o.quantity ∧ o'.symbol = o.symbol

/-- Heap `m` and log `t` come from heap `m0` and log `t0` by fills and changes of status:
the keys are the same, each order object is the same up to its filled quantity and status,
and the log has only been appended to. -/
structure Evolved (m0 : OrderMap) (t0 : List Trade) (m : OrderMap) (t : List Trade) :
    Prop where
  keys : ∀ k, (m k).isSome = (m0 k).isSome
  same : ∀ k o o', m0 k = some o → m k = some o' → SameOrder o o'
  log : ∃ new, t = t0 ++ new

/-- The ids in use are exactly `1 .. nextOrderId - 1`. -/
structure Dense (s : OrderBook) : Prop where
  next_pos : 1 ≤ s.nextOrderId
  keys : ∀ k, (s.orderMap k).isSome = true ↔ 1 ≤ k ∧ k < s.nextOrderId

/-! ## Books after removals -/

/-- No price level of a side book has an empty queue. -/
def NoEmptyLevel (bk : SideBook) : Prop :=
  ∀ l ∈ bk, l.2 ≠ []

/-- Side book `bk'` comes from side book `bk` by removals: each of its levels is part of
a level of `bk` at the same price, and it has no empty level if `bk` has none. -/
def Pruned (bk' bk : SideBook) : Prop :=
  SubBook bk' bk ∧ (NoEmptyLevel bk → NoEmptyLevel bk')

/-! ## Book states, reachable or not -/

/-- Every handle queued in side book `bk` refers to an order object of heap `m`. -/
def Stored (m : OrderMap) (bk : SideBook) : Prop :=
  ∀ l ∈ bk, ∀ h ∈ l.2, (m h).isSome = true

/-- No order is queued on both sides of a view. -/
def Apart (v : SymbolView) : Prop :=
  ∀ bl ∈ v.buyBook, ∀ sl ∈ v.sellBook, ∀ h ∈ bl.2, h ∉ sl.2

/-- A book state, reachable or not: the queued handles refer to order objects, and no order
is queued on both sides.  Nothing is assumed of the prices, the key order, the quantities,
the fills, the statuses, the sides and symbols of the orders, handles queued twice on one
side, or empty levels. -/
structure BookState (v : SymbolView) : Prop where
  buy : Stored v.orderMap v.buyBook
  sell : Stored v.orderMap v.sellBook
  apart : Apart v

/-- A view no call sequence produces: the buy side is not in key order, has an empty
level and holds its two handles twice, a CANCELLED order and an overfilled FILLED order of
variant IOC; the sell side is priced below the buy side and holds an order of negative
quantity and a MARKET order of another symbol.  Order 5 is a MARKET order that is not
queued. -/
def strayView : SymbolView :=
  { orderMap := fun k =>
      if k = 1 then some ⟨1, BUY, LIMIT, 10000, 5, 0, CANCELLED, "X"⟩
      else if k = 2 then some ⟨2, BUY, IOC, 9000, 4, 9, FILLED, "X"⟩
      else if k = 3 then some ⟨3, SELL, LIMIT, 9500, -3, 0, ACTIVE, "X"⟩
      else if k = 4 then some ⟨4, SELL, MARKET, 0, 6, 1, PARTIALLY_FILLED, "Y"⟩
      else if k = 5 then some ⟨5, BUY, MARKET, 0, 7, 0, ACTIVE, "X"⟩
      else none
    buyBook := [(9000, [2, 1]), (10000, []), (9900, [1, 2])]
    sellBook := [(8000, [3]), (7000, [4, 3])]
    tradeHistory := [] }

/-! ## Runs with unrestricted quantities -/

/-- The books of an engine state hold stored orders of their own side, and the ids in use
are positive and below the counter. -/
structure Typed (s : OrderBook) : Prop where
  queued : ∀ (side : OrderType) (symbol : String), ∀ l ∈ bookOf s side symbol, ∀ h ∈ l.2,
    ∃ o, s.orderMap h = some o ∧ o.type = side
  fresh : ∀ k o, s.orderMap k = some o → k < s.nextOrderId
  next_pos : 1 ≤ s.nextOrderId

/-- The states the engine can be in when the placed quantities are not restricted: a fresh
engine, then any calls of its public methods, with any arguments. -/
inductive Attainable : OrderBook → Prop
  | init : Attainable OrderBook.init
  | place {s s' : OrderBook} {id : Int} (type : OrderType) (variant : OrderVariant)
      (price quantity : Int) (symbol : String) :
      Attainable s → placeOrder s type variant price quantity symbol = some (id, s') →
      Attainable s'
  | cancel {s : OrderBook} (orderId : Int) : Attainable s → Attainable (cancelOrder s orderId).2
  | matchPass {s s' : OrderBook} (symbol : String) :
      Attainable s → matchOrders s symbol = some s' → Attainable s'
  | index {s : OrderBook} (newValue : ℚ) (currentTime : Int) :
      Attainable s → Attainable (updateIndexValue s newValue currentTime)
  | band {s : OrderBook} (symbol : String) (referencePrice bandPercentage : ℚ) :
      Attainable s → Attainable (setStockPriceBand s symbol referencePrice bandPercentage)

/-- A bid 100.00 x 10, then an ask 100.00 x -5. -/
def negativeAsk : OrderBook :=
  runAll OrderBook.init [(BUY, LIMIT, 10000, 10, "AAPL"), (SELL, LIMIT, 10000, -5, "AAPL")]

/-! ## Trade prices and limits -/

/-- Trade `t`, bought by order `b` and sold by order `a`, respects both limits: between two
priced orders its price is at least the seller's limit and at most the buyer's; with a
MARKET order on one side, the other side is a LIMIT order and the price is its limit. -/
def WithinLimits (b a : Order) (t : Trade) : Prop :=
  (b.variant ≠ MARKET → a.variant ≠ MARKET → a.price ≤ t.price ∧ t.price ≤ b.price) ∧
  (b.variant = MARKET → a.variant = LIMIT ∧ t.price = a.price) ∧
  (a.variant = MARKET → b.variant = LIMIT ∧ t.price = b.price)

/-- Every trade of log `tr` is between two order objects of heap `m` and respects both
limits. -/
def Priced (m : OrderMap) (tr : List Trade) : Prop :=
  ∀ t ∈ tr, ∃ b a, m t.buyOrderId = some b ∧ m t.sellOrderId = some a ∧ WithinLimits b a t

/-! ## The same order under another variant -/

/-- The order object `o` with its variant replaced by `x`. -/
def Order.withVariant (x : OrderVariant) (o : Order) : Order :=
  { o with variant := x }

/-- The sweep state `w` in which the order object behind handle `k` has variant `x`. -/
def Sweep.retag (k : Int) (x : OrderVariant) (w : Sweep) : Sweep :=
  ⟨modifyOrder w.orderMap k (Order.withVariant x), w.tradeHistory, w.remainingQty⟩

/-- The number 1 when one order object that is not CANCELLED and has a remaining quantity
of at least 0 heads both sides of a crossed view, and 0 otherwise.  The run of the loop body
of `matchOrders` then pops that order from both queues. -/
def sharedHead (v : SymbolView) : Nat :=
  match v.buyBook, v.sellBook with
  | (bp, b :: _) :: _, (sp, a :: _) :: _ =>
    if sp ≤ bp ∧ b = a ∧ (deref v.orderMap b).status ≠ CANCELLED ∧
        0 ≤ (deref v.orderMap b).getRemainingQuantity then 1
    else 0
  | _, _ => 0

/-! # Properties -/

section Heap

@[simp]
theorem modifyOrder_same (m : OrderMap) (h : Int) (f : Order → Order) :
    modifyOrder m h f h = (m h).map f := by
  simp [modifyOrder]

@[simp]
theorem modifyOrder_other (m : OrderMap) {h k : Int} (f : Order → Order) (hk : k ≠ h) :
    modifyOrder m h f k = m k := by
  simp [modifyOrder, hk]

theorem deref_of_some {m : OrderMap} {h : Int} {o : Order} (hm : m h = some o) :
    deref m h = o := by
  simp [deref, hm]

theorem deref_congr {m m' : OrderMap} {h : Int} (hm : m' h = m h) : deref m' h = deref m h := by
  simp [deref, hm]

theorem Resting.uniqueOrder {s1 s2 : OrderType} {y1 y2 : String} {p1 p2 h1 h2 : Int} {o : Order}
    (r1 : Resting s1 y1 p1 h1 o) (r2 : Resting s2 y2 p2 h2 o) :
    s1 = s2 ∧ y1 = y2 ∧ p1 = p2 ∧ h1 = h2 :=
  ⟨r1.type_eq.symm.trans r2.type_eq, r1.symbol_eq.symm.trans r2.symbol_eq,
    r1.price_eq.symm.trans r2.price_eq, r1.id_eq.symm.trans r2.id_eq⟩

theorem RestingAt.uniquePlace {m : OrderMap} {s1 s2 : OrderType} {y1 y2 : String} {p1 p2 h : Int}
    (r1 : RestingAt m s1 y1 p1 h) (r2 : RestingAt m s2 y2 p2 h) :
    s1 = s2 ∧ y1 = y2 ∧ p1 = p2 := by
  obtain ⟨o1, h1, r1⟩ := r1
  obtain ⟨o2, h2, r2⟩ := r2
  have : o1 = o2 := by simpa [h1] using h2
  subst this
  exact ⟨(r1.uniqueOrder r2).1, (r1.uniqueOrder r2).2.1, (r1.uniqueOrder r2).2.2.1⟩

theorem RestingAt.congrAt {m m' : OrderMap} {side : OrderType} {y : String} {p h : Int}
    (r : RestingAt m side y p h) (hm : m' h = m h) : RestingAt m' side y p h := by
  obtain ⟨o, ho, r⟩ := r
  exact ⟨o, hm.trans ho, r⟩

theorem TimePriority.congrPriority {m m' : OrderMap} {q : PriceLevel} (t : TimePriority m q)
    (hm : ∀ h ∈ q, m' h = m h) : TimePriority m' q := by
  unfold TimePriority at *
  induction q with
  | nil => exact List.Pairwise.nil
  | cons a q ih =>
    rw [List.pairwise_cons] at t ⊢
    refine ⟨fun b hb hs => ?_, ih t.2 fun h hh => hm h (List.mem_cons_of_mem _ hh)⟩
    rw [deref_congr (hm a (List.mem_cons_self _ _))] at hs
    rw [deref_congr (hm b (List.mem_cons_of_mem _ hb))]
    exact t.1 b hb hs

theorem LevelOK.congrLevel {m m' : OrderMap} {side : OrderType} {y : String} {l : Int × PriceLevel}
    (ok : LevelOK m side y l) (hm : ∀ h ∈ l.2, m' h = m h) : LevelOK m' side y l :=
  ⟨ok.nonempty, ok.nodup, fun h hh => (ok.resting h hh).congrAt (hm h hh), ok.priority.congrPriority hm⟩

theorem SideOK.congrSide {m m' : OrderMap} {side : OrderType} {y : String} {bk : SideBook}
    (ok : SideOK m side y bk) (hm : ∀ l ∈ bk, ∀ h ∈ l.2, m' h = m h) : SideOK m' side y bk :=
  ⟨ok.sorted, fun l hl => (ok.levels l hl).congrLevel (hm l hl)⟩

end Heap

section Fill

theorem updateOrderStatus_filled_iff {o : Order} (hs : o.status ≠ FILLED) :
    (updateOrderStatus o).status = FILLED ↔ o.quantity ≤ o.filled_quantity := by
  unfold updateOrderStatus
  split_ifs with h1 h2
  · simp [h1]
  · simp at h1
    simp [h1]
  · simp at h1
    simp [h1, hs]

theorem updateOrderStatus_fields (o : Order) :
    (updateOrderStatus o).id = o.id ∧ (updateOrderStatus o).type = o.type ∧
    (updateOrderStatus o).variant = o.variant ∧ (updateOrderStatus o).price = o.price ∧
    (updateOrderStatus o).quantity = o.quantity ∧
    (updateOrderStatus o).filled_quantity = o.filled_quantity ∧
    (updateOrderStatus o).symbol = o.symbol := by
  unfold updateOrderStatus
  split_ifs <;> simp

theorem updateOrderStatus_not_cancelled {o : Order} (hs : o.status ≠ CANCELLED) :
    (updateOrderStatus o).status ≠ CANCELLED := by
  unfold updateOrderStatus
  split_ifs <;> simp [hs]

theorem Trade.ofFill_fields (side : OrderType) (oT o : Order) (p mq : Int) :
    (Trade.ofFill side oT o p mq).price = p ∧ (Trade.ofFill side oT o p mq).quantity = mq ∧
    (Trade.ofFill side oT o p mq).symbol = oT.symbol ∧
    (Trade.ofFill side oT o p mq).takerId side = oT.id ∧
    (Trade.ofFill side oT o p mq).restingId side = o.id := by
  cases side <;> simp [Trade.ofFill, Trade.takerId, Trade.restingId]

/-- Effect of one fill on the heap, the trade log and the remaining quantity. -/
theorem executeFill_spec {T h : Int} (side : OrderType) (p : Int) {w : Sweep} {oT o : Order}
    (hT : w.orderMap T = some oT) (hh : w.orderMap h = some o) (hne : T ≠ h) :
    (executeFill T side p h w).orderMap T =
        some
          { oT with filled_quantity :=
              oT.filled_quantity + min w.remainingQty o.getRemainingQuantity } ∧
    (executeFill T side p h w).orderMap h =
        some (updateOrderStatus
          { o with filled_quantity :=
              o.filled_quantity + min w.remainingQty o.getRemainingQuantity }) ∧
    (∀ k, k ≠ T → k ≠ h → (executeFill T side p h w).orderMap k = w.orderMap k) ∧
    (executeFill T side p h w).remainingQty =
        w.remainingQty - min w.remainingQty o.getRemainingQuantity ∧
    (executeFill T side p h w).tradeHistory = w.tradeHistory ++
      [Trade.ofFill side oT o p (min w.remainingQty o.getRemainingQuantity)] := by
  have hne' : h ≠ T := fun e => hne e.symm
  refine ⟨?_, ?_, ?_, ?_, ?_⟩
  · simp [executeFill, addFilled, modifyOrder, hne, hT, deref, hh]
  · simp [executeFill, addFilled, modifyOrder, hne', hh, deref]
  · intro k hk1 hk2
    simp [executeFill, addFilled, modifyOrder, hk1, hk2]
  · simp [executeFill, deref, hh]
  · simp [executeFill, deref, hh, hT]

theorem sweepLevel_cons (T p h : Int) (side : OrderType) (t : PriceLevel) (w : Sweep) :
    sweepLevel T side p (h :: t) w =
      if 0 < w.remainingQty then
        if (deref w.orderMap h).status = CANCELLED then sweepLevel T side p t w
        else if (deref (executeFill T side p h w).orderMap h).status = FILLED then
          sweepLevel T side p t (executeFill T side p h w)
        else (h :: (sweepLevel T side p t (executeFill T side p h w)).1,
          (sweepLevel T side p t (executeFill T side p h w)).2)
      else (h :: t, w) := by
  simp [sweepLevel]

theorem sweepLevel_done (T p : Int) (side : OrderType) (q : PriceLevel) {w : Sweep}
    (hr : w.remainingQty ≤ 0) : sweepLevel T side p q w = (q, w) := by
  cases q with
  | nil => rfl
  | cons h t =>
    have : ¬ 0 < w.remainingQty := by omega
    simp [sweepLevel, this]

theorem available_of_resting {m : OrderMap} {side : OrderType} {y : String} {p h : Int}
    (r : RestingAt m side y p h) : 0 ≤ available m h := by
  obtain ⟨o, ho, r⟩ := r
  unfold available
  rw [deref_of_some ho]
  have := r.filled_lt
  split_ifs
  · simp [Order.getRemainingQuantity]
    omega
  · exact le_refl 0

theorem levelLiquidity_nonneg {m : OrderMap} {side : OrderType} {y : String} {p : Int}
    {q : PriceLevel} (r : ∀ h ∈ q, RestingAt m side y p h) : 0 ≤ levelLiquidity m q := by
  unfold levelLiquidity
  apply List.sum_nonneg
  intro x hx
  obtain ⟨h, hh, rfl⟩ := List.mem_map.mp hx
  exact available_of_resting (r h hh)

theorem levelLiquidity_congr {m m' : OrderMap} {q : PriceLevel} (hm : ∀ h ∈ q, m' h = m h) :
    levelLiquidity m' q = levelLiquidity m q := by
  unfold levelLiquidity
  congr 1
  apply List.map_congr_left
  intro h hh
  simp [available, deref_congr (hm h hh)]

@[simp]
theorem levelLiquidity_cons (m : OrderMap) (h : Int) (q : PriceLevel) :
    levelLiquidity m (h :: q) = available m h + levelLiquidity m q := by
  simp [levelLiquidity]

@[simp]
theorem levelLiquidity_nil (m : OrderMap) : levelLiquidity m [] = 0 := rfl

end Fill

section SweepLevel

theorem sweepLevel_spec {T : Int} (side : OrderType) (symbol : String) (p : Int)
    (q : PriceLevel) :
    ∀ (w : Sweep) (oT : Order), w.orderMap T = some oT → oT.id = T → T ∉ q →
      (∀ h ∈ q, RestingAt w.orderMap (opposite side) symbol p h) → q.Nodup →
      TimePriority w.orderMap q → 0 ≤ w.remainingQty →
      LevelSwept T side symbol p oT q w (sweepLevel T side p q w).1 (sweepLevel T side p q w).2 := by
  induction q with
  | nil =>
    intro w oT hT hid _ _ _ _ hr
    refine ⟨List.Sublist.refl _, by simp [sweepLevel], List.Pairwise.nil, fun _ _ _ => rfl, ?_,
      ?_, fun _ => rfl, ⟨[], by simp [sweepLevel], by simp [sweepLevel], by simp⟩⟩
    · simpa [sweepLevel] using hT
    · simp [sweepLevel]
      omega
  | cons h t ih =>
    intro w oT hT hid hTq hq hnd hprio hr
    have hTh : T ≠ h := fun e => hTq (e ▸ List.mem_cons_self _ _)
    have hTt : T ∉ t := fun e => hTq (List.mem_cons_of_mem _ e)
    have hht : h ∉ t := (List.nodup_cons.mp hnd).1
    have hqt : ∀ x ∈ t, RestingAt w.orderMap (opposite side) symbol p x :=
      fun x hx => hq x (List.mem_cons_of_mem _ hx)
    have hLt := levelLiquidity_nonneg hqt
    obtain ⟨o, ho, ro⟩ := hq h (List.mem_cons_self _ _)
    rw [sweepLevel_cons]
    by_cases hpos : 0 < w.remainingQty
    · rw [if_pos hpos]
      by_cases hc : (deref w.orderMap h).status = CANCELLED
      · -- a cancelled entry is erased
        rw [if_pos hc]
        have r := ih w oT hT hid hTt hqt (List.nodup_cons.mp hnd).2
          (List.pairwise_cons.mp hprio).2 hr
        refine ⟨r.sub.cons _, r.resting, r.priority,
          fun k hk hkq => r.frame k hk fun hm => hkq (List.mem_cons_of_mem _ hm), r.taker, ?_,
          r.drained, ?_⟩
        · rw [r.rem]
          simp [available, hc]
        · obtain ⟨new, h1, h2, h3⟩ := r.trades
          exact ⟨new, h1, h2, fun t ht =>
            ⟨(h3 t ht).1, (h3 t ht).2.1, List.mem_cons_of_mem _ (h3 t ht).2.2.1,
              (h3 t ht).2.2.2⟩⟩
      · -- a trade against the front entry
        rw [if_neg hc]
        have hoS : o.status ≠ CANCELLED := by rwa [deref_of_some ho] at hc
        obtain ⟨fT, fh, fk, fr, ft⟩ := executeFill_spec side p hT ho hTh
        have hav : available w.orderMap h = o.quantity - o.filled_quantity := by
          simp [available, deref_of_some ho, hoS, Order.getRemainingQuantity]
        have hflt := ro.filled_lt
        have hfnn := ro.filled_nonneg
        simp only [Order.getRemainingQuantity] at fT fh fr ft
        generalize executeFill T side p h w = w1 at fT fh fk fr ft ⊢
        generalize hmq : min w.remainingQty (o.quantity - o.filled_quantity) = mq
          at fT fh fr ft
        have hmqpos : 0 < mq := by omega
        have hw1t : ∀ x ∈ t, w1.orderMap x = w.orderMap x := fun x hx =>
          fk x (fun e => hTt (e ▸ hx)) (fun e => hht (e ▸ hx))
        have hqt1 : ∀ x ∈ t, RestingAt w1.orderMap (opposite side) symbol p x :=
          fun x hx => (hqt x hx).congrAt (hw1t x hx)
        have hprio1 : TimePriority w1.orderMap t :=
          TimePriority.congrPriority (List.pairwise_cons.mp hprio).2 hw1t
        have hL1 : levelLiquidity w1.orderMap t = levelLiquidity w.orderMap t :=
          levelLiquidity_congr hw1t
        have hst : (deref w1.orderMap h).status = FILLED ↔
            o.quantity - o.filled_quantity ≤ w.remainingQty := by
          rw [deref_of_some fh, updateOrderStatus_filled_iff (by simpa using ro.not_filled)]
          show o.quantity ≤ o.filled_quantity + mq ↔ _
          omega
        have hnew : (Trade.ofFill side oT o p mq).price = p ∧
            (Trade.ofFill side oT o p mq).takerId side = T ∧
            (Trade.ofFill side oT o p mq).restingId side ∈ h :: t ∧
            (Trade.ofFill side oT o p mq).symbol = oT.symbol ∧
            0 < (Trade.ofFill side oT o p mq).quantity := by
          have f := Trade.ofFill_fields side oT o p mq
          refine ⟨f.1, f.2.2.2.1.trans hid, ?_, f.2.2.1, by rw [f.2.1]; exact hmqpos⟩
          rw [f.2.2.2.2, ro.id_eq]
          exact List.mem_cons_self _ _
        by_cases hf : (deref w1.orderMap h).status = FILLED
        · -- the resting order is filled and erased; the sweep goes on
          rw [if_pos hf]
          have hle := hst.mp hf
          have r := ih w1 _ fT hid hTt hqt1 (List.nodup_cons.mp hnd).2 hprio1 (by rw [fr]; omega)
          refine ⟨r.sub.cons _, r.resting, r.priority, ?_, ?_, ?_, r.drained, ?_⟩
          · intro k hk hkq
            rw [r.frame k hk fun hm => hkq (List.mem_cons_of_mem _ hm)]
            exact fk k hk fun e => hkq (e ▸ List.mem_cons_self _ _)
          · rw [r.taker]
            simp only [Option.some.injEq, Order.mk.injEq, true_and, and_true]
            rw [fr]
            omega
          · rw [r.rem, hL1, fr, levelLiquidity_cons, hav]
            omega
          · obtain ⟨new, h1, h2, h3⟩ := r.trades
            refine ⟨Trade.ofFill side oT o p mq :: new, by rw [h1, ft]; simp, ?_, ?_⟩
            · simp only [List.map_cons, List.sum_cons, (Trade.ofFill_fields side oT o p mq).2.1,
                h2, fr]
              omega
            · intro tr htr
              rcases List.mem_cons.mp htr with rfl | htr
              · exact hnew
              · exact ⟨(h3 tr htr).1, (h3 tr htr).2.1, List.mem_cons_of_mem _ (h3 tr htr).2.2.1,
                  (h3 tr htr).2.2.2⟩
        · -- the resting order keeps a remainder: the incoming order is used up
          rw [if_neg hf]
          have hlt : w.remainingQty < o.quantity - o.filled_quantity := by
            by_contra hcon
            exact hf (hst.mpr (by omega))
          have hr1 : w1.remainingQty = 0 := by rw [fr]; omega
          rw [sweepLevel_done T p side t (by omega)]
          have hh1 : RestingAt w1.orderMap (opposite side) symbol p h := by
            refine ⟨_, fh, ?_⟩
            have flds := updateOrderStatus_fields
              { o with filled_quantity := o.filled_quantity + mq }
            have hns : (updateOrderStatus
                { o with filled_quantity := o.filled_quantity + mq }).status ≠ FILLED := by
              rw [← deref_of_some fh]
              exact hf
            refine ⟨flds.1.trans ro.id_eq, flds.2.1.trans ro.type_eq,
              flds.2.2.2.1.trans ro.price_eq, flds.2.2.2.2.2.2.trans ro.symbol_eq,
              flds.2.2.1.trans ro.variant_eq, ?_, ?_, hns⟩
            · rw [flds.2.2.2.2.2.1]
              show 0 ≤ o.filled_quantity + mq
              omega
            · rw [flds.2.2.2.2.2.1, flds.2.2.2.2.1]
              show o.filled_quantity + mq < o.quantity
              omega
          refine ⟨List.Sublist.refl _, ?_, ?_, ?_, ?_, ?_, fun hp => ?_, ?_⟩
          · intro x hx
            rcases List.mem_cons.mp hx with rfl | hx
            · exact hh1
            · exact hqt1 x hx
          · refine List.pairwise_cons.mpr ⟨fun b hb _ => ?_, hprio1⟩
            rw [deref_congr (hw1t b hb)]
            exact (List.pairwise_cons.mp hprio).1 b hb hc
          · intro k hk hkq
            exact fk k hk fun e => hkq (e ▸ List.mem_cons_self _ _)
          · rw [fT]
            simp only [Option.some.injEq, Order.mk.injEq, true_and, and_true]
            show oT.filled_quantity + mq = oT.filled_quantity + (w.remainingQty - w1.remainingQty)
            omega
          · show w1.remainingQty = _
            rw [hr1, levelLiquidity_cons, hav]
            omega
          · exfalso
            have : 0 < w1.remainingQty := hp
            omega
          · refine ⟨[Trade.ofFill side oT o p mq], ft, ?_, ?_⟩
            · simp only [List.map_cons, List.sum_cons, (Trade.ofFill_fields side oT o p mq).2.1,
                List.map_nil, List.sum_nil]
              show mq + 0 = w.remainingQty - w1.remainingQty
              omega
            · intro tr htr
              rcases List.mem_singleton.mp htr with rfl
              exact hnew
    · -- nothing left to fill
      rw [if_neg hpos]
      have hr0 : w.remainingQty = 0 := by omega
      have hav := available_of_resting (hq h (List.mem_cons_self _ _))
      refine ⟨List.Sublist.refl _, hq, hprio, fun _ _ _ => rfl, ?_, ?_, fun hp => ?_,
        ⟨[], by simp, by simp, by simp⟩⟩
      · simpa using hT
      · show w.remainingQty = _
        rw [levelLiquidity_cons]
        omega
      · exfalso
        have : 0 < w.remainingQty := hp
        omega


theorem executeFill_unfilled {T h : Int} (side : OrderType) (p : Int) {w : Sweep} {oT o : Order}
    (hT : w.orderMap T = some oT) (hh : w.orderMap h = some o) (hne : T ≠ h)
    (hs : o.status ≠ FILLED)
    (hf : (deref (executeFill T side p h w).orderMap h).status ≠ FILLED) :
    (executeFill T side p h w).remainingQty = 0 := by
  obtain ⟨_, fh, _, fr, _⟩ := executeFill_spec side p hT hh hne
  rw [deref_of_some fh, Ne, updateOrderStatus_filled_iff (by simpa using hs)] at hf
  rw [fr]
  simp only [Order.getRemainingQuantity] at hf ⊢
  omega

theorem marketLevel_eq_sweepLevel {T p : Int} {side : OrderType} (symbol : String)
    (q : PriceLevel) :
    ∀ (w : Sweep) (oT : Order), w.orderMap T = some oT → T ∉ q →
      (∀ h ∈ q, RestingAt w.orderMap (opposite side) symbol p h) → q.Nodup →
      marketLevel T side p q w = sweepLevel T side p q w := by
  induction q with
  | nil => intros; rfl
  | cons h t ih =>
    intro w oT hT hTq hq hnd
    have hTh : T ≠ h := fun e => hTq (e ▸ List.mem_cons_self _ _)
    have hTt : T ∉ t := fun e => hTq (List.mem_cons_of_mem _ e)
    have hht : h ∉ t := (List.nodup_cons.mp hnd).1
    have hqt : ∀ x ∈ t, RestingAt w.orderMap (opposite side) symbol p x :=
      fun x hx => hq x (List.mem_cons_of_mem _ hx)
    obtain ⟨o, ho, ro⟩ := hq h (List.mem_cons_self _ _)
    rw [sweepLevel_cons]
    simp only [marketLevel]
    by_cases hpos : 0 < w.remainingQty
    · rw [if_pos hpos, if_pos hpos]
      by_cases hc : (deref w.orderMap h).status = CANCELLED
      · rw [if_pos hc, if_pos hc]
        exact ih w oT hT hTt hqt (List.nodup_cons.mp hnd).2
      · rw [if_neg hc, if_neg hc]
        obtain ⟨fT, _, fk, _, _⟩ := executeFill_spec side p hT ho hTh
        by_cases hf : (deref (executeFill T side p h w).orderMap h).status = FILLED
        · rw [if_pos hf, if_pos hf]
          refine ih _ _ fT hTt (fun x hx => (hqt x hx).congrAt ?_) (List.nodup_cons.mp hnd).2
          exact fk x (fun e => hTt (e ▸ hx)) (fun e => hht (e ▸ hx))
        · rw [if_neg hf, if_neg hf]
          have h0 := executeFill_unfilled side p hT ho hTh ro.not_filled hf
          rw [sweepLevel_done T p side t (by omega)]
    · rw [if_neg hpos, if_neg hpos]

theorem better_irrefl (side : OrderType) (p : Int) : better side p p = false := by
  cases side <;> simp [better]

theorem better_trans {side : OrderType} {a b c : Int} (h1 : better side a b = true)
    (h2 : better side b c = true) : better side a c = true := by
  cases side <;> simp [better] at * <;> omega

theorem SideOK.tailSide {m : OrderMap} {side : OrderType} {y : String} {l : Int × PriceLevel}
    {bk : SideBook} (ok : SideOK m side y (l :: bk)) : SideOK m side y bk :=
  ⟨(List.pairwise_cons.mp ok.sorted).2, fun l' hl' => ok.levels l' (List.mem_cons_of_mem _ hl')⟩

/-- In a well-formed side book, a handle of one level is in no later level. -/
theorem SideOK.head_disjoint {m : OrderMap} {side : OrderType} {y : String} {p : Int}
    {q : PriceLevel} {bk : SideBook} (ok : SideOK m side y ((p, q) :: bk)) :
    ∀ l ∈ bk, ∀ h ∈ l.2, h ∉ q := by
  intro l hl h hh hq
  have r1 := (ok.levels _ (List.mem_cons_self _ _)).resting h hq
  have r2 := (ok.levels l (List.mem_cons_of_mem _ hl)).resting h hh
  have hp : p = l.1 := (r1.uniquePlace r2).2.2
  have hb := (List.pairwise_cons.mp ok.sorted).1 l hl
  simp only at hb
  rw [hp, better_irrefl] at hb
  exact Bool.false_ne_true hb

theorem prefixLiquidity_congr {ok : Int → Bool} {m m' : OrderMap} {bk : SideBook}
    (hm : ∀ l ∈ bk, ∀ h ∈ l.2, m' h = m h) :
    prefixLiquidity ok m' bk = prefixLiquidity ok m bk := by
  induction bk with
  | nil => rfl
  | cons l bk ih =>
    obtain ⟨p, q⟩ := l
    simp only [prefixLiquidity]
    rw [ih fun l hl => hm l (List.mem_cons_of_mem _ hl),
      levelLiquidity_congr (hm (p, q) (List.mem_cons_self _ _))]

theorem prefixLiquidity_nonneg (ok : Int → Bool) {m : OrderMap} {side : OrderType} {y : String}
    {bk : SideBook} (h : SideOK m side y bk) : 0 ≤ prefixLiquidity ok m bk := by
  induction bk with
  | nil => exact le_refl 0
  | cons l bk ih =>
    obtain ⟨p, q⟩ := l
    simp only [prefixLiquidity]
    have h1 := levelLiquidity_nonneg (h.levels (p, q) (List.mem_cons_self _ _)).resting
    have h2 := ih h.tailSide
    split_ifs
    · simp only at h1
      omega
    · exact le_refl 0

theorem sweepWhile_done (ok : Int → Bool) (T : Int) (side : OrderType) (bk : SideBook)
    {w : Sweep} (hr : w.remainingQty ≤ 0) : sweepWhile ok T side bk w = (bk, w) := by
  cases bk with
  | nil => rfl
  | cons l bk =>
    obtain ⟨p, q⟩ := l
    have : ¬ 0 < w.remainingQty := by omega
    simp [sweepWhile, this]

end SweepLevel

section SweepBook

theorem sweepWhile_cons (ok : Int → Bool) (T p : Int) (side : OrderType) (q : PriceLevel)
    (rest : SideBook) (w : Sweep) :
    sweepWhile ok T side ((p, q) :: rest) w =
      if 0 < w.remainingQty ∧ ok p = true then
        (if (sweepLevel T side p q w).1 = [] then
            (sweepWhile ok T side rest (sweepLevel T side p q w).2).1
          else (p, (sweepLevel T side p q w).1) ::
            (sweepWhile ok T side rest (sweepLevel T side p q w).2).1,
          (sweepWhile ok T side rest (sweepLevel T side p q w).2).2)
      else ((p, q) :: rest, w) := by
  simp [sweepWhile]

/-- After the sweep of the best level, the later levels are as well formed as before. -/
theorem SideOK.tail_after_level {T p : Int} {side : OrderType} {symbol : String} {oT : Order}
    {q q' : PriceLevel} {rest : SideBook} {w w' : Sweep}
    (ok : SideOK w.orderMap (opposite side) symbol ((p, q) :: rest))
    (hT : ∀ l ∈ (p, q) :: rest, T ∉ l.2) (r : LevelSwept T side symbol p oT q w q' w') :
    (∀ l ∈ rest, ∀ h ∈ l.2, w'.orderMap h = w.orderMap h) ∧
      SideOK w'.orderMap (opposite side) symbol rest := by
  have hfr : ∀ l ∈ rest, ∀ h ∈ l.2, w'.orderMap h = w.orderMap h := fun l hl h hh =>
    r.frame h (fun e => hT l (List.mem_cons_of_mem _ hl) (e ▸ hh)) (ok.head_disjoint l hl h hh)
  exact ⟨hfr, ok.tailSide.congrSide hfr⟩

theorem sweepWhile_spec {ok : Int → Bool} {T : Int} {side : OrderType} {symbol : String}
    (bk : SideBook) :
    ∀ (w : Sweep) (oT : Order), w.orderMap T = some oT → oT.id = T →
      (∀ l ∈ bk, T ∉ l.2) → SideOK w.orderMap (opposite side) symbol bk → 0 ≤ w.remainingQty →
      BookSwept ok T side symbol oT bk w (sweepWhile ok T side bk w).1
        (sweepWhile ok T side bk w).2 := by
  induction bk with
  | nil =>
    intro w oT hT hid _ hok hr
    refine ⟨hok, List.Sublist.refl _, fun _ _ _ => rfl, ?_, ?_,
      ⟨[], by simp [sweepWhile], by simp [sweepWhile], by simp, List.Pairwise.nil⟩⟩
    · simpa [sweepWhile] using hT
    · simp [sweepWhile, prefixLiquidity]
      omega
  | cons l rest ih =>
    obtain ⟨p, q⟩ := l
    intro w oT hT hid hTb hok hr
    have hlev := hok.levels (p, q) (List.mem_cons_self _ _)
    have hLq : 0 ≤ levelLiquidity w.orderMap q := levelLiquidity_nonneg hlev.resting
    have hPL := prefixLiquidity_nonneg ok hok.tailSide
    rw [sweepWhile_cons]
    by_cases hc : 0 < w.remainingQty ∧ ok p = true
    · rw [if_pos hc]
      have r1 := sweepLevel_spec side symbol p q w oT hT hid
        (hTb (p, q) (List.mem_cons_self _ _)) hlev.resting hlev.nodup hlev.priority hr
      obtain ⟨hfr, hok1⟩ := hok.tail_after_level hTb r1
      generalize sweepLevel T side p q w = s1 at r1 hfr hok1 ⊢
      obtain ⟨q', w1⟩ := s1
      simp only at r1 hfr hok1 ⊢
      have hr1 : 0 ≤ w1.remainingQty := by
        rw [r1.rem]
        omega
      have r2 := ih w1 _ r1.taker hid (fun l hl => hTb l (List.mem_cons_of_mem _ hl)) hok1 hr1
      generalize sweepWhile ok T side rest w1 = s2 at r2 ⊢
      obtain ⟨rest', w2⟩ := s2
      simp only at r2 ⊢
      have hPL1 : prefixLiquidity ok w1.orderMap rest = prefixLiquidity ok w.orderMap rest :=
        prefixLiquidity_congr hfr
      -- the surviving part of the best level is untouched by the sweep of the later levels
      have hq'2 : ∀ h ∈ q', w2.orderMap h = w1.orderMap h := by
        intro h hh
        refine r2.frame h (fun e => hTb (p, q) (List.mem_cons_self _ _) (e ▸ r1.sub.subset hh))
          fun l hl hhl => ?_
        have ra := r1.resting h hh
        have rb := (hok1.levels l hl).resting h hhl
        have hp : p = l.1 := (ra.uniquePlace rb).2.2
        have hb := (List.pairwise_cons.mp hok.sorted).1 l hl
        simp only at hb
        rw [hp, better_irrefl] at hb
        exact Bool.false_ne_true hb
      refine ⟨?_, ?_, ?_, ?_, ?_, ?_⟩
      · -- the new book is well formed
        by_cases hq' : q' = []
        · rw [if_pos hq']
          exact r2.side_ok
        · rw [if_neg hq']
          refine ⟨List.pairwise_cons.mpr ⟨fun l hl => ?_, r2.side_ok.sorted⟩, fun l hl => ?_⟩
          · have : l.1 ∈ rest.map Prod.fst := r2.prices.subset (List.mem_map_of_mem _ hl)
            obtain ⟨l0, hl0, e⟩ := List.mem_map.mp this
            have := (List.pairwise_cons.mp hok.sorted).1 l0 hl0
            simpa [e] using this
          · rcases List.mem_cons.mp hl with rfl | hl
            · exact ⟨hq', r1.sub.nodup hlev.nodup,
                fun h hh => (r1.resting h hh).congrAt (hq'2 h hh), r1.priority.congrPriority hq'2⟩
            · exact r2.side_ok.levels l hl
      · by_cases hq' : q' = []
        · rw [if_pos hq']
          exact (r2.prices).cons _
        · rw [if_neg hq']
          exact (r2.prices).cons₂ _
      · intro k hk hkb
        rw [r2.frame k hk fun l hl => hkb l (List.mem_cons_of_mem _ hl)]
        exact r1.frame k hk (hkb (p, q) (List.mem_cons_self _ _))
      · rw [r2.taker]
        simp only [Option.some.injEq, Order.mk.injEq, true_and, and_true]
        omega
      · show w2.remainingQty = _
        rw [r2.rem, hPL1, r1.rem]
        simp only [prefixLiquidity, if_pos hc.2]
        omega
      · obtain ⟨new1, a1, a2, a3⟩ := r1.trades
        obtain ⟨new2, b1, b2, b3, b4⟩ := r2.trades
        refine ⟨new1 ++ new2, by rw [b1, a1, List.append_assoc], ?_, ?_, ?_⟩
        · rw [List.map_append, List.sum_append, a2, b2]
          show _ = w.remainingQty - w2.remainingQty
          omega
        · intro t ht
          rcases List.mem_append.mp ht with ht | ht
          · have := a3 t ht
            exact ⟨(p, q), List.mem_cons_self _ _, hc.2, this.1, this.2.2.1, this.2.1,
              this.2.2.2⟩
          · obtain ⟨l, hl, c⟩ := b3 t ht
            exact ⟨l, List.mem_cons_of_mem _ hl, c⟩
        · refine List.pairwise_append.mpr ⟨?_, b4, ?_⟩
          · exact List.Pairwise.imp_of_mem
              (fun {a b} ha hb _ => Or.inl ((a3 a ha).1.trans (a3 b hb).1.symm))
              (List.pairwise_of_forall (R := fun _ _ => True) fun _ _ => trivial)
          · intro a ha b hb
            obtain ⟨l, hl, c⟩ := b3 b hb
            right
            rw [(a3 a ha).1, c.2.1]
            exact (List.pairwise_cons.mp hok.sorted).1 l hl
    · rw [if_neg hc]
      refine ⟨hok, List.Sublist.refl _, fun _ _ _ => rfl, ?_, ?_,
        ⟨[], by simp, by simp, by simp, List.Pairwise.nil⟩⟩
      · simpa using hT
      · show w.remainingQty = _
        simp only [prefixLiquidity]
        split_ifs with hokp
        · have : ¬ 0 < w.remainingQty := fun h => hc ⟨h, hokp⟩
          omega
        · omega

end SweepBook

section Liquidity

theorem sweepBook_eq_sweepWhile (T : Int) (side : OrderType) (limit : Int) (bk : SideBook) :
    ∀ w : Sweep, sweepBook T side limit bk w =
      sweepWhile (fun p => marketable side p limit) T side bk w := by
  induction bk with
  | nil => intro w; rfl
  | cons l rest ih =>
    obtain ⟨p, q⟩ := l
    intro w
    simp only [sweepBook, sweepWhile, ih]

theorem marketable_of_better {side : OrderType} {limit p p' : Int}
    (hb : better (opposite side) p p' = true) (hm : marketable side p' limit = true) :
    marketable side p limit = true := by
  cases side <;> simp [better, opposite, marketable] at * <;> omega

/-- In a sorted side book the marketable levels are the leading ones. -/
theorem prefixLiquidity_eq_marketable {m : OrderMap} {side : OrderType} {limit : Int}
    {bk : SideBook} (hs : bk.Pairwise fun l1 l2 => better (opposite side) l1.1 l2.1 = true) :
    prefixLiquidity (fun p => marketable side p limit) m bk =
      marketableLiquidity m side limit bk := by
  induction bk with
  | nil => rfl
  | cons l rest ih =>
    obtain ⟨p, q⟩ := l
    have hs' := List.pairwise_cons.mp hs
    have ih' := ih hs'.2
    unfold marketableLiquidity at ih' ⊢
    simp only [prefixLiquidity]
    by_cases hp : marketable side p limit = true
    · rw [if_pos hp, List.filter_cons_of_pos (by simpa using hp), List.map_cons, List.sum_cons,
        ih']
    · rw [if_neg hp]
      have hnone : rest.filter (fun l => marketable side l.1 limit) = [] := by
        rw [List.filter_eq_nil_iff]
        intro l hl hml
        exact hp (marketable_of_better (hs'.1 l hl) hml)
      rw [List.filter_cons_of_neg (by simpa using hp), hnone]
      rfl

theorem prefixLiquidity_all (m : OrderMap) (bk : SideBook) :
    prefixLiquidity (fun _ => true) m bk = totalLiquidity m bk := by
  induction bk with
  | nil => rfl
  | cons l rest ih =>
    obtain ⟨p, q⟩ := l
    simp only [prefixLiquidity, if_true, ih, totalLiquidity, List.map_cons, List.sum_cons]

theorem wrapInt_of_range {x : Int} (h1 : -2147483648 ≤ x) (h2 : x < 2147483648) :
    wrapInt x = x := by
  unfold wrapInt
  omega

theorem wrapInt_range (x : Int) : -2147483648 ≤ wrapInt x ∧ wrapInt x < 2147483648 := by
  unfold wrapInt
  omega

theorem wrapInt_le {x : Int} (h : -2147483648 ≤ x) : wrapInt x ≤ x := by
  unfold wrapInt
  omega

theorem scanLevel_cons (m : OrderMap) (h : Int) (q : PriceLevel) (a : Int) :
    scanLevel m (h :: q) a =
      scanLevel m q (if (deref m h).status ≠ CANCELLED then
        wrapInt (a + (deref m h).getRemainingQuantity) else a) := rfl

theorem scanLevel_congr {m m' : OrderMap} {q : PriceLevel} (hm : ∀ h ∈ q, m' h = m h) :
    ∀ a : Int, scanLevel m' q a = scanLevel m q a := by
  induction q with
  | nil => intro a; rfl
  | cons h t ih =>
    intro a
    rw [scanLevel_cons, scanLevel_cons, deref_congr (hm h (List.mem_cons_self _ _)),
      ih (fun k hk => hm k (List.mem_cons_of_mem _ hk))]

/-- The sum the scan holds after a level never exceeds the exact sum, when the orders of the
level offer no negative quantity. -/
theorem scanLevel_le {m : OrderMap} {q : PriceLevel} :
    (∀ h ∈ q, 0 ≤ available m h) → ∀ a : Int, -2147483648 ≤ a →
      -2147483648 ≤ scanLevel m q a ∧ scanLevel m q a ≤ a + levelLiquidity m q := by
  induction q with
  | nil =>
    intro _ a ha
    exact ⟨ha, by simp [scanLevel, levelLiquidity]⟩
  | cons h t ih =>
    intro hq a ha
    have h0 := hq h (List.mem_cons_self _ _)
    have ht := ih (fun k hk => hq k (List.mem_cons_of_mem _ hk))
    rw [scanLevel_cons, levelLiquidity_cons]
    unfold available at h0 ⊢
    by_cases hc : (deref m h).status ≠ CANCELLED
    · rw [if_pos hc] at h0 ⊢
      rw [if_pos hc]
      have h1 := wrapInt_range (a + (deref m h).getRemainingQuantity)
      have h2 := wrapInt_le (show -2147483648 ≤ a + (deref m h).getRemainingQuantity by omega)
      have h3 := ht _ h1.1
      exact ⟨h3.1, by omega⟩
    · rw [if_neg hc, if_neg hc]
      have h3 := ht a ha
      exact ⟨h3.1, by omega⟩

/-- The sum the scan holds after a level is the exact sum, when the orders of the level offer
no negative quantity and the exact sum is in the range of `int`. -/
theorem scanLevel_eq {m : OrderMap} {q : PriceLevel} :
    (∀ h ∈ q, 0 ≤ available m h) → ∀ a : Int, -2147483648 ≤ a →
      a + levelLiquidity m q < 2147483648 → scanLevel m q a = a + levelLiquidity m q := by
  induction q with
  | nil =>
    intro _ a _ _
    simp [scanLevel, levelLiquidity]
  | cons h t ih =>
    intro hq a ha hlt
    have h0 := hq h (List.mem_cons_self _ _)
    have hq' : ∀ k ∈ t, 0 ≤ available m k := fun k hk => hq k (List.mem_cons_of_mem _ hk)
    have hL : 0 ≤ levelLiquidity m t := by
      unfold levelLiquidity
      apply List.sum_nonneg
      intro x hx
      obtain ⟨k, hk, rfl⟩ := List.mem_map.mp hx
      exact hq' k hk
    rw [scanLevel_cons]
    rw [levelLiquidity_cons] at hlt ⊢
    unfold available at h0 hlt ⊢
    by_cases hc : (deref m h).status ≠ CANCELLED
    · rw [if_pos hc] at h0 hlt ⊢
      rw [if_pos hc,
        wrapInt_of_range (show -2147483648 ≤ a + (deref m h).getRemainingQuantity by omega)
          (by omega), ih hq' _ (by omega) (by omega)]
      omega
    · rw [if_neg hc] at hlt ⊢
      rw [if_neg hc, ih hq' a ha (by omega)]
      omega

/-- A feasibility scan that succeeds has found the quantity asked for in the leading
marketable levels. -/
theorem canFill_sound (m : OrderMap) (side : OrderType) (symbol : String)
    (limit quantity : Int) (bk : SideBook) :
    ∀ a : Int, -2147483648 ≤ a → SideOK m (opposite side) symbol bk →
      canFill m side limit quantity bk a = true →
        quantity ≤ a + prefixLiquidity (fun p => marketable side p limit) m bk := by
  induction bk with
  | nil =>
    intro a _ _ h
    exact absurd h Bool.false_ne_true
  | cons l rest ih =>
    obtain ⟨p, q⟩ := l
    intro a ha hok h
    have hlev := hok.levels (p, q) (List.mem_cons_self _ _)
    have hP := prefixLiquidity_nonneg (fun p => marketable side p limit) hok.tailSide
    have hav : ∀ h ∈ q, 0 ≤ available m h := fun h hh =>
      available_of_resting (hlev.resting h hh)
    have hs := scanLevel_le hav a ha
    simp only [canFill, prefixLiquidity] at h ⊢
    by_cases hp : marketable side p limit = true
    · rw [if_pos hp] at h ⊢
      by_cases hq : quantity ≤ scanLevel m q a
      · omega
      · rw [if_neg hq] at h
        have := ih _ hs.1 hok.tailSide h
        omega
    · rw [if_neg hp] at h
      exact absurd h Bool.false_ne_true

/-- The feasibility scan succeeds exactly when the leading marketable levels hold the
quantity asked for, provided their quantities add up to less than 2^31. -/
theorem canFill_iff (m : OrderMap) (side : OrderType) (symbol : String) (limit quantity : Int)
    (bk : SideBook) :
    ∀ a : Int, -2147483648 ≤ a → a < quantity → SideOK m (opposite side) symbol bk →
      a + prefixLiquidity (fun p => marketable side p limit) m bk < 2147483648 →
      (canFill m side limit quantity bk a = true ↔
        quantity ≤ a + prefixLiquidity (fun p => marketable side p limit) m bk) := by
  induction bk with
  | nil =>
    intro a _ ha _ _
    simp only [canFill, prefixLiquidity]
    constructor
    · intro h
      exact absurd h Bool.false_ne_true
    · intro h
      omega
  | cons l rest ih =>
    obtain ⟨p, q⟩ := l
    intro a ha0 ha hok hlt
    have hlev := hok.levels (p, q) (List.mem_cons_self _ _)
    have hL : 0 ≤ levelLiquidity m q := levelLiquidity_nonneg hlev.resting
    have hav : ∀ h ∈ q, 0 ≤ available m h := fun h hh =>
      available_of_resting (hlev.resting h hh)
    have hP := prefixLiquidity_nonneg (fun p => marketable side p limit) hok.tailSide
    simp only [canFill, prefixLiquidity] at hlt ⊢
    by_cases hp : marketable side p limit = true
    · rw [if_pos hp] at hlt
      rw [if_pos hp, if_pos hp, scanLevel_eq hav a ha0 (by omega)]
      by_cases hq : quantity ≤ a + levelLiquidity m q
      · rw [if_pos hq]
        constructor
        · intro _
          omega
        · intro _
          rfl
      · rw [if_neg hq, ih _ (by omega) (by omega) hok.tailSide (by omega)]
        constructor <;> intro h <;> omega
    · rw [if_neg hp, if_neg hp]
      constructor
      · intro h
        exact absurd h Bool.false_ne_true
      · intro h
        omega

theorem marketLoop_eq_sweepWhile {T : Int} {side : OrderType} (symbol : String)
    (bk : SideBook) :
    ∀ (n : Nat) (w : Sweep) (oT : Order), bk.length + 1 ≤ n → w.orderMap T = some oT →
      oT.id = T → (∀ l ∈ bk, T ∉ l.2) → SideOK w.orderMap (opposite side) symbol bk →
      0 ≤ w.remainingQty →
      marketLoop T side n bk w = some (sweepWhile (fun _ => true) T side bk w) := by
  induction bk with
  | nil =>
    intro n w oT hn _ _ _ _ _
    obtain ⟨n, rfl⟩ : ∃ k, n = k + 1 := ⟨n - 1, by simp at hn; omega⟩
    simp only [marketLoop, sweepWhile]
    split_ifs <;> rfl
  | cons l rest ih =>
    obtain ⟨p, q⟩ := l
    intro n w oT hn hT hid hTb hok hr
    obtain ⟨n, rfl⟩ : ∃ k, n = k + 1 := ⟨n - 1, by simp at hn; omega⟩
    have hn' : rest.length + 1 ≤ n := by simpa using hn
    have hlev := hok.levels (p, q) (List.mem_cons_self _ _)
    have hLq : 0 ≤ levelLiquidity w.orderMap q := levelLiquidity_nonneg hlev.resting
    have hTq := hTb (p, q) (List.mem_cons_self _ _)
    simp only [marketLoop]
    by_cases hpos : 0 < w.remainingQty
    · rw [if_pos hpos, sweepWhile_cons,
        if_pos (show 0 < w.remainingQty ∧ (fun _ : Int => true) p = true from ⟨hpos, rfl⟩),
        marketLevel_eq_sweepLevel symbol q w oT hT hTq hlev.resting hlev.nodup]
      dsimp only
      have r1 := sweepLevel_spec side symbol p q w oT hT hid hTq hlev.resting hlev.nodup
        hlev.priority hr
      obtain ⟨_, hok1⟩ := hok.tail_after_level hTb r1
      have hr1 : 0 ≤ (sweepLevel T side p q w).2.remainingQty := by
        rw [r1.rem]
        omega
      by_cases hq' : (sweepLevel T side p q w).1 = []
      · rw [if_pos hq', if_pos hq']
        exact ih n _ _ hn' r1.taker hid (fun l hl => hTb l (List.mem_cons_of_mem _ hl)) hok1 hr1
      · rw [if_neg hq', if_neg hq']
        have h0 : ¬ 0 < (sweepLevel T side p q w).2.remainingQty := fun h => hq' (r1.drained h)
        obtain ⟨n, rfl⟩ : ∃ k, n = k + 1 := ⟨n - 1, by omega⟩
        rw [sweepWhile_done _ _ _ _ (by omega)]
        simp only [marketLoop, if_neg h0]
    · rw [if_neg hpos, sweepWhile_done _ _ _ _ (by omega)]

end Liquidity

section MatchStep

theorem SubBook.refl (bk : SideBook) : SubBook bk bk :=
  fun l hl => ⟨l, hl, rfl, fun _ h => h⟩

theorem SubBook.trans {a b c : SideBook} (h1 : SubBook a b) (h2 : SubBook b c) : SubBook a c := by
  intro l hl
  obtain ⟨l1, hl1, e1, s1⟩ := h1 l hl
  obtain ⟨l2, hl2, e2, s2⟩ := h2 l1 hl1
  exact ⟨l2, hl2, e2.trans e1, fun h hh => s2 h (s1 h hh)⟩

theorem SubBook.of_popBest (bk : SideBook) : SubBook (popBest bk) bk := by
  cases bk with
  | nil => exact SubBook.refl _
  | cons l rest =>
    obtain ⟨p, q⟩ := l
    intro l' hl'
    simp only [StockMatching.popBest] at hl'
    split_ifs at hl' with hq
    · exact ⟨l', List.mem_cons_of_mem _ hl', rfl, fun _ h => h⟩
    · rcases List.mem_cons.mp hl' with rfl | hl'
      · exact ⟨(p, q), List.mem_cons_self _ _, rfl, fun h hh => List.mem_of_mem_tail hh⟩
      · exact ⟨l', List.mem_cons_of_mem _ hl', rfl, fun _ h => h⟩

theorem SubBook.not_mem {bk' bk : SideBook} (hs : SubBook bk' bk) {k : Int}
    (hk : ∀ l ∈ bk, k ∉ l.2) : ∀ l ∈ bk', k ∉ l.2 := by
  intro l' hl' hk'
  obtain ⟨l, hl, _, s⟩ := hs l' hl'
  exact hk l hl (s k hk')

theorem TimePriority.tailPriority {m : OrderMap} {h : Int} {t : PriceLevel}
    (hp : TimePriority m (h :: t)) : TimePriority m t :=
  (List.pairwise_cons.mp hp).2

theorem SideOK.popBestSide {m : OrderMap} {side : OrderType} {y : String} {bk : SideBook}
    (ok : SideOK m side y bk) : SideOK m side y (popBest bk) := by
  cases bk with
  | nil => exact ok
  | cons l rest =>
    obtain ⟨p, q⟩ := l
    simp only [popBest]
    split_ifs with hq
    · exact ok.tailSide
    · have hl := ok.levels (p, q) (List.mem_cons_self _ _)
      have hs := List.pairwise_cons.mp ok.sorted
      refine ⟨List.pairwise_cons.mpr ⟨hs.1, hs.2⟩, fun l hl' => ?_⟩
      rcases List.mem_cons.mp hl' with rfl | hl'
      · cases q with
        | nil => exact absurd rfl hl.nonempty
        | cons h t =>
          exact ⟨hq, (List.nodup_cons.mp hl.nodup).2,
            fun x hx => hl.resting x (List.mem_cons_of_mem _ hx), hl.priority.tailPriority⟩
      · exact ok.levels l (List.mem_cons_of_mem _ hl')

theorem bookSize_cons (p : Int) (q : PriceLevel) (rest : SideBook) :
    bookSize ((p, q) :: rest) = q.length + bookSize rest := by
  simp [bookSize]

theorem bookSize_popBest (p h : Int) (t : PriceLevel) (rest : SideBook) :
    bookSize (popBest ((p, h :: t) :: rest)) + 1 = bookSize ((p, h :: t) :: rest) := by
  simp only [popBest, List.tail_cons]
  split_ifs with ht
  · simp [bookSize_cons, ht]
    omega
  · simp [bookSize_cons]
    omega

/-- Handles of a well-formed book other than the front one of the best level. -/
theorem SideOK.ne_front {m : OrderMap} {side : OrderType} {y : String} {p h : Int}
    {t : PriceLevel} {rest : SideBook} (ok : SideOK m side y ((p, h :: t) :: rest)) :
    ∀ l ∈ popBest ((p, h :: t) :: rest), ∀ k ∈ l.2, k ≠ h := by
  intro l hl k hk e
  subst e
  have hlev := ok.levels _ (List.mem_cons_self _ _)
  have hnt : k ∉ t := (List.nodup_cons.mp hlev.nodup).1
  simp only [popBest, List.tail_cons] at hl
  split_ifs at hl with ht
  · exact ok.head_disjoint l hl k hk (List.mem_cons_self _ _)
  · rcases List.mem_cons.mp hl with rfl | hl
    · exact hnt hk
    · exact ok.head_disjoint l hl k hk (List.mem_cons_self _ _)

/-- A fill of the front order of the best level, followed by the removal of that order
if it is now filled, keeps the side book well formed. -/
theorem SideOK.fill_front {m m' : OrderMap} {side : OrderType} {y : String} {p h mq : Int}
    {t : PriceLevel} {rest : SideBook} {o : Order}
    (ok : SideOK m side y ((p, h :: t) :: rest)) (ho : m h = some o)
    (hnc : o.status ≠ CANCELLED) (hmq : 0 < mq) (hle : mq ≤ o.quantity - o.filled_quantity)
    (hh : m' h = some (updateOrderStatus { o with filled_quantity := o.filled_quantity + mq }))
    (hm : ∀ l ∈ popBest ((p, h :: t) :: rest), ∀ k ∈ l.2, m' k = m k) :
    ((deref m' h).status ≠ CANCELLED) ∧
    ((deref m' h).status = FILLED ↔ mq = o.quantity - o.filled_quantity) ∧
    SideOK m' side y
      (if (deref m' h).status = FILLED ∨ (deref m' h).status = CANCELLED
        then popBest ((p, h :: t) :: rest) else (p, h :: t) :: rest) := by
  have hlev := ok.levels _ (List.mem_cons_self _ _)
  obtain ⟨o', ho', ro⟩ := hlev.resting h (List.mem_cons_self _ _)
  have : o' = o := by simpa [ho] using ho'.symm
  subst this
  have hflt := ro.filled_lt
  have hfnn := ro.filled_nonneg
  have hst : (deref m' h).status = FILLED ↔ mq = o'.quantity - o'.filled_quantity := by
    rw [deref_of_some hh, updateOrderStatus_filled_iff (by simpa using ro.not_filled)]
    show o'.quantity ≤ o'.filled_quantity + mq ↔ _
    omega
  have hncl : (deref m' h).status ≠ CANCELLED := by
    rw [deref_of_some hh]
    exact updateOrderStatus_not_cancelled (by simpa using hnc)
  refine ⟨hncl, hst, ?_⟩
  by_cases hf : (deref m' h).status = FILLED
  · rw [if_pos (Or.inl hf)]
    exact ok.popBestSide.congrSide hm
  · rw [if_neg (by simp [hf, hncl])]
    have hlt : mq < o'.quantity - o'.filled_quantity := by
      have := mt hst.mpr hf
      omega
    have hmt : ∀ k ∈ t, m' k = m k := by
      intro k hk
      refine hm (p, t) ?_ k hk
      simp only [popBest, List.tail_cons]
      have : t ≠ [] := List.ne_nil_of_mem hk
      simp [this]
    have hmr : ∀ l ∈ rest, ∀ k ∈ l.2, m' k = m k := by
      intro l hl k hk
      refine hm l ?_ k hk
      simp only [popBest, List.tail_cons]
      split_ifs
      · exact hl
      · exact List.mem_cons_of_mem _ hl
    refine ⟨ok.sorted, fun l hl => ?_⟩
    rcases List.mem_cons.mp hl with rfl | hl
    · refine ⟨hlev.nonempty, hlev.nodup, fun k hk => ?_, ?_⟩
      · rcases List.mem_cons.mp hk with rfl | hk
        · have flds := updateOrderStatus_fields
            { o' with filled_quantity := o'.filled_quantity + mq }
          refine ⟨_, hh, flds.1.trans ro.id_eq, flds.2.1.trans ro.type_eq,
            flds.2.2.2.1.trans ro.price_eq, flds.2.2.2.2.2.2.trans ro.symbol_eq,
            flds.2.2.1.trans ro.variant_eq, ?_, ?_, ?_⟩
          · rw [flds.2.2.2.2.2.1]
            show 0 ≤ o'.filled_quantity + mq
            omega
          · rw [flds.2.2.2.2.2.1, flds.2.2.2.2.1]
            show o'.filled_quantity + mq < o'.quantity
            omega
          · rw [← deref_of_some hh]
            exact hf
        · exact (hlev.resting k (List.mem_cons_of_mem _ hk)).congrAt (hmt k hk)
      · refine List.pairwise_cons.mpr ⟨fun b hb _ => ?_, hlev.priority.tailPriority.congrPriority hmt⟩
        rw [deref_congr (hmt b hb)]
        refine (List.pairwise_cons.mp hlev.priority).1 b hb ?_
        rw [deref_of_some ho]
        exact hnc
    · exact (ok.levels l (List.mem_cons_of_mem _ hl)).congrLevel (hmr l hl)

end MatchStep

section MatchStepSpec

theorem fillBoth_spec {m : OrderMap} {b a : Int} (mq : Int) {ob oa : Order} (hne : b ≠ a)
    (hb : m b = some ob) (ha : m a = some oa) :
    modifyOrder (modifyOrder (addFilled (addFilled m b mq) a mq) b updateOrderStatus) a
        updateOrderStatus b =
      some (updateOrderStatus { ob with filled_quantity := ob.filled_quantity + mq }) ∧
    modifyOrder (modifyOrder (addFilled (addFilled m b mq) a mq) b updateOrderStatus) a
        updateOrderStatus a =
      some (updateOrderStatus { oa with filled_quantity := oa.filled_quantity + mq }) ∧
    (∀ k, k ≠ b → k ≠ a →
      modifyOrder (modifyOrder (addFilled (addFilled m b mq) a mq) b updateOrderStatus) a
        updateOrderStatus k = m k) ∧
    ∀ k, (modifyOrder (modifyOrder (addFilled (addFilled m b mq) a mq) b updateOrderStatus) a
        updateOrderStatus k).isSome = (m k).isSome := by
  have hne' : a ≠ b := fun e => hne e.symm
  refine ⟨?_, ?_, ?_, ?_⟩
  · simp [addFilled, modifyOrder, hne, hb]
  · simp [addFilled, modifyOrder, hne', ha]
  · intro k h1 h2
    simp [addFilled, modifyOrder, h1, h2]
  · intro k
    simp only [addFilled, modifyOrder]
    split_ifs <;> simp

theorem matchStep_eq (symbol : String) (m : OrderMap) (bp b : Int) (bq : PriceLevel)
    (brest : SideBook) (sp a : Int) (sq : PriceLevel) (srest : SideBook) (tr : List Trade) :
    matchStep symbol ⟨m, (bp, b :: bq) :: brest, (sp, a :: sq) :: srest, tr⟩ =
      if sp ≤ bp then
        if (deref m b).status ≠ CANCELLED ∧ (deref m a).status ≠ CANCELLED then
          some ⟨modifyOrder (modifyOrder (addFilled (addFilled m b
                (min (deref m b).getRemainingQuantity (deref m a).getRemainingQuantity)) a
                (min (deref m b).getRemainingQuantity (deref m a).getRemainingQuantity))
                b updateOrderStatus) a updateOrderStatus,
            if (deref (modifyOrder (modifyOrder (addFilled (addFilled m b
                (min (deref m b).getRemainingQuantity (deref m a).getRemainingQuantity)) a
                (min (deref m b).getRemainingQuantity (deref m a).getRemainingQuantity))
                b updateOrderStatus) a updateOrderStatus) b).status = FILLED ∨
              (deref (modifyOrder (modifyOrder (addFilled (addFilled m b
                (min (deref m b).getRemainingQuantity (deref m a).getRemainingQuantity)) a
                (min (deref m b).getRemainingQuantity (deref m a).getRemainingQuantity))
                b updateOrderStatus) a updateOrderStatus) b).status = CANCELLED
            then popBest ((bp, b :: bq) :: brest) else (bp, b :: bq) :: brest,
            if (deref (modifyOrder (modifyOrder (addFilled (addFilled m b
                (min (deref m b).getRemainingQuantity (deref m a).getRemainingQuantity)) a
                (min (deref m b).getRemainingQuantity (deref m a).getRemainingQuantity))
                b updateOrderStatus) a updateOrderStatus) a).status = FILLED ∨
              (deref (modifyOrder (modifyOrder (addFilled (addFilled m b
                (min (deref m b).getRemainingQuantity (deref m a).getRemainingQuantity)) a
                (min (deref m b).getRemainingQuantity (deref m a).getRemainingQuantity))
                b updateOrderStatus) a updateOrderStatus) a).status = CANCELLED
            then popBest ((sp, a :: sq) :: srest) else (sp, a :: sq) :: srest,
            tr ++ [⟨(deref m b).id, (deref m a).id, symbol, (deref m a).price,
              min (deref m b).getRemainingQuantity (deref m a).getRemainingQuantity⟩]⟩
        else
          some ⟨m,
            if (deref m b).status = CANCELLED then popBest ((bp, b :: bq) :: brest)
              else (bp, b :: bq) :: brest,
            if (deref m a).status = CANCELLED then popBest ((sp, a :: sq) :: srest)
              else (sp, a :: sq) :: srest,
            tr⟩
      else none := by
  rfl

/-- The loop body runs only on two non-empty best levels that cross. -/
theorem matchStep_shape {symbol : String} {v v' : SymbolView}
    (h : matchStep symbol v = some v') :
    ∃ bp b bq brest sp a sq srest, v.buyBook = (bp, b :: bq) :: brest ∧
      v.sellBook = (sp, a :: sq) :: srest ∧ sp ≤ bp := by
  unfold matchStep at h
  split at h
  · rename_i bp b bq brest sp a sq srest hb hs
    by_cases hc : sp ≤ bp
    · exact ⟨bp, b, bq, brest, sp, a, sq, srest, hb, hs, hc⟩
    · rw [if_neg hc] at h
      exact absurd h (by simp)
  · exact absurd h (by simp)

theorem RestingAt.ne_of_side {m : OrderMap} {s1 s2 : OrderType} {y1 y2 : String}
    {p1 p2 k1 k2 : Int} (r1 : RestingAt m s1 y1 p1 k1) (r2 : RestingAt m s2 y2 p2 k2)
    (hs : s1 ≠ s2) : k1 ≠ k2 := by
  intro e
  subst e
  exact hs (r1.uniquePlace r2).1

/-- The trading branch of the loop body, on two live front orders. -/
theorem matchStep_trade {symbol : String} {m m4 : OrderMap} {bp b sp a mq : Int}
    {bq sq : PriceLevel} {brest srest : SideBook} {tr : List Trade} {ob oa : Order}
    (hB : SideOK m BUY symbol ((bp, b :: bq) :: brest))
    (hS : SideOK m SELL symbol ((sp, a :: sq) :: srest)) (hc : sp ≤ bp)
    (hob : m b = some ob) (hoa : m a = some oa)
    (hcond : ob.status ≠ CANCELLED ∧ oa.status ≠ CANCELLED)
    (hmq : mq = min (ob.quantity - ob.filled_quantity) (oa.quantity - oa.filled_quantity))
    (f1 : m4 b = some (updateOrderStatus { ob with filled_quantity := ob.filled_quantity + mq }))
    (f2 : m4 a = some (updateOrderStatus { oa with filled_quantity := oa.filled_quantity + mq }))
    (f3 : ∀ k, k ≠ b → k ≠ a → m4 k = m k) (f4 : ∀ k, (m4 k).isSome = (m k).isSome) :
    MatchStepped symbol ⟨m, (bp, b :: bq) :: brest, (sp, a :: sq) :: srest, tr⟩
      ⟨m4,
        if (deref m4 b).status = FILLED ∨ (deref m4 b).status = CANCELLED
          then popBest ((bp, b :: bq) :: brest) else (bp, b :: bq) :: brest,
        if (deref m4 a).status = FILLED ∨ (deref m4 a).status = CANCELLED
          then popBest ((sp, a :: sq) :: srest) else (sp, a :: sq) :: srest,
        tr ++ [⟨ob.id, oa.id, symbol, oa.price, mq⟩]⟩ := by
  obtain ⟨ob', hob', rb⟩ := (hB.levels _ (List.mem_cons_self _ _)).resting b
    (List.mem_cons_self _ _)
  obtain ⟨oa', hoa', ra⟩ := (hS.levels _ (List.mem_cons_self _ _)).resting a
    (List.mem_cons_self _ _)
  have e1 : ob' = ob := by simpa [hob] using hob'.symm
  have e2 : oa' = oa := by simpa [hoa] using hoa'.symm
  subst e1 e2
  have hflb := rb.filled_lt
  have hfla := ra.filled_lt
  have hmB : ∀ l ∈ popBest ((bp, b :: bq) :: brest), ∀ k ∈ l.2, m4 k = m k := by
    intro l hl k hk
    refine f3 k (hB.ne_front l hl k hk) ?_
    exact ((hB.popBestSide.levels l hl).resting k hk).ne_of_side ⟨oa', hoa, ra⟩ (by decide)
  have hmS : ∀ l ∈ popBest ((sp, a :: sq) :: srest), ∀ k ∈ l.2, m4 k = m k := by
    intro l hl k hk
    refine f3 k ?_ (hS.ne_front l hl k hk)
    exact ((hS.popBestSide.levels l hl).resting k hk).ne_of_side ⟨ob', hob, rb⟩ (by decide)
  obtain ⟨_, hfb, hokB⟩ := hB.fill_front hob hcond.1 (by omega) (by omega) f1 hmB
  obtain ⟨_, hfa, hokS⟩ := hS.fill_front hoa hcond.2 (by omega) (by omega) f2 hmS
  refine ⟨⟨hokB, hokS⟩, ?_, ?_, ?_, f4, ?_, Or.inr ⟨_, rfl, ?_⟩⟩
  · show SubBook (if _ then _ else _) _
    split_ifs
    · exact SubBook.of_popBest _
    · exact SubBook.refl _
  · show SubBook (if _ then _ else _) _
    split_ifs
    · exact SubBook.of_popBest _
    · exact SubBook.refl _
  · intro k h1 h2
    exact f3 k (fun e => h1 _ (List.mem_cons_self _ _) (e ▸ List.mem_cons_self _ _))
      (fun e => h2 _ (List.mem_cons_self _ _) (e ▸ List.mem_cons_self _ _))
  · show bookSize (if _ then _ else _) + bookSize (if _ then _ else _) <
      bookSize ((bp, b :: bq) :: brest) + bookSize ((sp, a :: sq) :: srest)
    have e1 := bookSize_popBest bp b bq brest
    have e2 := bookSize_popBest sp a sq srest
    by_cases hx : mq = ob'.quantity - ob'.filled_quantity
    · rw [if_pos (Or.inl (hfb.mpr hx))]
      split_ifs <;> omega
    · have hy : mq = oa'.quantity - oa'.filled_quantity := by omega
      rw [if_pos (Or.inl (hfa.mpr hy))]
      split_ifs <;> omega
  · exact ⟨bp, b, bq, brest, sp, a, sq, srest, rfl, rfl, hc, rb.id_eq, ra.id_eq, rfl,
      ra.price_eq, by show 0 < mq; omega⟩

theorem matchStep_spec {symbol : String} {v v' : SymbolView} (hv : ViewOK symbol v)
    (h : matchStep symbol v = some v') : MatchStepped symbol v v' := by
  obtain ⟨bp, b, bq, brest, sp, a, sq, srest, hb, hs, hc⟩ := matchStep_shape h
  obtain ⟨m, bb, sb, tr⟩ := v
  simp only at hb hs
  subst hb hs
  rw [matchStep_eq, if_pos hc] at h
  have hB : SideOK m BUY symbol ((bp, b :: bq) :: brest) := hv.buy
  have hS : SideOK m SELL symbol ((sp, a :: sq) :: srest) := hv.sell
  have rb' := (hB.levels _ (List.mem_cons_self _ _)).resting b (List.mem_cons_self _ _)
  have ra' := (hS.levels _ (List.mem_cons_self _ _)).resting a (List.mem_cons_self _ _)
  have hne : b ≠ a := rb'.ne_of_side ra' (by decide)
  obtain ⟨ob, hob, rb⟩ := rb'
  obtain ⟨oa, hoa, ra⟩ := ra'
  rw [deref_of_some hob, deref_of_some hoa] at h
  by_cases hcond : ob.status ≠ CANCELLED ∧ oa.status ≠ CANCELLED
  · rw [if_pos hcond] at h
    have h' := Option.some.inj h
    subst h'
    obtain ⟨f1, f2, f3, f4⟩ := fillBoth_spec
      (min (ob.quantity - ob.filled_quantity) (oa.quantity - oa.filled_quantity)) hne hob hoa
    exact matchStep_trade hB hS hc hob hoa hcond rfl f1 f2 f3 f4
  · rw [if_neg hcond] at h
    have h' := Option.some.inj h
    subst h'
    refine ⟨⟨?_, ?_⟩, ?_, ?_, fun _ _ _ => rfl, fun _ => rfl, ?_, Or.inl rfl⟩
    · show SideOK m BUY symbol (if _ then _ else _)
      split_ifs
      · exact hB.popBestSide
      · exact hB
    · show SideOK m SELL symbol (if _ then _ else _)
      split_ifs
      · exact hS.popBestSide
      · exact hS
    · show SubBook (if _ then _ else _) _
      split_ifs
      · exact SubBook.of_popBest _
      · exact SubBook.refl _
    · show SubBook (if _ then _ else _) _
      split_ifs
      · exact SubBook.of_popBest _
      · exact SubBook.refl _
    · show bookSize (if _ then _ else _) + bookSize (if _ then _ else _) <
        bookSize ((bp, b :: bq) :: brest) + bookSize ((sp, a :: sq) :: srest)
      have e1 := bookSize_popBest bp b bq brest
      have e2 := bookSize_popBest sp a sq srest
      by_cases hx : ob.status = CANCELLED
      · rw [if_pos hx]
        split_ifs <;> omega
      · have hy : oa.status = CANCELLED := by
          by_contra hy
          exact hcond ⟨hx, hy⟩
        rw [if_neg hx, if_pos hy]
        omega

end MatchStepSpec

section MatchLoop

/-- Invariant rule for the matching loop: what every run of the body keeps holds at the
exit, where the body finds no match. -/
theorem matchLoop_invariant {symbol : String} (I : SymbolView → Prop)
    (hstep : ∀ v v', I v → matchStep symbol v = some v' → I v') :
    ∀ (n : Nat) (v v' : SymbolView), I v → matchLoop symbol n v = some v' →
      I v' ∧ matchStep symbol v' = none := by
  intro n
  induction n with
  | zero =>
    intro v v' _ h
    exact absurd h (by simp [matchLoop])
  | succ n ih =>
    intro v v' hI h
    simp only [matchLoop] at h
    cases hm : matchStep symbol v with
    | none =>
      rw [hm] at h
      have := Option.some.inj h
      subst this
      exact ⟨hI, hm⟩
    | some v1 =>
      rw [hm] at h
      exact ih v1 v' (hstep v v1 hI hm) h

/-- The matching loop ends before its fuel does. -/
theorem matchLoop_total {symbol : String} :
    ∀ (n : Nat) (v : SymbolView), ViewOK symbol v →
      bookSize v.buyBook + bookSize v.sellBook < n → ∃ v', matchLoop symbol n v = some v' := by
  intro n
  induction n with
  | zero =>
    intro v _ h
    exact absurd h (Nat.not_lt_zero _)
  | succ n ih =>
    intro v hv h
    simp only [matchLoop]
    cases hm : matchStep symbol v with
    | none => exact ⟨v, rfl⟩
    | some v1 =>
      have r := matchStep_spec hv hm
      exact ih v1 r.view_ok (by have := r.smaller; omega)

theorem HeadTrade.tradeIn {symbol : String} {v : SymbolView} {t : Trade}
    (h : HeadTrade symbol v t) : TradeIn symbol v t := by
  obtain ⟨bp, b, bq, brest, sp, a, sq, srest, hb, hs, hc, e1, e2, e3, e4, e5⟩ := h
  refine ⟨(bp, b :: bq), by rw [hb]; exact List.mem_cons_self _ _, (sp, a :: sq),
    by rw [hs]; exact List.mem_cons_self _ _, ?_, ?_, e4, hc, e3, e5⟩
  · rw [e1]
    exact List.mem_cons_self _ _
  · rw [e2]
    exact List.mem_cons_self _ _

theorem TradeIn.mono {symbol : String} {v v0 : SymbolView} {t : Trade}
    (h : TradeIn symbol v t) (hb : SubBook v.buyBook v0.buyBook)
    (hs : SubBook v.sellBook v0.sellBook) : TradeIn symbol v0 t := by
  obtain ⟨bl, hbl, sl, hsl, e1, e2, e3, e4, e5⟩ := h
  obtain ⟨bl0, hbl0, eb, sb⟩ := hb bl hbl
  obtain ⟨sl0, hsl0, es, ss⟩ := hs sl hsl
  exact ⟨bl0, hbl0, sl0, hsl0, sb _ e1, ss _ e2, by rw [es]; exact e3,
    by rw [es, eb]; exact e4, e5⟩

theorem MatchLooped.start {symbol : String} {v : SymbolView} (hv : ViewOK symbol v) :
    MatchLooped symbol v v :=
  ⟨hv, SubBook.refl _, SubBook.refl _, fun _ _ _ => rfl, fun _ => rfl, [], by simp, by simp⟩

theorem MatchLooped.stepLooped {symbol : String} {v0 v v' : SymbolView}
    (h0 : MatchLooped symbol v0 v) (h : matchStep symbol v = some v') :
    MatchLooped symbol v0 v' := by
  have r := matchStep_spec h0.view_ok h
  refine ⟨r.view_ok, r.buy_sub.trans h0.buy_sub, r.sell_sub.trans h0.sell_sub, ?_, ?_, ?_⟩
  · intro k h1 h2
    rw [r.frame k (h0.buy_sub.not_mem h1) (h0.sell_sub.not_mem h2)]
    exact h0.frame k h1 h2
  · intro k
    rw [r.domain k]
    exact h0.domain k
  · obtain ⟨new, hn, hall⟩ := h0.trades
    rcases r.trades with e | ⟨t, e, ht⟩
    · exact ⟨new, by rw [e, hn], hall⟩
    · refine ⟨new ++ [t], by rw [e, hn, List.append_assoc], fun t' ht' => ?_⟩
      rcases List.mem_append.mp ht' with ht' | ht'
      · exact hall t' ht'
      · rw [List.mem_singleton.mp ht']
        exact ht.tradeIn.mono h0.buy_sub h0.sell_sub

theorem matchLoop_spec {symbol : String} {n : Nat} {v v' : SymbolView} (hv : ViewOK symbol v)
    (h : matchLoop symbol n v = some v') :
    MatchLooped symbol v v' ∧ matchStep symbol v' = none :=
  matchLoop_invariant (MatchLooped symbol v) (fun _ _ h0 hs => h0.stepLooped hs) n v v'
    (MatchLooped.start hv) h

/-- When the loop body finds no match in a well-formed view, the book is not crossed. -/
theorem uncrossed_of_matchStep_none {symbol : String} {v : SymbolView} (hv : ViewOK symbol v)
    (h : matchStep symbol v = none) : Uncrossed v.buyBook v.sellBook := by
  obtain ⟨m, bb, sb, tr⟩ := v
  have hB : SideOK m BUY symbol bb := hv.buy
  have hS : SideOK m SELL symbol sb := hv.sell
  show Uncrossed bb sb
  cases bb with
  | nil => intro bl hbl; exact absurd hbl (List.not_mem_nil _)
  | cons bl0 brest =>
    cases sb with
    | nil => intro bl _ sl hsl; exact absurd hsl (List.not_mem_nil _)
    | cons sl0 srest =>
      obtain ⟨bp, bq⟩ := bl0
      obtain ⟨sp, sq⟩ := sl0
      have hbq := (hB.levels _ (List.mem_cons_self _ _)).nonempty
      have hsq := (hS.levels _ (List.mem_cons_self _ _)).nonempty
      cases bq with
      | nil => exact absurd rfl hbq
      | cons b bq =>
        cases sq with
        | nil => exact absurd rfl hsq
        | cons a sq =>
          rw [matchStep_eq] at h
          have hlt : bp < sp := by
            by_contra hcon
            rw [if_pos (by omega)] at h
            split_ifs at h
          intro bl hbl sl hsl
          have h1 : bl.1 ≤ bp := by
            rcases List.mem_cons.mp hbl with rfl | hbl
            · exact le_refl _
            · have := (List.pairwise_cons.mp hB.sorted).1 bl hbl
              simp [better] at this
              omega
          have h2 : sp ≤ sl.1 := by
            rcases List.mem_cons.mp hsl with rfl | hsl
            · exact le_refl _
            · have := (List.pairwise_cons.mp hS.sorted).1 sl hsl
              simp [better] at this
              omega
          omega

end MatchLoop

section Insert

theorem better_total {side : OrderType} {p price : Int} (hne : p ≠ price)
    (hb : ¬ better side price p = true) : better side p price = true := by
  cases side <;> simp [better] at * <;> omega

/-- The levels of a book after `book[price].push_back(n)`. -/
theorem insertOrder_mem {side : OrderType} {price n : Int} {bk : SideBook} {l : Int × PriceLevel}
    (h : l ∈ insertOrder side price n bk) :
    l ∈ bk ∨ l = (price, [n]) ∨ ∃ q, (price, q) ∈ bk ∧ l = (price, q ++ [n]) := by
  induction bk with
  | nil =>
    simp only [insertOrder, List.mem_singleton] at h
    exact Or.inr (Or.inl h)
  | cons l0 rest ih =>
    obtain ⟨p, q⟩ := l0
    simp only [insertOrder] at h
    split_ifs at h with h1 h2
    · rcases List.mem_cons.mp h with rfl | h
      · exact Or.inr (Or.inr ⟨q, by rw [h1]; exact List.mem_cons_self _ _, by rw [h1]⟩)
      · exact Or.inl (List.mem_cons_of_mem _ h)
    · rcases List.mem_cons.mp h with rfl | h
      · exact Or.inr (Or.inl rfl)
      · exact Or.inl h
    · rcases List.mem_cons.mp h with rfl | h
      · exact Or.inl (List.mem_cons_self _ _)
      · rcases ih h with h | h | ⟨q', hq', e⟩
        · exact Or.inl (List.mem_cons_of_mem _ h)
        · exact Or.inr (Or.inl h)
        · exact Or.inr (Or.inr ⟨q', List.mem_cons_of_mem _ hq', e⟩)

theorem insertOrder_sorted {side : OrderType} {price n : Int} {bk : SideBook}
    (hs : bk.Pairwise fun l1 l2 => better side l1.1 l2.1 = true) :
    (insertOrder side price n bk).Pairwise fun l1 l2 => better side l1.1 l2.1 = true := by
  induction bk with
  | nil => simp [insertOrder]
  | cons l0 rest ih =>
    obtain ⟨p, q⟩ := l0
    have hs' := List.pairwise_cons.mp hs
    simp only [insertOrder]
    split_ifs with h1 h2
    · exact List.pairwise_cons.mpr ⟨hs'.1, hs'.2⟩
    · refine List.pairwise_cons.mpr ⟨fun l hl => ?_, hs⟩
      rcases List.mem_cons.mp hl with rfl | hl
      · exact h2
      · exact better_trans h2 (hs'.1 l hl)
    · refine List.pairwise_cons.mpr ⟨fun l hl => ?_, ih hs'.2⟩
      rcases insertOrder_mem hl with hl | rfl | ⟨q', _, rfl⟩
      · exact hs'.1 l hl
      · exact better_total h1 h2
      · exact better_total h1 h2

/-- Queueing a new live order with nothing filled at the back of its price level keeps
the side book well formed. -/
theorem SideOK.insertSide {m : OrderMap} {side : OrderType} {y : String} {price n : Int}
    {bk : SideBook} {o : Order} (ok : SideOK m side y bk) (hn : m n = some o)
    (ro : Resting side y price n o) (h0 : o.filled_quantity = 0)
    (hfresh : ∀ l ∈ bk, n ∉ l.2) : SideOK m side y (insertOrder side price n bk) := by
  refine ⟨insertOrder_sorted ok.sorted, fun l hl => ?_⟩
  have hnew : RestingAt m side y price n := ⟨o, hn, ro⟩
  rcases insertOrder_mem hl with hl | rfl | ⟨q, hq, rfl⟩
  · exact ok.levels l hl
  · refine ⟨by simp, List.nodup_singleton _, fun h hh => ?_, List.pairwise_singleton _ _⟩
    rw [List.mem_singleton.mp hh]
    exact hnew
  · have hlev := ok.levels _ hq
    refine ⟨by simp, ?_, fun h hh => ?_, ?_⟩
    · refine List.Nodup.append hlev.nodup (List.nodup_singleton _) ?_
      intro x hx hx'
      rw [List.mem_singleton.mp hx'] at hx
      exact hfresh _ hq hx
    · rcases List.mem_append.mp hh with hh | hh
      · exact hlev.resting h hh
      · rw [List.mem_singleton.mp hh]
        exact hnew
    · refine List.pairwise_append.mpr ⟨hlev.priority, List.pairwise_singleton _ _, ?_⟩
      intro a _ b hb _
      rw [List.mem_singleton.mp hb, deref_of_some hn]
      exact h0

end Insert

section Engine

theorem Inv.side {s : OrderBook} (h : Inv s) (sd : OrderType) (y : String) :
    SideOK s.orderMap sd y (bookOf s sd y) := by
  cases sd
  · exact h.buy y
  · exact h.sell y

theorem Inv.of_sides {s : OrderBook}
    (h1 : ∀ sd y, SideOK s.orderMap sd y (bookOf s sd y))
    (h2 : ∀ y, Uncrossed (bookOf s BUY y) (bookOf s SELL y))
    (h3 : ∀ k o, s.orderMap k = some o → k < s.nextOrderId) : Inv s :=
  ⟨fun y => h1 BUY y, fun y => h1 SELL y, h2, h3⟩

theorem SideOK.handle_some {m : OrderMap} {sd : OrderType} {y : String} {bk : SideBook}
    (ok : SideOK m sd y bk) {l : Int × PriceLevel} (hl : l ∈ bk) {k : Int} (hk : k ∈ l.2) :
    ∃ o, m k = some o ∧ o.variant = LIMIT := by
  obtain ⟨o, ho, r⟩ := (ok.levels l hl).resting k hk
  exact ⟨o, ho, r.variant_eq⟩

/-- A handle held in a book of a reachable state is below the id counter. -/
theorem Inv.handle_lt {s : OrderBook} (h : Inv s) {sd : OrderType} {y : String}
    {l : Int × PriceLevel} (hl : l ∈ bookOf s sd y) {k : Int} (hk : k ∈ l.2) :
    k < s.nextOrderId := by
  obtain ⟨o, ho, _⟩ := (h.side sd y).handle_some hl hk
  exact h.fresh k o ho

/-- A book keeps its well-formedness when the heap changes only at `T`, which it does not
hold, and at the handles of a book in another place. -/
theorem SideOK.other {m m' : OrderMap} {sd sd0 : OrderType} {y y0 : String}
    {bk bk0 : SideBook} {T : Int} (ok : SideOK m sd y bk) (ok0 : SideOK m sd0 y0 bk0)
    (hne : ¬ (sd = sd0 ∧ y = y0)) (hT : ∀ l ∈ bk, T ∉ l.2)
    (hfr : ∀ k, k ≠ T → (∀ l ∈ bk0, k ∉ l.2) → m' k = m k) : SideOK m' sd y bk := by
  refine ok.congrSide fun l hl h hh => hfr h (fun e => hT l hl (e ▸ hh)) fun l0 hl0 hh0 => ?_
  have r1 := (ok.levels l hl).resting h hh
  have r2 := (ok0.levels l0 hl0).resting h hh0
  exact hne ⟨(r1.uniquePlace r2).1, (r1.uniquePlace r2).2.1⟩

theorem storeOrder_same (m : OrderMap) (o : Order) : storeOrder m o o.id = some o := by
  simp [storeOrder]

theorem storeOrder_other (m : OrderMap) (o : Order) {k : Int} (hk : k ≠ o.id) :
    storeOrder m o k = m k := by
  simp [storeOrder, hk]

/-- Registering a new order under the next id leaves every book well formed. -/
theorem Inv.register_side {s : OrderBook} (h : Inv s) {o : Order} (hid : o.id = s.nextOrderId)
    (sd : OrderType) (y : String) : SideOK (storeOrder s.orderMap o) sd y (bookOf s sd y) := by
  refine (h.side sd y).congrSide fun l hl k hk => storeOrder_other _ _ ?_
  have := h.handle_lt hl hk
  omega

theorem opposite_ne (sd : OrderType) : sd ≠ opposite sd := by
  cases sd <;> simp [opposite]

theorem uncrossed_of_prices {b b' a a' : SideBook} (h : Uncrossed b a)
    (hb : ∀ l ∈ b', ∃ l0 ∈ b, l0.1 = l.1) (ha : ∀ l ∈ a', ∃ l0 ∈ a, l0.1 = l.1) :
    Uncrossed b' a' := by
  intro bl hbl sl hsl
  obtain ⟨bl0, h1, e1⟩ := hb bl hbl
  obtain ⟨sl0, h2, e2⟩ := ha sl hsl
  have := h bl0 h1 sl0 h2
  omega

theorem prices_of_sublist {bk' bk : SideBook} (h : (bk'.map Prod.fst).Sublist (bk.map Prod.fst)) :
    ∀ l ∈ bk', ∃ l0 ∈ bk, l0.1 = l.1 := by
  intro l hl
  have := h.subset (List.mem_map_of_mem Prod.fst hl)
  obtain ⟨l0, h0, e⟩ := List.mem_map.mp this
  exact ⟨l0, h0, e⟩

/-- The engine invariant after an incoming order of a non-resting variant, registered
under the next id, has swept the opposite side book of its symbol. -/
theorem Inv.after_sweep {s s' : OrderBook} (hinv : Inv s) {o : Order} {symbol : String}
    {ok : Int → Bool} {q0 : Int} {bk' : SideBook} {w' : Sweep} {m2 : OrderMap}
    (hid : o.id = s.nextOrderId) (hvar : o.variant ≠ LIMIT)
    (hsw : BookSwept ok s.nextOrderId o.type symbol o (bookOf s (opposite o.type) symbol)
      ⟨storeOrder s.orderMap o, s.tradeHistory, q0⟩ bk' w')
    (hm2 : ∀ k, k ≠ s.nextOrderId → m2 k = w'.orderMap k)
    (hmap : s'.orderMap = m2) (hnext : s'.nextOrderId = s.nextOrderId + 1)
    (hbooks : ∀ sd y, bookOf s' sd y =
      if sd = opposite o.type ∧ y = symbol then bk' else bookOf s sd y) : Inv s' := by
  have hTnot : ∀ sd y, ∀ l ∈ bookOf s sd y, s.nextOrderId ∉ l.2 := by
    intro sd y l hl hk
    have := hinv.handle_lt hl hk
    omega
  have hfr : ∀ k, k ≠ s.nextOrderId → (∀ l ∈ bookOf s (opposite o.type) symbol, k ∉ l.2) →
      m2 k = storeOrder s.orderMap o k := by
    intro k hk hkb
    rw [hm2 k hk]
    exact hsw.frame k hk hkb
  refine Inv.of_sides (fun sd y => ?_) (fun y => ?_) (fun k o' hk => ?_)
  · rw [hmap, hbooks]
    by_cases hc : sd = opposite o.type ∧ y = symbol
    · rw [if_pos hc, hc.1, hc.2]
      refine hsw.side_ok.congrSide fun l hl k hk => hm2 k fun e => ?_
      obtain ⟨o1, ho1, hv1⟩ := hsw.side_ok.handle_some hl hk
      rw [e, hsw.taker] at ho1
      have := Option.some.inj ho1
      rw [← this] at hv1
      exact hvar hv1
    · rw [if_neg hc]
      exact (hinv.register_side hid sd y).other
        (hinv.register_side hid (opposite o.type) symbol) hc (hTnot sd y) hfr
  · rw [hbooks, hbooks]
    have hu := hinv.uncrossed y
    by_cases hy : y = symbol
    · cases ht : o.type
      · -- the incoming order buys: the asks were swept
        rw [ht] at hsw
        rw [if_neg (by simp [opposite]), if_pos ⟨by simp [opposite], hy⟩]
        refine uncrossed_of_prices hu (fun l hl => ⟨l, hl, rfl⟩) ?_
        have := prices_of_sublist hsw.prices
        rw [hy]
        exact this
      · rw [ht] at hsw
        rw [if_pos ⟨by simp [opposite], hy⟩, if_neg (by simp [opposite])]
        refine uncrossed_of_prices hu ?_ (fun l hl => ⟨l, hl, rfl⟩)
        have := prices_of_sublist hsw.prices
        rw [hy]
        exact this
    · rw [if_neg (fun h => hy h.2), if_neg (fun h => hy h.2)]
      exact hu
  · rw [hnext]
    rw [hmap] at hk
    by_cases hkT : k = s.nextOrderId
    · omega
    · by_cases hkb : ∀ l ∈ bookOf s (opposite o.type) symbol, k ∉ l.2
      · rw [hfr k hkT hkb, storeOrder_other _ _ (by rw [hid]; exact hkT)] at hk
        have := hinv.fresh k o' hk
        omega
      · push_neg at hkb
        obtain ⟨l, hl, hkl⟩ := hkb
        have := hinv.handle_lt hl hkl
        omega

end Engine

section Placement

theorem oppositeBook_view (s : OrderBook) (o : Order) (symbol : String) (side : OrderType) :
    oppositeBook ((s.register o).view symbol) side = bookOf s (opposite side) symbol := by
  cases side <;> rfl

theorem deref_register (s : OrderBook) (o : Order) (hid : o.id = s.nextOrderId) :
    deref (s.register o).orderMap s.nextOrderId = o := by
  simp [deref, OrderBook.register, storeOrder, hid]

theorem iocHeap_eq (m : OrderMap) (n : Int) :
    (if (deref (modifyOrder m n updateOrderStatus) n).status ≠ FILLED then
      (if (deref (modifyOrder m n updateOrderStatus) n).status = PARTIALLY_FILLED then
        setStatus (modifyOrder m n updateOrderStatus) n CANCELLED
      else modifyOrder m n updateOrderStatus)
    else modifyOrder m n updateOrderStatus) = modifyOrder m n iocFinal := by
  funext k
  by_cases hk : k = n
  · subst hk
    cases hm : m k with
    | none => simp [deref, modifyOrder, setStatus, hm]
    | some x =>
      simp only [deref, modifyOrder, setStatus, hm, iocFinal, if_true, Option.map_some',
        Option.getD_some]
      split_ifs <;> simp_all
  · simp only [deref, modifyOrder, setStatus]
    split_ifs <;> simp_all

theorem marketHeap_eq (m : OrderMap) (n : Int) (hm : ∃ x, m n = some x) :
    (if (deref (modifyOrder m n updateOrderStatus) n).status ≠ FILLED then
      setStatus (modifyOrder m n updateOrderStatus) n PARTIALLY_FILLED
    else modifyOrder m n updateOrderStatus) = modifyOrder m n marketFinal := by
  obtain ⟨x, hx⟩ := hm
  funext k
  by_cases hk : k = n
  · subst hk
    simp only [deref, modifyOrder, setStatus, hx, marketFinal, if_true, Option.map_some',
      Option.getD_some]
    split_ifs <;> simp_all
  · simp only [deref, modifyOrder, setStatus]
    split_ifs <;> simp_all

theorem fokHeap_eq (m : OrderMap) (n : Int) (hm : ∃ x, m n = some x) :
    (if decide ((deref (modifyOrder m n updateOrderStatus) n).status = FILLED) = false then
      setStatus (modifyOrder m n updateOrderStatus) n CANCELLED
    else modifyOrder m n updateOrderStatus) = modifyOrder m n fokFinal := by
  obtain ⟨x, hx⟩ := hm
  funext k
  by_cases hk : k = n
  · subst hk
    simp only [deref, modifyOrder, setStatus, hx, fokFinal, if_true, Option.map_some',
      Option.getD_some]
    split_ifs <;> simp_all
  · simp only [deref, modifyOrder, setStatus]
    split_ifs <;> simp_all

theorem placeIOCOrder_eq (s : OrderBook) (type : OrderType) (price quantity : Int)
    (symbol : String) (hN : s.circuitBreaker.status = NORMAL_TRADING) :
    placeIOCOrder s type price quantity symbol =
      (s.nextOrderId,
        sweptState s (Order.create s.nextOrderId type IOC price quantity symbol) symbol
          (sweepWhile (fun p => marketable type p price) s.nextOrderId type
            (bookOf s (opposite type) symbol)
            ⟨storeOrder s.orderMap (Order.create s.nextOrderId type IOC price quantity symbol),
              s.tradeHistory, quantity⟩).1
          (sweepWhile (fun p => marketable type p price) s.nextOrderId type
            (bookOf s (opposite type) symbol)
            ⟨storeOrder s.orderMap (Order.create s.nextOrderId type IOC price quantity symbol),
              s.tradeHistory, quantity⟩).2
          iocFinal) := by
  have hd := deref_register s (Order.create s.nextOrderId type IOC price quantity symbol) rfl
  unfold placeIOCOrder
  rw [if_neg (by simp [hN])]
  simp only [executeIOCOrder, OrderBook.view] at hd ⊢
  rw [hd]
  simp only [Order.create, sweepBook_eq_sweepWhile, iocHeap_eq]
  cases type <;> rfl

/-- The sweep an incoming order makes in a state satisfying the invariant. -/
theorem Inv.sweep {s : OrderBook} (hinv : Inv s) (ok : Int → Bool) (o : Order)
    (hid : o.id = s.nextOrderId) (symbol : String) {q0 : Int} (hq : 0 ≤ q0) :
    BookSwept ok s.nextOrderId o.type symbol o (bookOf s (opposite o.type) symbol)
      ⟨storeOrder s.orderMap o, s.tradeHistory, q0⟩
      (sweepWhile ok s.nextOrderId o.type (bookOf s (opposite o.type) symbol)
        ⟨storeOrder s.orderMap o, s.tradeHistory, q0⟩).1
      (sweepWhile ok s.nextOrderId o.type (bookOf s (opposite o.type) symbol)
        ⟨storeOrder s.orderMap o, s.tradeHistory, q0⟩).2 := by
  refine sweepWhile_spec _ _ o ?_ hid ?_ (hinv.register_side hid _ _) hq
  · show storeOrder s.orderMap o s.nextOrderId = some o
    rw [← hid]
    exact storeOrder_same _ _
  · intro l hl hk
    have := hinv.handle_lt hl hk
    omega

theorem bookOf_sweptState (s : OrderBook) (o : Order) (symbol : String) (bk' : SideBook)
    (w' : Sweep) (g : Order → Order) (sd : OrderType) (y : String) :
    bookOf (sweptState s o symbol bk' w' g) sd y =
      if sd = opposite o.type ∧ y = symbol then bk' else bookOf s sd y := by
  by_cases hy : y = symbol
  · subst hy
    cases sd <;> cases ht : o.type <;> simp [bookOf, sweptState, opposite, ht]
  · cases sd <;> simp [bookOf, sweptState, hy]

/-- The invariant holds after the sweep of an incoming order of a non-resting variant. -/
theorem Inv.swept {s : OrderBook} (hinv : Inv s) (ok : Int → Bool) (o : Order)
    (hid : o.id = s.nextOrderId) (hvar : o.variant ≠ LIMIT) (symbol : String) {q0 : Int}
    (hq : 0 ≤ q0) (g : Order → Order) :
    Inv (sweptState s o symbol
      (sweepWhile ok s.nextOrderId o.type (bookOf s (opposite o.type) symbol)
        ⟨storeOrder s.orderMap o, s.tradeHistory, q0⟩).1
      (sweepWhile ok s.nextOrderId o.type (bookOf s (opposite o.type) symbol)
        ⟨storeOrder s.orderMap o, s.tradeHistory, q0⟩).2 g) := by
  have hsw := hinv.sweep ok o hid symbol hq
  refine hinv.after_sweep hid hvar hsw (fun k hk => ?_) rfl rfl
    (bookOf_sweptState s o symbol _ _ g)
  exact modifyOrder_other _ _ hk

theorem fok_commit_eq (s : OrderBook) (o : Order) (symbol : String) (R : SideBook × Sweep)
    (hm : ∃ x, R.2.orderMap s.nextOrderId = some x) :
    (if (decide ((deref (modifyOrder R.2.orderMap s.nextOrderId updateOrderStatus)
          s.nextOrderId).status = FILLED)) = false then
      (s.nextOrderId,
        { (s.register o).commit symbol (setOppositeBook ((s.register o).view symbol) o.type R.1
            { R.2 with orderMap := modifyOrder R.2.orderMap s.nextOrderId updateOrderStatus })
          with orderMap := setStatus ((s.register o).commit symbol
            (setOppositeBook ((s.register o).view symbol) o.type R.1
              { R.2 with orderMap := modifyOrder R.2.orderMap s.nextOrderId updateOrderStatus })
            ).orderMap s.nextOrderId CANCELLED })
    else
      (s.nextOrderId,
        (s.register o).commit symbol (setOppositeBook ((s.register o).view symbol) o.type R.1
          { R.2 with orderMap := modifyOrder R.2.orderMap s.nextOrderId updateOrderStatus }))) =
    (s.nextOrderId, sweptState s o symbol R.1 R.2 fokFinal) := by
  have hh := fokHeap_eq R.2.orderMap s.nextOrderId hm
  by_cases hf : (deref (modifyOrder R.2.orderMap s.nextOrderId updateOrderStatus)
      s.nextOrderId).status = FILLED
  · rw [if_neg (by simp [hf])]
    rw [if_neg (by simp [hf])] at hh
    congr 1
    apply OrderBook.ext
    · cases ht : o.type <;>
        simp [sweptState, OrderBook.commit, OrderBook.register, setOppositeBook,
          OrderBook.view, ht]
    · cases ht : o.type <;>
        simp [sweptState, OrderBook.commit, OrderBook.register, setOppositeBook,
          OrderBook.view, ht]
    · cases ht : o.type <;>
        simpa [sweptState, OrderBook.commit, OrderBook.register, setOppositeBook,
          OrderBook.view, ht] using hh
    all_goals cases ht : o.type <;>
        simp [sweptState, OrderBook.commit, OrderBook.register, setOppositeBook,
          OrderBook.view, ht]
  · rw [if_pos (by simp [hf])]
    rw [if_pos (by simp [hf])] at hh
    congr 1
    apply OrderBook.ext
    · cases ht : o.type <;>
        simp [sweptState, OrderBook.commit, OrderBook.register, setOppositeBook,
          OrderBook.view, ht]
    · cases ht : o.type <;>
        simp [sweptState, OrderBook.commit, OrderBook.register, setOppositeBook,
          OrderBook.view, ht]
    · cases ht : o.type <;>
        simpa [sweptState, OrderBook.commit, OrderBook.register, setOppositeBook,
          OrderBook.view, ht] using hh
    all_goals cases ht : o.type <;>
        simp [sweptState, OrderBook.commit, OrderBook.register, setOppositeBook,
          OrderBook.view, ht]

theorem placeFOKOrder_feasible (s : OrderBook) (type : OrderType) (price quantity : Int)
    (symbol : String) (hN : s.circuitBreaker.status = NORMAL_TRADING)
    (hm : ∃ x, (sweepWhile (fun p => marketable type p price) s.nextOrderId type
        (bookOf s (opposite type) symbol)
        ⟨storeOrder s.orderMap (Order.create s.nextOrderId type FOK price quantity symbol),
          s.tradeHistory, quantity⟩).2.orderMap s.nextOrderId = some x)
    (hc : canFill (storeOrder s.orderMap
        (Order.create s.nextOrderId type FOK price quantity symbol)) type price quantity
        (bookOf s (opposite type) symbol) 0 = true) :
    placeFOKOrder s type price quantity symbol =
      (s.nextOrderId,
        sweptState s (Order.create s.nextOrderId type FOK price quantity symbol) symbol
          (sweepWhile (fun p => marketable type p price) s.nextOrderId type
            (bookOf s (opposite type) symbol)
            ⟨storeOrder s.orderMap (Order.create s.nextOrderId type FOK price quantity symbol),
              s.tradeHistory, quantity⟩).1
          (sweepWhile (fun p => marketable type p price) s.nextOrderId type
            (bookOf s (opposite type) symbol)
            ⟨storeOrder s.orderMap (Order.create s.nextOrderId type FOK price quantity symbol),
              s.tradeHistory, quantity⟩).2
          fokFinal) := by
  have hd := deref_register s (Order.create s.nextOrderId type FOK price quantity symbol) rfl
  have hob := oppositeBook_view s (Order.create s.nextOrderId type FOK price quantity symbol)
    symbol type
  have key := fok_commit_eq s (Order.create s.nextOrderId type FOK price quantity symbol) symbol
    _ hm
  unfold placeFOKOrder
  rw [if_neg (by simp [hN])]
  simp only [executeFOKOrder, OrderBook.view] at hd hob ⊢
  simp only [hd]
  simp only [Order.create, sweepBook_eq_sweepWhile, OrderBook.register] at hc hob ⊢
  simp only [hob, hc, if_true]
  exact key

theorem setStatus_storeOrder (m : OrderMap) (o : Order) (st : OrderStatus) :
    setStatus (storeOrder m o) o.id st = storeOrder m { o with status := st } := by
  funext k
  simp only [setStatus, modifyOrder, storeOrder]
  split_ifs <;> simp

theorem commit_view (s : OrderBook) (symbol : String) : s.commit symbol (s.view symbol) = s := by
  apply OrderBook.ext
  · funext k
    simp only [OrderBook.commit, OrderBook.view]
    split_ifs with h
    · rw [h]
    · rfl
  · funext k
    simp only [OrderBook.commit, OrderBook.view]
    split_ifs with h
    · rw [h]
    · rfl
  all_goals rfl

/-- An infeasible FOK order only registers its own cancelled record. -/
theorem placeFOKOrder_infeasible (s : OrderBook) (type : OrderType) (price quantity : Int)
    (symbol : String) (hN : s.circuitBreaker.status = NORMAL_TRADING)
    (hc : canFill (storeOrder s.orderMap
        (Order.create s.nextOrderId type FOK price quantity symbol)) type price quantity
        (bookOf s (opposite type) symbol) 0 = false) :
    placeFOKOrder s type price quantity symbol =
      (s.nextOrderId,
        { s with
          nextOrderId := s.nextOrderId + 1
          orderMap := storeOrder s.orderMap
            { Order.create s.nextOrderId type FOK price quantity symbol with
              status := CANCELLED } }) := by
  have hd := deref_register s (Order.create s.nextOrderId type FOK price quantity symbol) rfl
  have hob := oppositeBook_view s (Order.create s.nextOrderId type FOK price quantity symbol)
    symbol type
  have hcv := commit_view (s.register (Order.create s.nextOrderId type FOK price quantity symbol))
    symbol
  have hss := setStatus_storeOrder s.orderMap
    (Order.create s.nextOrderId type FOK price quantity symbol) CANCELLED
  unfold placeFOKOrder
  rw [if_neg (by simp [hN])]
  simp only [executeFOKOrder, OrderBook.view] at hd hob hcv ⊢
  simp only [hd]
  simp only [Order.create, OrderBook.register] at hc hob hcv hss ⊢
  simp only [hob, hc, Bool.false_eq_true, if_false, if_true, hcv, hss]

theorem market_commit_eq (s : OrderBook) (o : Order) (symbol : String) (R : SideBook × Sweep)
    (hm : ∃ x, R.2.orderMap s.nextOrderId = some x) :
    (s.register o).commit symbol (setOppositeBook ((s.register o).view symbol) o.type R.1
      { R.2 with
        orderMap :=
          if (deref (modifyOrder R.2.orderMap s.nextOrderId updateOrderStatus)
              s.nextOrderId).status ≠ FILLED then
            setStatus (modifyOrder R.2.orderMap s.nextOrderId updateOrderStatus)
              s.nextOrderId PARTIALLY_FILLED
          else modifyOrder R.2.orderMap s.nextOrderId updateOrderStatus }) =
    sweptState s o symbol R.1 R.2 marketFinal := by
  rw [marketHeap_eq R.2.orderMap s.nextOrderId hm]
  apply OrderBook.ext
  all_goals cases ht : o.type <;>
    simp [sweptState, OrderBook.commit, OrderBook.register, setOppositeBook,
      OrderBook.view, ht]

theorem placeMarketOrder_eq {s : OrderBook} (hinv : Inv s) (type : OrderType) (quantity : Int)
    (symbol : String) (hN : s.circuitBreaker.status = NORMAL_TRADING) (hq : 0 ≤ quantity) :
    placeMarketOrder s type quantity symbol =
      some (s.nextOrderId,
        sweptState s (Order.create s.nextOrderId type MARKET 0 quantity symbol) symbol
          (sweepWhile (fun _ => true) s.nextOrderId type (bookOf s (opposite type) symbol)
            ⟨storeOrder s.orderMap (Order.create s.nextOrderId type MARKET 0 quantity symbol),
              s.tradeHistory, quantity⟩).1
          (sweepWhile (fun _ => true) s.nextOrderId type (bookOf s (opposite type) symbol)
            ⟨storeOrder s.orderMap (Order.create s.nextOrderId type MARKET 0 quantity symbol),
              s.tradeHistory, quantity⟩).2
          marketFinal) := by
  have hd := deref_register s (Order.create s.nextOrderId type MARKET 0 quantity symbol) rfl
  have hob := oppositeBook_view s (Order.create s.nextOrderId type MARKET 0 quantity symbol)
    symbol type
  have hsw := hinv.sweep (fun _ => true)
    (Order.create s.nextOrderId type MARKET 0 quantity symbol) rfl symbol hq
  have hloop := marketLoop_eq_sweepWhile (T := s.nextOrderId) symbol
    (bookOf s (opposite type) symbol) ((bookOf s (opposite type) symbol).length + 1)
    ⟨storeOrder s.orderMap (Order.create s.nextOrderId type MARKET 0 quantity symbol),
      s.tradeHistory, quantity⟩
    (Order.create s.nextOrderId type MARKET 0 quantity symbol) (le_refl _)
    (storeOrder_same s.orderMap (Order.create s.nextOrderId type MARKET 0 quantity symbol)) rfl
    (fun l hl hk => by have := hinv.handle_lt hl hk; omega)
    (hinv.register_side rfl (opposite type) symbol) hq
  have key := market_commit_eq s (Order.create s.nextOrderId type MARKET 0 quantity symbol)
    symbol _ ⟨_, hsw.taker⟩
  unfold placeMarketOrder
  rw [if_neg (by simp [hN])]
  simp only [executeMarketOrder, OrderBook.view] at hd hob ⊢
  simp only [hd]
  simp only [Order.create, OrderBook.register] at hob hloop ⊢
  simp only [hob, hloop, Option.map_some']
  exact congrArg (fun x => some (s.nextOrderId, x)) key

end Placement

section Limit

theorem bookOf_commit (s : OrderBook) (symbol : String) (v : SymbolView) (sd : OrderType)
    (y : String) :
    bookOf (s.commit symbol v) sd y =
      if y = symbol then (match sd with
        | BUY => v.buyBook
        | SELL => v.sellBook) else bookOf s sd y := by
  cases sd <;> simp [bookOf, OrderBook.commit]

theorem bookOf_enqueue (s : OrderBook) (type : OrderType) (price h : Int) (symbol : String)
    (sd : OrderType) (y : String) :
    bookOf (s.enqueue type price h symbol) sd y =
      if sd = type ∧ y = symbol then insertOrder type price h (bookOf s type symbol)
      else bookOf s sd y := by
  by_cases hy : y = symbol
  · subst hy
    cases sd <;> cases type <;> simp [bookOf, OrderBook.enqueue]
  · cases sd <;> cases type <;> simp [bookOf, OrderBook.enqueue, hy]

theorem bookOf_view_buy (s : OrderBook) (symbol : String) :
    (s.view symbol).buyBook = bookOf s BUY symbol := rfl

theorem bookOf_view_sell (s : OrderBook) (symbol : String) :
    (s.view symbol).sellBook = bookOf s SELL symbol := rfl

/-- The engine invariant after a matching pass on `symbol`, run from a state whose books
are well formed and whose other symbols are not crossed. -/
theorem Inv.after_match {s0 : OrderBook} {symbol : String} {v' : SymbolView}
    (hsides : ∀ sd y, SideOK s0.orderMap sd y (bookOf s0 sd y))
    (hu : ∀ y, y ≠ symbol → Uncrossed (bookOf s0 BUY y) (bookOf s0 SELL y))
    (hfresh : ∀ k o, s0.orderMap k = some o → k < s0.nextOrderId)
    (hloop : MatchLooped symbol (s0.view symbol) v') (hnone : matchStep symbol v' = none) :
    Inv (s0.commit symbol v') := by
  refine Inv.of_sides (fun sd y => ?_) (fun y => ?_) (fun k o hk => ?_)
  · rw [bookOf_commit]
    by_cases hy : y = symbol
    · rw [if_pos hy, hy]
      cases sd
      · exact hloop.view_ok.buy
      · exact hloop.view_ok.sell
    · rw [if_neg hy]
      refine (hsides sd y).congrSide fun l hl h hh => hloop.frame h ?_ ?_
      · intro l0 hl0 hh0
        have r1 := ((hsides sd y).levels l hl).resting h hh
        have r2 := ((hsides BUY symbol).levels l0 hl0).resting h hh0
        exact hy (r1.uniquePlace r2).2.1
      · intro l0 hl0 hh0
        have r1 := ((hsides sd y).levels l hl).resting h hh
        have r2 := ((hsides SELL symbol).levels l0 hl0).resting h hh0
        exact hy (r1.uniquePlace r2).2.1
  · rw [bookOf_commit, bookOf_commit]
    by_cases hy : y = symbol
    · rw [if_pos hy, if_pos hy]
      exact uncrossed_of_matchStep_none hloop.view_ok hnone
    · rw [if_neg hy, if_neg hy]
      exact hu y hy
  · have hd := hloop.domain k
    have hk' : (s0.commit symbol v').orderMap k = v'.orderMap k := rfl
    rw [hk'] at hk
    rw [hk] at hd
    cases hs : s0.orderMap k with
    | none =>
      have : (s0.view symbol).orderMap k = none := hs
      rw [this] at hd
      exact absurd hd (by simp)
    | some o0 => exact hfresh k o0 hs

/-- The method `matchOrders` ends, and keeps the invariant. -/
theorem Inv.after_matchOrders {s : OrderBook} (hinv : Inv s) (symbol : String) :
    ∃ v', matchOrders s symbol = some (s.commit symbol v') ∧
      MatchLooped symbol (s.view symbol) v' ∧ matchStep symbol v' = none ∧
      Inv (s.commit symbol v') := by
  have hv : ViewOK symbol (s.view symbol) := ⟨hinv.buy symbol, hinv.sell symbol⟩
  obtain ⟨v', hv'⟩ := matchLoop_total (matchFuel (s.view symbol)) (s.view symbol) hv
    (by simp [matchFuel])
  obtain ⟨hl, hn⟩ := matchLoop_spec hv hv'
  refine ⟨v', by simp [StockMatching.matchOrders, hv'], hl, hn, ?_⟩
  exact Inv.after_match hinv.side (fun y _ => hinv.uncrossed y) hinv.fresh hl hn

end Limit

section Reach

theorem bookOf_register (s : OrderBook) (o : Order) (sd : OrderType) (y : String) :
    bookOf (s.register o) sd y = bookOf s sd y := by
  cases sd <;> rfl

/-- Placing a limit order that passes admission: the matching pass ends and the invariant
holds afterwards. -/
theorem Inv.placeLimit {s : OrderBook} (hinv : Inv s) (type : OrderType) (price quantity : Int)
    (symbol : String) (hq : 0 < quantity)
    (h1 : ¬ (s.circuitBreaker.status = CIRCUIT_HALT ∨ s.circuitBreaker.status = CLOSED))
    (h2 : ¬ s.circuitBreaker.status = PRE_OPEN_AUCTION)
    (h3 : bandViolation s price symbol = false) :
    ∃ v', placeLimitOrder s type LIMIT price quantity symbol =
        some (s.nextOrderId,
          ((s.register (Order.create s.nextOrderId type LIMIT price quantity symbol)).enqueue
            type price s.nextOrderId symbol).commit symbol v') ∧
      MatchLooped symbol
        (((s.register (Order.create s.nextOrderId type LIMIT price quantity symbol)).enqueue
            type price s.nextOrderId symbol).view symbol) v' ∧
      matchStep symbol v' = none ∧
      Inv (((s.register (Order.create s.nextOrderId type LIMIT price quantity symbol)).enqueue
            type price s.nextOrderId symbol).commit symbol v') ∧
      matchLoop symbol
        (matchFuel (((s.register (Order.create s.nextOrderId type LIMIT price quantity
          symbol)).enqueue type price s.nextOrderId symbol).view symbol))
        (((s.register (Order.create s.nextOrderId type LIMIT price quantity symbol)).enqueue
          type price s.nextOrderId symbol).view symbol) = some v' ∧
      ViewOK symbol
        (((s.register (Order.create s.nextOrderId type LIMIT price quantity symbol)).enqueue
          type price s.nextOrderId symbol).view symbol) := by
  generalize ho : Order.create s.nextOrderId type LIMIT price quantity symbol = o
  have hid : o.id = s.nextOrderId := by rw [← ho]; rfl
  generalize hs2 : (s.register o).enqueue type price s.nextOrderId symbol = s2
  have hmap : s2.orderMap = storeOrder s.orderMap o := by
    rw [← hs2]
    cases type <;> rfl
  have hnext : s2.nextOrderId = s.nextOrderId + 1 := by
    rw [← hs2]
    cases type <;> rfl
  have hbook : ∀ sd y, bookOf s2 sd y =
      if sd = type ∧ y = symbol then insertOrder type price s.nextOrderId (bookOf s type symbol)
      else bookOf s sd y := by
    intro sd y
    rw [← hs2, bookOf_enqueue]
    simp only [bookOf_register]
  have hsides : ∀ sd y, SideOK s2.orderMap sd y (bookOf s2 sd y) := by
    intro sd y
    rw [hmap, hbook]
    by_cases hc : sd = type ∧ y = symbol
    · rw [if_pos hc, hc.1, hc.2]
      refine (hinv.register_side hid type symbol).insertSide
        (by rw [← hid]; exact storeOrder_same _ _) ?_ (by rw [← ho]; rfl) ?_
      · rw [← ho]
        exact ⟨rfl, rfl, rfl, rfl, rfl, le_refl _, hq, by simp [Order.create]⟩
      · intro l hl hk
        have := hinv.handle_lt hl hk
        omega
    · rw [if_neg hc]
      exact hinv.register_side hid sd y
  have hu : ∀ y, y ≠ symbol → Uncrossed (bookOf s2 BUY y) (bookOf s2 SELL y) := by
    intro y hy
    rw [hbook, hbook, if_neg (fun h => hy h.2), if_neg (fun h => hy h.2)]
    exact hinv.uncrossed y
  have hfresh : ∀ k o', s2.orderMap k = some o' → k < s2.nextOrderId := by
    intro k o' hk
    rw [hnext]
    rw [hmap] at hk
    by_cases hkn : k = o.id
    · omega
    · rw [storeOrder_other _ _ hkn] at hk
      have := hinv.fresh k o' hk
      omega
  have hv : ViewOK symbol (s2.view symbol) := ⟨hsides BUY symbol, hsides SELL symbol⟩
  obtain ⟨v', hv'⟩ := matchLoop_total (matchFuel (s2.view symbol)) (s2.view symbol) hv
    (by simp [matchFuel])
  obtain ⟨hl, hn⟩ := matchLoop_spec hv hv'
  refine ⟨v', ?_, hl, hn, Inv.after_match hsides hu hfresh hl hn, hv', hv⟩
  unfold placeLimitOrder
  rw [if_neg h1, if_neg h2, if_neg (by simp [h3])]
  simp only [ho, hs2, StockMatching.matchOrders, hv', Option.map_some']

theorem SideOK.cancelSide {m : OrderMap} {sd : OrderType} {y : String} {bk : SideBook}
    (ok : SideOK m sd y bk) (id : Int) : SideOK (setStatus m id CANCELLED) sd y bk := by
  have hfilled : ∀ h, (deref (setStatus m id CANCELLED) h).filled_quantity =
      (deref m h).filled_quantity := by
    intro h
    by_cases hh : h = id
    · subst hh
      cases hm : m h <;> simp [deref, setStatus, modifyOrder, hm]
    · simp [deref, setStatus, modifyOrder, hh]
  have hstatus : ∀ h, (deref (setStatus m id CANCELLED) h).status ≠ CANCELLED →
      (deref m h).status ≠ CANCELLED := by
    intro h
    by_cases hh : h = id
    · subst hh
      cases hm : m h <;> simp [deref, setStatus, modifyOrder, hm]
    · simp [deref, setStatus, modifyOrder, hh]
  refine ⟨ok.sorted, fun l hl => ?_⟩
  have hlev := ok.levels l hl
  refine ⟨hlev.nonempty, hlev.nodup, fun h hh => ?_, ?_⟩
  · obtain ⟨o, ho, r⟩ := hlev.resting h hh
    by_cases hid : h = id
    · subst hid
      refine ⟨{ o with status := CANCELLED }, by simp [setStatus, modifyOrder, ho], ?_⟩
      exact ⟨r.id_eq, r.type_eq, r.price_eq, r.symbol_eq, r.variant_eq, r.filled_nonneg,
        r.filled_lt, by simp⟩
    · exact ⟨o, by simp [setStatus, modifyOrder, hid, ho], r⟩
  · exact List.Pairwise.imp (fun {a b} hab hs => by rw [hfilled]; exact hab (hstatus a hs))
      hlev.priority

theorem Inv.cancel {s : OrderBook} (hinv : Inv s) (orderId : Int) :
    Inv (cancelOrder s orderId).2 := by
  unfold cancelOrder
  cases hm : s.orderMap orderId with
  | none => exact hinv
  | some order =>
    simp only
    split_ifs with hf
    · exact hinv
    · refine ⟨fun y => (hinv.buy y).cancelSide orderId, fun y => (hinv.sell y).cancelSide orderId,
        hinv.uncrossed, fun k o hk => ?_⟩
      have hk' : setStatus s.orderMap orderId CANCELLED k = some o := hk
      by_cases hkk : k = orderId
      · subst hkk
        exact hinv.fresh k order hm
      · simp only [setStatus, modifyOrder, if_neg hkk] at hk'
        exact hinv.fresh k o hk'

theorem Inv.init : Inv OrderBook.init :=
  ⟨fun _ => ⟨List.Pairwise.nil, fun _ h => absurd h (List.not_mem_nil _)⟩,
    fun _ => ⟨List.Pairwise.nil, fun _ h => absurd h (List.not_mem_nil _)⟩,
    fun _ _ h => absurd h (List.not_mem_nil _), fun _ _ h => absurd h (by simp [OrderBook.init])⟩

/-- Every placement keeps the invariant. -/
theorem Inv.after_placeOrder {s s' : OrderBook} (hinv : Inv s) {type : OrderType}
    {variant : OrderVariant} {price quantity : Int} {symbol : String} {id : Int}
    (hq : 0 < quantity) (h : placeOrder s type variant price quantity symbol = some (id, s')) :
    Inv s' := by
  cases variant with
  | LIMIT =>
    simp only [StockMatching.placeOrder] at h
    by_cases h1 : s.circuitBreaker.status = CIRCUIT_HALT ∨ s.circuitBreaker.status = CLOSED
    · simp only [placeLimitOrder, if_pos h1, Option.some.injEq, Prod.mk.injEq] at h
      rw [← h.2]
      exact hinv
    by_cases h2 : s.circuitBreaker.status = PRE_OPEN_AUCTION
    · simp only [placeLimitOrder, if_neg h1, if_pos h2, Option.some.injEq, Prod.mk.injEq] at h
      rw [← h.2]
      exact hinv
    by_cases h3 : bandViolation s price symbol = true
    · simp only [placeLimitOrder, if_neg h1, if_neg h2, if_pos h3, Option.some.injEq,
        Prod.mk.injEq] at h
      rw [← h.2]
      exact hinv
    obtain ⟨v', e, _, _, hi, _⟩ := hinv.placeLimit type price quantity symbol hq h1 h2
      (by simpa using h3)
    rw [e] at h
    simp only [Option.some.injEq, Prod.mk.injEq] at h
    rw [← h.2]
    exact hi
  | MARKET =>
    simp only [StockMatching.placeOrder] at h
    by_cases hN : s.circuitBreaker.status = NORMAL_TRADING
    · rw [placeMarketOrder_eq hinv type quantity symbol hN (le_of_lt hq)] at h
      simp only [Option.some.injEq, Prod.mk.injEq] at h
      rw [← h.2]
      exact hinv.swept _ _ rfl (by simp [Order.create]) symbol (le_of_lt hq) _
    · simp only [placeMarketOrder, if_pos hN, Option.some.injEq, Prod.mk.injEq] at h
      rw [← h.2]
      exact hinv
  | IOC =>
    simp only [StockMatching.placeOrder, Option.some.injEq] at h
    by_cases hN : s.circuitBreaker.status = NORMAL_TRADING
    · rw [placeIOCOrder_eq s type price quantity symbol hN] at h
      simp only [Prod.mk.injEq] at h
      rw [← h.2]
      exact hinv.swept _ _ rfl (by simp [Order.create]) symbol (le_of_lt hq) _
    · simp only [placeIOCOrder, if_pos hN, Prod.mk.injEq] at h
      rw [← h.2]
      exact hinv
  | FOK =>
    simp only [StockMatching.placeOrder, Option.some.injEq] at h
    by_cases hN : s.circuitBreaker.status = NORMAL_TRADING
    · cases hc : canFill (storeOrder s.orderMap
          (Order.create s.nextOrderId type FOK price quantity symbol)) type price quantity
          (bookOf s (opposite type) symbol) 0 with
      | true =>
        have hsw := hinv.sweep (fun p => marketable type p price)
          (Order.create s.nextOrderId type FOK price quantity symbol) rfl symbol (le_of_lt hq)
        rw [placeFOKOrder_feasible s type price quantity symbol hN ⟨_, hsw.taker⟩ hc] at h
        simp only [Prod.mk.injEq] at h
        rw [← h.2]
        exact hinv.swept _ _ rfl (by simp [Order.create]) symbol (le_of_lt hq) _
      | false =>
        rw [placeFOKOrder_infeasible s type price quantity symbol hN hc] at h
        simp only [Prod.mk.injEq] at h
        rw [← h.2]
        refine ⟨fun y => hinv.register_side rfl BUY y, fun y => hinv.register_side rfl SELL y,
          hinv.uncrossed, fun k o hk => ?_⟩
        have hk' : storeOrder s.orderMap
            { Order.create s.nextOrderId type FOK price quantity symbol with
              status := CANCELLED } k = some o := hk
        show k < s.nextOrderId + 1
        by_cases hkn : k = s.nextOrderId
        · omega
        · rw [storeOrder_other _ _ hkn] at hk'
          have := hinv.fresh k o hk'
          omega
    · simp only [placeFOKOrder, if_pos hN, Prod.mk.injEq] at h
      rw [← h.2]
      exact hinv

/-- Every reachable state satisfies the invariant. -/
theorem Reachable.inv {s : OrderBook} (h : Reachable s) : Inv s := by
  induction h with
  | init => exact Inv.init
  | place type variant price quantity symbol _ hq hp ih => exact ih.after_placeOrder hq hp
  | cancel orderId _ ih => exact ih.cancel orderId
  | matchPass symbol _ hm ih =>
    obtain ⟨v', e, _, _, hi⟩ := ih.after_matchOrders symbol
    rw [e] at hm
    rw [← Option.some.inj hm]
    exact hi
  | index newValue currentTime _ ih => exact ⟨ih.buy, ih.sell, ih.uncrossed, ih.fresh⟩
  | band symbol referencePrice bandPercentage _ ih =>
    exact ⟨ih.buy, ih.sell, ih.uncrossed, ih.fresh⟩

end Reach

section Takers

/-- The record of the incoming order in the state after its sweep. -/
theorem sweptState_record {s : OrderBook} {o : Order} {symbol : String} {ok : Int → Bool}
    {q0 : Int} {bk' : SideBook} {w' : Sweep} (g : Order → Order)
    (hsw : BookSwept ok s.nextOrderId o.type symbol o (bookOf s (opposite o.type) symbol)
      ⟨storeOrder s.orderMap o, s.tradeHistory, q0⟩ bk' w') :
    (sweptState s o symbol bk' w' g).orderMap s.nextOrderId =
      some (g { o with filled_quantity := o.filled_quantity + (q0 - w'.remainingQty) }) := by
  show modifyOrder w'.orderMap s.nextOrderId g s.nextOrderId = _
  rw [modifyOrder_same, hsw.taker]
  rfl

/-- Registering the incoming order does not change the liquidity of a book. -/
theorem Inv.prefixLiquidity_register {s : OrderBook} (hinv : Inv s) (ok : Int → Bool) (o : Order)
    (hid : o.id = s.nextOrderId) (sd : OrderType) (symbol : String) :
    prefixLiquidity ok (storeOrder s.orderMap o) (bookOf s sd symbol) =
      prefixLiquidity ok s.orderMap (bookOf s sd symbol) := by
  refine prefixLiquidity_congr fun l hl k hk => storeOrder_other _ _ ?_
  have := hinv.handle_lt hl hk
  omega

/-- The quantity left to an incoming order after its sweep. -/
theorem Inv.sweep_rem {s : OrderBook} (hinv : Inv s) (ok : Int → Bool) (o : Order)
    (hid : o.id = s.nextOrderId) (symbol : String) {q0 : Int} (hq : 0 ≤ q0) :
    (sweepWhile ok s.nextOrderId o.type (bookOf s (opposite o.type) symbol)
        ⟨storeOrder s.orderMap o, s.tradeHistory, q0⟩).2.remainingQty =
      q0 - min q0 (prefixLiquidity ok s.orderMap (bookOf s (opposite o.type) symbol)) := by
  rw [(hinv.sweep ok o hid symbol hq).rem, hinv.prefixLiquidity_register ok o hid]

theorem Inv.marketable_eq {s : OrderBook} (hinv : Inv s) (type : OrderType) (price : Int)
    (symbol : String) :
    prefixLiquidity (fun p => marketable type p price) s.orderMap
        (bookOf s (opposite type) symbol) =
      marketableLiquidity s.orderMap type price (bookOf s (opposite type) symbol) :=
  prefixLiquidity_eq_marketable (hinv.side (opposite type) symbol).sorted

theorem fokFinal_fields (o : Order) :
    (fokFinal o).quantity = o.quantity ∧ (fokFinal o).filled_quantity = o.filled_quantity ∧
    (fokFinal o).id = o.id ∧ (fokFinal o).type = o.type ∧ (fokFinal o).variant = o.variant ∧
    (fokFinal o).price = o.price ∧ (fokFinal o).symbol = o.symbol := by
  have := updateOrderStatus_fields o
  unfold fokFinal
  split_ifs <;> simp [this]

theorem fokFinal_status {o : Order} (hs : o.status ≠ FILLED) :
    (o.quantity ≤ o.filled_quantity → (fokFinal o).status = FILLED) ∧
    (o.filled_quantity < o.quantity → (fokFinal o).status = CANCELLED) := by
  have h := updateOrderStatus_filled_iff hs
  unfold fokFinal
  constructor
  · intro hq
    rw [if_pos (h.mpr hq)]
    exact h.mpr hq
  · intro hq
    rw [if_neg (fun hf => by have := h.mp hf; omega)]

/-- The outcome of an accepted FOK order of positive quantity in a state satisfying the
invariant, by the liquidity `L` at marketable levels: either filled in full, and then
`quantity ≤ L`, or cancelled with nothing filled, and then `L < quantity` unless `L` is
outside the range of the `int` the scan sums in. -/
theorem Inv.placeFOK {s : OrderBook} (hinv : Inv s) (type : OrderType) (price quantity : Int)
    (symbol : String) (hq : 0 < quantity) (hN : s.circuitBreaker.status = NORMAL_TRADING) :
    (placeFOKOrder s type price quantity symbol).1 = s.nextOrderId ∧
    ∃ o, (placeFOKOrder s type price quantity symbol).2.orderMap s.nextOrderId = some o ∧
      o.quantity = quantity ∧
      ((quantity ≤ marketableLiquidity s.orderMap type price (bookOf s (opposite type) symbol) ∧
          o.filled_quantity = quantity ∧ o.status = FILLED) ∨
        ((marketableLiquidity s.orderMap type price (bookOf s (opposite type) symbol) <
              2147483648 →
            marketableLiquidity s.orderMap type price (bookOf s (opposite type) symbol) <
              quantity) ∧
          o.filled_quantity = 0 ∧ o.status = CANCELLED)) := by
  have hsound := canFill_sound (storeOrder s.orderMap
      (Order.create s.nextOrderId type FOK price quantity symbol)) type symbol price quantity
      (bookOf s (opposite type) symbol) 0 (by omega)
      (hinv.register_side rfl (opposite type) symbol)
  have hiff := canFill_iff (storeOrder s.orderMap
      (Order.create s.nextOrderId type FOK price quantity symbol)) type symbol price quantity
      (bookOf s (opposite type) symbol) 0 (by omega) hq
      (hinv.register_side rfl (opposite type) symbol)
  rw [hinv.prefixLiquidity_register _ _ rfl, hinv.marketable_eq] at hiff hsound
  cases hc : canFill (storeOrder s.orderMap
      (Order.create s.nextOrderId type FOK price quantity symbol)) type price quantity
      (bookOf s (opposite type) symbol) 0 with
  | true =>
    have hL := hsound hc
    have hsw := hinv.sweep (fun p => marketable type p price)
      (Order.create s.nextOrderId type FOK price quantity symbol) rfl symbol (le_of_lt hq)
    have hrem : (sweepWhile (fun p => marketable type p price) s.nextOrderId type
        (bookOf s (opposite type) symbol)
        ⟨storeOrder s.orderMap (Order.create s.nextOrderId type FOK price quantity symbol),
          s.tradeHistory, quantity⟩).2.remainingQty = quantity - min quantity
        (prefixLiquidity (fun p => marketable type p price) s.orderMap
          (bookOf s (opposite type) symbol)) :=
      hinv.sweep_rem (fun p => marketable type p price)
        (Order.create s.nextOrderId type FOK price quantity symbol) rfl symbol (le_of_lt hq)
    rw [hinv.marketable_eq] at hrem
    rw [placeFOKOrder_feasible s type price quantity symbol hN ⟨_, hsw.taker⟩ hc]
    refine ⟨rfl, _, sweptState_record fokFinal hsw, ?_, Or.inl ⟨by omega, ?_, ?_⟩⟩
    · rw [(fokFinal_fields _).1]
      rfl
    · rw [(fokFinal_fields _).2.1]
      show 0 + (quantity - _) = quantity
      rw [hrem]
      omega
    · refine (fokFinal_status (by simp [Order.create])).1 ?_
      show quantity ≤ 0 + (quantity - _)
      rw [hrem]
      omega
  | false =>
    have hL : marketableLiquidity s.orderMap type price (bookOf s (opposite type) symbol) <
          2147483648 →
        ¬ quantity ≤ 0 + marketableLiquidity s.orderMap type price
          (bookOf s (opposite type) symbol) := fun hr h => by
      have := (hiff (by omega)).mpr h
      rw [hc] at this
      exact Bool.false_ne_true this
    rw [placeFOKOrder_infeasible s type price quantity symbol hN hc]
    exact ⟨rfl, { Order.create s.nextOrderId type FOK price quantity symbol with
      status := CANCELLED }, by simp [storeOrder, Order.create], rfl,
      Or.inr ⟨fun hr => by have := hL hr; omega, rfl, rfl⟩⟩

theorem canFill_congr {m m' : OrderMap} (side : OrderType) (limit quantity : Int)
    (bk : SideBook) (hm : ∀ l ∈ bk, ∀ h ∈ l.2, m' h = m h) :
    ∀ a : Int, canFill m' side limit quantity bk a = canFill m side limit quantity bk a := by
  induction bk with
  | nil => intro a; rfl
  | cons l rest ih =>
    obtain ⟨p, q⟩ := l
    intro a
    simp only [canFill]
    rw [scanLevel_congr (hm (p, q) (List.mem_cons_self _ _)),
      ih (fun l hl => hm l (List.mem_cons_of_mem _ hl))]

theorem iocFinal_fields (o : Order) :
    (iocFinal o).quantity = o.quantity ∧ (iocFinal o).filled_quantity = o.filled_quantity := by
  have := updateOrderStatus_fields o
  unfold iocFinal
  split_ifs <;> simp [this]

theorem iocFinal_status {o : Order} (hs : o.status = ACTIVE) :
    (o.quantity ≤ o.filled_quantity → (iocFinal o).status = FILLED) ∧
    (o.filled_quantity < o.quantity → 0 < o.filled_quantity →
      (iocFinal o).status = CANCELLED) ∧
    (o.filled_quantity < o.quantity → o.filled_quantity ≤ 0 → (iocFinal o).status = ACTIVE) := by
  unfold iocFinal updateOrderStatus
  refine ⟨fun h => ?_, fun h1 h2 => ?_, fun h1 h2 => ?_⟩
  · simp [h]
  · have : ¬ o.filled_quantity ≥ o.quantity := by omega
    simp [this, h2]
  · have h3 : ¬ o.filled_quantity ≥ o.quantity := by omega
    have h4 : ¬ o.filled_quantity > 0 := by omega
    simp [h3, h4, hs]

theorem marketFinal_fields (o : Order) :
    (marketFinal o).quantity = o.quantity ∧
      (marketFinal o).filled_quantity = o.filled_quantity := by
  have := updateOrderStatus_fields o
  unfold marketFinal
  split_ifs <;> simp [this]

end Takers

section Incoming

theorem eq_singleton_of_subset {l : List Int} {n : Int} (hne : l ≠ []) (hnd : l.Nodup)
    (hsub : ∀ h ∈ l, h ∈ [n]) : l = [n] := by
  cases l with
  | nil => exact absurd rfl hne
  | cons x xs =>
    have hx : x = n := List.mem_singleton.mp (hsub x (List.mem_cons_self _ _))
    cases xs with
    | nil => rw [hx]
    | cons y ys =>
      have hy : y = n := List.mem_singleton.mp
        (hsub y (List.mem_cons_of_mem _ (List.mem_cons_self _ _)))
      have := (List.nodup_cons.mp hnd).1
      rw [hx, hy] at this
      exact absurd (List.mem_cons_self _ _) this

/-- One run of the loop body keeps `OnlyNewCrosses`, and the trade it makes, if any, is a
trade of the incoming order. -/
theorem OnlyNewCrosses.stepCrosses {type : OrderType} {P n : Int} {symbol : String}
    {v v' : SymbolView} (hJ : OnlyNewCrosses type P n v) (hv : ViewOK symbol v)
    (h : matchStep symbol v = some v') :
    OnlyNewCrosses type P n v' ∧ ∀ t, HeadTrade symbol v t → ByIncoming type P n t := by
  have r := matchStep_spec hv h
  constructor
  · intro bl' hbl' sl' hsl' hc
    obtain ⟨bl, hbl, eb, sb⟩ := r.buy_sub bl' hbl'
    obtain ⟨sl, hsl, es, ss⟩ := r.sell_sub sl' hsl'
    have hJ' := hJ bl hbl sl hsl (by omega)
    cases type with
    | BUY =>
      simp only at hJ' ⊢
      have hlev := r.view_ok.buy.levels bl' hbl'
      rw [hJ'] at eb sb
      have := eq_singleton_of_subset hlev.nonempty hlev.nodup sb
      exact Prod.ext eb.symm this
    | SELL =>
      simp only at hJ' ⊢
      have hlev := r.view_ok.sell.levels sl' hsl'
      rw [hJ'] at es ss
      have := eq_singleton_of_subset hlev.nonempty hlev.nodup ss
      exact Prod.ext es.symm this
  · intro t ht
    obtain ⟨bp, b, bq, brest, sp, a, sq, srest, hb, hs, hc, e1, e2, _, e4, _⟩ := ht
    have hJ' := hJ (bp, b :: bq) (by rw [hb]; exact List.mem_cons_self _ _) (sp, a :: sq)
      (by rw [hs]; exact List.mem_cons_self _ _) hc
    cases type with
    | BUY =>
      simp only [Prod.mk.injEq, List.cons.injEq] at hJ'
      exact e1.trans hJ'.2.1
    | SELL =>
      simp only [Prod.mk.injEq, List.cons.injEq] at hJ'
      exact ⟨e2.trans hJ'.2.1, e4.trans hJ'.1⟩

/-- After a limit order is queued in a state satisfying the invariant, only its own level
can cross the other side. -/
theorem Inv.onlyNewCrosses {s : OrderBook} (hinv : Inv s) (o : Order) (type : OrderType)
    (price : Int) (symbol : String) :
    OnlyNewCrosses type price s.nextOrderId
      (((s.register o).enqueue type price s.nextOrderId symbol).view symbol) := by
  intro bl hbl sl hsl hc
  have hu := hinv.uncrossed symbol
  rw [bookOf_view_buy, bookOf_enqueue, bookOf_register] at hbl
  rw [bookOf_view_sell, bookOf_enqueue, bookOf_register] at hsl
  cases type with
  | BUY =>
    rw [if_pos ⟨rfl, rfl⟩] at hbl
    rw [if_neg (by simp)] at hsl
    rcases insertOrder_mem hbl with hbl | hbl | ⟨q, hq, hbl⟩
    · have := hu bl hbl sl hsl
      omega
    · exact hbl
    · have := hu _ hq sl hsl
      rw [hbl] at hc
      simp only at this hc
      omega
  | SELL =>
    rw [if_neg (by simp)] at hbl
    rw [if_pos ⟨rfl, rfl⟩] at hsl
    rcases insertOrder_mem hsl with hsl | hsl | ⟨q, hq, hsl⟩
    · have := hu bl hbl sl hsl
      omega
    · exact hsl
    · have := hu bl hbl _ hq
      rw [hsl] at hc
      simp only at this hc
      omega

/-- The trades of the matching pass run after a limit order is queued: each is a trade
of the incoming order, between orders held in the books the pass started from. -/
theorem matchLoop_byIncoming {type : OrderType} {P n : Int} {symbol : String} {k : Nat}
    {v0 v' : SymbolView} (hv : ViewOK symbol v0) (hJ : OnlyNewCrosses type P n v0)
    (h : matchLoop symbol k v0 = some v') :
    ∃ new, v'.tradeHistory = v0.tradeHistory ++ new ∧
      ∀ t ∈ new, TradeIn symbol v0 t ∧ ByIncoming type P n t := by
  have key := matchLoop_invariant
    (fun v => MatchLooped symbol v0 v ∧ OnlyNewCrosses type P n v ∧
      ∃ new, v.tradeHistory = v0.tradeHistory ++ new ∧
        ∀ t ∈ new, TradeIn symbol v0 t ∧ ByIncoming type P n t)
    (fun v v1 hI hs => by
      obtain ⟨hL, hJv, new, hn, hall⟩ := hI
      have r := matchStep_spec hL.view_ok hs
      obtain ⟨hJ1, hby⟩ := hJv.stepCrosses hL.view_ok hs
      refine ⟨hL.stepLooped hs, hJ1, ?_⟩
      rcases r.trades with e | ⟨t, e, ht⟩
      · exact ⟨new, by rw [e, hn], hall⟩
      · refine ⟨new ++ [t], by rw [e, hn, List.append_assoc], fun t' ht' => ?_⟩
        rcases List.mem_append.mp ht' with ht' | ht'
        · exact hall t' ht'
        · rw [List.mem_singleton.mp ht']
          exact ⟨ht.tradeIn.mono hL.buy_sub hL.sell_sub, hby t ht⟩)
    k v0 v' ⟨MatchLooped.start hv, hJ, [], by simp, by simp⟩ h
  exact key.1.2.2

end Incoming

section LimitTrades

/-- The trades appended by the placement of a limit order of positive quantity in a state
satisfying the invariant: each is between the incoming order and an order of the other
side that was resting before, at the limit price of the seller. -/
theorem Inv.limit_trades {s s' : OrderBook} (hinv : Inv s) {type : OrderType}
    {price quantity : Int} {symbol : String} {id : Int} (hq : 0 < quantity)
    (h : StockMatching.placeOrder s type LIMIT price quantity symbol = some (id, s')) :
    ∃ new, s'.tradeHistory = s.tradeHistory ++ new ∧
      ∀ t ∈ new,
        (type = BUY → t.buyOrderId = id ∧
          ∃ o, s.orderMap t.sellOrderId = some o ∧ o.type = SELL ∧ o.price = t.price ∧
            o.id = t.sellOrderId) ∧
        (type = SELL → t.sellOrderId = id ∧ t.price = price ∧
          ∃ o, s.orderMap t.buyOrderId = some o ∧ o.type = BUY ∧ price ≤ o.price ∧
            o.id = t.buyOrderId) := by
  simp only [StockMatching.placeOrder] at h
  by_cases h1 : s.circuitBreaker.status = CIRCUIT_HALT ∨ s.circuitBreaker.status = CLOSED
  · simp only [placeLimitOrder, if_pos h1, Option.some.injEq, Prod.mk.injEq] at h
    exact ⟨[], by rw [← h.2]; simp, by simp⟩
  by_cases h2 : s.circuitBreaker.status = PRE_OPEN_AUCTION
  · simp only [placeLimitOrder, if_neg h1, if_pos h2, Option.some.injEq, Prod.mk.injEq] at h
    exact ⟨[], by rw [← h.2]; simp, by simp⟩
  by_cases h3 : bandViolation s price symbol = true
  · simp only [placeLimitOrder, if_neg h1, if_neg h2, if_pos h3, Option.some.injEq,
      Prod.mk.injEq] at h
    exact ⟨[], by rw [← h.2]; simp, by simp⟩
  obtain ⟨v', e, _, _, _, hloop, hv⟩ := hinv.placeLimit type price quantity symbol hq h1 h2
    (by simpa using h3)
  rw [e] at h
  simp only [Option.some.injEq, Prod.mk.injEq] at h
  obtain ⟨hid, hs'⟩ := h
  obtain ⟨new, hn, hall⟩ := matchLoop_byIncoming hv
    (hinv.onlyNewCrosses (Order.create s.nextOrderId type LIMIT price quantity symbol) type
      price symbol) hloop
  refine ⟨new, ?_, fun t ht => ?_⟩
  · rw [← hs']
    cases type <;> exact hn
  · obtain ⟨⟨bl, hbl, sl, hsl, m1, m2, e3, e4, _⟩, hby⟩ := hall t ht
    rw [bookOf_view_buy, bookOf_enqueue, bookOf_register] at hbl
    rw [bookOf_view_sell, bookOf_enqueue, bookOf_register] at hsl
    constructor
    · intro ht
      subst ht
      rw [if_neg (by simp)] at hsl
      obtain ⟨o, ho, ro⟩ := ((hinv.side SELL symbol).levels sl hsl).resting _ m2
      exact ⟨hby.trans hid, o, ho, ro.type_eq, ro.price_eq.trans e3.symm, ro.id_eq⟩
    · intro ht
      subst ht
      rw [if_neg (by simp)] at hbl
      obtain ⟨o, ho, ro⟩ := ((hinv.side BUY symbol).levels bl hbl).resting _ m1
      have hby' : t.sellOrderId = s.nextOrderId ∧ t.price = price := hby
      refine ⟨hby'.1.trans hid, hby'.2, o, ho, ro.type_eq, ?_, ro.id_eq⟩
      rw [ro.price_eq, ← hby'.2, e3]
      exact e4

end LimitTrades

section BestTrades

theorem HeadTrade.best {symbol : String} {v : SymbolView} {t : Trade} (hv : ViewOK symbol v)
    (h : HeadTrade symbol v t) : BestTrade symbol v t := by
  obtain ⟨bp, b, bq, brest, sp, a, sq, srest, hb, hs, hc, e1, e2, e3, e4, e5⟩ := h
  have hsl := hv.sell.levels (sp, a :: sq) (by rw [hs]; exact List.mem_cons_self _ _)
  have hbl := hv.buy.levels (bp, b :: bq) (by rw [hb]; exact List.mem_cons_self _ _)
  obtain ⟨oa, hoa, ra⟩ := hsl.resting a (List.mem_cons_self _ _)
  obtain ⟨ob, hob, rb⟩ := hbl.resting b (List.mem_cons_self _ _)
  have hss := hv.sell.sorted
  have hbs := hv.buy.sorted
  rw [hs] at hss
  rw [hb] at hbs
  refine ⟨⟨bp, b, bq, brest, sp, a, sq, srest, hb, hs, hc, e1, e2, e3, e4, e5⟩,
    fun l hl => ?_, ?_, fun l hl => ?_⟩
  · rw [hs] at hl
    rw [e4]
    rcases List.mem_cons.mp hl with e | hl
    · rw [e]
    · have := (List.pairwise_cons.mp hss).1 l hl
      simp only [better, decide_eq_true_eq] at this
      omega
  · rw [e2, deref_of_some hoa, e4]
    exact ra.price_eq
  · rw [hb] at hl
    rw [e1, deref_of_some hob, rb.price_eq]
    rcases List.mem_cons.mp hl with e | hl
    · rw [e]
    · have := (List.pairwise_cons.mp hbs).1 l hl
      simp only [better, decide_eq_true_eq] at this
      omega

/-- Every trade of a run of the matching loop is made, at one of the views the loop passes
through, between the best bid and the best ask of that view. -/
theorem matchLoop_bestTrades {symbol : String} {k : Nat} {v0 v' : SymbolView}
    (hv : ViewOK symbol v0) (h : matchLoop symbol k v0 = some v') :
    ∃ new, v'.tradeHistory = v0.tradeHistory ++ new ∧
      ∀ t ∈ new, ∃ v, PassView symbol v0 v ∧ BestTrade symbol v t := by
  have key := matchLoop_invariant
    (fun v => PassView symbol v0 v ∧ MatchLooped symbol v0 v ∧
      ∃ new, v.tradeHistory = v0.tradeHistory ++ new ∧
        ∀ t ∈ new, ∃ u, PassView symbol v0 u ∧ BestTrade symbol u t)
    (fun v v1 hI hs => by
      obtain ⟨hP, hL, new, hn, hall⟩ := hI
      have r := matchStep_spec hL.view_ok hs
      refine ⟨PassView.next hP hs, hL.stepLooped hs, ?_⟩
      rcases r.trades with e | ⟨t, e, ht⟩
      · exact ⟨new, by rw [e, hn], hall⟩
      · refine ⟨new ++ [t], by rw [e, hn, List.append_assoc], fun t' ht' => ?_⟩
        rcases List.mem_append.mp ht' with ht' | ht'
        · exact hall t' ht'
        · rw [List.mem_singleton.mp ht']
          exact ⟨v, hP, ht.best hL.view_ok⟩)
    k v0 v' ⟨PassView.start, MatchLooped.start hv, [], by simp, by simp⟩ h
  exact key.1.2.2

/-- The trades appended by the placement of a limit order of positive quantity in a state
satisfying the invariant: each is made, at one of the views the matching pass goes through
from the books with the order queued, between the best bid and the best ask of that view. -/
theorem Inv.limit_best {s s' : OrderBook} (hinv : Inv s) {type : OrderType}
    {price quantity : Int} {symbol : String} {id : Int} (hq : 0 < quantity)
    (h : StockMatching.placeOrder s type LIMIT price quantity symbol = some (id, s')) :
    ∃ new, s'.tradeHistory = s.tradeHistory ++ new ∧
      ∀ t ∈ new, ∃ v,
        PassView symbol
          (((s.register (Order.create s.nextOrderId type LIMIT price quantity symbol)).enqueue
            type price s.nextOrderId symbol).view symbol) v ∧
        BestTrade symbol v t := by
  simp only [StockMatching.placeOrder] at h
  by_cases h1 : s.circuitBreaker.status = CIRCUIT_HALT ∨ s.circuitBreaker.status = CLOSED
  · simp only [placeLimitOrder, if_pos h1, Option.some.injEq, Prod.mk.injEq] at h
    exact ⟨[], by rw [← h.2]; simp, by simp⟩
  by_cases h2 : s.circuitBreaker.status = PRE_OPEN_AUCTION
  · simp only [placeLimitOrder, if_neg h1, if_pos h2, Option.some.injEq, Prod.mk.injEq] at h
    exact ⟨[], by rw [← h.2]; simp, by simp⟩
  by_cases h3 : bandViolation s price symbol = true
  · simp only [placeLimitOrder, if_neg h1, if_neg h2, if_pos h3, Option.some.injEq,
      Prod.mk.injEq] at h
    exact ⟨[], by rw [← h.2]; simp, by simp⟩
  obtain ⟨v', e, _, _, _, hloop, hv⟩ := hinv.placeLimit type price quantity symbol hq h1 h2
    (by simpa using h3)
  rw [e] at h
  simp only [Option.some.injEq, Prod.mk.injEq] at h
  obtain ⟨_, hs'⟩ := h
  obtain ⟨new, hn, hall⟩ := matchLoop_bestTrades hv hloop
  refine ⟨new, ?_, hall⟩
  rw [← hs']
  cases type <;> exact hn

end BestTrades

section Claims

theorem placeAll_reachable (l : List (OrderType × OrderVariant × Int × Int × String)) :
    ∀ s s', Reachable s → (∀ e ∈ l, 0 < e.2.2.2.1) → placeAll s l = some s' → Reachable s' := by
  induction l with
  | nil =>
    intro s s' hs _ h
    simp only [placeAll, Option.some.injEq] at h
    rw [← h]
    exact hs
  | cons e rest ih =>
    obtain ⟨t, v, p, q, sym⟩ := e
    intro s s' hs hpos h
    simp only [placeAll] at h
    cases hp : placeOrder s t v p q sym with
    | none => rw [hp] at h; exact absurd h (by simp)
    | some r =>
      rw [hp] at h
      obtain ⟨id, s1⟩ := r
      exact ih s1 s' (Reachable.place t v p q sym hs (hpos _ (List.mem_cons_self _ _)) hp)
        (fun e he => hpos e (List.mem_cons_of_mem _ he)) h

theorem runAll_reachable (l : List (OrderType × OrderVariant × Int × Int × String))
    (hpos : ∀ e ∈ l, 0 < e.2.2.2.1) (hsome : (placeAll OrderBook.init l).isSome = true) :
    Reachable (runAll OrderBook.init l) := by
  obtain ⟨s', hs'⟩ := Option.isSome_iff_exists.mp hsome
  have : runAll OrderBook.init l = s' := by simp [runAll, hs']
  rw [this]
  exact placeAll_reachable l _ _ Reachable.init hpos hs'

theorem restingBook_reachable : Reachable restingBook :=
  runAll_reachable _ (by decide) (by decide)

/-- C1: price-time priority inside a level. In every reachable state and every price-level
queue of either side, if an order that is not cancelled sits ahead of another order, the
order behind has filled quantity zero. -/
theorem c1_price_time_priority (s : OrderBook) (h : Reachable s) (side : OrderType)
    (symbol : String) :
    ∀ l ∈ bookOf s side symbol,
      l.2.Pairwise fun h1 h2 =>
        (deref s.orderMap h1).status ≠ CANCELLED → (deref s.orderMap h2).filled_quantity = 0 :=
  fun l hl => ((h.inv.side side symbol).levels l hl).priority

/-- C1 at a concrete book: bids 1 and 2 queue at one price, bid 1 is partly filled, and
bid 2 behind it has nothing filled. -/
theorem c1_price_time_priority_witness :
    Reachable restingBook ∧ bookOf restingBook BUY "AAPL" = [(10000, [1, 2])] ∧
    (deref restingBook.orderMap 1).filled_quantity = 3 ∧
    ∀ l ∈ bookOf restingBook BUY "AAPL",
      l.2.Pairwise fun h1 h2 =>
        (deref restingBook.orderMap h1).status ≠ CANCELLED →
          (deref restingBook.orderMap h2).filled_quantity = 0 :=
  ⟨restingBook_reachable, by decide, by decide,
    c1_price_time_priority restingBook restingBook_reachable BUY "AAPL"⟩


theorem amznBook_reachable : Reachable amznBook :=
  runAll_reachable _ (by decide) (by decide)

theorem msftBook_reachable : Reachable msftBook :=
  runAll_reachable _ (by decide) (by decide)

/-- C5: FOK is all-or-nothing. A FOK order of positive quantity accepted in a reachable
state ends either filled in full with status FILLED, or with nothing filled and status
CANCELLED. -/
theorem c5_fok_all_or_nothing (s : OrderBook) (h : Reachable s) (type : OrderType)
    (price quantity : Int) (symbol : String) (hq : 0 < quantity)
    (hN : s.circuitBreaker.status = NORMAL_TRADING) :
    ∃ s' o, placeOrder s type FOK price quantity symbol = some (s.nextOrderId, s') ∧
      s'.orderMap s.nextOrderId = some o ∧ o.quantity = quantity ∧
      ((o.filled_quantity = o.quantity ∧ o.status = FILLED) ∨
        (o.filled_quantity = 0 ∧ o.status = CANCELLED)) := by
  obtain ⟨h1, o, h2, h3, h4⟩ := h.inv.placeFOK type price quantity symbol hq hN
  refine ⟨(placeFOKOrder s type price quantity symbol).2, o, ?_, h2, h3, ?_⟩
  · simp only [placeOrder, Option.some.injEq]
    rw [← h1]
  · rcases h4 with ⟨_, a, b⟩ | ⟨_, a, b⟩
    · exact Or.inl ⟨a.trans h3.symm, b⟩
    · exact Or.inr ⟨a, b⟩

/-- C5 at test case 4 of `main`: BUY FOK 151.00 x 5 against asks 151.00 x 5, 152.00 x 5. -/
theorem c5_fok_all_or_nothing_witness :
    Reachable amznBook ∧ (0 : Int) < 5 ∧ amznBook.circuitBreaker.status = NORMAL_TRADING ∧
    ∃ s' o, placeOrder amznBook BUY FOK 15100 5 "AMZN" = some (amznBook.nextOrderId, s') ∧
      s'.orderMap amznBook.nextOrderId = some o ∧ o.quantity = 5 ∧
      ((o.filled_quantity = o.quantity ∧ o.status = FILLED) ∨
        (o.filled_quantity = 0 ∧ o.status = CANCELLED)) :=
  ⟨amznBook_reachable, by decide, by decide,
    c5_fok_all_or_nothing amznBook amznBook_reachable BUY 15100 5 "AMZN" (by decide)
      (by decide)⟩

theorem largeAsks_reachable : Reachable largeAsks :=
  runAll_reachable _ (by decide) (by decide)

/-- C6, the code at the failing input: with two asks of 2000000000 at 100.00 resting, the
marketable quantities add up to 4000000000, yet BUY FOK 100.00 x 2100000000 is not filled:
the scan adds the quantities up in an `int`, which holds -294967296 after the second ask,
and the order ends CANCELLED with nothing filled and no trade. -/
theorem c6_fok_scan_overflow :
    Reachable largeAsks ∧ largeAsks.circuitBreaker.status = NORMAL_TRADING ∧
    marketableLiquidity largeAsks.orderMap BUY 10000 (bookOf largeAsks (opposite BUY) "AAPL") =
      4000000000 ∧
    (2100000000 : Int) ≤
      marketableLiquidity largeAsks.orderMap BUY 10000 (bookOf largeAsks (opposite BUY) "AAPL") ∧
    bookOf largeAsks (opposite BUY) "AAPL" = [(10000, [1, 2])] ∧
    scanLevel largeAsks.orderMap [1, 2] 0 = -294967296 ∧
    canFill largeAsks.orderMap BUY 10000 2100000000 (bookOf largeAsks (opposite BUY) "AAPL") 0 =
      false ∧
    (placeOrder largeAsks BUY FOK 10000 2100000000 "AAPL").map
        (fun r => (r.1, r.2.tradeHistory, r.2.orderMap r.1)) =
      some (3, [], some ⟨3, BUY, FOK, 10000, 2100000000, 0, CANCELLED, "AAPL"⟩) :=
  ⟨largeAsks_reachable, by decide, by decide, by decide, by decide, by decide, by decide,
    by decide⟩

/-- The FOK feasibility rule where the sum of the scan stays in the range of `int`. A FOK order
of positive quantity accepted in a reachable state ends FILLED only if the remaining
quantities of the non-cancelled resting orders of the opposite side at marketable price
levels add up to its quantity or more; and when these quantities add up to less than 2^31
it ends FILLED exactly when they add up to its quantity or more. -/
theorem fok_feasibility_in_range (s : OrderBook) (h : Reachable s) (type : OrderType)
    (price quantity : Int) (symbol : String) (hq : 0 < quantity)
    (hN : s.circuitBreaker.status = NORMAL_TRADING) :
    ∃ s' o, placeOrder s type FOK price quantity symbol = some (s.nextOrderId, s') ∧
      s'.orderMap s.nextOrderId = some o ∧
      (o.status = FILLED →
        quantity ≤ marketableLiquidity s.orderMap type price
          (bookOf s (opposite type) symbol)) ∧
      (marketableLiquidity s.orderMap type price (bookOf s (opposite type) symbol) <
          2147483648 →
        (o.status = FILLED ↔
          quantity ≤ marketableLiquidity s.orderMap type price
            (bookOf s (opposite type) symbol))) := by
  obtain ⟨h1, o, h2, _, h4⟩ := h.inv.placeFOK type price quantity symbol hq hN
  refine ⟨(placeFOKOrder s type price quantity symbol).2, o, ?_, h2, ?_, ?_⟩
  · simp only [placeOrder, Option.some.injEq]
    rw [← h1]
  · rcases h4 with ⟨a, _, _⟩ | ⟨_, _, b⟩
    · exact fun _ => a
    · intro hf
      rw [b] at hf
      exact absurd hf (by decide)
  · intro hr
    rcases h4 with ⟨a, _, b⟩ | ⟨a, _, b⟩
    · exact ⟨fun _ => a, fun _ => b⟩
    · constructor
      · intro hf
        rw [b] at hf
        exact absurd hf (by decide)
      · intro hle
        have := a hr
        omega

/-- The FOK feasibility rule at test case 4 of `main`: 5 are on offer at or below 151.00, so
BUY FOK 151.00 x 10 is not filled. -/
theorem fok_feasibility_amzn :
    Reachable amznBook ∧ (0 : Int) < 10 ∧ amznBook.circuitBreaker.status = NORMAL_TRADING ∧
    marketableLiquidity amznBook.orderMap BUY 15100 (bookOf amznBook (opposite BUY) "AMZN") = 5 ∧
    ∃ s' o, placeOrder amznBook BUY FOK 15100 10 "AMZN" = some (amznBook.nextOrderId, s') ∧
      s'.orderMap amznBook.nextOrderId = some o ∧
      (o.status = FILLED →
        10 ≤ marketableLiquidity amznBook.orderMap BUY 15100
          (bookOf amznBook (opposite BUY) "AMZN")) ∧
      (marketableLiquidity amznBook.orderMap BUY 15100 (bookOf amznBook (opposite BUY) "AMZN") <
          2147483648 →
        (o.status = FILLED ↔
          10 ≤ marketableLiquidity amznBook.orderMap BUY 15100
            (bookOf amznBook (opposite BUY) "AMZN"))) :=
  ⟨amznBook_reachable, by decide, by decide, by decide,
    fok_feasibility_in_range amznBook amznBook_reachable BUY 15100 10 "AMZN" (by decide)
      (by decide)⟩

/-- C7: an infeasible FOK order leaves the market untouched. When the feasibility scan
fails in a reachable state, the placement returns the next id and changes nothing but the
id counter and the order's own record, which is CANCELLED with nothing filled: the trade
log, both side books (of every symbol) and every other order are as before. -/
theorem c7_fok_infeasible_frame (s : OrderBook) (h : Reachable s) (type : OrderType)
    (price quantity : Int) (symbol : String) (hN : s.circuitBreaker.status = NORMAL_TRADING)
    (hscan : canFill s.orderMap type price quantity (bookOf s (opposite type) symbol) 0
      = false) :
    ∃ s', placeOrder s type FOK price quantity symbol = some (s.nextOrderId, s') ∧
      s'.tradeHistory = s.tradeHistory ∧ s'.buyOrders = s.buyOrders ∧
      s'.sellOrders = s.sellOrders ∧
      (∀ k, k ≠ s.nextOrderId → s'.orderMap k = s.orderMap k) ∧
      s'.orderMap s.nextOrderId =
        some ⟨s.nextOrderId, type, FOK, price, quantity, 0, CANCELLED, symbol⟩ ∧
      s'.nextOrderId = s.nextOrderId + 1 ∧ s'.circuitBreaker = s.circuitBreaker ∧
      s'.referencePrices = s.referencePrices ∧
      s'.priceBandPercentages = s.priceBandPercentages := by
  have hc : canFill (storeOrder s.orderMap
      (Order.create s.nextOrderId type FOK price quantity symbol)) type price quantity
      (bookOf s (opposite type) symbol) 0 = false := by
    rw [← hscan]
    refine canFill_congr type price quantity _ (fun l hl k hk => storeOrder_other _ _ ?_) 0
    have := h.inv.handle_lt hl hk
    show k ≠ s.nextOrderId
    omega
  refine ⟨{ s with
      nextOrderId := s.nextOrderId + 1
      orderMap := storeOrder s.orderMap
        { Order.create s.nextOrderId type FOK price quantity symbol with
          status := CANCELLED } }, ?_, rfl, rfl, rfl, fun k hk => ?_, ?_, rfl, rfl, rfl, rfl⟩
  · simp only [placeOrder, Option.some.injEq]
    exact placeFOKOrder_infeasible s type price quantity symbol hN hc
  · exact storeOrder_other _ _ hk
  · simp [storeOrder, Order.create]

/-- C7 at test case 4 of `main`: BUY FOK 151.00 x 10 when only 5 are on offer. -/
theorem c7_fok_infeasible_frame_witness :
    Reachable amznBook ∧ amznBook.circuitBreaker.status = NORMAL_TRADING ∧
    canFill amznBook.orderMap BUY 15100 10 (bookOf amznBook (opposite BUY) "AMZN") 0 = false ∧
    ∃ s', placeOrder amznBook BUY FOK 15100 10 "AMZN" = some (amznBook.nextOrderId, s') ∧
      s'.tradeHistory = amznBook.tradeHistory ∧ s'.buyOrders = amznBook.buyOrders ∧
      s'.sellOrders = amznBook.sellOrders ∧
      (∀ k, k ≠ amznBook.nextOrderId → s'.orderMap k = amznBook.orderMap k) ∧
      s'.orderMap amznBook.nextOrderId =
        some ⟨amznBook.nextOrderId, BUY, FOK, 15100, 10, 0, CANCELLED, "AMZN"⟩ ∧
      s'.nextOrderId = amznBook.nextOrderId + 1 ∧
      s'.circuitBreaker = amznBook.circuitBreaker ∧
      s'.referencePrices = amznBook.referencePrices ∧
      s'.priceBandPercentages = amznBook.priceBandPercentages :=
  ⟨amznBook_reachable, by decide, by decide,
    c7_fok_infeasible_frame amznBook amznBook_reachable BUY 15100 10 "AMZN" (by decide)
      (by decide)⟩

/-- C8, the code at the failing input: on a fresh engine (no bids), SELL IOC 50.00 x 7 gets
no fill and its status stays ACTIVE instead of becoming CANCELLED. -/
theorem c8_ioc_unfilled_stays_active :
    ((placeOrder OrderBook.init SELL IOC 5000 7 "GOOG").bind fun r => r.2.orderMap r.1).map
      (fun o => (o.status, o.filled_quantity, o.quantity)) = some (ACTIVE, 0, 7) := by
  decide


/-- C4: no matching pass ends with a crossed book. In every reachable state, a call of
`matchOrders(symbol)` returns, and so does the placement of a LIMIT order of positive
quantity with the matching pass it triggers; when either returns, the symbol's buy side is
empty, or its sell side is empty, or the best bid is priced strictly below the best
ask. -/
theorem c4_no_crossed_book (s : OrderBook) (h : Reachable s) (symbol : String) :
    (∃ s', matchOrders s symbol = some s' ∧ NotCrossed s' symbol) ∧
    ∀ (type : OrderType) (price quantity : Int), 0 < quantity →
      ∃ r, placeOrder s type LIMIT price quantity symbol = some r ∧ NotCrossed r.2 symbol := by
  have key : ∀ s1 : OrderBook, Inv s1 → NotCrossed s1 symbol := by
    intro s1 h1
    have hu := h1.uncrossed symbol
    unfold NotCrossed
    cases hb : s1.buyOrders symbol with
    | nil => exact Or.inl rfl
    | cons bl brest =>
      cases hs : s1.sellOrders symbol with
      | nil => exact Or.inr (Or.inl rfl)
      | cons sl srest =>
        refine Or.inr (Or.inr ⟨bl.1, sl.1, rfl, rfl, ?_⟩)
        exact hu bl (by rw [hb]; exact List.mem_cons_self _ _) sl
          (by rw [hs]; exact List.mem_cons_self _ _)
  constructor
  · obtain ⟨v', e, _, _, hi⟩ := h.inv.after_matchOrders symbol
    exact ⟨_, e, key _ hi⟩
  · intro type price quantity hq
    have hex : ∃ r, placeOrder s type LIMIT price quantity symbol = some r := by
      simp only [placeOrder]
      by_cases h1 : s.circuitBreaker.status = CIRCUIT_HALT ∨ s.circuitBreaker.status = CLOSED
      · exact ⟨(-1, s), by simp only [placeLimitOrder, if_pos h1]⟩
      by_cases h2 : s.circuitBreaker.status = PRE_OPEN_AUCTION
      · exact ⟨(-1, s), by simp only [placeLimitOrder, if_neg h1, if_pos h2]⟩
      by_cases h3 : bandViolation s price symbol = true
      · exact ⟨(-1, s), by simp only [placeLimitOrder, if_neg h1, if_neg h2, if_pos h3]⟩
      obtain ⟨v', e, _⟩ := h.inv.placeLimit type price quantity symbol hq h1 h2
        (by simpa using h3)
      exact ⟨_, e⟩
    obtain ⟨r, hr⟩ := hex
    obtain ⟨id, s'⟩ := r
    exact ⟨_, hr, key _ (h.inv.after_placeOrder hq hr)⟩

/-- C4 at a concrete book: the ask 100.00 x 3 crossed the bids at 100.00 and was matched
away; a SELL LIMIT 99.00 x 20 placed next consumes both bids and leaves the buy side
empty. -/
theorem c4_no_crossed_book_witness :
    Reachable restingBook ∧
    (placeOrder restingBook SELL LIMIT 9900 20 "AAPL").map
      (fun r => (r.2.buyOrders "AAPL", r.2.sellOrders "AAPL")) =
        some ([], [(9900, [5]), (10100, [4])]) ∧
    ((∃ s', matchOrders restingBook "AAPL" = some s' ∧ NotCrossed s' "AAPL") ∧
      ∀ (type : OrderType) (price quantity : Int), 0 < quantity →
        ∃ r, placeOrder restingBook type LIMIT price quantity "AAPL" = some r ∧
          NotCrossed r.2 "AAPL") :=
  ⟨restingBook_reachable, by decide, c4_no_crossed_book restingBook restingBook_reachable "AAPL"⟩


theorem twoBids_reachable : Reachable twoBids :=
  runAll_reachable _ (by decide) (by decide)

/-- C2 as stated fails: test case 1 of `main`. The incoming SELL LIMIT 100.00 x 8 first
trades with bid 2, the resting best bid, whose limit is 101.00; that trade `t` is priced
100.00, the seller's own limit, not the price of the resting best bid. The second trade,
with bid 1 (limit 100.50), is priced 100.00 as well. -/
theorem c2_counterexample :
    Reachable twoBids ∧
    ∃ r t o, placeOrder twoBids SELL LIMIT 10000 8 "AAPL" = some r ∧
      r.2.tradeHistory = twoBids.tradeHistory ++ [t, ⟨1, 3, "AAPL", 10000, 3⟩] ∧
      t.sellOrderId = r.1 ∧ twoBids.orderMap t.buyOrderId = some o ∧
      bestPrice (twoBids.buyOrders "AAPL") = some o.price ∧
      t.price = 10000 ∧ o.price = 10100 := by
  refine ⟨twoBids_reachable, ?_⟩
  have h1 : (placeOrder twoBids SELL LIMIT 10000 8 "AAPL").map
      (fun r => (r.1, r.2.tradeHistory)) =
      some (3, [⟨2, 3, "AAPL", 10000, 5⟩, ⟨1, 3, "AAPL", 10000, 3⟩]) := by decide
  cases hp : placeOrder twoBids SELL LIMIT 10000 8 "AAPL" with
  | none => rw [hp] at h1; exact absurd h1 (by simp)
  | some r =>
    rw [hp] at h1
    simp only [Option.map_some', Option.some.injEq, Prod.mk.injEq] at h1
    exact ⟨r, ⟨2, 3, "AAPL", 10000, 5⟩, ⟨2, BUY, LIMIT, 10100, 5, 0, ACTIVE, "AAPL"⟩, rfl,
      by rw [h1.2]; decide, h1.1.symm, by decide, by decide, rfl, rfl⟩

/-- C2, amended: in the matching pass triggered by the placement of a LIMIT order of
positive quantity in a reachable state, every trade is a trade of the incoming order and
executes at the limit price of its seller. Each trade is made, at one of the views the pass
goes through from the books with the incoming order queued, between the front order of the
best bid level and the front order of the best ask level of that view, at the price of that
best ask level. When the incoming order is a BUY, the seller is an ask that was resting
before, so the price is that of the resting (older) best ask. When the incoming order is a
SELL, the seller is the incoming order itself, so the price is its own limit, which does
not exceed the limit of the resting best bid it trades with. -/
theorem c2_limit_trade_price (s : OrderBook) (h : Reachable s) (type : OrderType)
    (price quantity : Int) (symbol : String) (id : Int) (s' : OrderBook) (hq : 0 < quantity)
    (hp : placeOrder s type LIMIT price quantity symbol = some (id, s')) :
    ∃ new, s'.tradeHistory = s.tradeHistory ++ new ∧
      ∀ t ∈ new,
        (∃ v, PassView symbol
            (((s.register (Order.create s.nextOrderId type LIMIT price quantity
              symbol)).enqueue type price s.nextOrderId symbol).view symbol) v ∧
          BestTrade symbol v t) ∧
        (type = BUY → t.buyOrderId = id ∧
          ∃ o, s.orderMap t.sellOrderId = some o ∧ o.type = SELL ∧ o.price = t.price) ∧
        (type = SELL → t.sellOrderId = id ∧ t.price = price ∧
          ∃ o, s.orderMap t.buyOrderId = some o ∧ o.type = BUY ∧ price ≤ o.price) := by
  obtain ⟨new, h1, h2⟩ := h.inv.limit_trades hq hp
  obtain ⟨new', h1', h2'⟩ := h.inv.limit_best hq hp
  have hnew : new' = new := List.append_cancel_left (h1'.symm.trans h1)
  subst hnew
  refine ⟨new', h1, fun t ht => ⟨h2' t ht, fun e => ?_, fun e => ?_⟩⟩
  · obtain ⟨a, o, b, c, d, _⟩ := (h2 t ht).1 e
    exact ⟨a, o, b, c, d⟩
  · obtain ⟨a, a', o, b, c, d, _⟩ := (h2 t ht).2 e
    exact ⟨a, a', o, b, c, d⟩

/-- C2, amended, at two placements: a BUY LIMIT 101.00 x 6 placed on `restingBook`, which
trades 4 with the resting ask 4 at its price 101.00, and, test case 1 of `main`, the SELL
LIMIT 100.00 x 8 placed on the two bids. -/
theorem c2_limit_trade_price_witness :
    (Reachable restingBook ∧ (0 : Int) < 6 ∧
      (placeOrder restingBook BUY LIMIT 10100 6 "AAPL").map
          (fun r => (r.1, r.2.tradeHistory)) =
        some (5, restingBook.tradeHistory ++ [⟨5, 4, "AAPL", 10100, 4⟩]) ∧
      ∃ r, placeOrder restingBook BUY LIMIT 10100 6 "AAPL" = some r ∧
        ∃ new, r.2.tradeHistory = restingBook.tradeHistory ++ new ∧
          ∀ t ∈ new,
            (∃ v, PassView "AAPL"
                (((restingBook.register (Order.create restingBook.nextOrderId BUY LIMIT 10100 6
                  "AAPL")).enqueue BUY 10100 restingBook.nextOrderId "AAPL").view "AAPL") v ∧
              BestTrade "AAPL" v t) ∧
            (BUY = BUY → t.buyOrderId = r.1 ∧
              ∃ o, restingBook.orderMap t.sellOrderId = some o ∧ o.type = SELL ∧
                o.price = t.price) ∧
            (BUY = SELL → t.sellOrderId = r.1 ∧ t.price = 10100 ∧
              ∃ o, restingBook.orderMap t.buyOrderId = some o ∧ o.type = BUY ∧
                10100 ≤ o.price)) ∧
    (Reachable twoBids ∧ (0 : Int) < 8 ∧
      ∃ r, placeOrder twoBids SELL LIMIT 10000 8 "AAPL" = some r ∧
        ∃ new, r.2.tradeHistory = twoBids.tradeHistory ++ new ∧
          ∀ t ∈ new,
            (∃ v, PassView "AAPL"
                (((twoBids.register (Order.create twoBids.nextOrderId SELL LIMIT 10000 8
                  "AAPL")).enqueue SELL 10000 twoBids.nextOrderId "AAPL").view "AAPL") v ∧
              BestTrade "AAPL" v t) ∧
            (SELL = BUY → t.buyOrderId = r.1 ∧
              ∃ o, twoBids.orderMap t.sellOrderId = some o ∧ o.type = SELL ∧
                o.price = t.price) ∧
            (SELL = SELL → t.sellOrderId = r.1 ∧ t.price = 10000 ∧
              ∃ o, twoBids.orderMap t.buyOrderId = some o ∧ o.type = BUY ∧
                10000 ≤ o.price)) := by
  refine ⟨⟨restingBook_reachable, by decide, by decide, ?_⟩, twoBids_reachable, by decide, ?_⟩
  · have hsome : (placeOrder restingBook BUY LIMIT 10100 6 "AAPL").isSome = true := by decide
    cases hp : placeOrder restingBook BUY LIMIT 10100 6 "AAPL" with
    | none => rw [hp] at hsome; exact absurd hsome (by simp)
    | some r =>
      exact ⟨r, rfl, c2_limit_trade_price restingBook restingBook_reachable BUY 10100 6 "AAPL"
        r.1 r.2 (by decide) hp⟩
  · have hsome : (placeOrder twoBids SELL LIMIT 10000 8 "AAPL").isSome = true := by decide
    cases hp : placeOrder twoBids SELL LIMIT 10000 8 "AAPL" with
    | none => rw [hp] at hsome; exact absurd hsome (by simp)
    | some r =>
      exact ⟨r, rfl, c2_limit_trade_price twoBids twoBids_reachable SELL 10000 8 "AAPL" r.1 r.2
        (by decide) hp⟩

/-- C3: every trade of the matching pass is priced at the price of the sell-side front
order, the best ask, whichever side arrived last. (1) One run of the loop body on
well-formed books either adds no trade or adds one trade, whose seller is the front order
of the best ask level and whose price is that level's price, the seller's limit. (2) For
the placement of a LIMIT order of either side in a reachable state, every trade it appends
is priced at the limit of the sell order the trade names, which is the incoming order or an
ask that was resting. (3) Test case 1 of `main`: BUY 100.50 x 10, BUY 101.00 x 5, then
SELL 100.00 x 8 on a fresh engine make exactly the trades 5 with bid 2 and 3 with bid 1,
both at 100.00, and leave bid 1 with 7 remaining and no asks. -/
theorem c3_trades_at_ask_price :
    (∀ (symbol : String) (v v' : SymbolView), ViewOK symbol v →
      matchStep symbol v = some v' →
      v'.tradeHistory = v.tradeHistory ∨
        ∃ t sp a sq srest, v'.tradeHistory = v.tradeHistory ++ [t] ∧
          v.sellBook = (sp, a :: sq) :: srest ∧ t.sellOrderId = a ∧ t.price = sp ∧
          (deref v.orderMap a).price = sp) ∧
    (∀ (s : OrderBook), Reachable s →
      ∀ (type : OrderType) (price quantity : Int) (symbol : String) (id : Int)
        (s' : OrderBook), 0 < quantity →
        placeOrder s type LIMIT price quantity symbol = some (id, s') →
        ∃ new, s'.tradeHistory = s.tradeHistory ++ new ∧
          ∀ t ∈ new, (t.sellOrderId = id ∧ type = SELL ∧ t.price = price) ∨
            ∃ o, s.orderMap t.sellOrderId = some o ∧ o.type = SELL ∧ o.price = t.price) ∧
    ((placeAll OrderBook.init
        [(BUY, LIMIT, 10050, 10, "AAPL"), (BUY, LIMIT, 10100, 5, "AAPL"),
          (SELL, LIMIT, 10000, 8, "AAPL")]).map
      (fun s => (s.tradeHistory, (deref s.orderMap 1).getRemainingQuantity)) =
      some ([⟨2, 3, "AAPL", 10000, 5⟩, ⟨1, 3, "AAPL", 10000, 3⟩], 7) ∧
    (placeAll OrderBook.init
        [(BUY, LIMIT, 10050, 10, "AAPL"), (BUY, LIMIT, 10100, 5, "AAPL"),
          (SELL, LIMIT, 10000, 8, "AAPL")]).map
      (fun s => (s.buyOrders "AAPL", s.sellOrders "AAPL")) = some ([(10050, [1])], [])) := by
  refine ⟨fun symbol v v' hv h => ?_, fun s hs type price quantity symbol id s' hq hp => ?_,
    by decide, by decide⟩
  · rcases (matchStep_spec hv h).trades with e | ⟨t, e, ht⟩
    · exact Or.inl e
    · obtain ⟨bp, b, bq, brest, sp, a, sq, srest, _, hsb, _, _, e2, _, e4, _⟩ := ht
      refine Or.inr ⟨t, sp, a, sq, srest, e, hsb, e2, e4, ?_⟩
      have hl := hv.sell.levels (sp, a :: sq) (by rw [hsb]; exact List.mem_cons_self _ _)
      obtain ⟨o, ho, ro⟩ := hl.resting a (List.mem_cons_self _ _)
      rw [deref_of_some ho]
      exact ro.price_eq
  · obtain ⟨new, h1, h2⟩ := hs.inv.limit_trades hq hp
    refine ⟨new, h1, fun t ht => ?_⟩
    cases type with
    | BUY =>
      obtain ⟨_, o, b, c, d, _⟩ := (h2 t ht).1 rfl
      exact Or.inr ⟨o, b, c, d⟩
    | SELL =>
      obtain ⟨a, a', _⟩ := (h2 t ht).2 rfl
      exact Or.inl ⟨a, rfl, a'⟩

/-- C3 at a concrete book: a BUY LIMIT 101.00 x 6 placed on `restingBook` (asks
101.00 x 4) trades 4 at the resting ask's price. -/
theorem c3_trades_at_ask_price_witness :
    Reachable restingBook ∧
    (placeOrder restingBook BUY LIMIT 10100 6 "AAPL").map (fun r => r.2.tradeHistory) =
      some [⟨1, 3, "AAPL", 10000, 3⟩, ⟨5, 4, "AAPL", 10100, 4⟩] ∧
    ∃ r, placeOrder restingBook BUY LIMIT 10100 6 "AAPL" = some r ∧
      ∃ new, r.2.tradeHistory = restingBook.tradeHistory ++ new ∧
        ∀ t ∈ new, (t.sellOrderId = r.1 ∧ BUY = SELL ∧ t.price = 10100) ∨
          ∃ o, restingBook.orderMap t.sellOrderId = some o ∧ o.type = SELL ∧
            o.price = t.price := by
  refine ⟨restingBook_reachable, by decide, ?_⟩
  have hsome : (placeOrder restingBook BUY LIMIT 10100 6 "AAPL").isSome = true := by decide
  cases hp : placeOrder restingBook BUY LIMIT 10100 6 "AAPL" with
  | none => rw [hp] at hsome; exact absurd hsome (by simp)
  | some r =>
    exact ⟨r, rfl, c3_trades_at_ask_price.2.1 restingBook restingBook_reachable BUY 10100 6
      "AAPL" r.1 r.2 (by decide) hp⟩

end Claims

section Snapshot

theorem mem_printSide {m : OrderMap} {bk : SideBook} {line : Int × Order} :
    line ∈ printSide m bk ↔
      ∃ l ∈ bk, ∃ h ∈ l.2, ((deref m h).status = ACTIVE ∨ (deref m h).status = PARTIALLY_FILLED) ∧
        line = (l.1, deref m h) := by
  simp only [printSide, List.mem_flatMap, List.mem_map, List.mem_filter, decide_eq_true_eq]
  constructor
  · rintro ⟨l, hl, h, ⟨hh, hs⟩, rfl⟩
    exact ⟨l, hl, h, hh, hs, rfl⟩
  · rintro ⟨l, hl, h, hh, hs, rfl⟩
    exact ⟨l, hl, h, ⟨hh, hs⟩, rfl⟩

theorem mem_printOrderBook {s : OrderBook} {symbol : String} {line : Int × Order} :
    line ∈ (printOrderBook s symbol).1 ++ (printOrderBook s symbol).2 ↔
      ∃ side, line ∈ printSide s.orderMap (bookOf s side symbol) := by
  rw [List.mem_append]
  constructor
  · rintro (h | h)
    · exact ⟨BUY, h⟩
    · exact ⟨SELL, h⟩
  · rintro ⟨side, h⟩
    cases side
    · exact Or.inl h
    · exact Or.inr h

end Snapshot

section ClaimsRestingAndCancel

theorem msftAfterMarket_reachable : Reachable msftAfterMarket :=
  runAll_reachable _ (by decide) (by decide)

/-- C18: MARKET, IOC and FOK orders never rest. In every reachable state, every handle held
in a price-level queue of either side of any symbol refers to an order of variant LIMIT,
and so does every line of the book snapshot printed by `printOrderBook`. -/
theorem c18_only_limit_orders_rest (s : OrderBook) (h : Reachable s) (symbol : String) :
    (∀ (side : OrderType), ∀ l ∈ bookOf s side symbol, ∀ k ∈ l.2,
      ∃ o, s.orderMap k = some o ∧ o.variant = LIMIT) ∧
    ∀ line ∈ (printOrderBook s symbol).1 ++ (printOrderBook s symbol).2,
      line.2.variant = LIMIT := by
  have hinv := h.inv
  refine ⟨fun side l hl k hk => ?_, fun line hline => ?_⟩
  · obtain ⟨o, ho, r⟩ := ((hinv.side side symbol).levels l hl).resting k hk
    exact ⟨o, ho, r.variant_eq⟩
  · obtain ⟨side, hside⟩ := mem_printOrderBook.mp hline
    obtain ⟨l, hl, k, hk, _, rfl⟩ := mem_printSide.mp hside
    obtain ⟨o, ho, r⟩ := ((hinv.side side symbol).levels l hl).resting k hk
    rw [deref_of_some ho]
    exact r.variant_eq

/-- C18 at test case 2 of `main`, after its MARKET order 5 has traded: the MSFT queues hold
the bids 1 and 2 and the ask 4, and order 5 is in none of them. -/
theorem c18_only_limit_orders_rest_witness :
    Reachable msftAfterMarket ∧
    (msftAfterMarket.orderMap 5).map (fun o => o.variant) = some MARKET ∧
    bookOf msftAfterMarket BUY "MSFT" = [(2500, [1]), (2475, [2])] ∧
    bookOf msftAfterMarket SELL "MSFT" = [(2600, [4])] ∧
    (∀ (side : OrderType), ∀ l ∈ bookOf msftAfterMarket side "MSFT", ∀ k ∈ l.2,
      ∃ o, msftAfterMarket.orderMap k = some o ∧ o.variant = LIMIT) ∧
    ∀ line ∈ (printOrderBook msftAfterMarket "MSFT").1 ++
        (printOrderBook msftAfterMarket "MSFT").2,
      line.2.variant = LIMIT :=
  ⟨msftAfterMarket_reachable, by decide, by decide, by decide,
    c18_only_limit_orders_rest msftAfterMarket msftAfterMarket_reachable "MSFT"⟩

/-- C19: failure cases of `cancelOrder`. The call returns false exactly when the id is not
a key of `orderMap` or the order found has status FILLED, and whenever it returns false the
whole engine state (orders, both books, trade log, id counter, breaker, bands) is
unchanged. -/
theorem c19_cancel_failure (s : OrderBook) (orderId : Int) :
    ((cancelOrder s orderId).1 = false ↔
      (s.orderMap orderId = none ∨ ∃ o, s.orderMap orderId = some o ∧ o.status = FILLED)) ∧
    ((cancelOrder s orderId).1 = false → (cancelOrder s orderId).2 = s) := by
  unfold cancelOrder
  cases hm : s.orderMap orderId with
  | none => simp
  | some o =>
    by_cases hf : o.status = FILLED
    · simp [hf]
    · simp [hf]

end ClaimsRestingAndCancel

section ClaimCancel

/-- C20: a successful cancel changes one status only. In a reachable state, for an order
that is ACTIVE or PARTIALLY_FILLED (a resting LIMIT order in particular), `cancelOrder`
returns true, stores the same order object with status CANCELLED, and leaves every other
order object, both books of every symbol, the trade log and the rest of the state as they
were; the order, which the snapshot of its book listed while it was queued, is listed by
no snapshot afterwards, although its handle is still in its queue. -/
theorem c20_cancel_status_only (s : OrderBook) (h : Reachable s) (orderId : Int) (o : Order)
    (ho : s.orderMap orderId = some o)
    (hst : o.status = ACTIVE ∨ o.status = PARTIALLY_FILLED) :
    (cancelOrder s orderId).1 = true ∧
    (cancelOrder s orderId).2.orderMap orderId = some { o with status := CANCELLED } ∧
    (∀ k, k ≠ orderId → (cancelOrder s orderId).2.orderMap k = s.orderMap k) ∧
    (cancelOrder s orderId).2.buyOrders = s.buyOrders ∧
    (cancelOrder s orderId).2.sellOrders = s.sellOrders ∧
    (cancelOrder s orderId).2.tradeHistory = s.tradeHistory ∧
    (cancelOrder s orderId).2.nextOrderId = s.nextOrderId ∧
    (cancelOrder s orderId).2.circuitBreaker = s.circuitBreaker ∧
    (cancelOrder s orderId).2.referencePrices = s.referencePrices ∧
    (cancelOrder s orderId).2.priceBandPercentages = s.priceBandPercentages ∧
    ∀ symbol : String,
      (∀ (side : OrderType), ∀ l ∈ bookOf s side symbol, orderId ∈ l.2 →
        (l.1, o) ∈ printSide s.orderMap (bookOf s side symbol)) ∧
      ∀ line ∈ (printOrderBook (cancelOrder s orderId).2 symbol).1 ++
          (printOrderBook (cancelOrder s orderId).2 symbol).2,
        line.2.id ≠ orderId := by
  have hinv := h.inv
  have hnf : ¬ o.status = FILLED := by
    rcases hst with e | e <;> rw [e] <;> decide
  have hc : cancelOrder s orderId =
      (true, { s with orderMap := setStatus s.orderMap orderId CANCELLED }) := by
    simp [cancelOrder, ho, hnf]
  rw [hc]
  refine ⟨rfl, by simp [setStatus, modifyOrder, ho],
    fun k hk => by simp [setStatus, modifyOrder, hk], rfl, rfl, rfl, rfl, rfl, rfl, rfl,
    fun symbol => ⟨fun side l hl hk => ?_, fun line hline => ?_⟩⟩
  · refine mem_printSide.mpr ⟨l, hl, orderId, hk, ?_, ?_⟩
    · rw [deref_of_some ho]
      exact hst
    · rw [deref_of_some ho]
  · obtain ⟨side, hside⟩ := mem_printOrderBook.mp hline
    obtain ⟨l, hl, k, hk, hs, rfl⟩ := mem_printSide.mp hside
    have hl' : l ∈ bookOf s side symbol := by
      cases side <;> exact hl
    obtain ⟨ok, hok, r⟩ := ((hinv.side side symbol).levels l hl').resting k hk
    show (deref (setStatus s.orderMap orderId CANCELLED) k).id ≠ orderId
    have hs' : (deref (setStatus s.orderMap orderId CANCELLED) k).status = ACTIVE ∨
        (deref (setStatus s.orderMap orderId CANCELLED) k).status = PARTIALLY_FILLED := hs
    by_cases hkk : k = orderId
    · subst hkk
      simp [deref, setStatus, modifyOrder, ho] at hs'
    · have : deref (setStatus s.orderMap orderId CANCELLED) k = ok := by
        simp [deref, setStatus, modifyOrder, hkk, hok]
      rw [this, r.id_eq]
      exact hkk

/-- C20 at a concrete book: cancelling bid 1 of `restingBook`, which is PARTIALLY_FILLED
with 3 of 10 filled and at the front of the queue at 100.00. -/
theorem c20_cancel_status_only_witness :
    Reachable restingBook ∧ bookOf restingBook BUY "AAPL" = [(10000, [1, 2])] ∧
    restingBook.orderMap 1 = some ⟨1, BUY, LIMIT, 10000, 10, 3, PARTIALLY_FILLED, "AAPL"⟩ ∧
    (printOrderBook restingBook "AAPL").1.map (fun line => line.2.id) = [1, 2] ∧
    (printOrderBook (cancelOrder restingBook 1).2 "AAPL").1.map (fun line => line.2.id) = [2] ∧
    (cancelOrder restingBook 1).1 = true ∧
    (cancelOrder restingBook 1).2.orderMap 1 =
      some { (⟨1, BUY, LIMIT, 10000, 10, 3, PARTIALLY_FILLED, "AAPL"⟩ : Order) with
        status := CANCELLED } ∧
    (∀ k, k ≠ 1 → (cancelOrder restingBook 1).2.orderMap k = restingBook.orderMap k) ∧
    (cancelOrder restingBook 1).2.buyOrders = restingBook.buyOrders ∧
    (cancelOrder restingBook 1).2.sellOrders = restingBook.sellOrders ∧
    (cancelOrder restingBook 1).2.tradeHistory = restingBook.tradeHistory ∧
    (cancelOrder restingBook 1).2.nextOrderId = restingBook.nextOrderId ∧
    (cancelOrder restingBook 1).2.circuitBreaker = restingBook.circuitBreaker ∧
    (cancelOrder restingBook 1).2.referencePrices = restingBook.referencePrices ∧
    (cancelOrder restingBook 1).2.priceBandPercentages = restingBook.priceBandPercentages ∧
    ∀ symbol : String,
      (∀ (side : OrderType), ∀ l ∈ bookOf restingBook side symbol, (1 : Int) ∈ l.2 →
        (l.1, (⟨1, BUY, LIMIT, 10000, 10, 3, PARTIALLY_FILLED, "AAPL"⟩ : Order)) ∈
          printSide restingBook.orderMap (bookOf restingBook side symbol)) ∧
      ∀ line ∈ (printOrderBook (cancelOrder restingBook 1).2 symbol).1 ++
          (printOrderBook (cancelOrder restingBook 1).2 symbol).2,
        line.2.id ≠ 1 :=
  ⟨restingBook_reachable, by decide, by decide, by decide, by decide,
    c20_cancel_status_only restingBook restingBook_reachable 1
      ⟨1, BUY, LIMIT, 10000, 10, 3, PARTIALLY_FILLED, "AAPL"⟩ (by decide) (by decide)⟩

end ClaimCancel

section Drained

/-- A sweep that stops at no price and ends with quantity left over has emptied the book. -/
theorem sweepWhile_drained {T : Int} {side : OrderType} {symbol : String} (bk : SideBook) :
    ∀ (w : Sweep) (oT : Order), w.orderMap T = some oT → oT.id = T →
      (∀ l ∈ bk, T ∉ l.2) → SideOK w.orderMap (opposite side) symbol bk → 0 ≤ w.remainingQty →
      0 < (sweepWhile (fun _ => true) T side bk w).2.remainingQty →
      (sweepWhile (fun _ => true) T side bk w).1 = [] := by
  induction bk with
  | nil =>
    intro w oT _ _ _ _ _ _
    rfl
  | cons l rest ih =>
    obtain ⟨p, q⟩ := l
    intro w oT hT hid hTb hok hr
    have hlev := hok.levels (p, q) (List.mem_cons_self _ _)
    rw [sweepWhile_cons]
    by_cases hc : 0 < w.remainingQty ∧ (fun _ : Int => true) p = true
    · rw [if_pos hc]
      have r1 := sweepLevel_spec side symbol p q w oT hT hid
        (hTb (p, q) (List.mem_cons_self _ _)) hlev.resting hlev.nodup hlev.priority hr
      obtain ⟨_, hok1⟩ := hok.tail_after_level hTb r1
      have hLq : 0 ≤ levelLiquidity w.orderMap q := levelLiquidity_nonneg hlev.resting
      have hr1 : 0 ≤ (sweepLevel T side p q w).2.remainingQty := by
        rw [r1.rem]
        omega
      have r2 := @sweepWhile_spec (fun _ => true) T side symbol rest _ _ r1.taker hid
        (fun l hl => hTb l (List.mem_cons_of_mem _ hl)) hok1 hr1
      have hPL := prefixLiquidity_nonneg (fun _ => true) hok1
      intro hpos
      have hpos' : 0 < (sweepWhile (fun _ => true) T side rest
          (sweepLevel T side p q w).2).2.remainingQty := hpos
      have h1 : 0 < (sweepLevel T side p q w).2.remainingQty := by
        have := r2.rem
        omega
      have hq' := r1.drained h1
      show (if (sweepLevel T side p q w).1 = [] then _ else _) = []
      rw [if_pos hq']
      exact ih _ _ r1.taker hid (fun l hl => hTb l (List.mem_cons_of_mem _ hl)) hok1 hr1 hpos'
    · rw [if_neg hc]
      intro hpos
      exact absurd ⟨hpos, rfl⟩ hc

end Drained

section ClaimMarketStatus

theorem marketFinal_status {o : Order} (hs : o.status ≠ FILLED) :
    (o.quantity ≤ o.filled_quantity → (marketFinal o).status = FILLED) ∧
    (o.filled_quantity < o.quantity → (marketFinal o).status = PARTIALLY_FILLED) := by
  have h := updateOrderStatus_filled_iff hs
  unfold marketFinal
  constructor
  · intro hq
    rw [if_neg (fun hf => hf (h.mpr hq))]
    exact h.mpr hq
  · intro hq
    rw [if_pos (fun hf => by have := h.mp hf; omega)]

/-- C11 as stated fails: a BUY MARKET 7 placed on a fresh engine, whose sell side is empty,
gets no fill (the trade log stays empty, its filled quantity is 0) and ends
PARTIALLY_FILLED, not ACTIVE. -/
theorem c11_counterexample :
    Reachable OrderBook.init ∧ OrderBook.init.sellOrders "MSFT" = [] ∧
    (placeOrder OrderBook.init BUY MARKET 0 7 "MSFT").map
        (fun r => (r.2.tradeHistory, r.2.orderMap r.1)) =
      some ([], some ⟨1, BUY, MARKET, 0, 7, 0, PARTIALLY_FILLED, "MSFT"⟩) ∧
    PARTIALLY_FILLED ≠ ACTIVE :=
  ⟨Reachable.init, rfl, by decide, by decide⟩

/-- C11, amended: final status of an under-filled MARKET order. When a MARKET order of
positive quantity is accepted in a reachable state whose opposite side offers less than
its quantity (`L < quantity`, with `L` the remaining quantity of the non-cancelled resting
orders of the opposite side), the opposite side is empty afterwards, the order has filled
exactly `L`, which leaves a residual, and its status is PARTIALLY_FILLED, also when `L` is
0 and it received no fill; it is neither FILLED nor ACTIVE. -/
theorem c11_market_underfilled_status (s : OrderBook) (h : Reachable s) (type : OrderType)
    (price quantity : Int) (symbol : String) (hq : 0 < quantity)
    (hN : s.circuitBreaker.status = NORMAL_TRADING)
    (hL : totalLiquidity s.orderMap (bookOf s (opposite type) symbol) < quantity) :
    ∃ s' o, placeOrder s type MARKET price quantity symbol = some (s.nextOrderId, s') ∧
      bookOf s' (opposite type) symbol = [] ∧
      s'.orderMap s.nextOrderId = some o ∧ o.quantity = quantity ∧
      o.filled_quantity = totalLiquidity s.orderMap (bookOf s (opposite type) symbol) ∧
      o.filled_quantity < o.quantity ∧ o.status = PARTIALLY_FILLED ∧
      o.status ≠ FILLED ∧ o.status ≠ ACTIVE := by
  have hinv := h.inv
  have hsw := hinv.sweep (fun _ => true)
    (Order.create s.nextOrderId type MARKET 0 quantity symbol) rfl symbol (le_of_lt hq)
  have hrem : (sweepWhile (fun _ => true) s.nextOrderId type
      (bookOf s (opposite type) symbol)
      ⟨storeOrder s.orderMap (Order.create s.nextOrderId type MARKET 0 quantity symbol),
        s.tradeHistory, quantity⟩).2.remainingQty = quantity - min quantity
      (prefixLiquidity (fun _ => true) s.orderMap (bookOf s (opposite type) symbol)) :=
    hinv.sweep_rem (fun _ => true)
      (Order.create s.nextOrderId type MARKET 0 quantity symbol) rfl symbol (le_of_lt hq)
  rw [prefixLiquidity_all] at hrem
  have hdr := @sweepWhile_drained s.nextOrderId type symbol (bookOf s (opposite type) symbol)
    ⟨storeOrder s.orderMap (Order.create s.nextOrderId type MARKET 0 quantity symbol),
      s.tradeHistory, quantity⟩
    (Order.create s.nextOrderId type MARKET 0 quantity symbol)
    (storeOrder_same s.orderMap (Order.create s.nextOrderId type MARKET 0 quantity symbol)) rfl
    (fun l hl hk => by have := hinv.handle_lt hl hk; omega)
    (hinv.register_side rfl (opposite type) symbol) (le_of_lt hq) (by rw [hrem]; omega)
  have key : ∀ r : Order, r.status ≠ FILLED → r.quantity = quantity →
      r.filled_quantity = totalLiquidity s.orderMap (bookOf s (opposite type) symbol) →
      (marketFinal r).quantity = quantity ∧
      (marketFinal r).filled_quantity =
        totalLiquidity s.orderMap (bookOf s (opposite type) symbol) ∧
      (marketFinal r).filled_quantity < (marketFinal r).quantity ∧
      (marketFinal r).status = PARTIALLY_FILLED ∧
      (marketFinal r).status ≠ FILLED ∧ (marketFinal r).status ≠ ACTIVE := by
    intro r h1 h2 h3
    have hp := (marketFinal_status h1).2 (by omega)
    rw [(marketFinal_fields r).1, (marketFinal_fields r).2, hp]
    exact ⟨h2, h3, by omega, rfl, by decide, by decide⟩
  refine ⟨_, _, ?_, ?_, sweptState_record marketFinal hsw,
    key _ (by simp [Order.create]) rfl ?_⟩
  · simp only [placeOrder]
    exact placeMarketOrder_eq hinv type quantity symbol hN (le_of_lt hq)
  · rw [bookOf_sweptState, if_pos ⟨rfl, rfl⟩]
    exact hdr
  · refine Eq.trans (congrArg (fun x => 0 + (quantity - x)) hrem) ?_
    show 0 + (quantity - (quantity - min quantity _)) = _
    omega

/-- C11 at test case 2 of `main` with a larger order: BUY MARKET 20 against asks
25.50 x 5 and 26.00 x 10 fills 15 and ends PARTIALLY_FILLED with the sell side empty. -/
theorem c11_market_underfilled_status_witness :
    Reachable msftBook ∧ (0 : Int) < 20 ∧ msftBook.circuitBreaker.status = NORMAL_TRADING ∧
    totalLiquidity msftBook.orderMap (bookOf msftBook (opposite BUY) "MSFT") = 15 ∧
    ∃ s' o, placeOrder msftBook BUY MARKET 0 20 "MSFT" = some (msftBook.nextOrderId, s') ∧
      bookOf s' (opposite BUY) "MSFT" = [] ∧
      s'.orderMap msftBook.nextOrderId = some o ∧ o.quantity = 20 ∧
      o.filled_quantity = totalLiquidity msftBook.orderMap (bookOf msftBook (opposite BUY) "MSFT") ∧
      o.filled_quantity < o.quantity ∧ o.status = PARTIALLY_FILLED ∧
      o.status ≠ FILLED ∧ o.status ≠ ACTIVE :=
  ⟨msftBook_reachable, by decide, by decide, by decide,
    c11_market_underfilled_status msftBook msftBook_reachable BUY 0 20 "MSFT" (by decide)
      (by decide) (by decide)⟩

end ClaimMarketStatus

section ClaimMarketScenario

/-- C12 as stated fails: in test case 2 of `main` the BUY MARKET 7 is filled in full, 7 of
7, so `updateOrderStatus` sets it FILLED; it does not end PARTIALLY_FILLED. -/
theorem c12_counterexample :
    Reachable msftBook ∧
    ∃ r o, placeOrder msftBook BUY MARKET 0 7 "MSFT" = some r ∧
      r.2.orderMap r.1 = some o ∧ o.quantity = 7 ∧ o.filled_quantity = 7 ∧
      o.status ≠ PARTIALLY_FILLED := by
  refine ⟨msftBook_reachable, ?_⟩
  have h1 : (placeOrder msftBook BUY MARKET 0 7 "MSFT").map (fun r => r.2.orderMap r.1) =
      some (some ⟨5, BUY, MARKET, 0, 7, 7, FILLED, "MSFT"⟩) := by decide
  cases hp : placeOrder msftBook BUY MARKET 0 7 "MSFT" with
  | none => rw [hp] at h1; exact absurd h1 (by simp)
  | some r =>
    rw [hp] at h1
    simp only [Option.map_some', Option.some.injEq] at h1
    exact ⟨r, _, rfl, h1, rfl, rfl, by decide⟩

end ClaimMarketScenario

section LedgerFacts

theorem tradedQuantity_append (k : Int) (a b : List Trade) :
    tradedQuantity k (a ++ b) = tradedQuantity k a + tradedQuantity k b := by
  simp [tradedQuantity, List.filter_append]

theorem tradedQuantity_singleton (k : Int) (t : Trade) :
    tradedQuantity k [t] = if t.buyOrderId = k ∨ t.sellOrderId = k then t.quantity else 0 := by
  by_cases h : t.buyOrderId = k ∨ t.sellOrderId = k
  · simp [tradedQuantity, List.filter, h]
  · simp [tradedQuantity, List.filter, h]

/-- A log of positive trades in which order `k` has traded nothing does not name `k`. -/
theorem tradedQuantity_eq_zero {k : Int} {tr : List Trade} (hpos : ∀ t ∈ tr, 0 < t.quantity)
    (h : tradedQuantity k tr = 0) : ∀ t ∈ tr, t.buyOrderId ≠ k ∧ t.sellOrderId ≠ k := by
  induction tr with
  | nil => intro t ht; exact absurd ht (List.not_mem_nil _)
  | cons a tr ih =>
    have hsplit : tradedQuantity k (a :: tr) = tradedQuantity k [a] + tradedQuantity k tr :=
      tradedQuantity_append k [a] tr
    have hnn : ∀ l : List Trade, (∀ t ∈ l, 0 < t.quantity) → 0 ≤ tradedQuantity k l := by
      intro l hl
      unfold tradedQuantity
      apply List.sum_nonneg
      intro x hx
      obtain ⟨t, ht, rfl⟩ := List.mem_map.mp hx
      exact le_of_lt (hl t (List.mem_of_mem_filter ht))
    have h1 := hnn tr (fun t ht => hpos t (List.mem_cons_of_mem _ ht))
    have ha := hpos a (List.mem_cons_self _ _)
    rw [hsplit, tradedQuantity_singleton] at h
    by_cases hk : a.buyOrderId = k ∨ a.sellOrderId = k
    · rw [if_pos hk] at h
      omega
    · rw [if_neg hk] at h
      intro t ht
      rcases List.mem_cons.mp ht with rfl | ht
      · exact ⟨fun e => hk (Or.inl e), fun e => hk (Or.inr e)⟩
      · exact ih (fun t ht => hpos t (List.mem_cons_of_mem _ ht)) (by omega) t ht

/-- One fill keeps the ledger: the buyer `x` and the seller `y` both gain the quantity of
the appended trade, and no other order object changes. -/
theorem Ledger.addFill {m m' : OrderMap} {tr : List Trade} (L : Ledger m tr) {x y : Int}
    {ox oy ox' oy' : Order} (t : Trade)
    (hx : m x = some ox) (hy : m y = some oy) (hxy : x ≠ y)
    (hx' : m' x = some ox') (hy' : m' y = some oy')
    (hfr : ∀ k, k ≠ x → k ≠ y → m' k = m k)
    (tb : t.buyOrderId = x) (ts : t.sellOrderId = y) (tq : 0 < t.quantity)
    (bx : ox.type = BUY) (sy : oy.type = SELL)
    (yx : ox.symbol = t.symbol) (yy : oy.symbol = t.symbol)
    (ex : ox'.id = ox.id ∧ ox'.type = ox.type ∧ ox'.symbol = ox.symbol ∧
      ox'.filled_quantity = ox.filled_quantity + t.quantity)
    (ey : oy'.id = oy.id ∧ oy'.type = oy.type ∧ oy'.symbol = oy.symbol ∧
      oy'.filled_quantity = oy.filled_quantity + t.quantity) :
    Ledger m' (tr ++ [t]) := by
  have hyx : y ≠ x := fun e => hxy e.symm
  have fwd : ∀ k o, m k = some o →
      ∃ o', m' k = some o' ∧ o'.type = o.type ∧ o'.symbol = o.symbol := by
    intro k o hk
    by_cases h1 : k = x
    · subst h1
      have : o = ox := by simpa [hx] using hk.symm
      subst this
      exact ⟨ox', hx', ex.2.1, ex.2.2.1⟩
    by_cases h2 : k = y
    · subst h2
      have : o = oy := by simpa [hy] using hk.symm
      subst this
      exact ⟨oy', hy', ey.2.1, ey.2.2.1⟩
    exact ⟨o, (hfr k h1 h2).trans hk, rfl, rfl⟩
  have bwd : ∀ k o', m' k = some o' →
      ∃ o, m k = some o ∧ o'.id = o.id ∧
        o'.filled_quantity = o.filled_quantity + if x = k ∨ y = k then t.quantity else 0 := by
    intro k o' hk
    by_cases h1 : k = x
    · subst h1
      have : o' = ox' := by simpa [hx'] using hk.symm
      subst this
      exact ⟨ox, hx, ex.1, by simp [ex.2.2.2]⟩
    by_cases h2 : k = y
    · subst h2
      have : o' = oy' := by simpa [hy'] using hk.symm
      subst this
      exact ⟨oy, hy, ey.1, by simp [ey.2.2.2]⟩
    refine ⟨o', (hfr k h1 h2).symm.trans hk, rfl, ?_⟩
    rw [if_neg (fun h => h.elim (fun e => h1 e.symm) (fun e => h2 e.symm))]
    omega
  refine ⟨fun k o' hk => ?_, fun t0 ht0 => ?_, fun t0 ht0 => ?_, fun k o' hk => ?_⟩
  · obtain ⟨o, ho, e, _⟩ := bwd k o' hk
    rw [e]
    exact L.ids k o ho
  · rcases List.mem_append.mp ht0 with h | h
    · obtain ⟨b, a, hb, b1, b2, ha, a1, a2⟩ := L.parties t0 h
      obtain ⟨b', hb', c1, c2⟩ := fwd _ _ hb
      obtain ⟨a', ha', d1, d2⟩ := fwd _ _ ha
      exact ⟨b', a', hb', c1.trans b1, c2.trans b2, ha', d1.trans a1, d2.trans a2⟩
    · rw [List.mem_singleton.mp h, tb, ts]
      exact ⟨ox', oy', hx', ex.2.1.trans bx, ex.2.2.1.trans yx, hy', ey.2.1.trans sy,
        ey.2.2.1.trans yy⟩
  · rcases List.mem_append.mp ht0 with h | h
    · exact L.positive t0 h
    · rw [List.mem_singleton.mp h]
      exact tq
  · obtain ⟨o, ho, _, e⟩ := bwd k o' hk
    rw [tradedQuantity_append, tradedQuantity_singleton, L.filled k o ho, e, tb, ts]

/-- Changing statuses only, and adding orders that no trade names, keeps the ledger. -/
theorem Ledger.restatus {m m' : OrderMap} {tr : List Trade} (L : Ledger m tr)
    (fwd : ∀ k o, m k = some o →
      ∃ o', m' k = some o' ∧ o'.type = o.type ∧ o'.symbol = o.symbol)
    (bwd : ∀ k o', m' k = some o' → o'.id = k ∧
      ((∃ o, m k = some o ∧ o'.filled_quantity = o.filled_quantity) ∨
        (m k = none ∧ o'.filled_quantity = 0))) :
    Ledger m' tr := by
  refine ⟨fun k o' hk => (bwd k o' hk).1, fun t0 ht0 => ?_, L.positive, fun k o' hk => ?_⟩
  · obtain ⟨b, a, hb, b1, b2, ha, a1, a2⟩ := L.parties t0 ht0
    obtain ⟨b', hb', c1, c2⟩ := fwd _ _ hb
    obtain ⟨a', ha', d1, d2⟩ := fwd _ _ ha
    exact ⟨b', a', hb', c1.trans b1, c2.trans b2, ha', d1.trans a1, d2.trans a2⟩
  · rcases (bwd k o' hk).2 with ⟨o, ho, e⟩ | ⟨hn, e⟩
    · rw [e]
      exact L.filled k o ho
    · rw [e]
      unfold tradedQuantity
      have : (tr.filter fun t => decide (t.buyOrderId = k ∨ t.sellOrderId = k)) = [] := by
        rw [List.filter_eq_nil_iff]
        intro t ht
        obtain ⟨b, a, hb, _, _, ha, _, _⟩ := L.parties t ht
        simp only [decide_eq_true_eq]
        rintro (e1 | e1)
        · rw [e1, hn] at hb
          exact absurd hb (by simp)
        · rw [e1, hn] at ha
          exact absurd ha (by simp)
      rw [this]
      rfl

end LedgerFacts

section OrderFacts

/-- A fill of a live order within its remaining quantity, followed by
`updateOrderStatus`, leaves a consistent order object. -/
theorem OrderOK.afterFill {o : Order} (ok : OrderOK o) {mq : Int} (h0 : 0 < mq)
    (h1 : mq ≤ o.quantity - o.filled_quantity) :
    OrderOK (updateOrderStatus { o with filled_quantity := o.filled_quantity + mq }) := by
  have hp := ok.quantity_pos
  have hn := ok.filled_nonneg
  unfold updateOrderStatus
  by_cases c1 : o.filled_quantity + mq ≥ o.quantity
  · rw [if_pos c1]
    exact ⟨hp, by show 0 ≤ o.filled_quantity + mq; omega,
      by show o.filled_quantity + mq ≤ o.quantity; omega,
      ⟨fun _ => by show o.filled_quantity + mq = o.quantity; omega, fun _ => rfl⟩,
      fun h => by simp at h, fun h => by simp at h⟩
  · have c2 : o.filled_quantity + mq > 0 := by omega
    rw [if_neg c1, if_pos c2]
    exact ⟨hp, by show 0 ≤ o.filled_quantity + mq; omega,
      by show o.filled_quantity + mq ≤ o.quantity; omega,
      ⟨fun h => by simp at h,
        fun h => absurd (show o.filled_quantity + mq = o.quantity from h) (by omega)⟩,
      fun h => by simp at h, fun _ => Or.inl c2⟩

/-- Cancelling an order that is not FILLED leaves a consistent order object. -/
theorem OrderOK.cancelled {o : Order} (ok : OrderOK o) (hf : o.status ≠ FILLED) :
    OrderOK { o with status := CANCELLED } :=
  ⟨ok.quantity_pos, ok.filled_nonneg, ok.filled_le,
    ⟨fun h => by simp at h, fun h => absurd (ok.filled_iff.mpr h) hf⟩,
    fun h => by simp at h, fun h => by simp at h⟩

theorem Swept.updated {o : Order} (h : Swept o) :
    ((updateOrderStatus o).status = FILLED ∧ o.filled_quantity = o.quantity) ∨
    ((updateOrderStatus o).status = PARTIALLY_FILLED ∧ 0 < o.filled_quantity ∧
      o.filled_quantity < o.quantity) ∨
    ((updateOrderStatus o).status = ACTIVE ∧ o.filled_quantity = 0) := by
  have h1 := h.quantity_pos
  have h2 := h.filled_nonneg
  have h3 := h.filled_le
  unfold updateOrderStatus
  by_cases c1 : o.filled_quantity ≥ o.quantity
  · rw [if_pos c1]
    exact Or.inl ⟨rfl, by omega⟩
  · by_cases c2 : o.filled_quantity > 0
    · rw [if_neg c1, if_pos c2]
      exact Or.inr (Or.inl ⟨rfl, c2, by omega⟩)
    · rw [if_neg c1, if_neg c2]
      exact Or.inr (Or.inr ⟨h.status_eq, by omega⟩)

theorem Swept.iocFinal_ok {o : Order} (h : Swept o) (hv : o.variant ≠ MARKET) :
    OrderOK (iocFinal o) := by
  have h1 := h.quantity_pos
  have h2 := h.filled_nonneg
  have h3 := h.filled_le
  obtain ⟨_, _, e3, _, e5, e6, _⟩ := updateOrderStatus_fields o
  unfold iocFinal
  rcases h.updated with ⟨hs, hq⟩ | ⟨hs, hq1, hq2⟩ | ⟨hs, hq⟩
  · rw [if_neg (by simp [hs])]
    exact ⟨by rw [e5]; exact h1, by rw [e6]; exact h2, by rw [e6, e5]; exact h3,
      ⟨fun _ => by rw [e6, e5]; exact hq, fun _ => hs⟩,
      fun ha => absurd (hs.symm.trans ha) (by decide),
      fun ha => absurd (hs.symm.trans ha) (by decide)⟩
  · rw [if_pos (by simp [hs]), if_pos hs]
    exact ⟨by show 0 < (updateOrderStatus o).quantity; rw [e5]; exact h1,
      by show 0 ≤ (updateOrderStatus o).filled_quantity; rw [e6]; exact h2,
      by show (updateOrderStatus o).filled_quantity ≤ (updateOrderStatus o).quantity
         rw [e6, e5]; exact h3,
      ⟨fun ha => by simp at ha,
        fun ha => absurd (show (updateOrderStatus o).filled_quantity =
          (updateOrderStatus o).quantity from ha) (by rw [e6, e5]; omega)⟩,
      fun ha => by simp at ha, fun ha => by simp at ha⟩
  · rw [if_pos (by simp [hs]), if_neg (by simp [hs])]
    exact ⟨by rw [e5]; exact h1, by rw [e6]; exact h2, by rw [e6, e5]; exact h3,
      ⟨fun ha => absurd (hs.symm.trans ha) (by decide),
        fun ha => absurd ha (by rw [e6, e5]; omega)⟩,
      fun _ => ⟨by rw [e6]; exact hq, by rw [e3]; exact hv⟩,
      fun ha => absurd (hs.symm.trans ha) (by decide)⟩

theorem Swept.fokFinal_ok {o : Order} (h : Swept o) : OrderOK (fokFinal o) := by
  have h1 := h.quantity_pos
  have h2 := h.filled_nonneg
  have h3 := h.filled_le
  obtain ⟨_, _, e3, _, e5, e6, _⟩ := updateOrderStatus_fields o
  unfold fokFinal
  by_cases hf : (updateOrderStatus o).status = FILLED
  · rw [if_pos hf]
    have hq : o.filled_quantity = o.quantity := by
      rcases h.updated with ⟨_, hq⟩ | ⟨hs, _⟩ | ⟨hs, _⟩
      · exact hq
      · exact absurd (hs.symm.trans hf) (by decide)
      · exact absurd (hs.symm.trans hf) (by decide)
    exact ⟨by rw [e5]; exact h1, by rw [e6]; exact h2, by rw [e6, e5]; exact h3,
      ⟨fun _ => by rw [e6, e5]; exact hq, fun _ => hf⟩,
      fun ha => absurd (hf.symm.trans ha) (by decide),
      fun ha => absurd (hf.symm.trans ha) (by decide)⟩
  · rw [if_neg hf]
    have hq : o.filled_quantity ≠ o.quantity := by
      rcases h.updated with ⟨hs, _⟩ | ⟨_, _, hq⟩ | ⟨_, hq⟩
      · exact absurd hs hf
      · omega
      · omega
    exact ⟨by show 0 < (updateOrderStatus o).quantity; rw [e5]; exact h1,
      by show 0 ≤ (updateOrderStatus o).filled_quantity; rw [e6]; exact h2,
      by show (updateOrderStatus o).filled_quantity ≤ (updateOrderStatus o).quantity
         rw [e6, e5]; exact h3,
      ⟨fun ha => by simp at ha,
        fun ha => absurd (show (updateOrderStatus o).filled_quantity =
          (updateOrderStatus o).quantity from ha) (by rw [e6, e5]; exact hq)⟩,
      fun ha => by simp at ha, fun ha => by simp at ha⟩

theorem Swept.marketFinal_ok {o : Order} (h : Swept o) (hv : o.variant = MARKET) :
    OrderOK (marketFinal o) := by
  have h1 := h.quantity_pos
  have h2 := h.filled_nonneg
  have h3 := h.filled_le
  obtain ⟨_, _, e3, _, e5, e6, _⟩ := updateOrderStatus_fields o
  unfold marketFinal
  by_cases hf : (updateOrderStatus o).status = FILLED
  · rw [if_neg (by simp [hf])]
    have hq : o.filled_quantity = o.quantity := by
      rcases h.updated with ⟨_, hq⟩ | ⟨hs, _⟩ | ⟨hs, _⟩
      · exact hq
      · exact absurd (hs.symm.trans hf) (by decide)
      · exact absurd (hs.symm.trans hf) (by decide)
    exact ⟨by rw [e5]; exact h1, by rw [e6]; exact h2, by rw [e6, e5]; exact h3,
      ⟨fun _ => by rw [e6, e5]; exact hq, fun _ => hf⟩,
      fun ha => absurd (hf.symm.trans ha) (by decide),
      fun ha => absurd (hf.symm.trans ha) (by decide)⟩
  · rw [if_pos hf]
    have hq : o.filled_quantity ≠ o.quantity := by
      rcases h.updated with ⟨hs, _⟩ | ⟨_, _, hq⟩ | ⟨_, hq⟩
      · exact absurd hs hf
      · omega
      · omega
    exact ⟨by show 0 < (updateOrderStatus o).quantity; rw [e5]; exact h1,
      by show 0 ≤ (updateOrderStatus o).filled_quantity; rw [e6]; exact h2,
      by show (updateOrderStatus o).filled_quantity ≤ (updateOrderStatus o).quantity
         rw [e6, e5]; exact h3,
      ⟨fun ha => by simp at ha,
        fun ha => absurd (show (updateOrderStatus o).filled_quantity =
          (updateOrderStatus o).quantity from ha) (by rw [e6, e5]; exact hq)⟩,
      fun ha => by simp at ha,
      fun _ => Or.inr (show (updateOrderStatus o).variant = MARKET by rw [e3]; exact hv)⟩

end OrderFacts

section SweepInvariant

theorem executeFill_frame (T : Int) (side : OrderType) (p h : Int) (w : Sweep) :
    ∀ k, k ≠ T → k ≠ h → (executeFill T side p h w).orderMap k = w.orderMap k := by
  intro k hk1 hk2
  simp [executeFill, addFilled, modifyOrder, hk1, hk2]

/-- The sweep of a queue touches only the incoming order and the orders of the queue. -/
theorem sweepLevel_frame (T : Int) (side : OrderType) (p : Int) (q : PriceLevel) :
    ∀ (w : Sweep) (k : Int), k ≠ T → k ∉ q →
      (sweepLevel T side p q w).2.orderMap k = w.orderMap k := by
  induction q with
  | nil => intro w k _ _; rfl
  | cons h t ih =>
    intro w k hk hkq
    have hkh : k ≠ h := fun e => hkq (e ▸ List.mem_cons_self _ _)
    have hkt : k ∉ t := fun e => hkq (List.mem_cons_of_mem _ e)
    rw [sweepLevel_cons]
    split_ifs
    · exact ih w k hk hkt
    · exact (ih _ k hk hkt).trans (executeFill_frame T side p h w k hk hkh)
    · exact (ih _ k hk hkt).trans (executeFill_frame T side p h w k hk hkh)
    · rfl

/-- Invariant rule for the sweep of one queue: what every fill of a live resting order
keeps holds after the sweep. -/
theorem sweepLevel_preserves {T : Int} {side : OrderType} {symbol : String} {p : Int}
    (J : Sweep → Prop)
    (hJ : ∀ (h : Int) (w : Sweep) (o : Order), h ≠ T → w.orderMap h = some o →
      Resting (opposite side) symbol p h o → o.status ≠ CANCELLED → 0 < w.remainingQty →
      J w → J (executeFill T side p h w))
    (q : PriceLevel) :
    ∀ w : Sweep, T ∉ q → q.Nodup →
      (∀ h ∈ q, RestingAt w.orderMap (opposite side) symbol p h) → J w →
      J (sweepLevel T side p q w).2 := by
  induction q with
  | nil => intro w _ _ _ hw; exact hw
  | cons h t ih =>
    intro w hT hnd hres hw
    have hhT : h ≠ T := fun e => hT (e ▸ List.mem_cons_self _ _)
    have hTt : T ∉ t := fun e => hT (List.mem_cons_of_mem _ e)
    have hnd' := (List.nodup_cons.mp hnd).2
    have hht : h ∉ t := (List.nodup_cons.mp hnd).1
    have hres' : ∀ k ∈ t, RestingAt w.orderMap (opposite side) symbol p k :=
      fun k hk => hres k (List.mem_cons_of_mem _ hk)
    obtain ⟨o, ho, r⟩ := hres h (List.mem_cons_self _ _)
    rw [sweepLevel_cons]
    by_cases hq : 0 < w.remainingQty
    · rw [if_pos hq]
      by_cases hc : (deref w.orderMap h).status = CANCELLED
      · rw [if_pos hc]
        exact ih w hTt hnd' hres' hw
      · rw [if_neg hc]
        have hc' : o.status ≠ CANCELLED := by rwa [deref_of_some ho] at hc
        have hw' := hJ h w o hhT ho r hc' hq hw
        have hres2 : ∀ k ∈ t,
            RestingAt (executeFill T side p h w).orderMap (opposite side) symbol p k :=
          fun k hk => (hres' k hk).congrAt
            (executeFill_frame T side p h w k (fun e => hTt (e ▸ hk)) (fun e => hht (e ▸ hk)))
        have := ih _ hTt hnd' hres2 hw'
        split_ifs
        · exact this
        · exact this
    · rw [if_neg hq]
      exact hw

/-- Invariant rule for the sweep of a side book. -/
theorem sweepWhile_preserves {T : Int} {side : OrderType} {symbol : String} (ok : Int → Bool)
    (J : Sweep → Prop)
    (hJ : ∀ (p h : Int) (w : Sweep) (o : Order), h ≠ T → w.orderMap h = some o →
      Resting (opposite side) symbol p h o → o.status ≠ CANCELLED → 0 < w.remainingQty →
      J w → J (executeFill T side p h w))
    (bk : SideBook) :
    ∀ w : Sweep, (∀ l ∈ bk, T ∉ l.2) → SideOK w.orderMap (opposite side) symbol bk → J w →
      J (sweepWhile ok T side bk w).2 := by
  induction bk with
  | nil => intro w _ _ hw; exact hw
  | cons l rest ih =>
    obtain ⟨p, q⟩ := l
    intro w hT hok hw
    have hlev := hok.levels (p, q) (List.mem_cons_self _ _)
    have hTq : T ∉ q := hT (p, q) (List.mem_cons_self _ _)
    rw [sweepWhile_cons]
    by_cases hc : 0 < w.remainingQty ∧ ok p = true
    · rw [if_pos hc]
      have h1 := sweepLevel_preserves J (hJ p) q w hTq hlev.nodup hlev.resting hw
      have hok1 : SideOK (sweepLevel T side p q w).2.orderMap (opposite side) symbol rest :=
        hok.tailSide.congrSide fun l hl k hk =>
          sweepLevel_frame T side p q w k
            (fun e => hT l (List.mem_cons_of_mem _ hl) (e ▸ hk)) (hok.head_disjoint l hl k hk)
      exact ih _ (fun l hl => hT l (List.mem_cons_of_mem _ hl)) hok1 h1
    · rw [if_neg hc]
      exact hw

/-- One fill of a sweep keeps the order objects and the trade log consistent. -/
theorem executeFill_sound {T h : Int} {side : OrderType} {symbol : String} {p : Int}
    {w : Sweep} {o : Order} (hne : h ≠ T) (hh : w.orderMap h = some o)
    (r : Resting (opposite side) symbol p h o) (hq : 0 < w.remainingQty)
    (J : SweepSound T side symbol w) :
    SweepSound T side symbol (executeFill T side p h w) := by
  obtain ⟨oT, hT, tT, sT⟩ := J.taker
  obtain ⟨e1, e2, e3, _, e5⟩ := executeFill_spec side p hT hh (Ne.symm hne)
  have hlt := r.filled_lt
  have hidT := J.ledger.ids T oT hT
  have hmq : 0 < min w.remainingQty o.getRemainingQuantity ∧
      min w.remainingQty o.getRemainingQuantity ≤ o.quantity - o.filled_quantity := by
    unfold Order.getRemainingQuantity
    omega
  generalize min w.remainingQty o.getRemainingQuantity = mq at e1 e2 e5 hmq
  obtain ⟨u1, u2, _, _, _, u6, u7⟩ :=
    updateOrderStatus_fields { o with filled_quantity := o.filled_quantity + mq }
  refine ⟨?_, fun k ok hk hko => ?_, ⟨_, e1, tT, sT⟩⟩
  · rw [e5]
    cases side with
    | BUY =>
      exact J.ledger.addFill (Trade.ofFill BUY oT o p mq) hT hh (Ne.symm hne) e1 e2
        (fun k h1 h2 => e3 k h1 h2) hidT r.id_eq hmq.1 tT r.type_eq rfl (r.symbol_eq.trans sT.symm)
        ⟨rfl, rfl, rfl, rfl⟩ ⟨u1, u2, u7, u6⟩
    | SELL =>
      exact J.ledger.addFill (Trade.ofFill SELL oT o p mq) hh hT hne e2 e1
        (fun k h1 h2 => e3 k h2 h1) r.id_eq hidT hmq.1 r.type_eq tT (r.symbol_eq.trans sT.symm) rfl
        ⟨u1, u2, u7, u6⟩ ⟨rfl, rfl, rfl, rfl⟩
  · by_cases hkh : k = h
    · subst hkh
      rw [e2] at hko
      rw [← Option.some.inj hko]
      exact (J.orders k o hne hh).afterFill hmq.1 hmq.2
    · rw [e3 k hk hkh] at hko
      exact J.orders k ok hk hko

/-- One fill of a sweep changes no order object that was FILLED or CANCELLED before the
incoming order was registered. -/
theorem executeFill_kept {m0 : OrderMap} {T h : Int} (side : OrderType) (p : Int) {w : Sweep}
    {o : Order} (hT0 : m0 T = none) (hh : w.orderMap h = some o) (hc : o.status ≠ CANCELLED)
    (hf : o.status ≠ FILLED) (J : TerminalKept m0 w.orderMap) :
    TerminalKept m0 (executeFill T side p h w).orderMap := by
  intro k o0 hk ht
  by_cases hkT : k = T
  · subst hkT
    rw [hT0] at hk
    exact absurd hk (by simp)
  by_cases hkh : k = h
  · subst hkh
    have := J k o0 hk ht
    rw [hh] at this
    have e : o = o0 := Option.some.inj this
    subst e
    rcases ht with ht | ht
    · exact absurd ht hf
    · exact absurd ht hc
  rw [executeFill_frame T side p h w k hkT hkh]
  exact J k o0 hk ht

end SweepInvariant

section MatchInvariant

/-- The effect of one run of the loop body of `matchOrders` on the order objects and the
trade log: nothing, or one fill between the two live front orders. -/
theorem matchStep_effect {symbol : String} {v v' : SymbolView} (hv : ViewOK symbol v)
    (h : matchStep symbol v = some v') :
    (v'.orderMap = v.orderMap ∧ v'.tradeHistory = v.tradeHistory) ∨
    ∃ b a ob oa mq bp sp, b ≠ a ∧ v.orderMap b = some ob ∧ v.orderMap a = some oa ∧
      Resting BUY symbol bp b ob ∧ Resting SELL symbol sp a oa ∧
      ob.status ≠ CANCELLED ∧ oa.status ≠ CANCELLED ∧ 0 < mq ∧
      mq ≤ ob.quantity - ob.filled_quantity ∧ mq ≤ oa.quantity - oa.filled_quantity ∧
      v'.orderMap b =
        some (updateOrderStatus { ob with filled_quantity := ob.filled_quantity + mq }) ∧
      v'.orderMap a =
        some (updateOrderStatus { oa with filled_quantity := oa.filled_quantity + mq }) ∧
      (∀ k, k ≠ b → k ≠ a → v'.orderMap k = v.orderMap k) ∧
      v'.tradeHistory = v.tradeHistory ++ [⟨ob.id, oa.id, symbol, oa.price, mq⟩] := by
  obtain ⟨bp, b, bq, brest, sp, a, sq, srest, hb, hs, hc⟩ := matchStep_shape h
  obtain ⟨m, bb, sb, tr⟩ := v
  simp only at hb hs
  subst hb hs
  rw [matchStep_eq, if_pos hc] at h
  have hB : SideOK m BUY symbol ((bp, b :: bq) :: brest) := hv.buy
  have hS : SideOK m SELL symbol ((sp, a :: sq) :: srest) := hv.sell
  have rb' := (hB.levels _ (List.mem_cons_self _ _)).resting b (List.mem_cons_self _ _)
  have ra' := (hS.levels _ (List.mem_cons_self _ _)).resting a (List.mem_cons_self _ _)
  have hne : b ≠ a := rb'.ne_of_side ra' (by decide)
  obtain ⟨ob, hob, rb⟩ := rb'
  obtain ⟨oa, hoa, ra⟩ := ra'
  rw [deref_of_some hob, deref_of_some hoa] at h
  by_cases hcond : ob.status ≠ CANCELLED ∧ oa.status ≠ CANCELLED
  · rw [if_pos hcond] at h
    have h' := Option.some.inj h
    subst h'
    obtain ⟨f1, f2, f3, _⟩ := fillBoth_spec
      (min ob.getRemainingQuantity oa.getRemainingQuantity) hne hob hoa
    have hlb := rb.filled_lt
    have hla := ra.filled_lt
    refine Or.inr ⟨b, a, ob, oa, min ob.getRemainingQuantity oa.getRemainingQuantity, bp, sp,
      hne, hob, hoa, rb, ra, hcond.1, hcond.2, ?_, ?_, ?_, f1, f2, f3, rfl⟩
    · unfold Order.getRemainingQuantity
      omega
    · unfold Order.getRemainingQuantity
      omega
    · unfold Order.getRemainingQuantity
      omega
  · rw [if_neg hcond] at h
    have h' := Option.some.inj h
    subst h'
    exact Or.inl ⟨rfl, rfl⟩

/-- One run of the loop body keeps the order objects and the trade log consistent. -/
theorem matchStep_sound {symbol : String} {v v' : SymbolView} (hv : ViewOK symbol v)
    (h : matchStep symbol v = some v') (L : Ledger v.orderMap v.tradeHistory)
    (O : ∀ k o, v.orderMap k = some o → OrderOK o) :
    Ledger v'.orderMap v'.tradeHistory ∧ ∀ k o, v'.orderMap k = some o → OrderOK o := by
  rcases matchStep_effect hv h with ⟨e1, e2⟩ |
    ⟨b, a, ob, oa, mq, bp, sp, hne, hob, hoa, rb, ra, _, _, q0, q1, q2, f1, f2, f3, f5⟩
  · rw [e1, e2]
    exact ⟨L, O⟩
  · obtain ⟨u1, u2, _, _, _, u6, u7⟩ :=
      updateOrderStatus_fields { ob with filled_quantity := ob.filled_quantity + mq }
    obtain ⟨w1, w2, _, _, _, w6, w7⟩ :=
      updateOrderStatus_fields { oa with filled_quantity := oa.filled_quantity + mq }
    refine ⟨?_, fun k o hk => ?_⟩
    · rw [f5]
      exact L.addFill ⟨ob.id, oa.id, symbol, oa.price, mq⟩ hob hoa hne f1 f2 f3 rb.id_eq ra.id_eq
        q0 rb.type_eq ra.type_eq rb.symbol_eq ra.symbol_eq ⟨u1, u2, u7, u6⟩ ⟨w1, w2, w7, w6⟩
    · by_cases hkb : k = b
      · subst hkb
        rw [f1] at hk
        rw [← Option.some.inj hk]
        exact (O k ob hob).afterFill q0 q1
      by_cases hka : k = a
      · subst hka
        rw [f2] at hk
        rw [← Option.some.inj hk]
        exact (O k oa hoa).afterFill q0 q2
      rw [f3 k hkb hka] at hk
      exact O k o hk

/-- One run of the loop body changes no order object that was FILLED or CANCELLED. -/
theorem matchStep_kept {symbol : String} {v v' : SymbolView} (hv : ViewOK symbol v)
    (h : matchStep symbol v = some v') {m0 : OrderMap} (J : TerminalKept m0 v.orderMap) :
    TerminalKept m0 v'.orderMap := by
  rcases matchStep_effect hv h with ⟨e1, _⟩ |
    ⟨b, a, ob, oa, mq, bp, sp, hne, hob, hoa, rb, ra, cb, ca, _, _, _, _, _, f3, _⟩
  · rw [e1]
    exact J
  · intro k o0 hk ht
    have key : ∀ (x : Int) (ox : Order), v.orderMap x = some ox → ox.status ≠ CANCELLED →
        ox.status ≠ FILLED → k ≠ x := by
      intro x ox hx c1 c2 e
      subst e
      have := J k o0 hk ht
      rw [hx] at this
      have e : ox = o0 := Option.some.inj this
      subst e
      rcases ht with ht | ht
      · exact c2 ht
      · exact c1 ht
    rw [f3 k (key b ob hob cb rb.not_filled) (key a oa hoa ca ra.not_filled)]
    exact J k o0 hk ht

/-- The matching loop keeps the order objects and the trade log consistent, changes no
order object that was FILLED or CANCELLED, and only appends to the trade log. -/
theorem matchLoop_sound {symbol : String} {n : Nat} {v v' : SymbolView} (hv : ViewOK symbol v)
    (h : matchLoop symbol n v = some v') :
    (Ledger v.orderMap v.tradeHistory → (∀ k o, v.orderMap k = some o → OrderOK o) →
      Ledger v'.orderMap v'.tradeHistory ∧ ∀ k o, v'.orderMap k = some o → OrderOK o) ∧
    TerminalKept v.orderMap v'.orderMap ∧
    ∃ new, v'.tradeHistory = v.tradeHistory ++ new := by
  refine ⟨fun L O => ?_, ?_, ?_⟩
  · exact (matchLoop_invariant
      (fun x => ViewOK symbol x ∧ Ledger x.orderMap x.tradeHistory ∧
        ∀ k o, x.orderMap k = some o → OrderOK o)
      (fun x x' hx hs => ⟨(matchStep_spec hx.1 hs).view_ok, matchStep_sound hx.1 hs hx.2.1 hx.2.2⟩)
      n v v' ⟨hv, L, O⟩ h).1.2
  · exact (matchLoop_invariant
      (fun x => ViewOK symbol x ∧ TerminalKept v.orderMap x.orderMap)
      (fun x x' hx hs => ⟨(matchStep_spec hx.1 hs).view_ok, matchStep_kept hx.1 hs hx.2⟩)
      n v v' ⟨hv, fun _ _ hk _ => hk⟩ h).1.2
  · obtain ⟨new, hn, _⟩ := (matchLoop_spec hv h).1.trades
    exact ⟨new, hn⟩

end MatchInvariant

section Continuation

theorem iocFinal_party (o : Order) :
    (iocFinal o).id = o.id ∧ (iocFinal o).type = o.type ∧ (iocFinal o).symbol = o.symbol ∧
      (iocFinal o).filled_quantity = o.filled_quantity := by
  have := updateOrderStatus_fields o
  unfold iocFinal
  split_ifs <;> simp [this]

theorem marketFinal_party (o : Order) :
    (marketFinal o).id = o.id ∧ (marketFinal o).type = o.type ∧
      (marketFinal o).symbol = o.symbol ∧
      (marketFinal o).filled_quantity = o.filled_quantity := by
  have := updateOrderStatus_fields o
  unfold marketFinal
  split_ifs <;> simp [this]

theorem fokFinal_party (o : Order) :
    (fokFinal o).id = o.id ∧ (fokFinal o).type = o.type ∧ (fokFinal o).symbol = o.symbol ∧
      (fokFinal o).filled_quantity = o.filled_quantity :=
  ⟨(fokFinal_fields o).2.2.1, (fokFinal_fields o).2.2.2.1, (fokFinal_fields o).2.2.2.2.2.2,
    (fokFinal_fields o).2.1⟩

/-- Registering a new order under the next id keeps the ledger. -/
theorem Ledger.withNew {s : OrderBook} (hinv : Inv s) (L : Ledger s.orderMap s.tradeHistory)
    {o : Order} (hid : o.id = s.nextOrderId) (hf : o.filled_quantity = 0) :
    Ledger (storeOrder s.orderMap o) s.tradeHistory := by
  refine L.restatus (fun k x hk => ?_) (fun k x hk => ?_)
  · have := hinv.fresh k x hk
    exact ⟨x, (storeOrder_other _ _ (by omega)).trans hk, rfl, rfl⟩
  · by_cases hkn : k = o.id
    · subst hkn
      rw [storeOrder_same] at hk
      have e : o = x := Option.some.inj hk
      subst e
      refine ⟨rfl, Or.inr ⟨?_, hf⟩⟩
      cases hm : s.orderMap o.id with
      | none => rfl
      | some y =>
        have := hinv.fresh _ y hm
        omega
    · rw [storeOrder_other _ _ hkn] at hk
      exact ⟨L.ids k x hk, Or.inl ⟨x, hk, rfl⟩⟩

/-- Registering a new order changes no order object stored before. -/
theorem TerminalKept.ofRegister {s : OrderBook} (hinv : Inv s) {o : Order}
    (hid : o.id = s.nextOrderId) : TerminalKept s.orderMap (storeOrder s.orderMap o) := by
  intro k x hk _
  have := hinv.fresh k x hk
  exact (storeOrder_other _ _ (by omega)).trans hk

theorem TerminalKept.compose {m0 m1 m2 : OrderMap} (h1 : TerminalKept m0 m1)
    (h2 : TerminalKept m1 m2) : TerminalKept m0 m2 :=
  fun k o hk ht => h2 k o (h1 k o hk ht) ht

theorem Continues.same {s : OrderBook} (hs : Sound s) : Continues s s :=
  ⟨hs, fun _ _ hk _ => hk, [], by simp⟩

theorem Continues.chain {s0 s1 s2 : OrderBook} (h1 : Continues s0 s1) (h2 : Continues s1 s2) :
    Continues s0 s2 := by
  obtain ⟨n1, e1⟩ := h1.log
  obtain ⟨n2, e2⟩ := h2.log
  exact ⟨h2.sound, h1.kept.compose h2.kept, n1 ++ n2, by rw [e2, e1, List.append_assoc]⟩

end Continuation

section ContinuationSweep

/-- The state after the sweep of an incoming order of a non-resting variant continues the
state before it. -/
theorem Continues.afterSweep {s : OrderBook} (hinv : Inv s) (hs : Sound s) (ok : Int → Bool)
    (o : Order) (hid : o.id = s.nextOrderId) (hst : o.status = ACTIVE)
    (hf : o.filled_quantity = 0) (symbol : String) (hsym : o.symbol = symbol) {q0 : Int}
    (hq : 0 < q0) (hq0 : o.quantity = q0) (g : Order → Order)
    (hg : ∀ r, (g r).id = r.id ∧ (g r).type = r.type ∧ (g r).symbol = r.symbol ∧
      (g r).filled_quantity = r.filled_quantity)
    (hok : ∀ r, Swept r → r.variant = o.variant → OrderOK (g r)) :
    Continues s (sweptState s o symbol
      (sweepWhile ok s.nextOrderId o.type (bookOf s (opposite o.type) symbol)
        ⟨storeOrder s.orderMap o, s.tradeHistory, q0⟩).1
      (sweepWhile ok s.nextOrderId o.type (bookOf s (opposite o.type) symbol)
        ⟨storeOrder s.orderMap o, s.tradeHistory, q0⟩).2 g) := by
  have hsw := hinv.sweep ok o hid symbol (le_of_lt hq)
  have hside := hinv.register_side hid (opposite o.type) symbol
  have hT : ∀ l ∈ bookOf s (opposite o.type) symbol, s.nextOrderId ∉ l.2 := by
    intro l hl hk
    have := hinv.handle_lt hl hk
    omega
  have hnone : s.orderMap s.nextOrderId = none := by
    cases hm : s.orderMap s.nextOrderId with
    | none => rfl
    | some y =>
      have := hinv.fresh _ y hm
      omega
  have hsame : storeOrder s.orderMap o s.nextOrderId = some o := by
    rw [← hid]
    exact storeOrder_same _ _
  -- consistency is kept by every fill of the sweep
  have J0 : SweepSound s.nextOrderId o.type symbol
      ⟨storeOrder s.orderMap o, s.tradeHistory, q0⟩ :=
    ⟨hs.ledger.withNew hinv hid hf,
      fun k x hk hkx => hs.orders k x
        ((storeOrder_other _ _ (by rw [hid]; exact hk)).symm.trans hkx),
      ⟨o, hsame, rfl, hsym⟩⟩
  have J1 := sweepWhile_preserves ok (SweepSound s.nextOrderId o.type symbol)
    (fun p h w x hne hh r _ hq' J => executeFill_sound hne hh r hq' J)
    (bookOf s (opposite o.type) symbol) _ hT hside J0
  -- and so are the order objects that were FILLED or CANCELLED
  have K0 : TerminalKept s.orderMap
      (⟨storeOrder s.orderMap o, s.tradeHistory, q0⟩ : Sweep).orderMap :=
    TerminalKept.ofRegister hinv hid
  have K1 := sweepWhile_preserves ok (fun w => TerminalKept s.orderMap w.orderMap)
    (fun p h w x _ hh r hc _ J => executeFill_kept o.type p hnone hh hc r.not_filled J)
    (bookOf s (opposite o.type) symbol) _ hT hside K0
  have hrem := hsw.rem
  have hPL := prefixLiquidity_nonneg ok hside
  have htk := hsw.taker
  generalize sweepWhile ok s.nextOrderId o.type (bookOf s (opposite o.type) symbol)
    ⟨storeOrder s.orderMap o, s.tradeHistory, q0⟩ = R at hsw J1 K1 hrem htk ⊢
  obtain ⟨bk', w'⟩ := R
  simp only at hsw J1 K1 hrem htk ⊢
  refine ⟨⟨?_, fun k x hk => ?_⟩, fun k x hk ht => ?_, ?_⟩
  · show Ledger (modifyOrder w'.orderMap s.nextOrderId g) w'.tradeHistory
    refine J1.ledger.restatus (fun k x hk => ?_) (fun k x hk => ?_)
    · by_cases hkn : k = s.nextOrderId
      · subst hkn
        exact ⟨g x, by rw [modifyOrder_same, hk]; rfl, (hg x).2.1, (hg x).2.2.1⟩
      · exact ⟨x, (modifyOrder_other _ _ hkn).trans hk, rfl, rfl⟩
    · by_cases hkn : k = s.nextOrderId
      · subst hkn
        rw [modifyOrder_same, htk] at hk
        rw [← Option.some.inj hk]
        exact ⟨(hg _).1.trans hid, Or.inl ⟨_, htk, (hg _).2.2.2⟩⟩
      · rw [modifyOrder_other _ _ hkn] at hk
        exact ⟨J1.ledger.ids k x hk, Or.inl ⟨x, hk, rfl⟩⟩
  · have hk' : modifyOrder w'.orderMap s.nextOrderId g k = some x := hk
    by_cases hkn : k = s.nextOrderId
    · subst hkn
      rw [modifyOrder_same, htk] at hk'
      rw [← Option.some.inj hk']
      refine hok _ ⟨hst, by show 0 < o.quantity; omega, ?_, ?_⟩ rfl
      · show 0 ≤ o.filled_quantity + (q0 - w'.remainingQty)
        have : (⟨storeOrder s.orderMap o, s.tradeHistory, q0⟩ : Sweep).remainingQty = q0 := rfl
        omega
      · show o.filled_quantity + (q0 - w'.remainingQty) ≤ o.quantity
        have : (⟨storeOrder s.orderMap o, s.tradeHistory, q0⟩ : Sweep).remainingQty = q0 := rfl
        omega
    · rw [modifyOrder_other _ _ hkn] at hk'
      exact J1.orders k x hkn hk'
  · show modifyOrder w'.orderMap s.nextOrderId g k = some x
    have := hinv.fresh k x hk
    rw [modifyOrder_other _ _ (by omega)]
    exact K1 k x hk ht
  · obtain ⟨new, hn, _⟩ := hsw.trades
    exact ⟨new, hn⟩

end ContinuationSweep

section ContinuationSteps

/-- Storing a new consistent order object under the next id, and nothing else. -/
theorem Continues.stored {s s' : OrderBook} (hinv : Inv s) (hs : Sound s) {o : Order}
    (hid : o.id = s.nextOrderId) (hf : o.filled_quantity = 0) (hok : OrderOK o)
    (hm : s'.orderMap = storeOrder s.orderMap o) (ht : s'.tradeHistory = s.tradeHistory) :
    Continues s s' := by
  refine ⟨⟨?_, fun k x hk => ?_⟩, ?_, [], by simp [ht]⟩
  · rw [hm, ht]
    exact hs.ledger.withNew hinv hid hf
  · rw [hm] at hk
    by_cases hkn : k = o.id
    · subst hkn
      rw [storeOrder_same] at hk
      rw [← Option.some.inj hk]
      exact hok
    · rw [storeOrder_other _ _ hkn] at hk
      exact hs.orders k x hk
  · rw [hm]
    exact TerminalKept.ofRegister hinv hid

/-- A matching pass run on well-formed books continues the state it starts from. -/
theorem Continues.matched {s s' : OrderBook} (hs : Sound s) {symbol : String} {n : Nat}
    {v' : SymbolView} (hv : ViewOK symbol (s.view symbol))
    (hl : matchLoop symbol n (s.view symbol) = some v') (he : s' = s.commit symbol v') :
    Continues s s' := by
  obtain ⟨h1, h2, h3⟩ := matchLoop_sound hv hl
  obtain ⟨L, O⟩ := h1 hs.ledger hs.orders
  subst he
  exact ⟨⟨L, O⟩, h2, h3⟩

/-- A call of `cancelOrder` continues the state it starts from. -/
theorem Continues.afterCancel {s : OrderBook} (hs : Sound s) (orderId : Int) :
    Continues s (cancelOrder s orderId).2 := by
  unfold cancelOrder
  cases hm : s.orderMap orderId with
  | none => exact Continues.same hs
  | some order =>
    simp only
    split_ifs with hf
    · exact Continues.same hs
    · refine ⟨⟨?_, fun k x hk => ?_⟩, fun k x hk ht => ?_, [], by simp⟩
      · show Ledger (setStatus s.orderMap orderId CANCELLED) s.tradeHistory
        refine hs.ledger.restatus (fun k x hk => ?_) (fun k x hk => ?_)
        · by_cases hkk : k = orderId
          · subst hkk
            exact ⟨{ x with status := CANCELLED }, by simp [setStatus, modifyOrder, hk], rfl, rfl⟩
          · exact ⟨x, by simp [setStatus, modifyOrder, hkk, hk], rfl, rfl⟩
        · by_cases hkk : k = orderId
          · subst hkk
            simp only [setStatus, modifyOrder, if_true, hm, Option.map_some',
              Option.some.injEq] at hk
            rw [← hk]
            exact ⟨hs.ledger.ids k order hm, Or.inl ⟨order, hm, rfl⟩⟩
          · simp only [setStatus, modifyOrder, if_neg hkk] at hk
            exact ⟨hs.ledger.ids k x hk, Or.inl ⟨x, hk, rfl⟩⟩
      · have hk' : setStatus s.orderMap orderId CANCELLED k = some x := hk
        by_cases hkk : k = orderId
        · subst hkk
          simp only [setStatus, modifyOrder, if_true, hm, Option.map_some',
            Option.some.injEq] at hk'
          rw [← hk']
          exact (hs.orders k order hm).cancelled hf
        · simp only [setStatus, modifyOrder, if_neg hkk] at hk'
          exact hs.orders k x hk'
      · show setStatus s.orderMap orderId CANCELLED k = some x
        by_cases hkk : k = orderId
        · subst hkk
          rw [hm] at hk
          have e : order = x := Option.some.inj hk
          subst e
          have hc : order.status = CANCELLED := ht.resolve_left hf
          simp only [setStatus, modifyOrder, if_true, hm, Option.map_some', Option.some.injEq]
          cases order
          simp only at hc
          rw [hc]
        · simp only [setStatus, modifyOrder, if_neg hkk]
          exact hk

/-- A placement continues the state it is made in. -/
theorem Continues.placed {s s' : OrderBook} (hinv : Inv s) (hs : Sound s) {type : OrderType}
    {variant : OrderVariant} {price quantity : Int} {symbol : String} {id : Int}
    (hq : 0 < quantity) (h : placeOrder s type variant price quantity symbol = some (id, s')) :
    Continues s s' := by
  cases variant with
  | LIMIT =>
    simp only [StockMatching.placeOrder] at h
    by_cases h1 : s.circuitBreaker.status = CIRCUIT_HALT ∨ s.circuitBreaker.status = CLOSED
    · simp only [placeLimitOrder, if_pos h1, Option.some.injEq, Prod.mk.injEq] at h
      rw [← h.2]
      exact Continues.same hs
    by_cases h2 : s.circuitBreaker.status = PRE_OPEN_AUCTION
    · simp only [placeLimitOrder, if_neg h1, if_pos h2, Option.some.injEq, Prod.mk.injEq] at h
      rw [← h.2]
      exact Continues.same hs
    by_cases h3 : bandViolation s price symbol = true
    · simp only [placeLimitOrder, if_neg h1, if_neg h2, if_pos h3, Option.some.injEq,
        Prod.mk.injEq] at h
      rw [← h.2]
      exact Continues.same hs
    obtain ⟨v', e, _, _, _, hl, hv⟩ := hinv.placeLimit type price quantity symbol hq h1 h2
      (by simpa using h3)
    rw [e] at h
    simp only [Option.some.injEq, Prod.mk.injEq] at h
    have c1 : Continues s ((s.register (Order.create s.nextOrderId type LIMIT price quantity
        symbol)).enqueue type price s.nextOrderId symbol) :=
      Continues.stored hinv hs (o := Order.create s.nextOrderId type LIMIT price quantity symbol)
        rfl rfl
        ⟨hq, le_refl _, le_of_lt hq,
          ⟨fun ha => by simp [Order.create] at ha,
            fun ha => absurd (show (0 : Int) = quantity from ha) (by omega)⟩,
          fun _ => ⟨rfl, by simp [Order.create]⟩, fun ha => by simp [Order.create] at ha⟩
        (by cases type <;> rfl) (by cases type <;> rfl)
    exact c1.chain (Continues.matched c1.sound hv hl h.2.symm)
  | MARKET =>
    simp only [StockMatching.placeOrder] at h
    by_cases hN : s.circuitBreaker.status = NORMAL_TRADING
    · rw [placeMarketOrder_eq hinv type quantity symbol hN (le_of_lt hq)] at h
      simp only [Option.some.injEq, Prod.mk.injEq] at h
      rw [← h.2]
      exact Continues.afterSweep hinv hs _ _ rfl rfl rfl symbol rfl hq rfl _ marketFinal_party
        (fun r hr hv => hr.marketFinal_ok hv)
    · simp only [placeMarketOrder, if_pos hN, Option.some.injEq, Prod.mk.injEq] at h
      rw [← h.2]
      exact Continues.same hs
  | IOC =>
    simp only [StockMatching.placeOrder, Option.some.injEq] at h
    by_cases hN : s.circuitBreaker.status = NORMAL_TRADING
    · rw [placeIOCOrder_eq s type price quantity symbol hN] at h
      simp only [Prod.mk.injEq] at h
      rw [← h.2]
      exact Continues.afterSweep hinv hs _ _ rfl rfl rfl symbol rfl hq rfl _ iocFinal_party
        (fun r hr hv => hr.iocFinal_ok (by rw [hv]; simp [Order.create]))
    · simp only [placeIOCOrder, if_pos hN, Prod.mk.injEq] at h
      rw [← h.2]
      exact Continues.same hs
  | FOK =>
    simp only [StockMatching.placeOrder, Option.some.injEq] at h
    by_cases hN : s.circuitBreaker.status = NORMAL_TRADING
    · cases hc : canFill (storeOrder s.orderMap
          (Order.create s.nextOrderId type FOK price quantity symbol)) type price quantity
          (bookOf s (opposite type) symbol) 0 with
      | true =>
        have hsw := hinv.sweep (fun p => marketable type p price)
          (Order.create s.nextOrderId type FOK price quantity symbol) rfl symbol (le_of_lt hq)
        rw [placeFOKOrder_feasible s type price quantity symbol hN ⟨_, hsw.taker⟩ hc] at h
        simp only [Prod.mk.injEq] at h
        rw [← h.2]
        exact Continues.afterSweep hinv hs _ _ rfl rfl rfl symbol rfl hq rfl _ fokFinal_party
          (fun r hr _ => hr.fokFinal_ok)
      | false =>
        rw [placeFOKOrder_infeasible s type price quantity symbol hN hc] at h
        simp only [Prod.mk.injEq] at h
        rw [← h.2]
        exact Continues.stored hinv hs
          (o := { Order.create s.nextOrderId type FOK price quantity symbol with
            status := CANCELLED }) rfl rfl
          ⟨hq, le_refl _, le_of_lt hq,
            ⟨fun ha => by simp at ha,
              fun ha => absurd (show (0 : Int) = quantity from ha) (by omega)⟩,
            fun ha => by simp at ha, fun ha => by simp at ha⟩ rfl rfl
    · simp only [placeFOKOrder, if_pos hN, Prod.mk.injEq] at h
      rw [← h.2]
      exact Continues.same hs

/-- Every call of a public method continues the state it is made in. -/
theorem Step.advance {s s' : OrderBook} (hinv : Inv s) (hs : Sound s) (h : Step s s') :
    Continues s s' := by
  cases h with
  | place type variant price quantity symbol hq hp => exact Continues.placed hinv hs hq hp
  | cancel orderId => exact Continues.afterCancel hs orderId
  | matchPass symbol hm =>
    simp only [StockMatching.matchOrders, Option.map_eq_some'] at hm
    obtain ⟨v', hl, he⟩ := hm
    exact Continues.matched hs ⟨hinv.buy symbol, hinv.sell symbol⟩ hl he.symm
  | index newValue currentTime => exact ⟨⟨hs.ledger, hs.orders⟩, fun _ _ hk _ => hk, [], by
      simp [updateIndexValue]⟩
  | band symbol referencePrice bandPercentage =>
    exact ⟨⟨hs.ledger, hs.orders⟩, fun _ _ hk _ => hk, [], by simp [setStockPriceBand]⟩

theorem Step.reachable {s s' : OrderBook} (hr : Reachable s) (h : Step s s') : Reachable s' := by
  cases h with
  | place type variant price quantity symbol hq hp =>
    exact Reachable.place type variant price quantity symbol hr hq hp
  | cancel orderId => exact Reachable.cancel orderId hr
  | matchPass symbol hm => exact Reachable.matchPass symbol hr hm
  | index newValue currentTime => exact Reachable.index newValue currentTime hr
  | band symbol referencePrice bandPercentage =>
    exact Reachable.band symbol referencePrice bandPercentage hr

/-- The order objects and the trade log of every reachable state are consistent. -/
theorem Reachable.sound {s : OrderBook} (h : Reachable s) : Sound s := by
  induction h with
  | init =>
    exact ⟨⟨fun _ _ hk => absurd hk (by simp [OrderBook.init]),
      fun _ ht => absurd ht (by simp [OrderBook.init]),
      fun _ ht => absurd ht (by simp [OrderBook.init]),
      fun _ _ hk => absurd hk (by simp [OrderBook.init])⟩,
      fun _ _ hk => absurd hk (by simp [OrderBook.init])⟩
  | place type variant price quantity symbol hr hq hp ih =>
    exact (Step.advance hr.inv ih (Step.place type variant price quantity symbol hq hp)).sound
  | cancel orderId hr ih => exact (Step.advance hr.inv ih (Step.cancel _ orderId)).sound
  | matchPass symbol hr hm ih => exact (Step.advance hr.inv ih (Step.matchPass symbol hm)).sound
  | index newValue currentTime hr ih =>
    exact (Step.advance hr.inv ih (Step.index _ newValue currentTime)).sound
  | band symbol referencePrice bandPercentage hr ih =>
    exact (Step.advance hr.inv ih (Step.band _ symbol referencePrice bandPercentage)).sound

/-- Every later state of a reachable state is reachable and continues it. -/
theorem Later.continuation {s s' : OrderBook} (hr : Reachable s) (h : Later s s') :
    Reachable s' ∧ Continues s s' := by
  induction h with
  | refl => exact ⟨hr, Continues.same hr.sound⟩
  | step _ hstep ih =>
    exact ⟨Step.reachable ih.1 hstep, ih.2.chain (Step.advance ih.1.inv ih.1.sound hstep)⟩

end ContinuationSteps

section ClaimsLedger

/-- C13: trade conservation. In every reachable state, every trade of the log names as
buyer a stored order of type BUY and as seller a stored order of type SELL, both stored
under their own id and carrying the trade's symbol, and for every stored order the
quantities of the trades naming it add up to its filled quantity. -/
theorem c13_trade_conservation (s : OrderBook) (h : Reachable s) :
    (∀ t ∈ s.tradeHistory, ∃ b a,
      s.orderMap t.buyOrderId = some b ∧ b.id = t.buyOrderId ∧ b.type = BUY ∧
        b.symbol = t.symbol ∧
      s.orderMap t.sellOrderId = some a ∧ a.id = t.sellOrderId ∧ a.type = SELL ∧
        a.symbol = t.symbol) ∧
    ∀ k o, s.orderMap k = some o →
      o.id = k ∧ tradedQuantity k s.tradeHistory = o.filled_quantity := by
  have L := h.sound.ledger
  refine ⟨fun t ht => ?_, fun k o hk => ⟨L.ids k o hk, L.filled k o hk⟩⟩
  obtain ⟨b, a, hb, b1, b2, ha, a1, a2⟩ := L.parties t ht
  exact ⟨b, a, hb, L.ids _ b hb, b1, b2, ha, L.ids _ a ha, a1, a2⟩

/-- C13 at test case 2 of `main` after its MARKET order: two trades name order 5 as buyer,
5 with ask 3 and 2 with ask 4. -/
theorem c13_trade_conservation_witness :
    Reachable msftAfterMarket ∧
    msftAfterMarket.tradeHistory = [⟨5, 3, "MSFT", 2550, 5⟩, ⟨5, 4, "MSFT", 2600, 2⟩] ∧
    tradedQuantity 5 msftAfterMarket.tradeHistory = 7 ∧
    tradedQuantity 4 msftAfterMarket.tradeHistory = 2 ∧
    (∀ t ∈ msftAfterMarket.tradeHistory, ∃ b a,
      msftAfterMarket.orderMap t.buyOrderId = some b ∧ b.id = t.buyOrderId ∧ b.type = BUY ∧
        b.symbol = t.symbol ∧
      msftAfterMarket.orderMap t.sellOrderId = some a ∧ a.id = t.sellOrderId ∧ a.type = SELL ∧
        a.symbol = t.symbol) ∧
    ∀ k o, msftAfterMarket.orderMap k = some o →
      o.id = k ∧ tradedQuantity k msftAfterMarket.tradeHistory = o.filled_quantity :=
  ⟨msftAfterMarket_reachable, by decide, by decide, by decide,
    c13_trade_conservation msftAfterMarket msftAfterMarket_reachable⟩

/-- C14: fill bounds. In every reachable state (placed quantities positive), every stored
order has `0 ≤ filled_quantity ≤ quantity`, and its status is FILLED exactly when its
filled quantity equals its quantity. -/
theorem c14_fill_bounds (s : OrderBook) (h : Reachable s) (k : Int) (o : Order)
    (hk : s.orderMap k = some o) :
    0 ≤ o.filled_quantity ∧ o.filled_quantity ≤ o.quantity ∧
      (o.status = FILLED ↔ o.filled_quantity = o.quantity) :=
  ⟨(h.sound.orders k o hk).filled_nonneg, (h.sound.orders k o hk).filled_le,
    (h.sound.orders k o hk).filled_iff⟩

/-- C14 at test case 2 of `main` after its MARKET order: ask 4 has 2 of 10 filled and is
not FILLED. -/
theorem c14_fill_bounds_witness :
    Reachable msftAfterMarket ∧
    msftAfterMarket.orderMap 4 = some ⟨4, SELL, LIMIT, 2600, 10, 2, PARTIALLY_FILLED, "MSFT"⟩ ∧
    (0 : Int) ≤ 2 ∧ (2 : Int) ≤ 10 ∧ (PARTIALLY_FILLED = FILLED ↔ (2 : Int) = 10) :=
  ⟨msftAfterMarket_reachable, by decide,
    c14_fill_bounds msftAfterMarket msftAfterMarket_reachable 4
      ⟨4, SELL, LIMIT, 2600, 10, 2, PARTIALLY_FILLED, "MSFT"⟩ (by decide)⟩

theorem emptyMarket_reachable : Reachable emptyMarket :=
  runAll_reachable _ (by decide) (by decide)

/-- C15 as stated fails: after a BUY MARKET 7 placed on a fresh engine, a reachable state,
order 1 has status PARTIALLY_FILLED with filled quantity 0. -/
theorem c15_counterexample :
    Reachable emptyMarket ∧
    ∃ o, emptyMarket.orderMap 1 = some o ∧ o.status = PARTIALLY_FILLED ∧
      ¬ (0 < o.filled_quantity ∧ o.filled_quantity < o.quantity ∧ o.status ≠ CANCELLED) :=
  ⟨emptyMarket_reachable, ⟨1, BUY, MARKET, 0, 7, 0, PARTIALLY_FILLED, "MSFT"⟩, by decide, rfl,
    by decide⟩

/-- C15, amended: the partial-fill status invariant. In every reachable state (placed
quantities positive), a stored order has status PARTIALLY_FILLED exactly when it is not
cancelled, its filled quantity is below its quantity, and either something is filled or it
is a MARKET order; so for an order that is not a MARKET order, PARTIALLY_FILLED holds
exactly when `0 < filled_quantity < quantity` and it is not cancelled. -/
theorem c15_partial_fill_status (s : OrderBook) (h : Reachable s) (k : Int) (o : Order)
    (hk : s.orderMap k = some o) :
    (o.status = PARTIALLY_FILLED ↔
      o.status ≠ CANCELLED ∧ o.filled_quantity < o.quantity ∧
        (0 < o.filled_quantity ∨ o.variant = MARKET)) ∧
    (o.variant ≠ MARKET →
      (o.status = PARTIALLY_FILLED ↔
        0 < o.filled_quantity ∧ o.filled_quantity < o.quantity ∧ o.status ≠ CANCELLED)) := by
  have ok := h.sound.orders k o hk
  have hle := ok.filled_le
  have key : o.status = PARTIALLY_FILLED ↔
      o.status ≠ CANCELLED ∧ o.filled_quantity < o.quantity ∧
        (0 < o.filled_quantity ∨ o.variant = MARKET) := by
    constructor
    · intro hp
      have hne : o.filled_quantity ≠ o.quantity := fun e => by
        have := ok.filled_iff.mpr e
        rw [hp] at this
        exact absurd this (by decide)
      exact ⟨by rw [hp]; decide, by omega, ok.partly hp⟩
    · rintro ⟨hc, hlt, hor⟩
      cases hs : o.status with
      | ACTIVE =>
        obtain ⟨h0, hv⟩ := ok.active hs
        rcases hor with h1 | h1
        · omega
        · exact absurd h1 hv
      | FILLED =>
        have := ok.filled_iff.mp hs
        omega
      | PARTIALLY_FILLED => rfl
      | CANCELLED => exact absurd hs hc
  refine ⟨key, fun hv => ?_⟩
  rw [key]
  constructor
  · rintro ⟨hc, hlt, hor⟩
    exact ⟨hor.resolve_right hv, hlt, hc⟩
  · rintro ⟨h0, hlt, hc⟩
    exact ⟨hc, hlt, Or.inl h0⟩

/-- C15 at test case 2 of `main` after its MARKET order: the LIMIT ask 4 is PARTIALLY_FILLED
with 2 of 10 filled. -/
theorem c15_partial_fill_status_witness :
    Reachable msftAfterMarket ∧
    msftAfterMarket.orderMap 4 = some ⟨4, SELL, LIMIT, 2600, 10, 2, PARTIALLY_FILLED, "MSFT"⟩ ∧
    (PARTIALLY_FILLED = PARTIALLY_FILLED ↔
      PARTIALLY_FILLED ≠ CANCELLED ∧ (2 : Int) < 10 ∧ ((0 : Int) < 2 ∨ LIMIT = MARKET)) ∧
    (LIMIT ≠ MARKET →
      (PARTIALLY_FILLED = PARTIALLY_FILLED ↔
        (0 : Int) < 2 ∧ (2 : Int) < 10 ∧ PARTIALLY_FILLED ≠ CANCELLED)) :=
  ⟨msftAfterMarket_reachable, by decide,
    c15_partial_fill_status msftAfterMarket msftAfterMarket_reachable 4
      ⟨4, SELL, LIMIT, 2600, 10, 2, PARTIALLY_FILLED, "MSFT"⟩ (by decide)⟩

end ClaimsLedger

section ClaimsTerminal

/-- C16: terminal statuses. If an order is FILLED or CANCELLED in a reachable state (the
state at the end of an operation), it has the same status after any number of later calls
of `placeOrder` (with positive quantity), `cancelOrder`, `updateIndexValue`,
`setStockPriceBand` or `matchOrders`. -/
theorem c16_terminal_status (s s' : OrderBook) (h : Reachable s) (hl : Later s s') (k : Int)
    (o : Order) (hk : s.orderMap k = some o)
    (ht : o.status = FILLED ∨ o.status = CANCELLED) :
    ∃ o', s'.orderMap k = some o' ∧ o'.status = o.status :=
  ⟨o, (Later.continuation h hl).2.kept k o hk ht, rfl⟩

/-- C16 at a concrete run: ask 3 of `restingBook` is FILLED; it stays FILLED after a call
of `cancelOrder` on it and the placement of a BUY LIMIT 101.00 x 6 that trades. -/
theorem c16_terminal_status_witness :
    Reachable restingBook ∧
    restingBook.orderMap 3 = some ⟨3, SELL, LIMIT, 10000, 3, 3, FILLED, "AAPL"⟩ ∧
    ∃ r, placeOrder (cancelOrder restingBook 3).2 BUY LIMIT 10100 6 "AAPL" = some r ∧
      ∃ o', r.2.orderMap 3 = some o' ∧ o'.status = FILLED := by
  refine ⟨restingBook_reachable, by decide, ?_⟩
  have hsome : (placeOrder (cancelOrder restingBook 3).2 BUY LIMIT 10100 6 "AAPL").isSome =
      true := by decide
  cases hp : placeOrder (cancelOrder restingBook 3).2 BUY LIMIT 10100 6 "AAPL" with
  | none => rw [hp] at hsome; exact absurd hsome (by simp)
  | some r =>
    exact ⟨r, rfl, c16_terminal_status restingBook r.2 restingBook_reachable
      (Later.step (Later.step (Later.refl _) (Step.cancel _ 3))
        (@Step.place _ r.2 r.1 BUY LIMIT 10100 6 "AAPL" (by decide) hp))
      3 ⟨3, SELL, LIMIT, 10000, 3, 3, FILLED, "AAPL"⟩ (by decide) (Or.inl rfl)⟩

/-- C17: no fill after termination. If an order is FILLED or CANCELLED in a reachable
state, then after any number of later calls of the public methods its filled quantity is
the same and no trade appended to the log since names its id, as buyer or as seller; this
holds in particular for a cancelled resting order whose handle is still in its queue. -/
theorem c17_no_fill_after_termination (s s' : OrderBook) (h : Reachable s) (hl : Later s s')
    (k : Int) (o : Order) (hk : s.orderMap k = some o)
    (ht : o.status = FILLED ∨ o.status = CANCELLED) :
    ∃ o' new, s'.orderMap k = some o' ∧ o'.filled_quantity = o.filled_quantity ∧
      s'.tradeHistory = s.tradeHistory ++ new ∧
      ∀ t ∈ new, t.buyOrderId ≠ k ∧ t.sellOrderId ≠ k := by
  obtain ⟨hr', c⟩ := Later.continuation h hl
  obtain ⟨new, hn⟩ := c.log
  have hk' := c.kept k o hk ht
  refine ⟨o, new, hk', rfl, hn, ?_⟩
  have e1 := h.sound.ledger.filled k o hk
  have e2 := c.sound.ledger.filled k o hk'
  rw [hn, tradedQuantity_append] at e2
  refine tradedQuantity_eq_zero (fun t ht' => ?_) (by omega)
  exact c.sound.ledger.positive t (by rw [hn]; exact List.mem_append_right _ ht')

theorem cancelledBid_reachable : Reachable cancelledBid :=
  Reachable.cancel 2 restingBook_reachable

/-- C17 at a concrete run: bid 2, cancelled with nothing filled, is still queued behind
bid 1; the later SELL LIMIT 100.00 x 20 trades 7 with bid 1 and nothing with bid 2. -/
theorem c17_no_fill_after_termination_witness :
    Reachable cancelledBid ∧ bookOf cancelledBid BUY "AAPL" = [(10000, [1, 2])] ∧
    cancelledBid.orderMap 2 = some ⟨2, BUY, LIMIT, 10000, 5, 0, CANCELLED, "AAPL"⟩ ∧
    cancelledBid.tradeHistory = [⟨1, 3, "AAPL", 10000, 3⟩] ∧
    (placeOrder cancelledBid SELL LIMIT 10000 20 "AAPL").map (fun r => r.2.tradeHistory) =
      some [⟨1, 3, "AAPL", 10000, 3⟩, ⟨1, 5, "AAPL", 10000, 7⟩] ∧
    ∃ r, placeOrder cancelledBid SELL LIMIT 10000 20 "AAPL" = some r ∧
      ∃ o' new, r.2.orderMap 2 = some o' ∧ o'.filled_quantity = 0 ∧
        r.2.tradeHistory = cancelledBid.tradeHistory ++ new ∧
        ∀ t ∈ new, t.buyOrderId ≠ 2 ∧ t.sellOrderId ≠ 2 := by
  refine ⟨cancelledBid_reachable, by decide, by decide, by decide, by decide, ?_⟩
  have hsome : (placeOrder cancelledBid SELL LIMIT 10000 20 "AAPL").isSome = true := by decide
  cases hp : placeOrder cancelledBid SELL LIMIT 10000 20 "AAPL" with
  | none => rw [hp] at hsome; exact absurd hsome (by simp)
  | some r =>
    exact ⟨r, rfl, c17_no_fill_after_termination cancelledBid r.2 cancelledBid_reachable
      (Later.step (Later.refl _)
        (@Step.place _ r.2 r.1 SELL LIMIT 10000 20 "AAPL" (by decide) hp))
      2 ⟨2, BUY, LIMIT, 10000, 5, 0, CANCELLED, "AAPL"⟩ (by decide) (Or.inr rfl)⟩

end ClaimsTerminal

section MarketScenario

/-- The MARKET sweep of test case 2 of `main`, on any reachable state whose asks for the
symbol are one order with 5 remaining at 25.50 and one with 10 remaining at 26.00. -/
theorem sweep_two_asks (s : OrderBook) (h : Reachable s) (symbol : String)
    (a b : Int) (oa ob : Order)
    (hbook : s.sellOrders symbol = [(2550, [a]), (2600, [b])])
    (ha : s.orderMap a = some oa) (hb : s.orderMap b = some ob)
    (ra : oa.getRemainingQuantity = 5) (rb : ob.getRemainingQuantity = 10)
    (ca : oa.status ≠ CANCELLED) (cb : ob.status ≠ CANCELLED) :
    ∃ w2 : Sweep,
      sweepWhile (fun _ => true) s.nextOrderId BUY [(2550, [a]), (2600, [b])]
        ⟨storeOrder s.orderMap (Order.create s.nextOrderId BUY MARKET 0 7 symbol),
          s.tradeHistory, 7⟩ = ([(2600, [b])], w2) ∧
      w2.orderMap s.nextOrderId =
        some { Order.create s.nextOrderId BUY MARKET 0 7 symbol with filled_quantity := 7 } ∧
      w2.tradeHistory = s.tradeHistory ++
        [⟨s.nextOrderId, a, symbol, 2550, 5⟩, ⟨s.nextOrderId, b, symbol, 2600, 2⟩] := by
  have hinv := h.inv
  have hside : SideOK s.orderMap SELL symbol [(2550, [a]), (2600, [b])] := by
    have := hinv.sell symbol
    rwa [hbook] at this
  obtain ⟨oa', hoa', resa⟩ := (hside.levels (2550, [a]) (by simp)).resting a (by simp)
  obtain ⟨ob', hob', resb⟩ := (hside.levels (2600, [b]) (by simp)).resting b (by simp)
  have ea : oa' = oa := by simpa [ha] using hoa'.symm
  have eb : ob' = ob := by simpa [hb] using hob'.symm
  subst ea eb
  have hba : b ≠ a := fun e =>
    hside.head_disjoint (2600, [b]) (by simp) b (by simp) (by simp [e])
  have hna : s.nextOrderId ≠ a := by have := hinv.fresh a _ ha; omega
  have hnb : s.nextOrderId ≠ b := by have := hinv.fresh b _ hb; omega
  unfold Order.getRemainingQuantity at ra rb
  generalize hw0 : (⟨storeOrder s.orderMap (Order.create s.nextOrderId BUY MARKET 0 7 symbol),
    s.tradeHistory, 7⟩ : Sweep) = w0
  have w0T : w0.orderMap s.nextOrderId =
      some (Order.create s.nextOrderId BUY MARKET 0 7 symbol) := by
    rw [← hw0]
    exact storeOrder_same s.orderMap (Order.create s.nextOrderId BUY MARKET 0 7 symbol)
  have w0a : w0.orderMap a = some oa' := by
    rw [← hw0]
    exact (storeOrder_other _ _ (fun e => hna e.symm)).trans ha
  have w0b : w0.orderMap b = some ob' := by
    rw [← hw0]
    exact (storeOrder_other _ _ (fun e => hnb e.symm)).trans hb
  have w0r : w0.remainingQty = 7 := by rw [← hw0]
  have w0t : w0.tradeHistory = s.tradeHistory := by rw [← hw0]
  -- the fill at 25.50
  obtain ⟨x1, x2, x3, x4, x5⟩ := executeFill_spec BUY 2550 w0T w0a hna
  have m1 : min w0.remainingQty oa'.getRemainingQuantity = 5 := by
    unfold Order.getRemainingQuantity
    omega
  rw [m1] at x1 x2 x4 x5
  generalize hw1 : executeFill s.nextOrderId BUY 2550 a w0 = w1 at x1 x2 x3 x4 x5
  have w1b : w1.orderMap b = some ob' := (x3 b (fun e => hnb e.symm) hba).trans w0b
  have fa1 : (deref w1.orderMap a).status = FILLED := by
    rw [deref_of_some x2]
    exact (updateOrderStatus_filled_iff (o := { oa' with
      filled_quantity := oa'.filled_quantity + 5 }) resa.not_filled).mpr
      (by show oa'.quantity ≤ oa'.filled_quantity + 5; omega)
  -- the fill at 26.00
  obtain ⟨y1, y2, _, _, y5⟩ := executeFill_spec BUY 2600 x1 w1b hnb
  have m2 : min w1.remainingQty ob'.getRemainingQuantity = 2 := by
    unfold Order.getRemainingQuantity
    omega
  rw [m2] at y1 y2 y5
  generalize hw2 : executeFill s.nextOrderId BUY 2600 b w1 = w2 at y1 y2 y5
  have fb2 : ¬ (deref w2.orderMap b).status = FILLED := by
    rw [deref_of_some y2]
    intro hf
    have := (updateOrderStatus_filled_iff (o := { ob' with
      filled_quantity := ob'.filled_quantity + 2 }) resb.not_filled).mp hf
    have : ob'.quantity ≤ ob'.filled_quantity + 2 := this
    omega
  have lvl1 : sweepLevel s.nextOrderId BUY 2550 [a] w0 = ([], w1) := by
    rw [sweepLevel_cons, if_pos (by omega), if_neg (by rw [deref_of_some w0a]; exact ca), hw1,
      if_pos fa1]
    rfl
  have lvl2 : sweepLevel s.nextOrderId BUY 2600 [b] w1 = ([b], w2) := by
    rw [sweepLevel_cons, if_pos (by omega), if_neg (by rw [deref_of_some w1b]; exact cb), hw2,
      if_neg fb2]
    rfl
  refine ⟨w2, ?_, ?_, ?_⟩
  · rw [sweepWhile_cons, if_pos ⟨by omega, rfl⟩, lvl1]
    simp only [if_true]
    rw [sweepWhile_cons, if_pos ⟨by omega, rfl⟩, lvl2]
    simp [sweepWhile]
  · rw [y1]
    simp [Order.create]
  · rw [y5, x5, w0t, List.append_assoc]
    simp [Trade.ofFill, Order.create, resa.id_eq, resb.id_eq]

/-- C12, amended: the market scenario (test case 2 of `main`). In a reachable state in
normal trading whose only asks for the symbol are one order with 5 remaining at 25.50 and
one with 10 remaining at 26.00, neither cancelled, placing BUY MARKET 7 appends exactly the
trades 5 at 25.50 with the first ask then 2 at 26.00 with the second, and the MARKET order
ends with filled quantity 7 and status FILLED; the second ask is all that is left of the
sell side. -/
theorem c12_market_scenario (s : OrderBook) (h : Reachable s) (symbol : String) (price : Int)
    (a b : Int) (oa ob : Order) (hN : s.circuitBreaker.status = NORMAL_TRADING)
    (hbook : s.sellOrders symbol = [(2550, [a]), (2600, [b])])
    (ha : s.orderMap a = some oa) (hb : s.orderMap b = some ob)
    (ra : oa.getRemainingQuantity = 5) (rb : ob.getRemainingQuantity = 10)
    (ca : oa.status ≠ CANCELLED) (cb : ob.status ≠ CANCELLED) :
    ∃ s', placeOrder s BUY MARKET price 7 symbol = some (s.nextOrderId, s') ∧
      s'.tradeHistory = s.tradeHistory ++
        [⟨s.nextOrderId, a, symbol, 2550, 5⟩, ⟨s.nextOrderId, b, symbol, 2600, 2⟩] ∧
      s'.orderMap s.nextOrderId = some ⟨s.nextOrderId, BUY, MARKET, 0, 7, 7, FILLED, symbol⟩ ∧
      s'.sellOrders symbol = [(2600, [b])] := by
  have eq := placeMarketOrder_eq h.inv BUY 7 symbol hN (by decide)
  have hb' : bookOf s (opposite BUY) symbol = [(2550, [a]), (2600, [b])] := hbook
  obtain ⟨w2, e1, e2, e3⟩ := sweep_two_asks s h symbol a b oa ob hbook ha hb ra rb ca cb
  rw [hb', e1] at eq
  refine ⟨_, eq, e3, ?_, ?_⟩
  · show modifyOrder w2.orderMap s.nextOrderId marketFinal s.nextOrderId = _
    rw [modifyOrder_same, e2]
    simp [marketFinal, updateOrderStatus, Order.create]
  · simp [sweptState, Order.create]

/-- C12 at test case 2 of `main`: asks 3 (25.50 x 5) and 4 (26.00 x 10), MARKET order 5. -/
theorem c12_market_scenario_witness :
    Reachable msftBook ∧ msftBook.circuitBreaker.status = NORMAL_TRADING ∧
    msftBook.sellOrders "MSFT" = [(2550, [3]), (2600, [4])] ∧
    msftBook.orderMap 3 = some ⟨3, SELL, LIMIT, 2550, 5, 0, ACTIVE, "MSFT"⟩ ∧
    msftBook.orderMap 4 = some ⟨4, SELL, LIMIT, 2600, 10, 0, ACTIVE, "MSFT"⟩ ∧
    msftBook.nextOrderId = 5 ∧ msftBook.tradeHistory = [] ∧
    ∃ s', placeOrder msftBook BUY MARKET 0 7 "MSFT" = some (msftBook.nextOrderId, s') ∧
      s'.tradeHistory = msftBook.tradeHistory ++
        [⟨msftBook.nextOrderId, 3, "MSFT", 2550, 5⟩, ⟨msftBook.nextOrderId, 4, "MSFT", 2600, 2⟩] ∧
      s'.orderMap msftBook.nextOrderId =
        some ⟨msftBook.nextOrderId, BUY, MARKET, 0, 7, 7, FILLED, "MSFT"⟩ ∧
      s'.sellOrders "MSFT" = [(2600, [4])] :=
  ⟨msftBook_reachable, by decide, by decide, by decide, by decide, by decide, by decide,
    c12_market_scenario msftBook msftBook_reachable "MSFT" 0 3 4
      ⟨3, SELL, LIMIT, 2550, 5, 0, ACTIVE, "MSFT"⟩ ⟨4, SELL, LIMIT, 2600, 10, 0, ACTIVE, "MSFT"⟩
      (by decide) (by decide) (by decide) (by decide) (by decide) (by decide) (by decide)
      (by decide)⟩

end MarketScenario

section Breaker

theorem updateMarketValue_normal (cb : MarketCircuitBreaker) (v : ℚ) (now : Int)
    (h : cb.status = NORMAL_TRADING) :
    updateMarketValue cb v now =
      if percentChange cb v ≤ -20 then
        (true, triggerCircuitBreaker { cb with currentValue := v } LEVEL_3 now)
      else if percentChange cb v ≤ -15 then
        (true, triggerCircuitBreaker { cb with currentValue := v } LEVEL_2 now)
      else if percentChange cb v ≤ -10 then
        (true, triggerCircuitBreaker { cb with currentValue := v } LEVEL_1 now)
      else (false, { cb with currentValue := v }) := by
  unfold updateMarketValue percentChange
  simp only [h]

theorem updateMarketValue_halt (cb : MarketCircuitBreaker) (v : ℚ) (now : Int)
    (h : cb.status = CIRCUIT_HALT) :
    updateMarketValue cb v now =
      if cb.haltEndTime ≤ now then
        (false, { cb with currentValue := v, status := PRE_OPEN_AUCTION,
                          haltEndTime := now + 15 * 60 })
      else (false, { cb with currentValue := v }) := by
  unfold updateMarketValue
  simp only [h]

theorem updateMarketValue_preopen (cb : MarketCircuitBreaker) (v : ℚ) (now : Int)
    (h : cb.status = PRE_OPEN_AUCTION) :
    updateMarketValue cb v now =
      if cb.haltEndTime ≤ now then
        (false, { cb with currentValue := v, status := NORMAL_TRADING, currentLevel := NONE })
      else (false, { cb with currentValue := v }) := by
  unfold updateMarketValue
  simp only [h]

theorem updateMarketValue_closed (cb : MarketCircuitBreaker) (v : ℚ) (now : Int)
    (h : cb.status = CLOSED) :
    updateMarketValue cb v now = (false, { cb with currentValue := v }) := by
  unfold updateMarketValue
  simp only [h]

theorem triggerCircuitBreaker_level1 (cb : MarketCircuitBreaker) (now : Int) :
    triggerCircuitBreaker cb LEVEL_1 now =
      if minutesSinceOpen now < 240 then
        { cb with currentLevel := LEVEL_1, status := CIRCUIT_HALT, haltStartTime := now,
                  haltEndTime := now + 45 * 60 }
      else if minutesSinceOpen now < 330 then
        { cb with currentLevel := LEVEL_1, status := CIRCUIT_HALT, haltStartTime := now,
                  haltEndTime := now + 15 * 60 }
      else { cb with currentLevel := NONE, status := NORMAL_TRADING, haltStartTime := now } := by
  unfold triggerCircuitBreaker minutesSinceOpen
  simp only

theorem triggerCircuitBreaker_level2 (cb : MarketCircuitBreaker) (now : Int) :
    triggerCircuitBreaker cb LEVEL_2 now =
      if minutesSinceOpen now < 240 then
        { cb with currentLevel := LEVEL_2, status := CIRCUIT_HALT, haltStartTime := now,
                  haltEndTime := now + 105 * 60 }
      else if minutesSinceOpen now < 300 then
        { cb with currentLevel := LEVEL_2, status := CIRCUIT_HALT, haltStartTime := now,
                  haltEndTime := now + 45 * 60 }
      else { cb with currentLevel := LEVEL_2, status := CLOSED, haltStartTime := now,
                     haltEndTime := 0 } := by
  unfold triggerCircuitBreaker minutesSinceOpen
  simp only

theorem triggerCircuitBreaker_level3 (cb : MarketCircuitBreaker) (now : Int) :
    triggerCircuitBreaker cb LEVEL_3 now =
      { cb with currentLevel := LEVEL_3, status := CLOSED, haltStartTime := now,
                haltEndTime := 0 } := by
  unfold triggerCircuitBreaker
  rfl

end Breaker

section BreakerScenario

theorem percentChange_testCase6 :
    percentChange OrderBook.init.circuitBreaker 15400 = -12 := by
  norm_num [percentChange, OrderBook.init, MarketCircuitBreaker.create]

theorem minutesSinceOpen_1130 : minutesSinceOpen 41400 = 150 := by
  decide

/-- Test case 6 of `main`: a fall of 12 per cent at 11:30 halts trading for 45 minutes. -/
theorem haltedEngine_breaker :
    haltedEngine.circuitBreaker =
      { OrderBook.init.circuitBreaker with
        currentValue := 15400, currentLevel := LEVEL_1, status := CIRCUIT_HALT,
        haltStartTime := 41400, haltEndTime := 44100 } := by
  have h1 := updateMarketValue_normal OrderBook.init.circuitBreaker 15400 41400 rfl
  rw [percentChange_testCase6] at h1
  norm_num at h1
  rw [triggerCircuitBreaker_level1, minutesSinceOpen_1130] at h1
  norm_num at h1
  unfold haltedEngine updateIndexValue
  rw [h1]

end BreakerScenario

section ClaimsBreaker

/-- A placement made while the breaker status is not NORMAL_TRADING is rejected and
changes nothing. -/
theorem placeOrder_not_normal (s : OrderBook) (type : OrderType) (variant : OrderVariant)
    (price quantity : Int) (symbol : String)
    (h : s.circuitBreaker.status ≠ NORMAL_TRADING) :
    placeOrder s type variant price quantity symbol = some (-1, s) := by
  cases variant with
  | LIMIT =>
    simp only [placeOrder, placeLimitOrder]
    cases hs : s.circuitBreaker.status with
    | NORMAL_TRADING => exact absurd hs h
    | CIRCUIT_HALT => simp
    | PRE_OPEN_AUCTION => simp
    | CLOSED => simp
  | MARKET => simp only [placeOrder, placeMarketOrder, if_pos h]
  | IOC => simp only [placeOrder, placeIOCOrder, if_pos h]
  | FOK => simp only [placeOrder, placeFOKOrder, if_pos h]

/-- C21: admission gating is atomic. For every side, variant, price, quantity and symbol,
when the breaker status is not NORMAL_TRADING (it is CIRCUIT_HALT, PRE_OPEN_AUCTION or
CLOSED), `placeOrder` returns -1 and the engine state, with its id counter, order map,
books and trade log, is unchanged. -/
theorem c21_admission_gating (s : OrderBook) (type : OrderType) (variant : OrderVariant)
    (price quantity : Int) (symbol : String)
    (h : s.circuitBreaker.status ≠ NORMAL_TRADING) :
    placeOrder s type variant price quantity symbol = some (-1, s) :=
  placeOrder_not_normal s type variant price quantity symbol h

/-- C21 at test case 6 of `main`: the BUY MARKET 5 INFY placed during the halt. -/
theorem c21_admission_gating_witness :
    haltedEngine.circuitBreaker.status ≠ NORMAL_TRADING ∧
    placeOrder haltedEngine BUY MARKET 0 5 "INFY" = some (-1, haltedEngine) :=
  ⟨by rw [haltedEngine_breaker]; decide,
    c21_admission_gating haltedEngine BUY MARKET 0 5 "INFY"
      (by rw [haltedEngine_breaker]; decide)⟩

/-- The value `updateMarketValue` returns: true exactly when the status is NORMAL_TRADING
and the change is at most -10 per cent. -/
theorem updateMarketValue_returns (cb : MarketCircuitBreaker) (v : ℚ) (now : Int) :
    (updateMarketValue cb v now).1 = true ↔
      cb.status = NORMAL_TRADING ∧ percentChange cb v ≤ -10 := by
  cases hs : cb.status with
  | NORMAL_TRADING =>
    rw [updateMarketValue_normal cb v now hs]
    split_ifs with h1 h2 h3
    · exact ⟨fun _ => ⟨rfl, by linarith⟩, fun _ => rfl⟩
    · exact ⟨fun _ => ⟨rfl, by linarith⟩, fun _ => rfl⟩
    · exact ⟨fun _ => ⟨rfl, h3⟩, fun _ => rfl⟩
    · exact ⟨fun h => by simp at h, fun h => absurd h.2 h3⟩
  | CIRCUIT_HALT =>
    rw [updateMarketValue_halt cb v now hs]
    split_ifs <;> simp
  | PRE_OPEN_AUCTION =>
    rw [updateMarketValue_preopen cb v now hs]
    split_ifs <;> simp
  | CLOSED =>
    rw [updateMarketValue_closed cb v now hs]
    simp

theorem minutesSinceOpen_1500 : minutesSinceOpen 54000 = 360 := by
  decide

/-- C23, the code at the failing input: with reference 17500 and status NORMAL_TRADING, an
update to 15400 (a fall of 12 per cent) at 15:00, 360 minutes after 09:00, returns true
although no halt starts: the status is still NORMAL_TRADING and the level NONE. -/
theorem c23_late_level1_returns_true :
    OrderBook.init.circuitBreaker.status = NORMAL_TRADING ∧
    percentChange OrderBook.init.circuitBreaker 15400 = -12 ∧
    minutesSinceOpen 54000 = 360 ∧
    (updateMarketValue OrderBook.init.circuitBreaker 15400 54000).1 = true ∧
    (updateMarketValue OrderBook.init.circuitBreaker 15400 54000).2.status = NORMAL_TRADING ∧
    (updateMarketValue OrderBook.init.circuitBreaker 15400 54000).2.currentLevel = NONE := by
  have h1 := updateMarketValue_normal OrderBook.init.circuitBreaker 15400 54000 rfl
  rw [percentChange_testCase6] at h1
  norm_num at h1
  rw [triggerCircuitBreaker_level1, minutesSinceOpen_1500] at h1
  norm_num at h1
  rw [h1]
  exact ⟨rfl, percentChange_testCase6, minutesSinceOpen_1500, rfl, rfl, rfl⟩

/-- C24: the halt-duration table for levels 1 and 2. From status NORMAL_TRADING, with `d`
the change in per cent and `t` the minutes since 09:00 at the update time: for
`-15 < d ≤ -10` the breaker halts until `now + 45` minutes when `t < 240`, until
`now + 15` minutes when `240 ≤ t < 330`, and stays NORMAL_TRADING with level NONE when
`330 ≤ t`; for `-20 < d ≤ -15` it halts until `now + 105` minutes when `t < 240`, until
`now + 45` minutes when `240 ≤ t < 300`, and is CLOSED when `300 ≤ t`; for `-10 < d`
status and level are unchanged. -/
theorem c24_halt_duration_table (cb : MarketCircuitBreaker) (v : ℚ) (now : Int)
    (hN : cb.status = NORMAL_TRADING) :
    (-15 < percentChange cb v ∧ percentChange cb v ≤ -10 →
      (minutesSinceOpen now < 240 →
        (updateMarketValue cb v now).2.status = CIRCUIT_HALT ∧
        (updateMarketValue cb v now).2.currentLevel = LEVEL_1 ∧
        (updateMarketValue cb v now).2.haltEndTime = now + 45 * 60) ∧
      (240 ≤ minutesSinceOpen now ∧ minutesSinceOpen now < 330 →
        (updateMarketValue cb v now).2.status = CIRCUIT_HALT ∧
        (updateMarketValue cb v now).2.currentLevel = LEVEL_1 ∧
        (updateMarketValue cb v now).2.haltEndTime = now + 15 * 60) ∧
      (330 ≤ minutesSinceOpen now →
        (updateMarketValue cb v now).2.status = NORMAL_TRADING ∧
        (updateMarketValue cb v now).2.currentLevel = NONE)) ∧
    (-20 < percentChange cb v ∧ percentChange cb v ≤ -15 →
      (minutesSinceOpen now < 240 →
        (updateMarketValue cb v now).2.status = CIRCUIT_HALT ∧
        (updateMarketValue cb v now).2.currentLevel = LEVEL_2 ∧
        (updateMarketValue cb v now).2.haltEndTime = now + 105 * 60) ∧
      (240 ≤ minutesSinceOpen now ∧ minutesSinceOpen now < 300 →
        (updateMarketValue cb v now).2.status = CIRCUIT_HALT ∧
        (updateMarketValue cb v now).2.currentLevel = LEVEL_2 ∧
        (updateMarketValue cb v now).2.haltEndTime = now + 45 * 60) ∧
      (300 ≤ minutesSinceOpen now →
        (updateMarketValue cb v now).2.status = CLOSED)) ∧
    (-10 < percentChange cb v →
      (updateMarketValue cb v now).2.status = cb.status ∧
      (updateMarketValue cb v now).2.currentLevel = cb.currentLevel) := by
  rw [updateMarketValue_normal cb v now hN]
  refine ⟨fun ⟨h1, h2⟩ => ?_, fun ⟨h1, h2⟩ => ?_, fun h1 => ?_⟩
  · rw [if_neg (by linarith), if_neg (by linarith), if_pos h2, triggerCircuitBreaker_level1]
    refine ⟨fun ht => ?_, fun ht => ?_, fun ht => ?_⟩
    · rw [if_pos ht]
      exact ⟨rfl, rfl, rfl⟩
    · rw [if_neg (by omega), if_pos ht.2]
      exact ⟨rfl, rfl, rfl⟩
    · rw [if_neg (by omega), if_neg (by omega)]
      exact ⟨rfl, rfl⟩
  · rw [if_neg (by linarith), if_pos h2, triggerCircuitBreaker_level2]
    refine ⟨fun ht => ?_, fun ht => ?_, fun ht => ?_⟩
    · rw [if_pos ht]
      exact ⟨rfl, rfl, rfl⟩
    · rw [if_neg (by omega), if_pos ht.2]
      exact ⟨rfl, rfl, rfl⟩
    · rw [if_neg (by omega), if_neg (by omega)]
  · rw [if_neg (by linarith), if_neg (by linarith), if_neg (by linarith)]
    exact ⟨rfl, rfl⟩

end ClaimsBreaker

section ClaimsBreakerRuns

/-- C24 at test case 6 of `main`: reference 17500, value 15400 at 11:30 (150 minutes after
09:00) halts trading until 12:15, 45 minutes later. -/
theorem c24_halt_duration_table_witness :
    OrderBook.init.circuitBreaker.status = NORMAL_TRADING ∧
    percentChange OrderBook.init.circuitBreaker 15400 = -12 ∧
    minutesSinceOpen 41400 = 150 ∧
    (updateMarketValue OrderBook.init.circuitBreaker 15400 41400).2.status = CIRCUIT_HALT ∧
    (updateMarketValue OrderBook.init.circuitBreaker 15400 41400).2.currentLevel = LEVEL_1 ∧
    (updateMarketValue OrderBook.init.circuitBreaker 15400 41400).2.haltEndTime =
      41400 + 45 * 60 :=
  ⟨rfl, percentChange_testCase6, minutesSinceOpen_1130,
    ((c24_halt_duration_table OrderBook.init.circuitBreaker 15400 41400 rfl).1
      ⟨by rw [percentChange_testCase6]; norm_num,
        by rw [percentChange_testCase6]; norm_num⟩).1
      (by rw [minutesSinceOpen_1130]; decide)⟩

theorem updateAll_cons (cb : MarketCircuitBreaker) (u : ℚ × Int) (l : List (ℚ × Int)) :
    updateAll cb (u :: l) = updateAll (updateMarketValue cb u.1 u.2).2 l :=
  rfl

theorem updateAll_closed (l : List (ℚ × Int)) :
    ∀ cb : MarketCircuitBreaker, cb.status = CLOSED → (updateAll cb l).status = CLOSED := by
  induction l with
  | nil => intro cb h; exact h
  | cons u l ih =>
    intro cb h
    rw [updateAll_cons]
    refine ih _ ?_
    rw [updateMarketValue_closed cb u.1 u.2 h]
    exact h

theorem cancelOrder_breaker (s : OrderBook) (orderId : Int) :
    (cancelOrder s orderId).2.circuitBreaker = s.circuitBreaker := by
  unfold cancelOrder
  cases s.orderMap orderId with
  | none => rfl
  | some o =>
    simp only
    split_ifs <;> rfl

/-- Once the breaker is CLOSED, it is CLOSED after every later call of a public method. -/
theorem Later.closed {s s' : OrderBook} (h : Later s s')
    (hc : s.circuitBreaker.status = CLOSED) : s'.circuitBreaker.status = CLOSED := by
  induction h with
  | refl => exact hc
  | step _ hstep ih =>
    cases hstep with
    | place type variant price quantity symbol hq hp =>
      rw [placeOrder_not_normal _ type variant price quantity symbol
        (by rw [ih]; decide)] at hp
      simp only [Option.some.injEq, Prod.mk.injEq] at hp
      rw [← hp.2]
      exact ih
    | cancel orderId =>
      rw [cancelOrder_breaker]
      exact ih
    | matchPass symbol hm =>
      simp only [matchOrders, Option.map_eq_some'] at hm
      obtain ⟨v', _, he⟩ := hm
      rw [← he]
      exact ih
    | index newValue currentTime =>
      show (updateMarketValue _ newValue currentTime).2.status = CLOSED
      rw [updateMarketValue_closed _ newValue currentTime ih]
      exact ih
    | band symbol referencePrice bandPercentage => exact ih

/-- C25: level 3 closes the session for good. (1) From status NORMAL_TRADING, an update
whose change is at most -20 per cent returns true and sets the status CLOSED, whatever the
time of day; for a positive reference value this is an update to a value at or below 80
per cent of the reference. (2) Once the status is CLOSED, it is CLOSED after any list of
later updates, with any values and times. (3) An engine whose breaker is CLOSED has a
CLOSED breaker after any later calls of its public methods, and every placement made then,
of any side, variant, price, quantity and symbol, returns -1 and changes nothing. -/
theorem c25_closed_is_final :
    (∀ (cb : MarketCircuitBreaker) (v : ℚ) (now : Int), cb.status = NORMAL_TRADING →
      percentChange cb v ≤ -20 →
      (updateMarketValue cb v now).1 = true ∧
        (updateMarketValue cb v now).2.status = CLOSED) ∧
    (∀ (cb : MarketCircuitBreaker) (v : ℚ), 0 < cb.referenceValue →
      (percentChange cb v ≤ -20 ↔ v ≤ 80 / 100 * cb.referenceValue)) ∧
    (∀ (cb : MarketCircuitBreaker) (l : List (ℚ × Int)), cb.status = CLOSED →
      (updateAll cb l).status = CLOSED) ∧
    (∀ s s' : OrderBook, s.circuitBreaker.status = CLOSED → Later s s' →
      s'.circuitBreaker.status = CLOSED ∧
      ∀ (type : OrderType) (variant : OrderVariant) (price quantity : Int) (symbol : String),
        placeOrder s' type variant price quantity symbol = some (-1, s')) := by
  refine ⟨fun cb v now hN hd => ?_, fun cb v hr => ?_, fun cb l hc => updateAll_closed l cb hc,
    fun s s' hc hl => ⟨hl.closed hc, fun type variant price quantity symbol =>
      placeOrder_not_normal s' type variant price quantity symbol
        (by rw [hl.closed hc]; decide)⟩⟩
  · rw [updateMarketValue_normal cb v now hN, if_pos hd, triggerCircuitBreaker_level3]
    exact ⟨rfl, rfl⟩
  · unfold percentChange
    rw [div_mul_eq_mul_div, div_le_iff₀ hr]
    constructor <;> intro h <;> linarith

/-- Test case 6 of `main`: halted at 11:30 until 12:15, the breaker is in PRE_OPEN_AUCTION
after the update at 12:20 and back in NORMAL_TRADING after the update at 12:40. -/
theorem testCase6_recovery :
    (updateAll OrderBook.init.circuitBreaker [(15400, 41400)]).status = CIRCUIT_HALT ∧
    (updateAll OrderBook.init.circuitBreaker [(15400, 41400), (15400, 44400)]).status =
      PRE_OPEN_AUCTION ∧
    (updateAll OrderBook.init.circuitBreaker
      [(15400, 41400), (15400, 44400), (15400, 45600)]).status = NORMAL_TRADING := by
  have e1 : (updateMarketValue OrderBook.init.circuitBreaker 15400 41400).2 =
      { OrderBook.init.circuitBreaker with
        currentValue := 15400, currentLevel := LEVEL_1, status := CIRCUIT_HALT,
        haltStartTime := 41400, haltEndTime := 44100 } := haltedEngine_breaker
  refine ⟨?_, ?_, ?_⟩
  · rw [updateAll_cons, e1]
    rfl
  · rw [updateAll_cons, e1, updateAll_cons, updateMarketValue_halt _ _ _ rfl,
      if_pos (by decide)]
    rfl
  · rw [updateAll_cons, e1, updateAll_cons, updateMarketValue_halt _ _ _ rfl,
      if_pos (by decide), updateAll_cons, updateMarketValue_preopen _ _ _ rfl,
      if_pos (by decide)]
    rfl

/-- C26: the halt recovery path. (1) In status CIRCUIT_HALT, an update at time `now` at or
after the halt end moves the status to PRE_OPEN_AUCTION with halt end `now + 15` minutes;
an update before the halt end leaves status and halt end unchanged; so the status moves
exactly when `now ≥ haltEndTime`, and never to NORMAL_TRADING. (2) In status
PRE_OPEN_AUCTION, an update at or after the halt end moves the status to NORMAL_TRADING
with level NONE, and an update before it leaves status, level and halt end unchanged.
(3) If a breaker in CIRCUIT_HALT is in NORMAL_TRADING after a list of updates, it was in
PRE_OPEN_AUCTION after some of them. (4) Test case 6 of `main`: halted at 11:30 until
12:15, the breaker is in PRE_OPEN_AUCTION after the update at 12:20 and in NORMAL_TRADING
after the update at 12:40. -/
theorem c26_halt_recovery_path :
    (∀ (cb : MarketCircuitBreaker) (v : ℚ) (now : Int), cb.status = CIRCUIT_HALT →
      (cb.haltEndTime ≤ now →
        (updateMarketValue cb v now).2.status = PRE_OPEN_AUCTION ∧
        (updateMarketValue cb v now).2.haltEndTime = now + 15 * 60) ∧
      (now < cb.haltEndTime →
        (updateMarketValue cb v now).2.status = CIRCUIT_HALT ∧
        (updateMarketValue cb v now).2.haltEndTime = cb.haltEndTime) ∧
      (updateMarketValue cb v now).2.status ≠ NORMAL_TRADING) ∧
    (∀ (cb : MarketCircuitBreaker) (v : ℚ) (now : Int), cb.status = PRE_OPEN_AUCTION →
      (cb.haltEndTime ≤ now →
        (updateMarketValue cb v now).2.status = NORMAL_TRADING ∧
        (updateMarketValue cb v now).2.currentLevel = NONE) ∧
      (now < cb.haltEndTime →
        (updateMarketValue cb v now).2.status = PRE_OPEN_AUCTION ∧
        (updateMarketValue cb v now).2.currentLevel = cb.currentLevel ∧
        (updateMarketValue cb v now).2.haltEndTime = cb.haltEndTime)) ∧
    (∀ (l : List (ℚ × Int)) (cb : MarketCircuitBreaker), cb.status = CIRCUIT_HALT →
      (updateAll cb l).status = NORMAL_TRADING →
      ∃ l1 l2, l = l1 ++ l2 ∧ (updateAll cb l1).status = PRE_OPEN_AUCTION) ∧
    ((updateAll OrderBook.init.circuitBreaker [(15400, 41400)]).status = CIRCUIT_HALT ∧
      (updateAll OrderBook.init.circuitBreaker [(15400, 41400), (15400, 44400)]).status =
        PRE_OPEN_AUCTION ∧
      (updateAll OrderBook.init.circuitBreaker
        [(15400, 41400), (15400, 44400), (15400, 45600)]).status = NORMAL_TRADING) := by
  have halt : ∀ (cb : MarketCircuitBreaker) (v : ℚ) (now : Int), cb.status = CIRCUIT_HALT →
      (cb.haltEndTime ≤ now →
        (updateMarketValue cb v now).2.status = PRE_OPEN_AUCTION ∧
        (updateMarketValue cb v now).2.haltEndTime = now + 15 * 60) ∧
      (now < cb.haltEndTime →
        (updateMarketValue cb v now).2.status = CIRCUIT_HALT ∧
        (updateMarketValue cb v now).2.haltEndTime = cb.haltEndTime) ∧
      (updateMarketValue cb v now).2.status ≠ NORMAL_TRADING := by
    intro cb v now hs
    rw [updateMarketValue_halt cb v now hs]
    refine ⟨fun h => ?_, fun h => ?_, ?_⟩
    · rw [if_pos h]
      exact ⟨rfl, rfl⟩
    · rw [if_neg (by omega)]
      exact ⟨hs, rfl⟩
    · split_ifs
      · simp
      · show cb.status ≠ NORMAL_TRADING
        rw [hs]
        decide
  refine ⟨halt, fun cb v now hs => ?_, fun l => ?_, testCase6_recovery⟩
  · rw [updateMarketValue_preopen cb v now hs]
    refine ⟨fun h => ?_, fun h => ?_⟩
    · rw [if_pos h]
      exact ⟨rfl, rfl⟩
    · rw [if_neg (by omega)]
      exact ⟨hs, rfl, rfl⟩
  · induction l with
    | nil =>
      intro cb hs hn
      have : cb.status = NORMAL_TRADING := hn
      rw [hs] at this
      exact absurd this (by decide)
    | cons u l ih =>
      intro cb hs hn
      rw [updateAll_cons] at hn
      by_cases hp : (updateMarketValue cb u.1 u.2).2.status = PRE_OPEN_AUCTION
      · exact ⟨[u], l, rfl, hp⟩
      · have hh : (updateMarketValue cb u.1 u.2).2.status = CIRCUIT_HALT := by
          by_cases ht : cb.haltEndTime ≤ u.2
          · exact absurd ((halt cb u.1 u.2 hs).1 ht).1 hp
          · exact ((halt cb u.1 u.2 hs).2.1 (by omega)).1
        obtain ⟨l1, l2, e, h1⟩ := ih _ hh hn
        exact ⟨u :: l1, l2, by rw [e]; rfl, by rw [updateAll_cons]; exact h1⟩

end ClaimsBreakerRuns

section Frame

theorem SameOrder.itself (o : Order) : SameOrder o o :=
  ⟨rfl, rfl, rfl, rfl, rfl, rfl⟩

theorem SameOrder.andThen {a b c : Order} (h1 : SameOrder a b) (h2 : SameOrder b c) :
    SameOrder a c :=
  ⟨h2.1.trans h1.1, h2.2.1.trans h1.2.1, h2.2.2.1.trans h1.2.2.1,
    h2.2.2.2.1.trans h1.2.2.2.1, h2.2.2.2.2.1.trans h1.2.2.2.2.1,
    h2.2.2.2.2.2.trans h1.2.2.2.2.2⟩

theorem SameOrder.ofUpdate (o : Order) : SameOrder o (updateOrderStatus o) := by
  obtain ⟨a, b, c, d, e, _, g⟩ := updateOrderStatus_fields o
  exact ⟨a, b, c, d, e, g⟩

theorem Evolved.self (m : OrderMap) (t : List Trade) : Evolved m t m t :=
  ⟨fun _ => rfl, fun k o o' h h' => by
    rw [h] at h'
    rw [← Option.some.inj h']
    exact SameOrder.itself o, [], by simp⟩

/-- A write through a handle that keeps the identity of the order object. -/
theorem Evolved.modify {m0 m : OrderMap} {t0 t : List Trade} (h : Evolved m0 t0 m t)
    (x : Int) (f : Order → Order) (hf : ∀ o, SameOrder o (f o)) :
    Evolved m0 t0 (modifyOrder m x f) t := by
  refine ⟨fun k => ?_, fun k o o' h0 h1 => ?_, h.log⟩
  · rw [← h.keys k]
    by_cases hk : k = x
    · subst hk
      rw [modifyOrder_same]
      cases m k <;> rfl
    · rw [modifyOrder_other _ _ hk]
  · by_cases hk : k = x
    · subst hk
      rw [modifyOrder_same] at h1
      cases hm : m k with
      | none => rw [hm] at h1; exact absurd h1 (by simp)
      | some y =>
        rw [hm] at h1
        rw [← Option.some.inj h1]
        exact (h.same k o y h0 hm).andThen (hf y)
    · rw [modifyOrder_other _ _ hk] at h1
      exact h.same k o o' h0 h1

theorem Evolved.logged {m0 m : OrderMap} {t0 t : List Trade} (h : Evolved m0 t0 m t)
    (more : List Trade) : Evolved m0 t0 m (t ++ more) := by
  obtain ⟨new, hn⟩ := h.log
  exact ⟨h.keys, h.same, new ++ more, by rw [hn, List.append_assoc]⟩

theorem Evolved.filled {m0 m : OrderMap} {t0 t : List Trade} (h : Evolved m0 t0 m t)
    (x q : Int) : Evolved m0 t0 (addFilled m x q) t :=
  h.modify x _ fun _ => ⟨rfl, rfl, rfl, rfl, rfl, rfl⟩

theorem Evolved.restatused {m0 m : OrderMap} {t0 t : List Trade} (h : Evolved m0 t0 m t)
    (x : Int) (st : OrderStatus) : Evolved m0 t0 (setStatus m x st) t :=
  h.modify x _ fun _ => ⟨rfl, rfl, rfl, rfl, rfl, rfl⟩

/-- One fill of a sweep. -/
theorem executeFill_evolved {m0 : OrderMap} {t0 : List Trade} (T : Int) (side : OrderType)
    (p h : Int) {w : Sweep} (hw : Evolved m0 t0 w.orderMap w.tradeHistory) :
    Evolved m0 t0 (executeFill T side p h w).orderMap (executeFill T side p h w).tradeHistory :=
  ((((hw.filled T _).filled h _).modify h updateOrderStatus SameOrder.ofUpdate).logged _)

/-- Invariant rule for the four sweep loops, with no assumption on the books: what every
fill keeps holds after the loop. -/
theorem sweepLevel_keeps (J : Sweep → Prop) (T : Int) (side : OrderType)
    (hJ : ∀ (p h : Int) (w : Sweep), J w → J (executeFill T side p h w)) (p : Int)
    (q : PriceLevel) : ∀ w : Sweep, J w → J (sweepLevel T side p q w).2 := by
  induction q with
  | nil => intro w hw; exact hw
  | cons h t ih =>
    intro w hw
    rw [sweepLevel_cons]
    split_ifs
    · exact ih w hw
    · exact ih _ (hJ p h w hw)
    · exact ih _ (hJ p h w hw)
    · exact hw

theorem marketLevel_keeps (J : Sweep → Prop) (T : Int) (side : OrderType)
    (hJ : ∀ (p h : Int) (w : Sweep), J w → J (executeFill T side p h w)) (p : Int)
    (q : PriceLevel) : ∀ w : Sweep, J w → J (marketLevel T side p q w).2 := by
  induction q with
  | nil => intro w hw; exact hw
  | cons h t ih =>
    intro w hw
    simp only [marketLevel]
    split_ifs
    · exact ih w hw
    · exact ih _ (hJ p h w hw)
    · exact hJ p h w hw
    · exact hw

theorem sweepBook_keeps (J : Sweep → Prop) (T : Int) (side : OrderType)
    (hJ : ∀ (p h : Int) (w : Sweep), J w → J (executeFill T side p h w)) (limit : Int)
    (bk : SideBook) : ∀ w : Sweep, J w → J (sweepBook T side limit bk w).2 := by
  induction bk with
  | nil => intro w hw; exact hw
  | cons l rest ih =>
    obtain ⟨p, q⟩ := l
    intro w hw
    simp only [sweepBook]
    split_ifs
    · exact ih _ (sweepLevel_keeps J T side hJ p q w hw)
    · exact ih _ (sweepLevel_keeps J T side hJ p q w hw)
    · exact hw

theorem marketLoop_keeps (J : Sweep → Prop) (T : Int) (side : OrderType)
    (hJ : ∀ (p h : Int) (w : Sweep), J w → J (executeFill T side p h w)) (n : Nat) :
    ∀ (bk : SideBook) (w : Sweep) (r : SideBook × Sweep), J w →
      marketLoop T side n bk w = some r → J r.2 := by
  induction n with
  | zero =>
    intro bk w r _ h
    exact absurd h (by simp [marketLoop])
  | succ n ih =>
    intro bk w r hw h
    simp only [marketLoop] at h
    split_ifs at h with hq
    · cases bk with
      | nil =>
        simp only [Option.some.injEq] at h
        rw [← h]
        exact hw
      | cons l rest =>
        obtain ⟨p, q⟩ := l
        simp only at h
        split_ifs at h
        · exact ih _ _ r (marketLevel_keeps J T side hJ p q w hw) h
        · exact ih _ _ r (marketLevel_keeps J T side hJ p q w hw) h
    · simp only [Option.some.injEq] at h
      rw [← h]
      exact hw

end Frame

section FrameMatch

/-- One run of the loop body of `matchOrders`, with no assumption on the books. -/
theorem matchStep_evolved {m0 : OrderMap} {t0 : List Trade} {symbol : String}
    {v v' : SymbolView} (h : matchStep symbol v = some v')
    (hv : Evolved m0 t0 v.orderMap v.tradeHistory) :
    Evolved m0 t0 v'.orderMap v'.tradeHistory := by
  obtain ⟨bp, b, bq, brest, sp, a, sq, srest, hb, hs, hc⟩ := matchStep_shape h
  obtain ⟨m, bb, sb, tr⟩ := v
  simp only at hb hs hv
  subst hb hs
  rw [matchStep_eq, if_pos hc] at h
  by_cases hcond : (deref m b).status ≠ CANCELLED ∧ (deref m a).status ≠ CANCELLED
  · rw [if_pos hcond] at h
    have h' := Option.some.inj h
    subst h'
    exact (((((hv.filled b _).filled a _).modify b updateOrderStatus SameOrder.ofUpdate).modify a
      updateOrderStatus SameOrder.ofUpdate).logged _)
  · rw [if_neg hcond] at h
    have h' := Option.some.inj h
    subst h'
    exact hv

theorem matchLoop_evolved {symbol : String} (n : Nat) :
    ∀ v v' : SymbolView, matchLoop symbol n v = some v' →
      Evolved v.orderMap v.tradeHistory v'.orderMap v'.tradeHistory := by
  intro v v' h
  have key : ∀ (n : Nat) (x x' : SymbolView),
      Evolved v.orderMap v.tradeHistory x.orderMap x.tradeHistory →
      matchLoop symbol n x = some x' →
      Evolved v.orderMap v.tradeHistory x'.orderMap x'.tradeHistory := by
    intro n
    induction n with
    | zero =>
      intro x x' _ hx
      exact absurd hx (by simp [matchLoop])
    | succ n ih =>
      intro x x' hE hx
      simp only [matchLoop] at hx
      cases hm : matchStep symbol x with
      | none =>
        rw [hm] at hx
        rw [← Option.some.inj hx]
        exact hE
      | some x1 =>
        rw [hm] at hx
        exact ih x1 x' (matchStep_evolved hm hE) hx
  exact key n v v' (Evolved.self _ _) h

theorem setOppositeBook_heap (v : SymbolView) (sd : OrderType) (bk : SideBook) (w : Sweep) :
    (setOppositeBook v sd bk w).orderMap = w.orderMap ∧
      (setOppositeBook v sd bk w).tradeHistory = w.tradeHistory := by
  cases sd <;> exact ⟨rfl, rfl⟩

theorem executeFOKOrder_evolved (taker : Int) (v : SymbolView) :
    Evolved v.orderMap v.tradeHistory (executeFOKOrder taker v).2.orderMap
      (executeFOKOrder taker v).2.tradeHistory := by
  unfold executeFOKOrder
  simp only
  split_ifs
  · have hE := sweepBook_keeps
      (fun w => Evolved v.orderMap v.tradeHistory w.orderMap w.tradeHistory) taker
      (deref v.orderMap taker).type (fun p x w hw => executeFill_evolved _ _ p x hw)
      (deref v.orderMap taker).price (oppositeBook v (deref v.orderMap taker).type)
      ⟨v.orderMap, v.tradeHistory, (deref v.orderMap taker).quantity⟩ (Evolved.self _ _)
    have hE1 := hE.modify taker updateOrderStatus SameOrder.ofUpdate
    show Evolved _ _ (setOppositeBook _ _ _ _).orderMap (setOppositeBook _ _ _ _).tradeHistory
    rw [(setOppositeBook_heap _ _ _ _).1, (setOppositeBook_heap _ _ _ _).2]
    exact hE1
  · exact Evolved.self _ _

/-- What a placement does to the id counter, the order map and the trade log, in any engine
state and for any arguments: nothing when it returns -1; otherwise it returns the counter,
increments it, stores a new order object under the returned id, and from there on only
fills orders, changes statuses and appends trades. -/
theorem placeOrder_evolved {s s' : OrderBook} {type : OrderType} {variant : OrderVariant}
    {price quantity : Int} {symbol : String} {id : Int}
    (h : placeOrder s type variant price quantity symbol = some (id, s')) :
    (id = -1 ∧ s' = s) ∨
    (id = s.nextOrderId ∧ s'.nextOrderId = s.nextOrderId + 1 ∧
      ∃ o : Order, o.id = s.nextOrderId ∧ o.type = type ∧ o.variant = variant ∧
        o.quantity = quantity ∧ o.symbol = symbol ∧ o.filled_quantity = 0 ∧
        Evolved (storeOrder s.orderMap o) s.tradeHistory s'.orderMap s'.tradeHistory) := by
  cases variant with
  | LIMIT =>
    simp only [placeOrder, placeLimitOrder] at h
    split_ifs at h with h1 h2 h3
    · simp only [Option.some.injEq, Prod.mk.injEq] at h
      exact Or.inl ⟨h.1.symm, h.2.symm⟩
    · simp only [Option.some.injEq, Prod.mk.injEq] at h
      exact Or.inl ⟨h.1.symm, h.2.symm⟩
    · simp only [Option.some.injEq, Prod.mk.injEq] at h
      exact Or.inl ⟨h.1.symm, h.2.symm⟩
    · simp only [matchOrders, Option.map_map, Option.map_eq_some', Function.comp,
        Prod.mk.injEq] at h
      obtain ⟨v', hl, hid, hs'⟩ := h
      have hE := matchLoop_evolved _ _ _ hl
      subst hs'
      refine Or.inr ⟨hid.symm, by cases type <;> rfl,
        Order.create s.nextOrderId type LIMIT price quantity symbol, rfl, rfl, rfl, rfl, rfl,
        rfl, ?_⟩
      cases type <;> exact hE
  | MARKET =>
    simp only [placeOrder, placeMarketOrder] at h
    split_ifs at h with h1
    · simp only [Option.some.injEq, Prod.mk.injEq] at h
      exact Or.inl ⟨h.1.symm, h.2.symm⟩
    · simp only [executeMarketOrder, Option.map_map, Option.map_eq_some', Function.comp,
        Prod.mk.injEq] at h
      obtain ⟨r, hl, hid, hs'⟩ := h
      have hE := marketLoop_keeps
        (fun w => Evolved (storeOrder s.orderMap
          (Order.create s.nextOrderId type MARKET 0 quantity symbol)) s.tradeHistory
          w.orderMap w.tradeHistory) _ _
        (fun p x w hw => executeFill_evolved _ _ p x hw) _ _ _ r (Evolved.self _ _) hl
      subst hs'
      refine Or.inr ⟨hid.symm, rfl,
        Order.create s.nextOrderId type MARKET 0 quantity symbol, rfl, rfl, rfl, rfl, rfl,
        rfl, ?_⟩
      have hE1 := hE.modify s.nextOrderId updateOrderStatus SameOrder.ofUpdate
      have hE2 := hE1.restatused s.nextOrderId PARTIALLY_FILLED
      show Evolved _ _ (setOppositeBook _ _ _ _).orderMap (setOppositeBook _ _ _ _).tradeHistory
      rw [(setOppositeBook_heap _ _ _ _).1, (setOppositeBook_heap _ _ _ _).2]
      show Evolved _ _ (if _ then _ else _) r.2.tradeHistory
      split_ifs
      · exact hE2
      · exact hE1
  | IOC =>
    simp only [placeOrder, placeIOCOrder, Option.some.injEq] at h
    split_ifs at h with h1
    · simp only [Prod.mk.injEq] at h
      exact Or.inl ⟨h.1.symm, h.2.symm⟩
    · simp only [Prod.mk.injEq] at h
      obtain ⟨hid, hs'⟩ := h
      subst hs'
      refine Or.inr ⟨hid.symm, rfl,
        Order.create s.nextOrderId type IOC price quantity symbol, rfl, rfl, rfl, rfl, rfl,
        rfl, ?_⟩
      have hE := sweepBook_keeps
        (fun w => Evolved (storeOrder s.orderMap
          (Order.create s.nextOrderId type IOC price quantity symbol)) s.tradeHistory
          w.orderMap w.tradeHistory) s.nextOrderId
        (deref (storeOrder s.orderMap
          (Order.create s.nextOrderId type IOC price quantity symbol)) s.nextOrderId).type
        (fun p x w hw => executeFill_evolved _ _ p x hw)
        (deref (storeOrder s.orderMap
          (Order.create s.nextOrderId type IOC price quantity symbol)) s.nextOrderId).price
        (oppositeBook ((s.register
          (Order.create s.nextOrderId type IOC price quantity symbol)).view symbol)
          (deref (storeOrder s.orderMap
            (Order.create s.nextOrderId type IOC price quantity symbol)) s.nextOrderId).type)
        ⟨storeOrder s.orderMap (Order.create s.nextOrderId type IOC price quantity symbol),
          s.tradeHistory,
          (deref (storeOrder s.orderMap
            (Order.create s.nextOrderId type IOC price quantity symbol))
            s.nextOrderId).quantity⟩
        (Evolved.self _ _)
      have hE1 := hE.modify s.nextOrderId updateOrderStatus SameOrder.ofUpdate
      have hE2 := hE1.restatused s.nextOrderId CANCELLED
      show Evolved _ _ (setOppositeBook _ _ _ _).orderMap (setOppositeBook _ _ _ _).tradeHistory
      rw [(setOppositeBook_heap _ _ _ _).1, (setOppositeBook_heap _ _ _ _).2]
      show Evolved _ _ (if _ then (if _ then _ else _) else _) _
      split_ifs
      · exact hE2
      · exact hE1
      · exact hE1
  | FOK =>
    have hE := executeFOKOrder_evolved s.nextOrderId
      ((s.register (Order.create s.nextOrderId type FOK price quantity symbol)).view symbol)
    simp only [placeOrder, placeFOKOrder, Option.some.injEq] at h
    split_ifs at h with h1 h2
    · simp only [Prod.mk.injEq] at h
      exact Or.inl ⟨h.1.symm, h.2.symm⟩
    · simp only [Prod.mk.injEq] at h
      obtain ⟨hid, hs'⟩ := h
      subst hs'
      exact Or.inr ⟨hid.symm, rfl,
        Order.create s.nextOrderId type FOK price quantity symbol, rfl, rfl, rfl, rfl, rfl,
        rfl, hE.restatused s.nextOrderId CANCELLED⟩
    · simp only [Prod.mk.injEq] at h
      obtain ⟨hid, hs'⟩ := h
      subst hs'
      exact Or.inr ⟨hid.symm, rfl,
        Order.create s.nextOrderId type FOK price quantity symbol, rfl, rfl, rfl, rfl, rfl,
        rfl, hE⟩

end FrameMatch

section Ids

theorem Evolved.kept {m0 m : OrderMap} {t0 t : List Trade} (h : Evolved m0 t0 m t) {k : Int}
    {o : Order} (hk : m0 k = some o) : ∃ o', m k = some o' ∧ SameOrder o o' := by
  have hs := h.keys k
  rw [hk] at hs
  cases hm : m k with
  | none => rw [hm] at hs; exact absurd hs (by simp)
  | some o' => exact ⟨o', rfl, h.same k o o' hk hm⟩

theorem cancelOrder_evolved (s : OrderBook) (orderId : Int) :
    Evolved s.orderMap s.tradeHistory (cancelOrder s orderId).2.orderMap
        (cancelOrder s orderId).2.tradeHistory ∧
      (cancelOrder s orderId).2.tradeHistory = s.tradeHistory ∧
      (cancelOrder s orderId).2.nextOrderId = s.nextOrderId := by
  unfold cancelOrder
  cases s.orderMap orderId with
  | none => exact ⟨Evolved.self _ _, rfl, rfl⟩
  | some o =>
    simp only
    split_ifs
    · exact ⟨Evolved.self _ _, rfl, rfl⟩
    · exact ⟨(Evolved.self _ _).restatused orderId CANCELLED, rfl, rfl⟩

theorem matchOrders_evolved {s s' : OrderBook} {symbol : String}
    (h : matchOrders s symbol = some s') :
    Evolved s.orderMap s.tradeHistory s'.orderMap s'.tradeHistory ∧
      s'.nextOrderId = s.nextOrderId := by
  simp only [matchOrders, Option.map_eq_some'] at h
  obtain ⟨v', hl, he⟩ := h
  subst he
  exact ⟨matchLoop_evolved _ _ _ hl, rfl⟩

/-- No call of a public method lowers the id counter or removes a trade from the log. -/
theorem Step.grows {s s' : OrderBook} (h : Step s s') :
    s.nextOrderId ≤ s'.nextOrderId ∧ ∃ new, s'.tradeHistory = s.tradeHistory ++ new := by
  cases h with
  | place type variant price quantity symbol hq hp =>
    rcases placeOrder_evolved hp with ⟨_, e⟩ | ⟨_, e, _, _, _, _, _, _, _, hE⟩
    · rw [e]
      exact ⟨le_refl _, [], by simp⟩
    · exact ⟨by omega, hE.log⟩
  | cancel orderId =>
    obtain ⟨_, e1, e2⟩ := cancelOrder_evolved s orderId
    exact ⟨by omega, [], by simp [e1]⟩
  | matchPass symbol hm =>
    obtain ⟨hE, e⟩ := matchOrders_evolved hm
    exact ⟨by omega, hE.log⟩
  | index newValue currentTime => exact ⟨le_refl _, [], by simp [updateIndexValue]⟩
  | band symbol referencePrice bandPercentage =>
    exact ⟨le_refl _, [], by simp [setStockPriceBand]⟩

theorem Later.next_le {s s' : OrderBook} (h : Later s s') : s.nextOrderId ≤ s'.nextOrderId := by
  induction h with
  | refl => exact le_refl _
  | step _ hstep ih => exact le_trans ih hstep.grows.1

/-- A placement in a state whose ids are `1 .. nextOrderId - 1` leaves such a state and
keeps every stored order. -/
theorem Dense.afterPlace {s s' : OrderBook} (hd : Dense s) {type : OrderType}
    {variant : OrderVariant} {price quantity : Int} {symbol : String} {id : Int}
    (h : placeOrder s type variant price quantity symbol = some (id, s')) :
    Dense s' ∧
      ∀ k o, s.orderMap k = some o → ∃ o', s'.orderMap k = some o' ∧ SameOrder o o' := by
  rcases placeOrder_evolved h with ⟨_, e⟩ | ⟨_, e, o, hid, _, _, _, _, _, hE⟩
  · rw [e]
    exact ⟨hd, fun k o hk => ⟨o, hk, SameOrder.itself o⟩⟩
  · have hp := hd.next_pos
    refine ⟨⟨by omega, fun k => ?_⟩, fun k x hk => ?_⟩
    · rw [hE.keys k]
      by_cases hkn : k = o.id
      · subst hkn
        rw [storeOrder_same]
        simp only [Option.isSome_some, true_iff]
        omega
      · rw [storeOrder_other _ _ hkn, hd.keys k]
        rw [hid] at hkn
        omega
    · have hlt := (hd.keys k).mp (by rw [hk]; rfl)
      exact hE.kept ((storeOrder_other _ _ (by omega)).trans hk)

theorem Dense.step {s s' : OrderBook} (hd : Dense s) (h : Step s s') :
    Dense s' ∧
      ∀ k o, s.orderMap k = some o → ∃ o', s'.orderMap k = some o' ∧ SameOrder o o' := by
  cases h with
  | place type variant price quantity symbol hq hp => exact hd.afterPlace hp
  | cancel orderId =>
    obtain ⟨hE, _, e2⟩ := cancelOrder_evolved s orderId
    exact ⟨⟨by rw [e2]; exact hd.next_pos, fun k => by rw [hE.keys k, e2]; exact hd.keys k⟩,
      fun k o hk => hE.kept hk⟩
  | matchPass symbol hm =>
    obtain ⟨hE, e2⟩ := matchOrders_evolved hm
    exact ⟨⟨by rw [e2]; exact hd.next_pos, fun k => by rw [hE.keys k, e2]; exact hd.keys k⟩,
      fun k o hk => hE.kept hk⟩
  | index newValue currentTime =>
    exact ⟨⟨hd.next_pos, hd.keys⟩, fun k o hk => ⟨o, hk, SameOrder.itself o⟩⟩
  | band symbol referencePrice bandPercentage =>
    exact ⟨⟨hd.next_pos, hd.keys⟩, fun k o hk => ⟨o, hk, SameOrder.itself o⟩⟩

theorem Dense.later {s s' : OrderBook} (hd : Dense s) (h : Later s s') :
    Dense s' ∧
      ∀ k o, s.orderMap k = some o → ∃ o', s'.orderMap k = some o' ∧ SameOrder o o' := by
  induction h with
  | refl => exact ⟨hd, fun k o hk => ⟨o, hk, SameOrder.itself o⟩⟩
  | step _ hstep ih =>
    obtain ⟨d2, k2⟩ := ih.1.step hstep
    refine ⟨d2, fun k o hk => ?_⟩
    obtain ⟨o1, h1, s1⟩ := ih.2 k o hk
    obtain ⟨o2, h2, s2⟩ := k2 k o1 h1
    exact ⟨o2, h2, s1.andThen s2⟩

theorem Later.ofReachable {s : OrderBook} (h : Reachable s) : Later OrderBook.init s := by
  induction h with
  | init => exact Later.refl _
  | place type variant price quantity symbol _ hq hp ih =>
    exact Later.step ih (Step.place type variant price quantity symbol hq hp)
  | cancel orderId _ ih => exact Later.step ih (Step.cancel _ orderId)
  | matchPass symbol _ hm ih => exact Later.step ih (Step.matchPass symbol hm)
  | index newValue currentTime _ ih => exact Later.step ih (Step.index _ newValue currentTime)
  | band symbol referencePrice bandPercentage _ ih =>
    exact Later.step ih (Step.band _ symbol referencePrice bandPercentage)

/-- In every reachable state the ids in use are `1 .. nextOrderId - 1`. -/
theorem Reachable.dense {s : OrderBook} (h : Reachable s) : Dense s :=
  (Dense.later ⟨le_refl _, fun k => by simp [OrderBook.init]⟩ (Later.ofReachable h)).1

end Ids

section ClaimsIdsAndLog

/-- C28: the trade log is append-only. In any state and for any arguments, the trade log
after a call of `placeOrder` (any variant) or `matchOrders` is the log before the call
followed by the trades the call appended, so every earlier trade is still at its position
with its fields unchanged; `cancelOrder`, `updateIndexValue` and `setStockPriceBand` leave
the log as it is. -/
theorem c28_trade_log_append_only :
    (∀ (s s' : OrderBook) (type : OrderType) (variant : OrderVariant) (price quantity : Int)
      (symbol : String) (id : Int),
      placeOrder s type variant price quantity symbol = some (id, s') →
      (∃ new, s'.tradeHistory = s.tradeHistory ++ new) ∧
      ∀ (i : Nat) (t : Trade), s.tradeHistory[i]? = some t → s'.tradeHistory[i]? = some t) ∧
    (∀ (s s' : OrderBook) (symbol : String), matchOrders s symbol = some s' →
      ∃ new, s'.tradeHistory = s.tradeHistory ++ new) ∧
    (∀ (s : OrderBook) (orderId : Int),
      (cancelOrder s orderId).2.tradeHistory = s.tradeHistory) ∧
    (∀ (s : OrderBook) (newValue : ℚ) (currentTime : Int),
      (updateIndexValue s newValue currentTime).tradeHistory = s.tradeHistory) ∧
    (∀ (s : OrderBook) (symbol : String) (referencePrice bandPercentage : ℚ),
      (setStockPriceBand s symbol referencePrice bandPercentage).tradeHistory =
        s.tradeHistory) := by
  have key : ∀ (s s' : OrderBook) (type : OrderType) (variant : OrderVariant)
      (price quantity : Int) (symbol : String) (id : Int),
      placeOrder s type variant price quantity symbol = some (id, s') →
      ∃ new, s'.tradeHistory = s.tradeHistory ++ new := by
    intro s s' type variant price quantity symbol id h
    rcases placeOrder_evolved h with ⟨_, e⟩ | ⟨_, _, _, _, _, _, _, _, _, hE⟩
    · exact ⟨[], by rw [e]; simp⟩
    · exact hE.log
  refine ⟨fun s s' type variant price quantity symbol id h => ⟨key _ _ _ _ _ _ _ _ h, ?_⟩,
    fun s s' symbol h => (matchOrders_evolved h).1.log,
    fun s orderId => (cancelOrder_evolved s orderId).2.1, fun _ _ _ => rfl, fun _ _ _ _ => rfl⟩
  obtain ⟨new, hn⟩ := key _ _ _ _ _ _ _ _ h
  intro i t hi
  rw [hn, List.getElem?_append_left (List.getElem?_eq_some.mp hi).1]
  exact hi

end ClaimsIdsAndLog

section Doubles

theorem roundHalfEven_near (x : ℚ) : |(roundHalfEven x : ℚ) - x| ≤ 1 / 2 := by
  have h1 := Int.floor_le x
  have h2 := Int.lt_floor_add_one x
  unfold roundHalfEven
  split_ifs with c1 c2 c3
  · rw [abs_le]
    constructor <;> linarith
  · push_cast
    rw [abs_le]
    constructor <;> linarith
  · rw [abs_le]
    constructor <;> linarith
  · push_cast
    rw [abs_le]
    constructor <;> linarith

theorem roundHalfEven_of_near {x : ℚ} {n : Int} (h : |x - n| < 1 / 2) : roundHalfEven x = n := by
  rw [abs_lt] at h
  have h3 := roundHalfEven_near x
  rw [abs_le] at h3
  have h4 : |((roundHalfEven x - n : Int) : ℚ)| < 1 := by
    push_cast
    rw [abs_lt]
    constructor <;> linarith [h.1, h.2, h3.1, h3.2]
  have h5 : |roundHalfEven x - n| < 1 := by exact_mod_cast h4
  have h6 := Int.abs_lt_one_iff.mp h5
  omega

theorem binade_eq {x : ℚ} {e : Int} (h1 : (2 : ℚ) ^ e ≤ |x|) (h2 : |x| < (2 : ℚ) ^ (e + 1))
    (he : -1022 ≤ e) : binade x = e := by
  have hpos : (0 : ℚ) < |x| := lt_of_lt_of_le (zpow_pos (by norm_num) e) h1
  have hlog : Int.log 2 |x| = e := by
    apply le_antisymm
    · have := (Int.lt_zpow_iff_log_lt (b := 2) (by norm_num) hpos (x := e + 1)).mp
        (by exact_mod_cast h2)
      omega
    · exact (Int.zpow_le_iff_le_log (b := 2) (by norm_num) hpos).mp (by exact_mod_cast h1)
  unfold binade
  rw [hlog]
  exact max_eq_left he

/-- The `double` nearest to `x`, found by hand: `n` units of `2 ^ (e - 52)`. -/
theorem toDouble_eq {x : ℚ} (e n : Int) (h1 : (2 : ℚ) ^ e ≤ |x|) (h2 : |x| < (2 : ℚ) ^ (e + 1))
    (he : -1022 ≤ e) (hn : |x / 2 ^ (e - 52) - n| < 1 / 2) :
    toDouble x = n * 2 ^ (e - 52) := by
  unfold toDouble ulp
  rw [binade_eq h1 h2 he, roundHalfEven_of_near hn]

theorem ulp_pos (x : ℚ) : 0 < ulp x := zpow_pos (by norm_num) _

theorem toDouble_error (x : ℚ) : |toDouble x - x| ≤ ulp x / 2 := by
  have h := roundHalfEven_near (x / ulp x)
  have hu := ulp_pos x
  have e : toDouble x - x = ((roundHalfEven (x / ulp x) : ℚ) - x / ulp x) * ulp x := by
    unfold toDouble
    field_simp
  rw [e, abs_mul, abs_of_pos hu]
  calc |(roundHalfEven (x / ulp x) : ℚ) - x / ulp x| * ulp x ≤ 1 / 2 * ulp x :=
        mul_le_mul_of_nonneg_right h (le_of_lt hu)
    _ = ulp x / 2 := by ring

theorem toDouble_zero : toDouble 0 = 0 := by
  simp [toDouble, roundHalfEven]

theorem ulp_le {x M : ℚ} (hM : 1 / 2 ^ 1022 ≤ M) (hx : |x| ≤ M) (h0 : x ≠ 0) :
    ulp x ≤ M / 2 ^ 52 := by
  unfold ulp binade
  have h52 : (2 : ℚ) ^ (max (Int.log 2 |x|) (-1022) - 52) =
      (2 : ℚ) ^ (max (Int.log 2 |x|) (-1022)) / 2 ^ 52 := by
    rw [zpow_sub₀ (by norm_num)]
    norm_num
  rw [h52]
  apply div_le_div_of_nonneg_right _ (by positivity)
  rcases le_total (Int.log 2 |x|) (-1022) with hc | hc
  · rw [max_eq_right hc]
    calc (2 : ℚ) ^ (-1022 : Int) = 1 / 2 ^ 1022 := by
          rw [zpow_neg, one_div]
          norm_cast
      _ ≤ M := hM
  · rw [max_eq_left hc]
    exact le_trans
      (by exact_mod_cast Int.zpow_log_le_self (b := 2) (by norm_num) (abs_pos.mpr h0)) hx

/-- The rounding error of `toDouble` on a value of magnitude at most `M`. -/
theorem toDouble_close {x M : ℚ} (hM : 1 / 2 ^ 1022 ≤ M) (hx : |x| ≤ M) :
    |toDouble x - x| ≤ M / 2 ^ 53 := by
  by_cases h0 : x = 0
  · rw [h0, toDouble_zero]
    simp only [sub_zero, abs_zero]
    have : (0 : ℚ) < 1 / 2 ^ 1022 := by positivity
    exact div_nonneg (by linarith) (by positivity)
  have h1 := toDouble_error x
  have h2 := ulp_le hM hx h0
  calc |toDouble x - x| ≤ ulp x / 2 := h1
    _ ≤ M / 2 ^ 52 / 2 := by linarith
    _ = M / 2 ^ 53 := by ring

theorem abs_mul_le_mul {a b A B : ℚ} (ha : |a| ≤ A) (hb : |b| ≤ B) : |a * b| ≤ A * B := by
  rw [abs_mul]
  exact mul_le_mul ha hb (abs_nonneg _) (le_trans (abs_nonneg _) ha)

theorem tiny_le : (1 : ℚ) / 2 ^ 1022 ≤ 1 / 100 :=
  one_div_le_one_div_of_le (by norm_num) (by norm_num)

/-- The rounding error of a price of `p` ticks. -/
theorem tickValue_close (p : Int) : |tickValue p - p / 100| ≤ |(p : ℚ) / 100| / 2 ^ 53 := by
  unfold tickValue
  by_cases h0 : p = 0
  · subst h0
    simp [toDouble_zero]
  · refine toDouble_close ?_ (le_refl _)
    have h1 : (1 : ℚ) ≤ |(p : ℚ)| := by
      have : (1 : Int) ≤ |p| := Int.one_le_abs h0
      exact_mod_cast this
    rw [abs_div, abs_of_pos (show (0 : ℚ) < 100 by norm_num)]
    have := tiny_le
    linarith [div_le_div_of_nonneg_right h1 (show (0 : ℚ) ≤ 100 by norm_num)]

/-- The limits `placeOrder` computes lie within `ref / 100 / 2 ^ 49` of the exact bounds
`ref / 100 * (1 - pct / 100)` and `ref / 100 * (1 + pct / 100)`. -/
theorem limits_close {ref pct : ℚ} (hr : 1 ≤ ref) (h0 : 0 ≤ pct) (h1 : pct ≤ 100) :
    |lowerLimit (tickValue ref) (toDouble pct) - ref / 100 * (1 - pct / 100)| ≤
        ref / 100 / 2 ^ 49 ∧
      |upperLimit (tickValue ref) (toDouble pct) - ref / 100 * (1 + pct / 100)| ≤
        ref / 100 / 2 ^ 49 := by
  have ht := tiny_le
  have hP : |toDouble pct - pct| ≤ 100 / 2 ^ 53 :=
    toDouble_close (by linarith) (by rw [abs_of_nonneg h0]; exact h1)
  have hP' := abs_le.mp hP
  have hx : |toDouble (toDouble pct / 100) - toDouble pct / 100| ≤ 2 / 2 ^ 53 := by
    refine toDouble_close (by linarith) ?_
    rw [abs_le]
    constructor <;> norm_num at hP' ⊢ <;> linarith [hP'.1, hP'.2]
  have hx' := abs_le.mp hx
  have hR : |tickValue ref - ref / 100| ≤ ref / 100 / 2 ^ 53 := by
    unfold tickValue
    refine toDouble_close (by linarith) ?_
    rw [abs_of_nonneg (by linarith)]
  have hR' := abs_le.mp hR
  have hRb : |tickValue ref| ≤ 2 * (ref / 100) := by
    rw [abs_le]
    constructor <;> norm_num at hR' ⊢ <;> linarith [hR'.1, hR'.2]
  have hrr : |ref / 100| ≤ ref / 100 := by rw [abs_of_nonneg (by linarith)]
  constructor
  · have hy : |toDouble (1 - toDouble (toDouble pct / 100)) -
        (1 - toDouble (toDouble pct / 100))| ≤ 3 / 2 ^ 53 := by
      refine toDouble_close (by linarith) ?_
      rw [abs_le]
      constructor <;> norm_num at hP' hx' ⊢ <;> linarith [hP'.1, hP'.2, hx'.1, hx'.2]
    have hy' := abs_le.mp hy
    have hyb : |toDouble (1 - toDouble (toDouble pct / 100))| ≤ 3 := by
      rw [abs_le]
      constructor <;> norm_num at hP' hx' hy' ⊢ <;>
        linarith [hP'.1, hP'.2, hx'.1, hx'.2, hy'.1, hy'.2]
    have hyc : |toDouble (1 - toDouble (toDouble pct / 100)) - (1 - pct / 100)| ≤
        6 / 2 ^ 53 := by
      rw [abs_le]
      constructor <;> norm_num at hP' hx' hy' ⊢ <;>
        linarith [hP'.1, hP'.2, hx'.1, hx'.2, hy'.1, hy'.2]
    have hU : |lowerLimit (tickValue ref) (toDouble pct) -
        tickValue ref * toDouble (1 - toDouble (toDouble pct / 100))| ≤
        6 * (ref / 100) / 2 ^ 53 := by
      unfold lowerLimit
      refine toDouble_close (by linarith) ?_
      have := abs_mul_le_mul hRb hyb
      linarith
    have f1 := abs_le.mp hU
    have f2 := abs_le.mp (abs_mul_le_mul hR hyb)
    have f3 := abs_le.mp (abs_mul_le_mul hrr hyc)
    rw [abs_le]
    constructor <;> norm_num at f1 f2 f3 ⊢ <;> linarith [f1.1, f1.2, f2.1, f2.2, f3.1, f3.2]
  · have hy : |toDouble (1 + toDouble (toDouble pct / 100)) -
        (1 + toDouble (toDouble pct / 100))| ≤ 3 / 2 ^ 53 := by
      refine toDouble_close (by linarith) ?_
      rw [abs_le]
      constructor <;> norm_num at hP' hx' ⊢ <;> linarith [hP'.1, hP'.2, hx'.1, hx'.2]
    have hy' := abs_le.mp hy
    have hyb : |toDouble (1 + toDouble (toDouble pct / 100))| ≤ 3 := by
      rw [abs_le]
      constructor <;> norm_num at hP' hx' hy' ⊢ <;>
        linarith [hP'.1, hP'.2, hx'.1, hx'.2, hy'.1, hy'.2]
    have hyc : |toDouble (1 + toDouble (toDouble pct / 100)) - (1 + pct / 100)| ≤
        6 / 2 ^ 53 := by
      rw [abs_le]
      constructor <;> norm_num at hP' hx' hy' ⊢ <;>
        linarith [hP'.1, hP'.2, hx'.1, hx'.2, hy'.1, hy'.2]
    have hU : |upperLimit (tickValue ref) (toDouble pct) -
        tickValue ref * toDouble (1 + toDouble (toDouble pct / 100))| ≤
        6 * (ref / 100) / 2 ^ 53 := by
      unfold upperLimit
      refine toDouble_close (by linarith) ?_
      have := abs_mul_le_mul hRb hyb
      linarith
    have f1 := abs_le.mp hU
    have f2 := abs_le.mp (abs_mul_le_mul hR hyb)
    have f3 := abs_le.mp (abs_mul_le_mul hrr hyc)
    rw [abs_le]
    constructor <;> norm_num at f1 f2 f3 ⊢ <;> linarith [f1.1, f1.2, f2.1, f2.2, f3.1, f3.2]

/-- Where the computed limits put a price of `price` ticks: between them when it lies
between the exact bounds with the margin `ref / 2 ^ 48` (in ticks), below or above them
when it lies outside the exact bounds by that margin. -/
theorem limits_decide {ref pct : ℚ} (hr : 1 ≤ ref) (h0 : 0 ≤ pct) (h1 : pct ≤ 100)
    (price : Int) :
    (ref * (1 - pct / 100) + ref / 2 ^ 48 ≤ price ∧
        (price : ℚ) ≤ ref * (1 + pct / 100) - ref / 2 ^ 48 →
      lowerLimit (tickValue ref) (toDouble pct) ≤ tickValue price ∧
        tickValue price ≤ upperLimit (tickValue ref) (toDouble pct)) ∧
    ((price : ℚ) < ref * (1 - pct / 100) - ref / 2 ^ 48 →
      tickValue price < lowerLimit (tickValue ref) (toDouble pct)) ∧
    (ref * (1 + pct / 100) + ref / 2 ^ 48 < price →
      upperLimit (tickValue ref) (toDouble pct) < tickValue price) := by
  obtain ⟨hl, hu⟩ := limits_close hr h0 h1
  have hl' := abs_le.mp hl
  have hu' := abs_le.mp hu
  have hz0 : 0 ≤ ref * pct := mul_nonneg (by linarith) h0
  have hz1 : ref * pct ≤ ref * 100 := mul_le_mul_of_nonneg_left h1 (by linarith)
  have ht := abs_le.mp (tickValue_close price)
  rcases le_total 0 (price : ℚ) with hp | hp
  · rw [abs_of_nonneg (div_nonneg hp (by norm_num))] at ht
    refine ⟨fun hin => ⟨?_, ?_⟩, fun hlo => ?_, fun hhi => ?_⟩ <;>
      norm_num at hl' hu' ht ⊢ <;>
      linarith [hl'.1, hl'.2, hu'.1, hu'.2, ht.1, ht.2]
  · rw [abs_of_nonpos (div_nonpos_of_nonpos_of_nonneg hp (by norm_num))] at ht
    refine ⟨fun hin => ⟨?_, ?_⟩, fun hlo => ?_, fun hhi => ?_⟩ <;>
      norm_num at hl' hu' ht ⊢ <;>
      linarith [hl'.1, hl'.2, hu'.1, hu'.2, ht.1, ht.2]


theorem toDouble_val {x v : ℚ} (e n : Int) (h1 : (2 : ℚ) ^ e ≤ |x|)
    (h2 : |x| < (2 : ℚ) ^ (e + 1)) (he : -1022 ≤ e) (hn : |x / 2 ^ (e - 52) - n| < 1 / 2)
    (hv : (n : ℚ) * 2 ^ (e - 52) = v) : toDouble x = v := by
  rw [toDouble_eq e n h1 h2 he hn, hv]

/-- The band of 15 per cent around 100.00 in double arithmetic: the upper limit falls short
of 115.00. -/
theorem edgeBand_values :
    tickValue 10000 = 100 ∧ toDouble 15 = 15 ∧ lowerLimit 100 15 = 85 ∧
    upperLimit 100 15 = 8092405580431359 / 70368744177664 ∧
    tickValue ((11500 : Int) : ℚ) = 115 ∧ tickValue ((8500 : Int) : ℚ) = 85 := by
  have hR : toDouble (10000 / 100) = 100 :=
    toDouble_val 6 7036874417766400 (by norm_num [abs_of_pos]) (by norm_num [abs_of_pos])
      (by norm_num) (by norm_num [abs_lt]) (by norm_num)
  have hP : toDouble (15) = 15 :=
    toDouble_val 3 8444249301319680 (by norm_num [abs_of_pos]) (by norm_num [abs_of_pos])
      (by norm_num) (by norm_num [abs_lt]) (by norm_num)
  have hx : toDouble (15 / 100) = 5404319552844595 / 36028797018963968 :=
    toDouble_val (-3) 5404319552844595 (by norm_num [abs_of_pos]) (by norm_num [abs_of_pos])
      (by norm_num) (by norm_num [abs_lt]) (by norm_num)
  have hyU : toDouble (1 + (5404319552844595 / 36028797018963968)) =
      2589569785738035 / 2251799813685248 :=
    toDouble_val 0 5179139571476070 (by norm_num [abs_of_pos]) (by norm_num [abs_of_pos])
      (by norm_num) (by norm_num [abs_lt]) (by norm_num)
  have hU : toDouble (100 * (2589569785738035 / 2251799813685248)) =
      8092405580431359 / 70368744177664 :=
    toDouble_val 6 8092405580431359 (by norm_num [abs_of_pos]) (by norm_num [abs_of_pos])
      (by norm_num) (by norm_num [abs_lt]) (by norm_num)
  have hyL : toDouble (1 - (5404319552844595 / 36028797018963968)) =
      7656119366529843 / 9007199254740992 :=
    toDouble_val (-1) 7656119366529843 (by norm_num [abs_of_pos]) (by norm_num [abs_of_pos])
      (by norm_num) (by norm_num [abs_lt]) (by norm_num)
  have hL : toDouble (100 * (7656119366529843 / 9007199254740992)) = 85 :=
    toDouble_val 6 5981343255101440 (by norm_num [abs_of_pos]) (by norm_num [abs_of_pos])
      (by norm_num) (by norm_num [abs_lt]) (by norm_num)
  have hT11500 : toDouble (11500 / 100) = 115 :=
    toDouble_val 6 8092405580431360 (by norm_num [abs_of_pos]) (by norm_num [abs_of_pos])
      (by norm_num) (by norm_num [abs_lt]) (by norm_num)
  have hT8500 : toDouble (8500 / 100) = 85 :=
    toDouble_val 6 5981343255101440 (by norm_num [abs_of_pos]) (by norm_num [abs_of_pos])
      (by norm_num) (by norm_num [abs_lt]) (by norm_num)
  refine ⟨hR, hP, ?_, ?_, ?_, ?_⟩
  · unfold lowerLimit
    rw [hx, hyL, hL]
  · unfold upperLimit
    rw [hx, hyU, hU]
  · unfold tickValue
    rw [Int.cast_ofNat]
    exact hT11500
  · unfold tickValue
    rw [Int.cast_ofNat]
    exact hT8500

/-- The band of 5 per cent around 2000.00 in double arithmetic: the limits are 1900.00 and
2100.00. -/
theorem bandEngine_values :
    tickValue 200000 = 2000 ∧ toDouble 5 = 5 ∧ lowerLimit 2000 5 = 1900 ∧
    upperLimit 2000 5 = 2100 ∧
    tickValue ((190000 : Int) : ℚ) = 1900 ∧ tickValue ((210000 : Int) : ℚ) = 2100 := by
  have hR : toDouble (200000 / 100) = 2000 :=
    toDouble_val 10 8796093022208000 (by norm_num [abs_of_pos]) (by norm_num [abs_of_pos])
      (by norm_num) (by norm_num [abs_lt]) (by norm_num)
  have hP : toDouble (5) = 5 :=
    toDouble_val 2 5629499534213120 (by norm_num [abs_of_pos]) (by norm_num [abs_of_pos])
      (by norm_num) (by norm_num [abs_lt]) (by norm_num)
  have hx : toDouble (5 / 100) = 3602879701896397 / 72057594037927936 :=
    toDouble_val (-5) 7205759403792794 (by norm_num [abs_of_pos]) (by norm_num [abs_of_pos])
      (by norm_num) (by norm_num [abs_lt]) (by norm_num)
  have hyU : toDouble (1 + (3602879701896397 / 72057594037927936)) =
      4728779608739021 / 4503599627370496 :=
    toDouble_val 0 4728779608739021 (by norm_num [abs_of_pos]) (by norm_num [abs_of_pos])
      (by norm_num) (by norm_num [abs_lt]) (by norm_num)
  have hU : toDouble (2000 * (4728779608739021 / 4503599627370496)) = 2100 :=
    toDouble_val 11 4617948836659200 (by norm_num [abs_of_pos]) (by norm_num [abs_of_pos])
      (by norm_num) (by norm_num [abs_lt]) (by norm_num)
  have hyL : toDouble (1 - (3602879701896397 / 72057594037927936)) =
      4278419646001971 / 4503599627370496 :=
    toDouble_val (-1) 8556839292003942 (by norm_num [abs_of_pos]) (by norm_num [abs_of_pos])
      (by norm_num) (by norm_num [abs_lt]) (by norm_num)
  have hL : toDouble (2000 * (4278419646001971 / 4503599627370496)) = 1900 :=
    toDouble_val 10 8356288371097600 (by norm_num [abs_of_pos]) (by norm_num [abs_of_pos])
      (by norm_num) (by norm_num [abs_lt]) (by norm_num)
  have hT190000 : toDouble (190000 / 100) = 1900 :=
    toDouble_val 10 8356288371097600 (by norm_num [abs_of_pos]) (by norm_num [abs_of_pos])
      (by norm_num) (by norm_num [abs_lt]) (by norm_num)
  have hT210000 : toDouble (210000 / 100) = 2100 :=
    toDouble_val 11 4617948836659200 (by norm_num [abs_of_pos]) (by norm_num [abs_of_pos])
      (by norm_num) (by norm_num [abs_lt]) (by norm_num)
  refine ⟨hR, hP, ?_, ?_, ?_, ?_⟩
  · unfold lowerLimit
    rw [hx, hyL, hL]
  · unfold upperLimit
    rw [hx, hyU, hU]
  · unfold tickValue
    rw [Int.cast_ofNat]
    exact hT190000
  · unfold tickValue
    rw [Int.cast_ofNat]
    exact hT210000

end Doubles

section ClaimBand

theorem bandViolation_iff (s : OrderBook) (price : Int) (symbol : String) (ref pct : ℚ)
    (hr : s.referencePrices symbol = some ref) (hp : s.priceBandPercentages symbol = some pct) :
    bandViolation s price symbol = true ↔
      tickValue price < lowerLimit (tickValue ref) (toDouble pct) ∨
        tickValue price > upperLimit (tickValue ref) (toDouble pct) := by
  unfold bandViolation
  rw [hr, hp]
  simp only [Option.getD_some, decide_eq_true_eq]
  exact or_comm

theorem bandViolation_none (s : OrderBook) (price : Int) (symbol : String)
    (hr : s.referencePrices symbol = none) : bandViolation s price symbol = false := by
  unfold bandViolation
  rw [hr]

/-- In normal trading a reachable engine accepts every order of positive quantity that is
not a LIMIT order outside its band: the placement returns the id counter. -/
theorem Inv.accepts {s : OrderBook} (hinv : Inv s)
    (hN : s.circuitBreaker.status = NORMAL_TRADING) (type : OrderType)
    (variant : OrderVariant) (price quantity : Int) (symbol : String) (hq : 0 < quantity)
    (hb : variant = LIMIT → bandViolation s price symbol = false) :
    ∃ s', placeOrder s type variant price quantity symbol = some (s.nextOrderId, s') := by
  cases variant with
  | LIMIT =>
    obtain ⟨v', e, _⟩ := hinv.placeLimit type price quantity symbol hq
      (by rw [hN]; decide) (by rw [hN]; decide) (hb rfl)
    exact ⟨_, e⟩
  | MARKET => exact ⟨_, placeMarketOrder_eq hinv type quantity symbol hN (le_of_lt hq)⟩
  | IOC =>
    refine ⟨(placeIOCOrder s type price quantity symbol).2, ?_⟩
    simp only [StockMatching.placeOrder]
    rw [placeIOCOrder_eq s type price quantity symbol hN]
  | FOK =>
    have h1 := (hinv.placeFOK type price quantity symbol hq hN).1
    refine ⟨(placeFOKOrder s type price quantity symbol).2, ?_⟩
    simp only [StockMatching.placeOrder]
    rw [← h1]

theorem bandEngine_reachable : Reachable bandEngine :=
  Reachable.band "RELIANCE" 200000 5 Reachable.init

theorem edgeBand_reachable : Reachable edgeBand :=
  Reachable.band "INFY" 10000 15 Reachable.init

/-- C22 as stated fails: with the band of 15 per cent around 100.00 the price 115.00 lies
within the bounds `100 * (1 - 15/100) = 85` and `100 * (1 + 15/100) = 115`, the upper one
included, but `placeOrder` computes `upperLimit` in double arithmetic as
8092405580431359 / 2^46 = 114.99999999999998..., and rejects a BUY LIMIT at 115.00. -/
theorem c22_counterexample :
    Reachable edgeBand ∧ edgeBand.circuitBreaker.status = NORMAL_TRADING ∧
    edgeBand.referencePrices "INFY" = some 10000 ∧
    edgeBand.priceBandPercentages "INFY" = some 15 ∧
    ((10000 : ℚ) * (1 - 15 / 100) ≤ ((11500 : Int) : ℚ) ∧
      ((11500 : Int) : ℚ) ≤ (10000 : ℚ) * (1 + 15 / 100)) ∧
    upperLimit (tickValue 10000) (toDouble 15) = 8092405580431359 / 70368744177664 ∧
    tickValue ((11500 : Int) : ℚ) = 115 ∧
    placeOrder edgeBand BUY LIMIT 11500 10 "INFY" = some (-1, edgeBand) := by
  have hr : edgeBand.referencePrices "INFY" = some 10000 := by
    simp [edgeBand, setStockPriceBand]
  have hp : edgeBand.priceBandPercentages "INFY" = some 15 := by
    simp [edgeBand, setStockPriceBand]
  obtain ⟨v1, v2, _, v4, v5, _⟩ := edgeBand_values
  have hU : upperLimit (tickValue 10000) (toDouble 15) =
      8092405580431359 / 70368744177664 := by rw [v1, v2, v4]
  refine ⟨edgeBand_reachable, rfl, hr, hp, ⟨by norm_num, by norm_num⟩, hU, v5, ?_⟩
  have hb : bandViolation edgeBand 11500 "INFY" = true := by
    refine (bandViolation_iff edgeBand 11500 "INFY" 10000 15 hr hp).mpr (Or.inr ?_)
    rw [hU, v5]
    norm_num
  simp only [placeOrder, placeLimitOrder]
  rw [if_neg (by decide), if_neg (by decide), if_pos hb]

/-- C22, amended: the price band. In a reachable state in normal trading, for an order of
positive quantity: (1) for a symbol with band `ref`, `pct`, a LIMIT order is rejected (the
call returns -1 and the state is unchanged) exactly when its price is below `lowerLimit` or
above `upperLimit`, the values of `ref * (1 - pct / 100)` and `ref * (1 + pct / 100)` as
`placeOrder` computes them in double arithmetic, and otherwise, the two limits included, it
is accepted under the next id; for a reference price of one tick or more and a percentage
from 0 to 100 the two limits lie within `ref / 2 ^ 49` of the exact bounds, so that a price
outside the exact bounds by more than `ref / 2 ^ 48` is rejected and a price inside them by
`ref / 2 ^ 48` or more is accepted; (2) for a symbol without a band a LIMIT order of any
price is accepted; (3) a MARKET, IOC or FOK order is accepted whatever its price and the
band.  Prices and reference prices are in ticks, hundredths of the values the limits are
computed from. -/
theorem c22_price_band (s : OrderBook) (h : Reachable s)
    (hN : s.circuitBreaker.status = NORMAL_TRADING) (type : OrderType) (price quantity : Int)
    (symbol : String) (hq : 0 < quantity) :
    (∀ ref pct : ℚ, s.referencePrices symbol = some ref →
      s.priceBandPercentages symbol = some pct →
      (placeOrder s type LIMIT price quantity symbol = some (-1, s) ↔
        tickValue price < lowerLimit (tickValue ref) (toDouble pct) ∨
          tickValue price > upperLimit (tickValue ref) (toDouble pct)) ∧
      (lowerLimit (tickValue ref) (toDouble pct) ≤ tickValue price ∧
          tickValue price ≤ upperLimit (tickValue ref) (toDouble pct) →
        ∃ s', placeOrder s type LIMIT price quantity symbol = some (s.nextOrderId, s') ∧
          s.nextOrderId ≠ -1) ∧
      (1 ≤ ref → 0 ≤ pct → pct ≤ 100 →
        |lowerLimit (tickValue ref) (toDouble pct) - ref / 100 * (1 - pct / 100)| ≤
          ref / 100 / 2 ^ 49 ∧
        |upperLimit (tickValue ref) (toDouble pct) - ref / 100 * (1 + pct / 100)| ≤
          ref / 100 / 2 ^ 49 ∧
        ((price : ℚ) < ref * (1 - pct / 100) - ref / 2 ^ 48 ∨
            ref * (1 + pct / 100) + ref / 2 ^ 48 < (price : ℚ) →
          placeOrder s type LIMIT price quantity symbol = some (-1, s)) ∧
        (ref * (1 - pct / 100) + ref / 2 ^ 48 ≤ (price : ℚ) ∧
            (price : ℚ) ≤ ref * (1 + pct / 100) - ref / 2 ^ 48 →
          ∃ s', placeOrder s type LIMIT price quantity symbol = some (s.nextOrderId, s') ∧
            s.nextOrderId ≠ -1))) ∧
    (s.referencePrices symbol = none →
      ∃ s', placeOrder s type LIMIT price quantity symbol = some (s.nextOrderId, s') ∧
        s.nextOrderId ≠ -1) ∧
    (∀ variant : OrderVariant, variant ≠ LIMIT →
      ∃ s', placeOrder s type variant price quantity symbol = some (s.nextOrderId, s') ∧
        s.nextOrderId ≠ -1) := by
  have hinv := h.inv
  have hpos := h.dense.next_pos
  have hne : s.nextOrderId ≠ -1 := by omega
  refine ⟨fun ref pct hr hp => ?_, fun hr => ?_, fun variant hv => ?_⟩
  · have hiff := bandViolation_iff s price symbol ref pct hr hp
    have hrej : tickValue price < lowerLimit (tickValue ref) (toDouble pct) ∨
          tickValue price > upperLimit (tickValue ref) (toDouble pct) →
        placeOrder s type LIMIT price quantity symbol = some (-1, s) := by
      intro hout
      simp only [placeOrder, placeLimitOrder]
      rw [if_neg (by rw [hN]; decide), if_neg (by rw [hN]; decide), if_pos (hiff.mpr hout)]
    have hacc : lowerLimit (tickValue ref) (toDouble pct) ≤ tickValue price ∧
          tickValue price ≤ upperLimit (tickValue ref) (toDouble pct) →
        ∃ s', placeOrder s type LIMIT price quantity symbol = some (s.nextOrderId, s') ∧
          s.nextOrderId ≠ -1 := by
      intro hin
      have hb : bandViolation s price symbol = false := by
        cases hbv : bandViolation s price symbol with
        | false => rfl
        | true =>
          rcases hiff.mp hbv with h1 | h1
          · exact absurd hin.1 (not_le.mpr h1)
          · exact absurd hin.2 (not_le.mpr h1)
      obtain ⟨s', e⟩ := hinv.accepts hN type LIMIT price quantity symbol hq (fun _ => hb)
      exact ⟨s', e, hne⟩
    refine ⟨⟨fun hr1 => ?_, hrej⟩, hacc, fun h1 h2 h3 => ?_⟩
    · by_contra hno
      have hb : bandViolation s price symbol = false := by
        cases hbv : bandViolation s price symbol with
        | false => rfl
        | true => exact absurd (hiff.mp hbv) hno
      obtain ⟨s', e⟩ := hinv.accepts hN type LIMIT price quantity symbol hq (fun _ => hb)
      rw [e] at hr1
      simp only [Option.some.injEq, Prod.mk.injEq] at hr1
      exact hne hr1.1
    · obtain ⟨c1, c2⟩ := limits_close h1 h2 h3
      obtain ⟨d1, d2, d3⟩ := limits_decide h1 h2 h3 price
      refine ⟨c1, c2, fun hout => hrej ?_, fun hin => hacc (d1 hin)⟩
      rcases hout with ho | ho
      · exact Or.inl (d2 ho)
      · exact Or.inr (d3 ho)
  · obtain ⟨s', e⟩ := hinv.accepts hN type LIMIT price quantity symbol hq
      (fun _ => bandViolation_none s price symbol hr)
    exact ⟨s', e, hne⟩
  · obtain ⟨s', e⟩ := hinv.accepts hN type variant price quantity symbol hq
      (fun hl => absurd hl hv)
    exact ⟨s', e, hne⟩

/-- C22 at test case 5 of `main`: with the band of 5 per cent around 2000.00, whose limits
are computed as 1900.00 and 2100.00, a BUY LIMIT at 2200.00 and a SELL LIMIT at 1850.00 are
rejected, a BUY LIMIT at 2050.00 is accepted, a BUY LIMIT at the upper limit 2100.00 and a
SELL LIMIT at the lower limit 1900.00 are accepted, and a BUY IOC at 2200.00 is accepted. -/
theorem c22_price_band_witness :
    Reachable bandEngine ∧ bandEngine.circuitBreaker.status = NORMAL_TRADING ∧
    bandEngine.referencePrices "RELIANCE" = some 200000 ∧
    bandEngine.priceBandPercentages "RELIANCE" = some 5 ∧
    lowerLimit (tickValue 200000) (toDouble 5) = 1900 ∧
    upperLimit (tickValue 200000) (toDouble 5) = 2100 ∧
    placeOrder bandEngine BUY LIMIT 220000 10 "RELIANCE" = some (-1, bandEngine) ∧
    placeOrder bandEngine SELL LIMIT 185000 10 "RELIANCE" = some (-1, bandEngine) ∧
    (∃ s', placeOrder bandEngine BUY LIMIT 205000 10 "RELIANCE" =
        some (bandEngine.nextOrderId, s') ∧ bandEngine.nextOrderId ≠ -1) ∧
    (∃ s', placeOrder bandEngine BUY LIMIT 210000 10 "RELIANCE" =
        some (bandEngine.nextOrderId, s') ∧ bandEngine.nextOrderId ≠ -1) ∧
    (∃ s', placeOrder bandEngine SELL LIMIT 190000 10 "RELIANCE" =
        some (bandEngine.nextOrderId, s') ∧ bandEngine.nextOrderId ≠ -1) ∧
    (∃ s', placeOrder bandEngine BUY IOC 220000 10 "RELIANCE" =
        some (bandEngine.nextOrderId, s') ∧ bandEngine.nextOrderId ≠ -1) := by
  have hr : bandEngine.referencePrices "RELIANCE" = some 200000 := by
    simp [bandEngine, setStockPriceBand]
  have hp : bandEngine.priceBandPercentages "RELIANCE" = some 5 := by
    simp [bandEngine, setStockPriceBand]
  obtain ⟨v1, v2, v3, v4, v5, v6⟩ := bandEngine_values
  have hL : lowerLimit (tickValue 200000) (toDouble 5) = 1900 := by rw [v1, v2, v3]
  have hU : upperLimit (tickValue 200000) (toDouble 5) = 2100 := by rw [v1, v2, v4]
  exact ⟨bandEngine_reachable, rfl, hr, hp, hL, hU,
    (((c22_price_band bandEngine bandEngine_reachable rfl BUY 220000 10 "RELIANCE"
      (by decide)).1 200000 5 hr hp).2.2 (by norm_num) (by norm_num) (by norm_num)).2.2.1
      (Or.inr (by norm_num)),
    (((c22_price_band bandEngine bandEngine_reachable rfl SELL 185000 10 "RELIANCE"
      (by decide)).1 200000 5 hr hp).2.2 (by norm_num) (by norm_num) (by norm_num)).2.2.1
      (Or.inl (by norm_num)),
    (((c22_price_band bandEngine bandEngine_reachable rfl BUY 205000 10 "RELIANCE"
      (by decide)).1 200000 5 hr hp).2.2 (by norm_num) (by norm_num) (by norm_num)).2.2.2
      ⟨by norm_num, by norm_num⟩,
    ((c22_price_band bandEngine bandEngine_reachable rfl BUY 210000 10 "RELIANCE"
      (by decide)).1 200000 5 hr hp).2.1 ⟨by rw [hL, v6]; norm_num, by rw [hU, v6]⟩,
    ((c22_price_band bandEngine bandEngine_reachable rfl SELL 190000 10 "RELIANCE"
      (by decide)).1 200000 5 hr hp).2.1 ⟨by rw [hL, v5], by rw [hU, v5]; norm_num⟩,
    (c22_price_band bandEngine bandEngine_reachable rfl BUY 220000 10 "RELIANCE"
      (by decide)).2.2 IOC (by decide)⟩

end ClaimBand

section ClaimHeads

theorem cancelledHead_reachable : Reachable cancelledHead :=
  Reachable.cancel 1 restingBook_reachable

/-- C30 as stated fails: `cancelOrder` only marks the order. In `cancelledHead` bid 1,
CANCELLED, is at the head of the queue at 100.00 and the best ask is 101.00; a matching
pass on AAPL completes and leaves it there, and so does the execution of a BUY IOC
101.00 x 4, which sweeps the sell side only. -/
theorem c30_counterexample :
    Reachable cancelledHead ∧
    (matchOrders cancelledHead "AAPL").map
        (fun s => (s.buyOrders "AAPL", (deref s.orderMap 1).status)) =
      some ([(10000, [1, 2])], CANCELLED) ∧
    (placeOrder cancelledHead BUY IOC 10100 4 "AAPL").map
        (fun r => (r.2.buyOrders "AAPL", (deref r.2.orderMap 1).status, r.2.tradeHistory)) =
      some ([(10000, [1, 2])], CANCELLED,
        [⟨1, 3, "AAPL", 10000, 3⟩, ⟨5, 4, "AAPL", 10100, 4⟩]) :=
  ⟨cancelledHead_reachable, by decide, by decide⟩

/-- C30, amended: the cleanup invariant. In every reachable state, and so after every
matching pass and after every MARKET, IOC or FOK execution made in a reachable state, no
price level of any symbol, on either side, holds an order whose status is FILLED, at its
head or behind it. -/
theorem c30_no_filled_order_queued (s : OrderBook) (h : Reachable s) :
    (∀ (side : OrderType) (symbol : String), ∀ l ∈ bookOf s side symbol, ∀ k ∈ l.2,
      (deref s.orderMap k).status ≠ FILLED) ∧
    ∀ s' : OrderBook, Step s s' →
      ∀ (side : OrderType) (symbol : String), ∀ l ∈ bookOf s' side symbol,
        ∀ k, l.2.head? = some k → (deref s'.orderMap k).status ≠ FILLED := by
  have key : ∀ s1 : OrderBook, Reachable s1 → ∀ (side : OrderType) (symbol : String),
      ∀ l ∈ bookOf s1 side symbol, ∀ k ∈ l.2, (deref s1.orderMap k).status ≠ FILLED := by
    intro s1 h1 side symbol l hl k hk
    obtain ⟨o, ho, r⟩ := ((h1.inv.side side symbol).levels l hl).resting k hk
    rw [deref_of_some ho]
    exact r.not_filled
  refine ⟨key s h, fun s' hstep side symbol l hl k hk => ?_⟩
  exact key s' (Step.reachable h hstep) side symbol l hl k (List.mem_of_mem_head? hk)

/-- C30 at test case 2 of `main`: after the MARKET order the filled ask 3 is gone from the
sell side, whose only entry is ask 4, PARTIALLY_FILLED. -/
theorem c30_no_filled_order_queued_witness :
    Reachable msftAfterMarket ∧
    (deref msftAfterMarket.orderMap 3).status = FILLED ∧
    bookOf msftAfterMarket SELL "MSFT" = [(2600, [4])] ∧
    (∀ (side : OrderType) (symbol : String), ∀ l ∈ bookOf msftAfterMarket side symbol,
      ∀ k ∈ l.2, (deref msftAfterMarket.orderMap k).status ≠ FILLED) ∧
    ∀ s' : OrderBook, Step msftAfterMarket s' →
      ∀ (side : OrderType) (symbol : String), ∀ l ∈ bookOf s' side symbol,
        ∀ k, l.2.head? = some k → (deref s'.orderMap k).status ≠ FILLED :=
  ⟨msftAfterMarket_reachable, by decide, by decide,
    c30_no_filled_order_queued msftAfterMarket msftAfterMarket_reachable⟩

end ClaimHeads

section Removals

theorem sweepLevel_sublist (T : Int) (side : OrderType) (p : Int) (q : PriceLevel) :
    ∀ w : Sweep, (sweepLevel T side p q w).1.Sublist q := by
  induction q with
  | nil => intro w; exact List.Sublist.refl _
  | cons h t ih =>
    intro w
    rw [sweepLevel_cons]
    split_ifs
    · exact (ih w).cons h
    · exact (ih _).cons h
    · exact (ih _).cons₂ h
    · exact List.Sublist.refl _

theorem marketLevel_sublist (T : Int) (side : OrderType) (p : Int) (q : PriceLevel) :
    ∀ w : Sweep, (marketLevel T side p q w).1.Sublist q := by
  induction q with
  | nil => intro w; exact List.Sublist.refl _
  | cons h t ih =>
    intro w
    simp only [marketLevel]
    split_ifs
    · exact (ih w).cons h
    · exact (ih _).cons h
    · exact List.Sublist.refl _
    · exact List.Sublist.refl _

theorem Pruned.unchanged (bk : SideBook) : Pruned bk bk :=
  ⟨SubBook.refl bk, fun h => h⟩

theorem Pruned.followedBy {a b c : SideBook} (h1 : Pruned a b) (h2 : Pruned b c) : Pruned a c :=
  ⟨h1.1.trans h2.1, fun h => h1.2 (h2.2 h)⟩

/-- Erasing the first level. -/
theorem Pruned.erased {p : Int} {q : PriceLevel} {rest' rest : SideBook}
    (h : Pruned rest' rest) : Pruned rest' ((p, q) :: rest) := by
  refine ⟨fun l hl => ?_, fun hne => h.2 fun l hl => hne l (List.mem_cons_of_mem _ hl)⟩
  obtain ⟨l0, hl0, e⟩ := h.1 l hl
  exact ⟨l0, List.mem_cons_of_mem _ hl0, e⟩

/-- Keeping a non-empty part of the first level. -/
theorem Pruned.shortened {p : Int} {q' q : PriceLevel} {rest' rest : SideBook}
    (hq : q'.Sublist q) (hne : q' ≠ []) (h : Pruned rest' rest) :
    Pruned ((p, q') :: rest') ((p, q) :: rest) := by
  refine ⟨fun l hl => ?_, fun hn l hl => ?_⟩
  · rcases List.mem_cons.mp hl with rfl | hl
    · exact ⟨(p, q), List.mem_cons_self _ _, rfl, fun x hx => hq.subset hx⟩
    · obtain ⟨l0, hl0, e⟩ := h.1 l hl
      exact ⟨l0, List.mem_cons_of_mem _ hl0, e⟩
  · rcases List.mem_cons.mp hl with rfl | hl
    · exact hne
    · exact h.2 (fun l hl => hn l (List.mem_cons_of_mem _ hl)) l hl

theorem Pruned.popped (bk : SideBook) : Pruned (popBest bk) bk := by
  refine ⟨SubBook.of_popBest bk, fun hn l hl => ?_⟩
  cases bk with
  | nil => exact hn l hl
  | cons l0 rest =>
    obtain ⟨p, q⟩ := l0
    simp only [popBest] at hl
    split_ifs at hl with hq
    · exact hn l (List.mem_cons_of_mem _ hl)
    · rcases List.mem_cons.mp hl with rfl | hl
      · exact hq
      · exact hn l (List.mem_cons_of_mem _ hl)

/-- The outer loop of a sweep only removes orders, and erases the levels it empties. -/
theorem sweepWhile_pruned (ok : Int → Bool) (T : Int) (side : OrderType) (bk : SideBook) :
    ∀ w : Sweep, Pruned (sweepWhile ok T side bk w).1 bk := by
  induction bk with
  | nil => intro w; exact Pruned.unchanged _
  | cons l rest ih =>
    obtain ⟨p, q⟩ := l
    intro w
    rw [sweepWhile_cons]
    split_ifs with h1 h2
    · exact (ih _).erased
    · exact Pruned.shortened (sweepLevel_sublist T side p q w) h2 (ih _)
    · exact Pruned.unchanged _

/-- The outer loop of `executeMarketOrder` only removes orders, and erases the levels it
empties. -/
theorem marketLoop_pruned (T : Int) (side : OrderType) (n : Nat) :
    ∀ (bk : SideBook) (w : Sweep) (r : SideBook × Sweep),
      marketLoop T side n bk w = some r → Pruned r.1 bk := by
  induction n with
  | zero =>
    intro bk w r h
    exact absurd h (by simp [marketLoop])
  | succ n ih =>
    intro bk w r h
    simp only [marketLoop] at h
    split_ifs at h with hq
    · cases bk with
      | nil =>
        simp only [Option.some.injEq] at h
        rw [← h]
        exact Pruned.unchanged _
      | cons l rest =>
        obtain ⟨p, q⟩ := l
        simp only at h
        split_ifs at h with he
        · exact (ih _ _ r h).erased
        · exact (ih _ _ r h).followedBy
            (Pruned.shortened (marketLevel_sublist T side p q w) he (Pruned.unchanged _))
    · simp only [Option.some.injEq] at h
      rw [← h]
      exact Pruned.unchanged _

/-- One run of the loop body of `matchOrders` pops front orders only, and erases the
levels it empties. -/
theorem matchStep_pruned {symbol : String} {v v' : SymbolView}
    (h : matchStep symbol v = some v') :
    Pruned v'.buyBook v.buyBook ∧ Pruned v'.sellBook v.sellBook := by
  obtain ⟨bp, b, bq, brest, sp, a, sq, srest, hb, hs, hc⟩ := matchStep_shape h
  obtain ⟨m, bb, sb, tr⟩ := v
  simp only at hb hs
  subst hb hs
  rw [matchStep_eq, if_pos hc] at h
  by_cases hcond : (deref m b).status ≠ CANCELLED ∧ (deref m a).status ≠ CANCELLED
  · rw [if_pos hcond] at h
    have h' := Option.some.inj h
    subst h'
    constructor
    · show Pruned (if _ then _ else _) _
      split_ifs
      · exact Pruned.popped _
      · exact Pruned.unchanged _
    · show Pruned (if _ then _ else _) _
      split_ifs
      · exact Pruned.popped _
      · exact Pruned.unchanged _
  · rw [if_neg hcond] at h
    have h' := Option.some.inj h
    subst h'
    constructor
    · show Pruned (if _ then _ else _) _
      split_ifs
      · exact Pruned.popped _
      · exact Pruned.unchanged _
    · show Pruned (if _ then _ else _) _
      split_ifs
      · exact Pruned.popped _
      · exact Pruned.unchanged _

theorem matchLoop_pruned {symbol : String} (n : Nat) :
    ∀ v v' : SymbolView, matchLoop symbol n v = some v' →
      Pruned v'.buyBook v.buyBook ∧ Pruned v'.sellBook v.sellBook := by
  induction n with
  | zero =>
    intro v v' h
    exact absurd h (by simp [matchLoop])
  | succ n ih =>
    intro v v' h
    simp only [matchLoop] at h
    cases hm : matchStep symbol v with
    | none =>
      rw [hm] at h
      rw [← Option.some.inj h]
      exact ⟨Pruned.unchanged _, Pruned.unchanged _⟩
    | some v1 =>
      rw [hm] at h
      have h1 := matchStep_pruned hm
      have h2 := ih v1 v' h
      exact ⟨h2.1.followedBy h1.1, h2.2.followedBy h1.2⟩

theorem setOppositeBook_books (v : SymbolView) (sd : OrderType) (bk : SideBook) (w : Sweep)
    (hp : Pruned bk (oppositeBook v sd)) :
    Pruned (setOppositeBook v sd bk w).buyBook v.buyBook ∧
      Pruned (setOppositeBook v sd bk w).sellBook v.sellBook := by
  cases sd
  · exact ⟨Pruned.unchanged _, hp⟩
  · exact ⟨hp, Pruned.unchanged _⟩

/-- The execution of an IOC order only removes orders from the books, and erases the
levels it empties. -/
theorem executeIOCOrder_pruned (T : Int) (v : SymbolView) :
    Pruned (executeIOCOrder T v).buyBook v.buyBook ∧
      Pruned (executeIOCOrder T v).sellBook v.sellBook := by
  unfold executeIOCOrder
  refine setOppositeBook_books _ _ _ _ ?_
  rw [sweepBook_eq_sweepWhile]
  exact sweepWhile_pruned _ _ _ _ _

theorem executeFOKOrder_pruned (T : Int) (v : SymbolView) :
    Pruned (executeFOKOrder T v).2.buyBook v.buyBook ∧
      Pruned (executeFOKOrder T v).2.sellBook v.sellBook := by
  unfold executeFOKOrder
  simp only
  split_ifs
  · refine setOppositeBook_books _ _ _ _ ?_
    rw [sweepBook_eq_sweepWhile]
    exact sweepWhile_pruned _ _ _ _ _
  · exact ⟨Pruned.unchanged _, Pruned.unchanged _⟩

theorem executeMarketOrder_pruned {T : Int} {v v' : SymbolView}
    (h : executeMarketOrder T v = some v') :
    Pruned v'.buyBook v.buyBook ∧ Pruned v'.sellBook v.sellBook := by
  simp only [executeMarketOrder, Option.map_eq_some'] at h
  obtain ⟨r, hr, e⟩ := h
  rw [← e]
  exact setOppositeBook_books _ _ _ _ (marketLoop_pruned _ _ _ _ _ r hr)

theorem insertOrder_noEmpty {side : OrderType} {price n : Int} {bk : SideBook}
    (h : NoEmptyLevel bk) : NoEmptyLevel (insertOrder side price n bk) := by
  intro l hl
  rcases insertOrder_mem hl with hl | rfl | ⟨q, _, rfl⟩
  · exact h l hl
  · simp
  · simp

end Removals
section RemovalsEngine

theorem commit_pruned (s : OrderBook) (symbol : String) {v' : SymbolView}
    (h : Pruned v'.buyBook (s.view symbol).buyBook ∧ Pruned v'.sellBook (s.view symbol).sellBook)
    (sd : OrderType) (y : String) : Pruned (bookOf (s.commit symbol v') sd y) (bookOf s sd y) := by
  rw [bookOf_commit]
  by_cases hy : y = symbol
  · rw [if_pos hy, hy]
    cases sd
    · exact h.1
    · exact h.2
  · rw [if_neg hy]
    exact Pruned.unchanged _

/-- What a placement does to the books, in any engine state and for any arguments: it only
removes orders and erases the levels it empties, after queueing the new order on its own
side when it is an accepted LIMIT order. -/
theorem placeOrder_pruned {s s' : OrderBook} {type : OrderType} {variant : OrderVariant}
    {price quantity : Int} {symbol : String} {id : Int}
    (h : placeOrder s type variant price quantity symbol = some (id, s')) (sd : OrderType)
    (y : String) :
    Pruned (bookOf s' sd y) (bookOf s sd y) ∨
    (variant = LIMIT ∧ sd = type ∧ y = symbol ∧ id = s.nextOrderId ∧
      Pruned (bookOf s' sd y) (insertOrder type price s.nextOrderId (bookOf s type symbol))) := by
  cases variant with
  | LIMIT =>
    simp only [placeOrder, placeLimitOrder] at h
    split_ifs at h with h1 h2 h3
    · simp only [Option.some.injEq, Prod.mk.injEq] at h
      rw [← h.2]
      exact Or.inl (Pruned.unchanged _)
    · simp only [Option.some.injEq, Prod.mk.injEq] at h
      rw [← h.2]
      exact Or.inl (Pruned.unchanged _)
    · simp only [Option.some.injEq, Prod.mk.injEq] at h
      rw [← h.2]
      exact Or.inl (Pruned.unchanged _)
    · simp only [matchOrders, Option.map_map, Option.map_eq_some', Function.comp,
        Prod.mk.injEq] at h
      obtain ⟨v', hl, hid, hs'⟩ := h
      have hp := commit_pruned _ symbol (matchLoop_pruned _ _ _ hl) sd y
      rw [hs', bookOf_enqueue, bookOf_register] at hp
      by_cases hc : sd = type ∧ y = symbol
      · rw [if_pos hc] at hp
        exact Or.inr ⟨rfl, hc.1, hc.2, hid.symm, hp⟩
      · rw [if_neg hc] at hp
        exact Or.inl hp
  | MARKET =>
    simp only [placeOrder, placeMarketOrder] at h
    split_ifs at h with h1
    · simp only [Option.some.injEq, Prod.mk.injEq] at h
      rw [← h.2]
      exact Or.inl (Pruned.unchanged _)
    · simp only [Option.map_eq_some', Prod.mk.injEq] at h
      obtain ⟨v', hl, hid, hs'⟩ := h
      have hp := commit_pruned _ symbol (executeMarketOrder_pruned hl) sd y
      rw [hs', bookOf_register] at hp
      exact Or.inl hp
  | IOC =>
    simp only [placeOrder, placeIOCOrder, Option.some.injEq] at h
    split_ifs at h with h1
    · simp only [Prod.mk.injEq] at h
      rw [← h.2]
      exact Or.inl (Pruned.unchanged _)
    · simp only [Prod.mk.injEq] at h
      have hp := commit_pruned (s.register
        (Order.create s.nextOrderId type IOC price quantity symbol)) symbol
        (executeIOCOrder_pruned s.nextOrderId _) sd y
      rw [h.2, bookOf_register] at hp
      exact Or.inl hp
  | FOK =>
    have hp := commit_pruned (s.register
      (Order.create s.nextOrderId type FOK price quantity symbol)) symbol
      (executeFOKOrder_pruned s.nextOrderId _) sd y
    rw [bookOf_register] at hp
    simp only [placeOrder, placeFOKOrder, Option.some.injEq] at h
    split_ifs at h with h1 h2
    · simp only [Prod.mk.injEq] at h
      rw [← h.2]
      exact Or.inl (Pruned.unchanged _)
    · simp only [Prod.mk.injEq] at h
      rw [← h.2]
      refine Or.inl ?_
      cases sd <;> exact hp
    · simp only [Prod.mk.injEq] at h
      rw [← h.2]
      exact Or.inl hp

theorem matchOrders_pruned {s s' : OrderBook} {symbol : String}
    (h : matchOrders s symbol = some s') (sd : OrderType) (y : String) :
    Pruned (bookOf s' sd y) (bookOf s sd y) := by
  simp only [matchOrders, Option.map_eq_some'] at h
  obtain ⟨v', hl, he⟩ := h
  rw [← he]
  exact commit_pruned s symbol (matchLoop_pruned _ _ _ hl) sd y

theorem cancelOrder_books (s : OrderBook) (orderId : Int) (sd : OrderType) (y : String) :
    bookOf (cancelOrder s orderId).2 sd y = bookOf s sd y := by
  unfold cancelOrder
  cases s.orderMap orderId with
  | none => rfl
  | some o =>
    simp only
    split_ifs
    · rfl
    · cases sd <;> rfl

end RemovalsEngine

section Termination

theorem updateOrderStatus_of_le {o : Order} (h : o.quantity ≤ o.filled_quantity) :
    (updateOrderStatus o).status = FILLED := by
  simp [updateOrderStatus, h]

theorem bookSize_popIf (c : Prop) [Decidable c] (p h : Int) (t : PriceLevel) (rest : SideBook) :
    bookSize (if c then popBest ((p, h :: t) :: rest) else (p, h :: t) :: rest) ≤
        bookSize ((p, h :: t) :: rest) ∧
      (c → bookSize (if c then popBest ((p, h :: t) :: rest) else (p, h :: t) :: rest) + 1 =
        bookSize ((p, h :: t) :: rest)) := by
  have := bookSize_popBest p h t rest
  split_ifs with hc
  · exact ⟨by omega, fun _ => this⟩
  · exact ⟨le_refl _, fun h => absurd h hc⟩

theorem Stored.shrink {m m' : OrderMap} {bk bk' : SideBook} (h : Stored m bk)
    (hs : SubBook bk' bk) (hk : ∀ k, (m' k).isSome = (m k).isSome) : Stored m' bk' := by
  intro l' hl' x hx
  obtain ⟨l, hl, _, sub⟩ := hs l' hl'
  rw [hk]
  exact h l hl x (sub x hx)

/-- One run of the loop body of `matchOrders` on two front orders that are distinct
objects removes at least one of them from its queue, whatever they hold. -/
theorem matchStep_pops {symbol : String} {v v' : SymbolView}
    (hB : Stored v.orderMap v.buyBook) (hS : Stored v.orderMap v.sellBook)
    (hd : ∀ bp b bq brest sp a sq srest, v.buyBook = (bp, b :: bq) :: brest →
      v.sellBook = (sp, a :: sq) :: srest → b ≠ a)
    (h : matchStep symbol v = some v') :
    bookSize v'.buyBook + bookSize v'.sellBook < bookSize v.buyBook + bookSize v.sellBook := by
  obtain ⟨bp, b, bq, brest, sp, a, sq, srest, hb, hs, hc⟩ := matchStep_shape h
  have hne : b ≠ a := hd bp b bq brest sp a sq srest hb hs
  obtain ⟨m, bb, sb, tr⟩ := v
  simp only at hb hs hB hS
  subst hb hs
  obtain ⟨ob, hob⟩ := Option.isSome_iff_exists.mp
    (hB _ (List.mem_cons_self _ _) b (List.mem_cons_self _ _))
  obtain ⟨oa, hoa⟩ := Option.isSome_iff_exists.mp
    (hS _ (List.mem_cons_self _ _) a (List.mem_cons_self _ _))
  rw [matchStep_eq, if_pos hc] at h
  rw [deref_of_some hob, deref_of_some hoa] at h
  have e1 := bookSize_popBest bp b bq brest
  have e2 := bookSize_popBest sp a sq srest
  by_cases hcond : ob.status ≠ CANCELLED ∧ oa.status ≠ CANCELLED
  · rw [if_pos hcond] at h
    have h' := Option.some.inj h
    subst h'
    obtain ⟨f1, f2, _, _⟩ := fillBoth_spec
      (min (ob.quantity - ob.filled_quantity) (oa.quantity - oa.filled_quantity)) hne hob hoa
    show bookSize (if _ then _ else _) + bookSize (if _ then _ else _) <
      bookSize ((bp, b :: bq) :: brest) + bookSize ((sp, a :: sq) :: srest)
    simp only [Order.getRemainingQuantity] at f1 f2 ⊢
    simp only [deref_of_some f1, deref_of_some f2]
    split_ifs with c1 c2 c2
    · omega
    · omega
    · omega
    · exfalso
      rcases min_choice (ob.quantity - ob.filled_quantity) (oa.quantity - oa.filled_quantity)
        with e | e
      · exact c1 (Or.inl (updateOrderStatus_of_le (by
          show ob.quantity ≤ ob.filled_quantity + _
          rw [e]
          omega)))
      · exact c2 (Or.inl (updateOrderStatus_of_le (by
          show oa.quantity ≤ oa.filled_quantity + _
          rw [e]
          omega)))
  · rw [if_neg hcond] at h
    have h' := Option.some.inj h
    subst h'
    show bookSize (if _ then _ else _) + bookSize (if _ then _ else _) <
      bookSize ((bp, b :: bq) :: brest) + bookSize ((sp, a :: sq) :: srest)
    by_cases hx : ob.status = CANCELLED
    · rw [if_pos hx]
      split_ifs <;> omega
    · have hy : oa.status = CANCELLED := by
        by_contra hy
        exact hcond ⟨hx, hy⟩
      rw [if_neg hx, if_pos hy]
      omega

/-- One run of the loop body of `matchOrders` that sets `matchFound` removes at least one
order from a queue, in any book state. -/
theorem matchStep_smaller {symbol : String} {v v' : SymbolView} (hv : BookState v)
    (h : matchStep symbol v = some v') :
    bookSize v'.buyBook + bookSize v'.sellBook < bookSize v.buyBook + bookSize v.sellBook := by
  refine matchStep_pops hv.buy hv.sell (fun bp b bq brest sp a sq srest hb hs e => ?_) h
  refine hv.apart (bp, b :: bq) (by rw [hb]; exact List.mem_cons_self _ _) (sp, a :: sq)
    (by rw [hs]; exact List.mem_cons_self _ _) b (List.mem_cons_self _ _) ?_
  rw [e]
  exact List.mem_cons_self _ _

/-- One run of the loop body of `matchOrders` leaves a book state. -/
theorem matchStep_bookState {symbol : String} {v v' : SymbolView} (hv : BookState v)
    (h : matchStep symbol v = some v') : BookState v' := by
  obtain ⟨pb, ps⟩ := matchStep_pruned h
  have hk := (matchStep_evolved h (Evolved.self v.orderMap v.tradeHistory)).keys
  refine ⟨hv.buy.shrink pb.1 hk, hv.sell.shrink ps.1 hk, fun bl hbl sl hsl x hx hx' => ?_⟩
  obtain ⟨bl0, hbl0, _, sb⟩ := pb.1 bl hbl
  obtain ⟨sl0, hsl0, _, ss⟩ := ps.1 sl hsl
  exact hv.apart bl0 hbl0 sl0 hsl0 x (sb x hx) (ss x hx')

/-- The loop of `matchOrders` ends in any book state: with fuel above the number of queued
handles it returns, at a view where the loop body finds no match. -/
theorem matchLoop_ends {symbol : String} :
    ∀ (n : Nat) (v : SymbolView), BookState v →
      bookSize v.buyBook + bookSize v.sellBook < n →
      ∃ v', matchLoop symbol n v = some v' ∧ matchStep symbol v' = none ∧ BookState v' := by
  intro n
  induction n with
  | zero =>
    intro v _ h
    exact absurd h (Nat.not_lt_zero _)
  | succ n ih =>
    intro v hv h
    simp only [matchLoop]
    cases hm : matchStep symbol v with
    | none => exact ⟨v, rfl, hm, hv⟩
    | some v1 =>
      have := matchStep_smaller hv hm
      exact ih v1 (matchStep_bookState hv hm) (by omega)

end Termination
section TerminationMarket

/-- A fill that leaves the resting order unfilled uses up the incoming order, whatever the
two order objects hold. -/
theorem executeFill_rest {T h : Int} (side : OrderType) (p : Int) {w : Sweep} {oT o : Order}
    (hT : w.orderMap T = some oT) (hh : w.orderMap h = some o) (hne : T ≠ h)
    (hf : (deref (executeFill T side p h w).orderMap h).status ≠ FILLED) :
    (executeFill T side p h w).remainingQty ≤ 0 := by
  obtain ⟨_, fh, _, fr, _⟩ := executeFill_spec side p hT hh hne
  rw [deref_of_some fh] at hf
  have hlt : ¬ o.quantity ≤ o.filled_quantity + min w.remainingQty o.getRemainingQuantity :=
    fun hle => hf (updateOrderStatus_of_le hle)
  rw [fr]
  simp only [Order.getRemainingQuantity] at hlt ⊢
  omega

theorem executeFill_keys (T : Int) (side : OrderType) (p h : Int) (w : Sweep) (k : Int) :
    ((executeFill T side p h w).orderMap k).isSome = (w.orderMap k).isSome :=
  (executeFill_evolved T side p h (Evolved.self w.orderMap w.tradeHistory)).keys k

theorem marketLevel_keys (T : Int) (side : OrderType) (p : Int) (q : PriceLevel) (w : Sweep)
    (k : Int) : ((marketLevel T side p q w).2.orderMap k).isSome = (w.orderMap k).isSome :=
  marketLevel_keeps (fun w' => (w'.orderMap k).isSome = (w.orderMap k).isSome) T side
    (fun p h w' hw' => (executeFill_keys T side p h w' k).trans hw') p q w rfl

/-- The inner loop of `executeMarketOrder` leaves the level empty or the incoming order
with nothing to fill, whatever the order objects hold. -/
theorem marketLevel_progress {T : Int} (side : OrderType) (p : Int) (q : PriceLevel) :
    ∀ w : Sweep, (w.orderMap T).isSome = true →
      (∀ h ∈ q, (w.orderMap h).isSome = true ∧ h ≠ T) →
      (marketLevel T side p q w).1 = [] ∨ (marketLevel T side p q w).2.remainingQty ≤ 0 := by
  induction q with
  | nil => intro w _ _; exact Or.inl rfl
  | cons h t ih =>
    intro w hT hq
    obtain ⟨oT, hoT⟩ := Option.isSome_iff_exists.mp hT
    obtain ⟨hh, hne⟩ := hq h (List.mem_cons_self _ _)
    obtain ⟨o, ho⟩ := Option.isSome_iff_exists.mp hh
    have hqt : ∀ x ∈ t, (w.orderMap x).isSome = true ∧ x ≠ T :=
      fun x hx => hq x (List.mem_cons_of_mem _ hx)
    simp only [marketLevel]
    split_ifs with hpos hc hf
    · exact ih w hT hqt
    · refine ih _ (by rw [executeFill_keys]; exact hT) fun x hx => ?_
      rw [executeFill_keys]
      exact hqt x hx
    · exact Or.inr (executeFill_rest side p hoT ho (fun e => hne e.symm) hf)
    · exact Or.inr (by simp only; omega)

/-- The outer loop of `executeMarketOrder` ends, whatever the order objects and the book
hold: with fuel above the number of levels it returns. -/
theorem marketLoop_ends {T : Int} (side : OrderType) :
    ∀ (n : Nat) (bk : SideBook) (w : Sweep), (w.orderMap T).isSome = true →
      Stored w.orderMap bk → (∀ l ∈ bk, T ∉ l.2) → bk.length < n →
      ∃ r, marketLoop T side n bk w = some r := by
  intro n
  induction n with
  | zero =>
    intro bk w _ _ _ h
    exact absurd h (Nat.not_lt_zero _)
  | succ n ih =>
    intro bk w hT hS hTb hn
    simp only [marketLoop]
    by_cases hpos : 0 < w.remainingQty
    · rw [if_pos hpos]
      cases bk with
      | nil => exact ⟨_, rfl⟩
      | cons l rest =>
        obtain ⟨p, q⟩ := l
        simp only [List.length_cons] at hn
        have hSr : Stored (marketLevel T side p q w).2.orderMap rest := by
          intro l hl x hx
          rw [marketLevel_keys]
          exact hS l (List.mem_cons_of_mem _ hl) x hx
        have hT' : ((marketLevel T side p q w).2.orderMap T).isSome = true := by
          rw [marketLevel_keys]
          exact hT
        simp only
        by_cases he : (marketLevel T side p q w).1 = []
        · rw [if_pos he]
          exact ih rest _ hT' hSr (fun l hl => hTb l (List.mem_cons_of_mem _ hl)) (by omega)
        · rw [if_neg he]
          have hr : (marketLevel T side p q w).2.remainingQty ≤ 0 := by
            rcases marketLevel_progress side p q w hT (fun x hx =>
              ⟨hS (p, q) (List.mem_cons_self _ _) x hx,
                fun e => hTb (p, q) (List.mem_cons_self _ _) (e ▸ hx)⟩) with h0 | h0
            · exact absurd h0 he
            · exact h0
          obtain ⟨k, rfl⟩ : ∃ k, n = k + 1 := ⟨n - 1, by omega⟩
          simp only [marketLoop]
          rw [if_neg (by omega)]
          exact ⟨_, rfl⟩
    · rw [if_neg hpos]
      exact ⟨_, rfl⟩

/-- The method `executeMarketOrder` returns, for any order object that is not itself queued
on the side it trades against and any book whose handles refer to order objects. -/
theorem executeMarketOrder_ends {T : Int} {v : SymbolView} (hT : (v.orderMap T).isSome = true)
    (hS : Stored v.orderMap (oppositeBook v (deref v.orderMap T).type))
    (hTb : ∀ l ∈ oppositeBook v (deref v.orderMap T).type, T ∉ l.2) :
    ∃ v', executeMarketOrder T v = some v' := by
  obtain ⟨r, hr⟩ := marketLoop_ends (deref v.orderMap T).type
    ((oppositeBook v (deref v.orderMap T).type).length + 1)
    (oppositeBook v (deref v.orderMap T).type)
    ⟨v.orderMap, v.tradeHistory, (deref v.orderMap T).quantity⟩ hT hS hTb (Nat.lt_succ_self _)
  simp only [executeMarketOrder, hr, Option.map_some']
  exact ⟨_, rfl⟩

/-- The method `matchOrders` returns in any book state. -/
theorem matchOrders_ends {s : OrderBook} {symbol : String} (hv : BookState (s.view symbol)) :
    ∃ s', matchOrders s symbol = some s' := by
  obtain ⟨v', hv', _⟩ := @matchLoop_ends symbol (matchFuel (s.view symbol)) (s.view symbol) hv
    (by simp [matchFuel])
  exact ⟨s.commit symbol v', by simp [matchOrders, hv']⟩

theorem strayView_bookState : BookState strayView := by
  refine ⟨?_, ?_, ?_⟩
  · unfold Stored
    decide
  · unfold Stored
    decide
  · unfold Apart
    decide

end TerminationMarket

section TypedStates

theorem Typed.bookState {s : OrderBook} (ht : Typed s) (symbol : String) :
    BookState (s.view symbol) := by
  refine ⟨fun l hl h hh => ?_, fun l hl h hh => ?_, fun bl hbl sl hsl h hb hs => ?_⟩
  · obtain ⟨o, ho, _⟩ := ht.queued BUY symbol l hl h hh
    exact Option.isSome_iff_exists.mpr ⟨o, ho⟩
  · obtain ⟨o, ho, _⟩ := ht.queued SELL symbol l hl h hh
    exact Option.isSome_iff_exists.mpr ⟨o, ho⟩
  · obtain ⟨o, ho, t1⟩ := ht.queued BUY symbol bl hbl h hb
    obtain ⟨o', ho', t2⟩ := ht.queued SELL symbol sl hsl h hs
    have e : o = o' := Option.some.inj (ho.symm.trans ho')
    rw [e, t2] at t1
    exact absurd t1 (by decide)

theorem Typed.registered {s : OrderBook} (ht : Typed s) (o : Order)
    (hid : o.id = s.nextOrderId) : Typed (s.register o) := by
  refine ⟨fun side symbol l hl h hh => ?_, fun k o' hk => ?_, ?_⟩
  · rw [bookOf_register] at hl
    obtain ⟨o0, ho0, t0⟩ := ht.queued side symbol l hl h hh
    refine ⟨o0, ?_, t0⟩
    have := ht.fresh h o0 ho0
    show storeOrder s.orderMap o h = some o0
    rw [storeOrder_other _ _ (by omega)]
    exact ho0
  · show k < s.nextOrderId + 1
    have hk' : storeOrder s.orderMap o k = some o' := hk
    by_cases e : k = o.id
    · omega
    · rw [storeOrder_other _ _ e] at hk'
      have := ht.fresh k o' hk'
      omega
  · show 1 ≤ s.nextOrderId + 1
    have := ht.next_pos
    omega

theorem Typed.enqueued {s : OrderBook} (ht : Typed s) {type : OrderType} {price n : Int}
    {symbol : String} {o : Order} (hn : s.orderMap n = some o) (ho : o.type = type) :
    Typed (s.enqueue type price n symbol) := by
  have hm : (s.enqueue type price n symbol).orderMap = s.orderMap := by cases type <;> rfl
  have hx : (s.enqueue type price n symbol).nextOrderId = s.nextOrderId := by cases type <;> rfl
  refine ⟨fun side y l hl h hh => ?_, fun k o' hk => ?_, ?_⟩
  · rw [hm]
    rw [bookOf_enqueue] at hl
    by_cases hc : side = type ∧ y = symbol
    · rw [if_pos hc] at hl
      rcases insertOrder_mem hl with hl | rfl | ⟨q, hq, rfl⟩
      · rw [hc.1]
        exact ht.queued type symbol l hl h hh
      · rw [List.mem_singleton.mp hh, hc.1]
        exact ⟨o, hn, ho⟩
      · rcases List.mem_append.mp hh with hh | hh
        · rw [hc.1]
          exact ht.queued type symbol _ hq h hh
        · rw [List.mem_singleton.mp hh, hc.1]
          exact ⟨o, hn, ho⟩
    · rw [if_neg hc] at hl
      exact ht.queued side y l hl h hh
  · rw [hx]
    rw [hm] at hk
    exact ht.fresh k o' hk
  · rw [hx]
    exact ht.next_pos

/-- Fills, changes of status and removals from the books keep the books typed. -/
theorem Typed.evolve {s s' : OrderBook} (ht : Typed s)
    (hE : Evolved s.orderMap s.tradeHistory s'.orderMap s'.tradeHistory)
    (hn : s'.nextOrderId = s.nextOrderId)
    (hb : ∀ sd y, SubBook (bookOf s' sd y) (bookOf s sd y)) : Typed s' := by
  refine ⟨fun side symbol l hl h hh => ?_, fun k o' hk => ?_, ?_⟩
  · obtain ⟨l0, hl0, _, sub⟩ := hb side symbol l hl
    obtain ⟨o, ho, t0⟩ := ht.queued side symbol l0 hl0 h (sub h hh)
    obtain ⟨o', ho', so⟩ := hE.kept ho
    exact ⟨o', ho', so.2.1.trans t0⟩
  · rw [hn]
    have hk' := hE.keys k
    rw [hk] at hk'
    obtain ⟨o, ho⟩ := Option.isSome_iff_exists.mp hk'.symm
    exact ht.fresh k o ho
  · rw [hn]
    exact ht.next_pos

/-- A placement keeps the books typed, for any arguments. -/
theorem Typed.afterPlacement {s s' : OrderBook} (ht : Typed s) {type : OrderType}
    {variant : OrderVariant} {price quantity : Int} {symbol : String} {id : Int}
    (h : placeOrder s type variant price quantity symbol = some (id, s')) : Typed s' := by
  rcases placeOrder_evolved h with ⟨_, e⟩ | ⟨_, e2, o, hid, hty, _, _, _, _, hE⟩
  · rw [e]
    exact ht
  · have old : ∀ (sd : OrderType) (y : String), ∀ l ∈ bookOf s sd y, ∀ x ∈ l.2,
        ∃ o', s'.orderMap x = some o' ∧ o'.type = sd := by
      intro sd y l hl x hx
      obtain ⟨o0, ho0, t0⟩ := ht.queued sd y l hl x hx
      have := ht.fresh x o0 ho0
      have h0 : storeOrder s.orderMap o x = some o0 := by
        rw [storeOrder_other _ _ (by omega)]
        exact ho0
      obtain ⟨o', ho', so⟩ := hE.kept h0
      exact ⟨o', ho', so.2.1.trans t0⟩
    have new : ∃ o', s'.orderMap s.nextOrderId = some o' ∧ o'.type = type := by
      have h0 : storeOrder s.orderMap o s.nextOrderId = some o := by
        rw [← hid]
        exact storeOrder_same _ _
      obtain ⟨o', ho', so⟩ := hE.kept h0
      exact ⟨o', ho', so.2.1.trans hty⟩
    refine ⟨fun sd y l hl x hx => ?_, fun k o' hk => ?_, ?_⟩
    · rcases placeOrder_pruned h sd y with hp | ⟨_, e1, e3, _, hp⟩
      · obtain ⟨l0, hl0, _, sub⟩ := hp.1 l hl
        exact old sd y l0 hl0 x (sub x hx)
      · obtain ⟨l0, hl0, _, sub⟩ := hp.1 l hl
        have hx0 := sub x hx
        rw [e1]
        rcases insertOrder_mem hl0 with hl0 | rfl | ⟨q, hq, rfl⟩
        · exact old type symbol l0 hl0 x hx0
        · rw [List.mem_singleton.mp hx0]
          exact new
        · rcases List.mem_append.mp hx0 with hx0 | hx0
          · exact old type symbol _ hq x hx0
          · rw [List.mem_singleton.mp hx0]
            exact new
    · rw [e2]
      have hk' := hE.keys k
      rw [hk] at hk'
      obtain ⟨o0, ho0⟩ := Option.isSome_iff_exists.mp hk'.symm
      by_cases e : k = o.id
      · omega
      · rw [storeOrder_other _ _ e] at ho0
        have := ht.fresh k o0 ho0
        omega
    · rw [e2]
      have := ht.next_pos
      omega

/-- Every state of every call sequence, whatever the quantities placed, has typed books. -/
theorem Attainable.typed {s : OrderBook} (h : Attainable s) : Typed s := by
  induction h with
  | init =>
    exact ⟨fun side symbol l hl => by cases side <;> simp [bookOf, OrderBook.init] at hl,
      fun k o hk => absurd hk (by simp [OrderBook.init]), by simp [OrderBook.init]⟩
  | place type variant price quantity symbol _ hp ih => exact ih.afterPlacement hp
  | cancel orderId _ ih =>
    obtain ⟨hE, _, hn⟩ := cancelOrder_evolved _ orderId
    exact ih.evolve hE hn fun sd y => by
      rw [cancelOrder_books]
      exact SubBook.refl _
  | matchPass symbol _ hm ih =>
    obtain ⟨hE, hn⟩ := matchOrders_evolved hm
    exact ih.evolve hE hn fun sd y => (matchOrders_pruned hm sd y).1
  | index newValue currentTime _ ih =>
    exact ⟨fun side symbol l hl h hh => ih.queued side symbol l (by cases side <;> exact hl) h hh,
      ih.fresh, ih.next_pos⟩
  | band symbol referencePrice bandPercentage _ ih =>
    exact ⟨fun side y l hl h hh => ih.queued side y l (by cases side <;> exact hl) h hh,
      ih.fresh, ih.next_pos⟩

theorem Reachable.attainable {s : OrderBook} (h : Reachable s) : Attainable s := by
  induction h with
  | init => exact Attainable.init
  | place type variant price quantity symbol _ _ hp ih =>
    exact Attainable.place type variant price quantity symbol ih hp
  | cancel orderId _ ih => exact Attainable.cancel orderId ih
  | matchPass symbol _ hm ih => exact Attainable.matchPass symbol ih hm
  | index newValue currentTime _ ih => exact Attainable.index newValue currentTime ih
  | band symbol referencePrice bandPercentage _ ih =>
    exact Attainable.band symbol referencePrice bandPercentage ih

theorem placeAll_attainable (l : List (OrderType × OrderVariant × Int × Int × String)) :
    ∀ s s', Attainable s → placeAll s l = some s' → Attainable s' := by
  induction l with
  | nil =>
    intro s s' hs h
    simp only [placeAll, Option.some.injEq] at h
    rw [← h]
    exact hs
  | cons e rest ih =>
    obtain ⟨t, v, p, q, sym⟩ := e
    intro s s' hs h
    simp only [placeAll] at h
    cases hp : placeOrder s t v p q sym with
    | none => rw [hp] at h; exact absurd h (by simp)
    | some r =>
      rw [hp] at h
      obtain ⟨id, s1⟩ := r
      exact ih s1 s' (Attainable.place t v p q sym hs hp) h

theorem runAll_attainable (l : List (OrderType × OrderVariant × Int × Int × String))
    (hsome : (placeAll OrderBook.init l).isSome = true) :
    Attainable (runAll OrderBook.init l) := by
  obtain ⟨s', hs'⟩ := Option.isSome_iff_exists.mp hsome
  have : runAll OrderBook.init l = s' := by simp [runAll, hs']
  rw [this]
  exact placeAll_attainable l _ _ Attainable.init hs'

theorem negativeAsk_attainable : Attainable negativeAsk :=
  runAll_attainable _ (by decide)

end TypedStates
section Unvalidated

theorem insertOrder_has (side : OrderType) (price n : Int) (bk : SideBook) :
    ∃ q, (price, q ++ [n]) ∈ insertOrder side price n bk := by
  induction bk with
  | nil => exact ⟨[], by simp [insertOrder]⟩
  | cons l rest ih =>
    obtain ⟨p, q⟩ := l
    simp only [insertOrder]
    split_ifs with h1 h2
    · exact ⟨q, by rw [h1]; exact List.mem_cons_self _ _⟩
    · exact ⟨[], List.mem_cons_self _ _⟩
    · obtain ⟨q', hq'⟩ := ih
      exact ⟨q', List.mem_cons_of_mem _ hq'⟩

theorem matchStep_sell_nil (symbol : String) (v : SymbolView) (h : v.sellBook = []) :
    matchStep symbol v = none := by
  cases hm : matchStep symbol v with
  | none => rfl
  | some v' =>
    obtain ⟨_, _, _, _, _, _, _, _, _, hs, _⟩ := matchStep_shape hm
    rw [h] at hs
    exact absurd hs (by simp)

theorem matchStep_buy_nil (symbol : String) (v : SymbolView) (h : v.buyBook = []) :
    matchStep symbol v = none := by
  cases hm : matchStep symbol v with
  | none => rfl
  | some v' =>
    obtain ⟨_, _, _, _, _, _, _, _, hb, _, _⟩ := matchStep_shape hm
    rw [h] at hb
    exact absurd hb (by simp)

theorem matchOrders_of_none {s : OrderBook} {symbol : String}
    (h : matchStep symbol (s.view symbol) = none) : matchOrders s symbol = some s := by
  simp only [matchOrders, matchFuel, matchLoop, h, Option.map_some', commit_view]

/-- The placement of a LIMIT order that passes admission, for any quantity, in a state with
typed books: the order is stored with status ACTIVE and queued at the back of the queue of
its price, and the call returns the state `matchOrders` leaves from there. -/
theorem Typed.limitPlaced {s : OrderBook} (ht : Typed s)
    (hN : s.circuitBreaker.status = NORMAL_TRADING) (type : OrderType) (price quantity : Int)
    (symbol : String) (hb : bandViolation s price symbol = false) :
    ∃ s', placeOrder s type LIMIT price quantity symbol = some (s.nextOrderId, s') ∧
      matchOrders ((s.register (Order.create s.nextOrderId type LIMIT price quantity
        symbol)).enqueue type price s.nextOrderId symbol) symbol = some s' := by
  have ht1 := ht.registered (Order.create s.nextOrderId type LIMIT price quantity symbol) rfl
  have ht2 : Typed ((s.register (Order.create s.nextOrderId type LIMIT price quantity
      symbol)).enqueue type price s.nextOrderId symbol) :=
    ht1.enqueued (o := Order.create s.nextOrderId type LIMIT price quantity symbol)
      (storeOrder_same s.orderMap (Order.create s.nextOrderId type LIMIT price quantity symbol))
      rfl
  obtain ⟨s', hs'⟩ := matchOrders_ends (ht2.bookState symbol)
  refine ⟨s', ?_, hs'⟩
  simp only [placeOrder, placeLimitOrder]
  rw [if_neg (by rw [hN]; decide), if_neg (by rw [hN]; decide), if_neg (by simp [hb]), hs']
  rfl

/-- In normal trading, a state with typed books accepts an order of any quantity, for
every variant, under the next id. -/
theorem Typed.admits {s : OrderBook} (ht : Typed s)
    (hN : s.circuitBreaker.status = NORMAL_TRADING) (type : OrderType)
    (variant : OrderVariant) (price quantity : Int) (symbol : String)
    (hb : variant = LIMIT → bandViolation s price symbol = false) :
    ∃ s', placeOrder s type variant price quantity symbol = some (s.nextOrderId, s') := by
  cases variant with
  | LIMIT =>
    obtain ⟨s', h, _⟩ := ht.limitPlaced hN type price quantity symbol (hb rfl)
    exact ⟨s', h⟩
  | MARKET =>
    have hd := deref_register s (Order.create s.nextOrderId type MARKET 0 quantity symbol) rfl
    have ht1 := ht.registered (Order.create s.nextOrderId type MARKET 0 quantity symbol) rfl
    have hty : (deref ((s.register (Order.create s.nextOrderId type MARKET 0 quantity
        symbol)).view symbol).orderMap s.nextOrderId).type = type := by
      show (deref (s.register _).orderMap s.nextOrderId).type = type
      rw [hd]
      rfl
    obtain ⟨v', hv'⟩ := executeMarketOrder_ends (T := s.nextOrderId)
      (v := (s.register (Order.create s.nextOrderId type MARKET 0 quantity symbol)).view symbol)
      (Option.isSome_iff_exists.mpr ⟨_, storeOrder_same s.orderMap
        (Order.create s.nextOrderId type MARKET 0 quantity symbol)⟩)
      (by
        rw [hty]
        cases type
        · exact (ht1.bookState symbol).sell
        · exact (ht1.bookState symbol).buy)
      (by
        rw [hty, oppositeBook_view]
        intro l hl hx
        obtain ⟨o, ho, _⟩ := ht.queued (opposite type) symbol l hl _ hx
        have := ht.fresh _ o ho
        omega)
    refine ⟨(s.register (Order.create s.nextOrderId type MARKET 0 quantity symbol)).commit
      symbol v', ?_⟩
    simp only [placeOrder, placeMarketOrder]
    rw [if_neg (by simp [hN]), hv']
    rfl
  | IOC =>
    refine ⟨(placeIOCOrder s type price quantity symbol).2, ?_⟩
    simp only [placeOrder]
    rw [placeIOCOrder_eq s type price quantity symbol hN]
  | FOK =>
    refine ⟨(placeFOKOrder s type price quantity symbol).2, ?_⟩
    have h1 : (placeFOKOrder s type price quantity symbol).1 = s.nextOrderId := by
      unfold placeFOKOrder
      rw [if_neg (by simp [hN])]
      simp only
      split_ifs <;> rfl
    simp only [placeOrder]
    rw [← h1]

end Unvalidated

section ClaimQuantity

/-- C35: quantity is not validated. (1) In every state of every call sequence, whatever the
quantities placed before, in normal trading and for a LIMIT order with no band violation,
`placeOrder` accepts an order of any quantity, zero and negative included, for every
variant: the counter is not -1 and is not yet a key of the order map, and the call returns
it and stores under it an order of that quantity. (2) For a LIMIT order the state handed to
`matchOrders` holds the new order, with status ACTIVE, at the back of the queue of its
price on its own side, and the call returns the state `matchOrders` leaves; when the other
side of the symbol is empty that is the same state, so the order rests ACTIVE. (3) On a
fresh engine a BUY LIMIT 100.00 of quantity 0, and one of quantity -5, rest ACTIVE under id 1.
(4) The bound `0 ≤ filled ≤ total` holds for every order in every state of a call sequence
whose quantities are all positive, and fails without that: after a bid 100.00 x 10 and an
ask 100.00 x -5 the log holds a trade of quantity -5 and both orders have filled -5. -/
theorem c35_quantity_not_validated :
    (∀ s : OrderBook, Attainable s → s.circuitBreaker.status = NORMAL_TRADING →
      ∀ (type : OrderType) (variant : OrderVariant) (price quantity : Int) (symbol : String),
      (variant = LIMIT → bandViolation s price symbol = false) →
      s.nextOrderId ≠ -1 ∧ s.orderMap s.nextOrderId = none ∧
      ∃ s', placeOrder s type variant price quantity symbol = some (s.nextOrderId, s') ∧
        ∃ o, s'.orderMap s.nextOrderId = some o ∧ o.quantity = quantity ∧
          o.variant = variant ∧ o.type = type) ∧
    (∀ s : OrderBook, Attainable s → s.circuitBreaker.status = NORMAL_TRADING →
      ∀ (type : OrderType) (price quantity : Int) (symbol : String),
      bandViolation s price symbol = false →
      ∃ s2 s', placeOrder s type LIMIT price quantity symbol = some (s.nextOrderId, s') ∧
        matchOrders s2 symbol = some s' ∧
        (∃ q, (price, q ++ [s.nextOrderId]) ∈ bookOf s2 type symbol) ∧
        (∃ o, s2.orderMap s.nextOrderId = some o ∧ o.status = ACTIVE ∧
          o.quantity = quantity ∧ o.filled_quantity = 0) ∧
        (bookOf s (opposite type) symbol = [] → s' = s2)) ∧
    ((placeOrder OrderBook.init BUY LIMIT 10000 0 "AAPL").map
        (fun r => (r.1, bookOf r.2 BUY "AAPL", r.2.orderMap 1)) =
      some (1, [(10000, [1])], some ⟨1, BUY, LIMIT, 10000, 0, 0, ACTIVE, "AAPL"⟩) ∧
    (placeOrder OrderBook.init BUY LIMIT 10000 (-5) "AAPL").map
        (fun r => (r.1, bookOf r.2 BUY "AAPL", r.2.orderMap 1)) =
      some (1, [(10000, [1])], some ⟨1, BUY, LIMIT, 10000, -5, 0, ACTIVE, "AAPL"⟩)) ∧
    (∀ s : OrderBook, Reachable s → ∀ k o, s.orderMap k = some o →
      0 ≤ o.filled_quantity ∧ o.filled_quantity ≤ o.quantity) ∧
    (Attainable negativeAsk ∧
      negativeAsk.orderMap 1 = some ⟨1, BUY, LIMIT, 10000, 10, -5, ACTIVE, "AAPL"⟩ ∧
      negativeAsk.orderMap 2 = some ⟨2, SELL, LIMIT, 10000, -5, -5, FILLED, "AAPL"⟩ ∧
      negativeAsk.tradeHistory = [⟨1, 2, "AAPL", 10000, -5⟩] ∧
      bookOf negativeAsk BUY "AAPL" = [(10000, [1])] ∧ bookOf negativeAsk SELL "AAPL" = []) := by
  refine ⟨fun s hs hN type variant price quantity symbol hb => ?_,
    fun s hs hN type price quantity symbol hb => ?_, ⟨by decide, by decide⟩,
    fun s hs k o hk => ⟨(hs.sound.orders k o hk).filled_nonneg,
      (hs.sound.orders k o hk).filled_le⟩,
    negativeAsk_attainable, by decide, by decide, by decide, by decide, by decide⟩
  · have ht := hs.typed
    have hpos := ht.next_pos
    obtain ⟨s', h⟩ := ht.admits hN type variant price quantity symbol hb
    refine ⟨by omega, ?_, s', h, ?_⟩
    · cases hm : s.orderMap s.nextOrderId with
      | none => rfl
      | some o =>
        have := ht.fresh _ o hm
        omega
    · rcases placeOrder_evolved h with ⟨e, _⟩ | ⟨_, _, o, hid, hty, hvar, hq, _, _, hE⟩
      · omega
      · obtain ⟨o', ho', so⟩ := hE.kept (k := o.id) (storeOrder_same _ _)
        rw [hid] at ho'
        exact ⟨o', ho', so.2.2.2.2.1.trans hq, so.2.2.1.trans hvar, so.2.1.trans hty⟩
  · have ht := hs.typed
    obtain ⟨s', h, hm⟩ := ht.limitPlaced hN type price quantity symbol hb
    refine ⟨_, s', h, hm, ?_, ⟨Order.create s.nextOrderId type LIMIT price quantity symbol, ?_,
      rfl, rfl, rfl⟩, fun he => ?_⟩
    · rw [bookOf_enqueue, if_pos ⟨rfl, rfl⟩]
      exact insertOrder_has _ _ _ _
    · cases type <;> simp [OrderBook.enqueue, OrderBook.register, storeOrder, Order.create]
    · have hnone : matchStep symbol (((s.register (Order.create s.nextOrderId type LIMIT price
          quantity symbol)).enqueue type price s.nextOrderId symbol).view symbol) = none := by
        cases type
        · refine matchStep_sell_nil _ _ ?_
          rw [bookOf_view_sell, bookOf_enqueue, if_neg (by simp), bookOf_register]
          exact he
        · refine matchStep_buy_nil _ _ ?_
          rw [bookOf_view_buy, bookOf_enqueue, if_neg (by simp), bookOf_register]
          exact he
      rw [matchOrders_of_none hnone] at hm
      exact (Option.some.inj hm).symm

end ClaimQuantity

section Limits

theorem WithinLimits.carried {b a b' a' : Order} {t : Trade} (h : WithinLimits b a t)
    (hb : SameOrder b b') (ha : SameOrder a a') : WithinLimits b' a' t := by
  obtain ⟨_, _, vb, pb, _⟩ := hb
  obtain ⟨_, _, va, pa, _⟩ := ha
  unfold WithinLimits at *
  rw [vb, va, pb, pa]
  exact h

/-- Fills and changes of status keep the trades within the limits of their orders; so do
new trades that are within the limits of the orders they were made between. -/
theorem Priced.grow {m0 m : OrderMap} {t0 t new : List Trade} (hp : Priced m0 t0)
    (hE : Evolved m0 t0 m t) (ht : t = t0 ++ new) (hn : Priced m0 new) : Priced m t := by
  intro x hx
  rw [ht] at hx
  have key : ∃ b a, m0 x.buyOrderId = some b ∧ m0 x.sellOrderId = some a ∧
      WithinLimits b a x := by
    rcases List.mem_append.mp hx with h | h
    · exact hp x h
    · exact hn x h
  obtain ⟨b, a, hb, ha, hw⟩ := key
  obtain ⟨b', hb', sb⟩ := hE.kept hb
  obtain ⟨a', ha', sa⟩ := hE.kept ha
  exact ⟨b', a', hb', ha', hw.carried sb sa⟩

theorem Priced.afterStore {m : OrderMap} {tr : List Trade} (hp : Priced m tr) (o : Order)
    (hfresh : m o.id = none) : Priced (storeOrder m o) tr := by
  intro x hx
  obtain ⟨b, a, hb, ha, hw⟩ := hp x hx
  refine ⟨b, a, ?_, ?_, hw⟩
  · rw [storeOrder_other _ _ (fun e => by rw [e, hfresh] at hb; exact absurd hb (by simp))]
    exact hb
  · rw [storeOrder_other _ _ (fun e => by rw [e, hfresh] at ha; exact absurd ha (by simp))]
    exact ha

theorem Inv.unused {s : OrderBook} (hinv : Inv s) : s.orderMap s.nextOrderId = none := by
  cases hm : s.orderMap s.nextOrderId with
  | none => rfl
  | some y =>
    have := hinv.fresh _ y hm
    omega

/-- The trades of a sweep made in a state satisfying the invariant are within the limits of
the incoming order and of the resting orders. -/
theorem Inv.sweep_priced {s : OrderBook} (hinv : Inv s) (ok : Int → Bool) (o : Order)
    (hid : o.id = s.nextOrderId) (symbol : String) {q0 : Int} (hq : 0 ≤ q0)
    (hok : o.variant ≠ MARKET → ∀ p, ok p = true → marketable o.type p o.price = true) :
    ∃ new, (sweepWhile ok s.nextOrderId o.type (bookOf s (opposite o.type) symbol)
        ⟨storeOrder s.orderMap o, s.tradeHistory, q0⟩).2.tradeHistory = s.tradeHistory ++ new ∧
      Priced (storeOrder s.orderMap o) new := by
  obtain ⟨new, h1, _, h3, _⟩ := (hinv.sweep ok o hid symbol hq).trades
  refine ⟨new, h1, fun t ht => ?_⟩
  obtain ⟨l, hl, c1, c2, c3, c4, _⟩ := h3 t ht
  obtain ⟨r, hr, rr⟩ := ((hinv.side (opposite o.type) symbol).levels l hl).resting _ c3
  have hlt := hinv.handle_lt hl c3
  have hr' : storeOrder s.orderMap o (t.restingId o.type) = some r := by
    rw [storeOrder_other _ _ (by omega)]
    exact hr
  have hT : storeOrder s.orderMap o (t.takerId o.type) = some o := by
    rw [c4, ← hid]
    exact storeOrder_same _ _
  have hp : r.price = t.price := rr.price_eq.trans c2.symm
  have hm : o.variant ≠ MARKET → marketable o.type t.price o.price = true :=
    fun hv => by rw [c2]; exact hok hv _ c1
  cases hty : o.type with
  | BUY =>
    rw [hty] at hr' hT hm
    refine ⟨o, r, hT, hr', fun hv _ => ⟨le_of_eq hp, ?_⟩, fun _ => ⟨rr.variant_eq, hp.symm⟩,
      fun hv => ?_⟩
    · simpa [marketable] using hm hv
    · rw [rr.variant_eq] at hv
      exact absurd hv (by decide)
  | SELL =>
    rw [hty] at hr' hT hm
    refine ⟨r, o, hr', hT, fun _ hv => ⟨?_, le_of_eq hp.symm⟩, fun hv => ?_,
      fun _ => ⟨rr.variant_eq, hp.symm⟩⟩
    · simpa [marketable] using hm hv
    · rw [rr.variant_eq] at hv
      exact absurd hv (by decide)

theorem sweepWhile_keeps (J : Sweep → Prop) (ok : Int → Bool) (T : Int) (side : OrderType)
    (hJ : ∀ (p h : Int) (w : Sweep), J w → J (executeFill T side p h w)) (bk : SideBook) :
    ∀ w : Sweep, J w → J (sweepWhile ok T side bk w).2 := by
  induction bk with
  | nil => intro w hw; exact hw
  | cons l rest ih =>
    obtain ⟨p, q⟩ := l
    intro w hw
    rw [sweepWhile_cons]
    split_ifs
    · exact ih _ (sweepLevel_keeps J T side hJ p q w hw)
    · exact ih _ (sweepLevel_keeps J T side hJ p q w hw)
    · exact hw

theorem SameOrder.ofIocFinal (o : Order) : SameOrder o (iocFinal o) := by
  unfold iocFinal
  split_ifs
  · exact SameOrder.ofUpdate o
  · exact SameOrder.ofUpdate o
  · exact SameOrder.ofUpdate o

theorem SameOrder.ofMarketFinal (o : Order) : SameOrder o (marketFinal o) := by
  unfold marketFinal
  split_ifs
  · exact SameOrder.ofUpdate o
  · exact SameOrder.ofUpdate o

theorem SameOrder.ofFokFinal (o : Order) : SameOrder o (fokFinal o) := by
  unfold fokFinal
  split_ifs
  · exact SameOrder.ofUpdate o
  · exact SameOrder.ofUpdate o

/-- The heap and the log after the sweep of an incoming order come from the heap holding
its new record by fills and changes of status. -/
theorem sweptState_evolved (s : OrderBook) (o : Order) (symbol : String) (ok : Int → Bool)
    (bk : SideBook) (q0 : Int) (g : Order → Order) (hg : ∀ x, SameOrder x (g x)) :
    Evolved (storeOrder s.orderMap o) s.tradeHistory
      (sweptState s o symbol
        (sweepWhile ok s.nextOrderId o.type bk ⟨storeOrder s.orderMap o, s.tradeHistory, q0⟩).1
        (sweepWhile ok s.nextOrderId o.type bk ⟨storeOrder s.orderMap o, s.tradeHistory, q0⟩).2
        g).orderMap
      (sweptState s o symbol
        (sweepWhile ok s.nextOrderId o.type bk ⟨storeOrder s.orderMap o, s.tradeHistory, q0⟩).1
        (sweepWhile ok s.nextOrderId o.type bk ⟨storeOrder s.orderMap o, s.tradeHistory, q0⟩).2
        g).tradeHistory := by
  have hE := sweepWhile_keeps
    (fun w => Evolved (storeOrder s.orderMap o) s.tradeHistory w.orderMap w.tradeHistory) ok
    s.nextOrderId o.type (fun p x w hw => executeFill_evolved _ _ p x hw) bk
    ⟨storeOrder s.orderMap o, s.tradeHistory, q0⟩ (Evolved.self _ _)
  exact hE.modify s.nextOrderId g hg

/-- A trade the matching loop makes between orders held in a well-formed view is within the
limits of both. -/
theorem TradeIn.withinLimits {symbol : String} {v : SymbolView} {t : Trade} (hv : ViewOK symbol v)
    (h : TradeIn symbol v t) :
    ∃ b a, v.orderMap t.buyOrderId = some b ∧ v.orderMap t.sellOrderId = some a ∧
      WithinLimits b a t := by
  obtain ⟨bl, hbl, sl, hsl, m1, m2, e3, e4, _⟩ := h
  obtain ⟨b, hb, rb⟩ := (hv.buy.levels bl hbl).resting _ m1
  obtain ⟨a, ha, ra⟩ := (hv.sell.levels sl hsl).resting _ m2
  refine ⟨b, a, hb, ha, fun _ _ => ⟨?_, ?_⟩, fun hm => ?_, fun hm => ?_⟩
  · rw [ra.price_eq, e3]
  · rw [rb.price_eq, e3]
    exact e4
  · rw [rb.variant_eq] at hm
    exact absurd hm (by decide)
  · rw [ra.variant_eq] at hm
    exact absurd hm (by decide)

end Limits
section LimitsReach

/-- A placement of positive quantity in a state satisfying the invariant keeps every trade
of the log within the limits of its two orders. -/
theorem Inv.placed_priced {s s' : OrderBook} (hinv : Inv s)
    (hp : Priced s.orderMap s.tradeHistory) {type : OrderType} {variant : OrderVariant}
    {price quantity : Int} {symbol : String} {id : Int} (hq : 0 < quantity)
    (h : placeOrder s type variant price quantity symbol = some (id, s')) :
    Priced s'.orderMap s'.tradeHistory := by
  by_cases hN : s.circuitBreaker.status = NORMAL_TRADING
  swap
  · rw [placeOrder_not_normal s type variant price quantity symbol hN] at h
    simp only [Option.some.injEq, Prod.mk.injEq] at h
    rw [← h.2]
    exact hp
  cases variant with
  | LIMIT =>
    by_cases h3 : bandViolation s price symbol = true
    · simp only [placeOrder, placeLimitOrder] at h
      rw [if_neg (by rw [hN]; decide), if_neg (by rw [hN]; decide), if_pos h3] at h
      simp only [Option.some.injEq, Prod.mk.injEq] at h
      rw [← h.2]
      exact hp
    · obtain ⟨v', e, hL, _, _, hloop, hv⟩ := hinv.placeLimit type price quantity symbol hq
        (by rw [hN]; decide) (by rw [hN]; decide) (by simpa using h3)
      simp only [placeOrder] at h
      rw [e] at h
      simp only [Option.some.injEq, Prod.mk.injEq] at h
      rw [← h.2]
      have hm : (((s.register (Order.create s.nextOrderId type LIMIT price quantity
          symbol)).enqueue type price s.nextOrderId symbol).view symbol).orderMap =
          storeOrder s.orderMap (Order.create s.nextOrderId type LIMIT price quantity symbol) := by
        cases type <;> rfl
      have ht : (((s.register (Order.create s.nextOrderId type LIMIT price quantity
          symbol)).enqueue type price s.nextOrderId symbol).view symbol).tradeHistory =
          s.tradeHistory := by
        cases type <;> rfl
      obtain ⟨new, hn, hall⟩ := hL.trades
      refine @Priced.grow _ _ _ _ new ?_ (matchLoop_evolved _ _ _ hloop) hn
        fun t ht' => (hall t ht').withinLimits hv
      rw [hm, ht]
      exact hp.afterStore _ hinv.unused
  | MARKET =>
    simp only [placeOrder] at h
    rw [placeMarketOrder_eq hinv type quantity symbol hN (le_of_lt hq)] at h
    simp only [Option.some.injEq, Prod.mk.injEq] at h
    rw [← h.2]
    obtain ⟨new, hn, hpn⟩ := hinv.sweep_priced (fun _ => true)
      (Order.create s.nextOrderId type MARKET 0 quantity symbol) rfl symbol (le_of_lt hq)
      (fun hv => absurd rfl hv)
    exact Priced.grow (hp.afterStore _ hinv.unused)
      (sweptState_evolved s (Order.create s.nextOrderId type MARKET 0 quantity symbol) symbol
        (fun _ => true) (bookOf s (opposite type) symbol) quantity marketFinal
        SameOrder.ofMarketFinal) hn hpn
  | IOC =>
    simp only [placeOrder] at h
    rw [placeIOCOrder_eq s type price quantity symbol hN] at h
    simp only [Option.some.injEq, Prod.mk.injEq] at h
    rw [← h.2]
    obtain ⟨new, hn, hpn⟩ := hinv.sweep_priced (fun p => marketable type p price)
      (Order.create s.nextOrderId type IOC price quantity symbol) rfl symbol (le_of_lt hq)
      (fun _ p hp' => hp')
    exact Priced.grow (hp.afterStore _ hinv.unused)
      (sweptState_evolved s (Order.create s.nextOrderId type IOC price quantity symbol) symbol
        (fun p => marketable type p price) (bookOf s (opposite type) symbol) quantity iocFinal
        SameOrder.ofIocFinal) hn hpn
  | FOK =>
    simp only [placeOrder, Option.some.injEq] at h
    cases hc : canFill (storeOrder s.orderMap
        (Order.create s.nextOrderId type FOK price quantity symbol)) type price quantity
        (bookOf s (opposite type) symbol) 0 with
    | true =>
      have hsw := hinv.sweep (fun p => marketable type p price)
        (Order.create s.nextOrderId type FOK price quantity symbol) rfl symbol (le_of_lt hq)
      rw [placeFOKOrder_feasible s type price quantity symbol hN ⟨_, hsw.taker⟩ hc] at h
      simp only [Prod.mk.injEq] at h
      rw [← h.2]
      obtain ⟨new, hn, hpn⟩ := hinv.sweep_priced (fun p => marketable type p price)
        (Order.create s.nextOrderId type FOK price quantity symbol) rfl symbol (le_of_lt hq)
        (fun _ p hp' => hp')
      exact Priced.grow (hp.afterStore _ hinv.unused)
        (sweptState_evolved s (Order.create s.nextOrderId type FOK price quantity symbol) symbol
          (fun p => marketable type p price) (bookOf s (opposite type) symbol) quantity fokFinal
          SameOrder.ofFokFinal) hn hpn
    | false =>
      rw [placeFOKOrder_infeasible s type price quantity symbol hN hc] at h
      simp only [Prod.mk.injEq] at h
      rw [← h.2]
      exact hp.afterStore { Order.create s.nextOrderId type FOK price quantity symbol with
        status := CANCELLED } hinv.unused

/-- In every reachable state, every trade of the log is between two stored orders and
within the limits of both. -/
theorem Reachable.priced {s : OrderBook} (h : Reachable s) :
    Priced s.orderMap s.tradeHistory := by
  induction h with
  | init => exact fun t ht => absurd ht (by simp [OrderBook.init])
  | place type variant price quantity symbol hr hq hp ih => exact hr.inv.placed_priced ih hq hp
  | cancel orderId hr ih =>
    obtain ⟨hE, e, _⟩ := cancelOrder_evolved _ orderId
    exact @Priced.grow _ _ _ _ [] ih hE (by rw [e]; simp) (fun t ht => absurd ht (by simp))
  | matchPass symbol hr hm ih =>
    rename_i s0 s1
    obtain ⟨v', e, hL, _, _⟩ := hr.inv.after_matchOrders symbol
    obtain ⟨hE, _⟩ := matchOrders_evolved hm
    rw [e] at hm
    rw [← Option.some.inj hm]
    obtain ⟨new, hn, hall⟩ := hL.trades
    rw [← Option.some.inj hm] at hE
    exact @Priced.grow _ _ _ _ new ih hE hn
      fun t ht' => (hall t ht').withinLimits ⟨hr.inv.buy symbol, hr.inv.sell symbol⟩
  | index newValue currentTime hr ih => exact ih
  | band symbol referencePrice bandPercentage hr ih => exact ih

end LimitsReach

section ClaimLimits

/-- C33: every trade respects both limits. In every reachable state, each trade of the log
names a stored BUY order `b` and a stored SELL order `a`, and its price `p` satisfies:
(1) if both are priced (LIMIT, IOC or FOK), `a.price ≤ p ≤ b.price`; (2) if one of them is a
MARKET order, the other one is a LIMIT order and `p` is its limit price; (3) so a priced
buyer never pays more than its limit and a priced seller never receives less than its
limit. -/
theorem c33_trades_within_limits (s : OrderBook) (h : Reachable s) :
    ∀ t ∈ s.tradeHistory, ∃ b a,
      s.orderMap t.buyOrderId = some b ∧ s.orderMap t.sellOrderId = some a ∧
      b.type = BUY ∧ a.type = SELL ∧
      (b.variant ≠ MARKET → a.variant ≠ MARKET → a.price ≤ t.price ∧ t.price ≤ b.price) ∧
      (b.variant = MARKET → a.variant = LIMIT ∧ t.price = a.price) ∧
      (a.variant = MARKET → b.variant = LIMIT ∧ t.price = b.price) ∧
      (b.variant ≠ MARKET → t.price ≤ b.price) ∧
      (a.variant ≠ MARKET → a.price ≤ t.price) := by
  intro t ht
  obtain ⟨b, a, hb, ha, w1, w2, w3⟩ := h.priced t ht
  obtain ⟨b', a', hb', tb, _, ha', ta, _⟩ := h.sound.ledger.parties t ht
  have eb : b' = b := Option.some.inj (hb'.symm.trans hb)
  have ea : a' = a := Option.some.inj (ha'.symm.trans ha)
  rw [eb] at tb
  rw [ea] at ta
  refine ⟨b, a, hb, ha, tb, ta, w1, w2, w3, fun hv => ?_, fun hv => ?_⟩
  · by_cases hm : a.variant = MARKET
    · exact le_of_eq (w3 hm).2
    · exact (w1 hv hm).2
  · by_cases hm : b.variant = MARKET
    · exact le_of_eq (w2 hm).2.symm
    · exact (w1 hm hv).1

/-- C33 at test case 2 of `main`, after the MARKET order: its two trades are at the limit
prices 25.50 and 26.00 of the asks it bought from. -/
theorem c33_trades_within_limits_witness :
    Reachable msftAfterMarket ∧
    msftAfterMarket.tradeHistory = [⟨5, 3, "MSFT", 2550, 5⟩, ⟨5, 4, "MSFT", 2600, 2⟩] ∧
    ((deref msftAfterMarket.orderMap 5).variant, (deref msftAfterMarket.orderMap 3).price,
      (deref msftAfterMarket.orderMap 4).price) = (MARKET, 2550, 2600) ∧
    ∀ t ∈ msftAfterMarket.tradeHistory, ∃ b a,
      msftAfterMarket.orderMap t.buyOrderId = some b ∧
      msftAfterMarket.orderMap t.sellOrderId = some a ∧
      b.type = BUY ∧ a.type = SELL ∧
      (b.variant ≠ MARKET → a.variant ≠ MARKET → a.price ≤ t.price ∧ t.price ≤ b.price) ∧
      (b.variant = MARKET → a.variant = LIMIT ∧ t.price = a.price) ∧
      (a.variant = MARKET → b.variant = LIMIT ∧ t.price = b.price) ∧
      (b.variant ≠ MARKET → t.price ≤ b.price) ∧
      (a.variant ≠ MARKET → a.price ≤ t.price) :=
  ⟨msftAfterMarket_reachable, by decide, by decide,
    c33_trades_within_limits msftAfterMarket msftAfterMarket_reachable⟩

end ClaimLimits

section Retag

theorem updateOrderStatus_withVariant (x : OrderVariant) (o : Order) :
    updateOrderStatus (o.withVariant x) = (updateOrderStatus o).withVariant x := by
  unfold updateOrderStatus Order.withVariant
  split_ifs <;> rfl

/-- The fields a sweep reads are those of the order object, whatever its variant. -/
theorem deref_retag (m : OrderMap) (k : Int) (x : OrderVariant) (h : Int) :
    (deref (modifyOrder m k (Order.withVariant x)) h).status = (deref m h).status ∧
    (deref (modifyOrder m k (Order.withVariant x)) h).id = (deref m h).id ∧
    (deref (modifyOrder m k (Order.withVariant x)) h).symbol = (deref m h).symbol ∧
    (deref (modifyOrder m k (Order.withVariant x)) h).getRemainingQuantity =
      (deref m h).getRemainingQuantity := by
  by_cases e : h = k
  · subst e
    cases hm : m h with
    | none => simp [deref, modifyOrder, hm]
    | some o => simp [deref, modifyOrder, hm, Order.withVariant, Order.getRemainingQuantity]
  · rw [deref_congr (modifyOrder_other m _ e)]
    exact ⟨rfl, rfl, rfl, rfl⟩

theorem addFilled_retag (m : OrderMap) (k : Int) (x : OrderVariant) (a q : Int) :
    addFilled (modifyOrder m k (Order.withVariant x)) a q =
      modifyOrder (addFilled m a q) k (Order.withVariant x) := by
  funext j
  simp only [addFilled, modifyOrder]
  split_ifs <;> cases m j <;> simp [Order.withVariant]

theorem updateStatus_retag (m : OrderMap) (k : Int) (x : OrderVariant) (a : Int) :
    modifyOrder (modifyOrder m k (Order.withVariant x)) a updateOrderStatus =
      modifyOrder (modifyOrder m a updateOrderStatus) k (Order.withVariant x) := by
  funext j
  simp only [modifyOrder]
  split_ifs <;> cases m j <;> simp [updateOrderStatus_withVariant]

/-- One fill does the same whatever the variant of an order object. -/
theorem executeFill_retag (T : Int) (side : OrderType) (p h : Int) (k : Int)
    (x : OrderVariant) (w : Sweep) :
    executeFill T side p h (w.retag k x) = (executeFill T side p h w).retag k x := by
  obtain ⟨_, i1, y1, _⟩ := deref_retag w.orderMap k x T
  obtain ⟨_, i2, _, r2⟩ := deref_retag w.orderMap k x h
  have ht : Trade.ofFill side (deref (modifyOrder w.orderMap k (Order.withVariant x)) T)
      (deref (modifyOrder w.orderMap k (Order.withVariant x)) h) p
      (min w.remainingQty (deref w.orderMap h).getRemainingQuantity) =
      Trade.ofFill side (deref w.orderMap T) (deref w.orderMap h) p
        (min w.remainingQty (deref w.orderMap h).getRemainingQuantity) := by
    cases side <;> simp [Trade.ofFill, i1, i2, y1]
  simp only [executeFill, Sweep.retag, r2, ht]
  rw [addFilled_retag, addFilled_retag, updateStatus_retag]

theorem sweepLevel_retag (T : Int) (side : OrderType) (p : Int) (k : Int) (x : OrderVariant)
    (q : PriceLevel) :
    ∀ w : Sweep, sweepLevel T side p q (w.retag k x) =
      ((sweepLevel T side p q w).1, (sweepLevel T side p q w).2.retag k x) := by
  induction q with
  | nil => intro w; rfl
  | cons h t ih =>
    intro w
    have hs : (deref (w.retag k x).orderMap h).status = (deref w.orderMap h).status :=
      (deref_retag w.orderMap k x h).1
    have hf : (deref ((executeFill T side p h w).retag k x).orderMap h).status =
        (deref (executeFill T side p h w).orderMap h).status :=
      (deref_retag (executeFill T side p h w).orderMap k x h).1
    have hr : (w.retag k x).remainingQty = w.remainingQty := rfl
    rw [sweepLevel_cons, sweepLevel_cons, executeFill_retag, hs, hf, hr]
    split_ifs
    · exact ih w
    · exact ih _
    · rw [ih]
    · rfl

theorem sweepWhile_retag (ok : Int → Bool) (T : Int) (side : OrderType) (k : Int)
    (x : OrderVariant) (bk : SideBook) :
    ∀ w : Sweep, sweepWhile ok T side bk (w.retag k x) =
      ((sweepWhile ok T side bk w).1, (sweepWhile ok T side bk w).2.retag k x) := by
  induction bk with
  | nil => intro w; rfl
  | cons l rest ih =>
    obtain ⟨p, q⟩ := l
    intro w
    have hr : (w.retag k x).remainingQty = w.remainingQty := rfl
    rw [sweepWhile_cons, sweepWhile_cons, sweepLevel_retag, hr]
    simp only [ih]
    split_ifs <;> rfl

end Retag
section FokAsIoc

theorem setOppositeBook_sides (v : SymbolView) (sd : OrderType) (bk : SideBook) (w w' : Sweep) :
    (setOppositeBook v sd bk w).buyBook = (setOppositeBook v sd bk w').buyBook ∧
      (setOppositeBook v sd bk w).sellBook = (setOppositeBook v sd bk w').sellBook := by
  cases sd <;> exact ⟨rfl, rfl⟩

theorem iocFinal_of_filled {o : Order} (h : (updateOrderStatus o).status = FILLED) :
    iocFinal o = updateOrderStatus o := by
  unfold iocFinal
  rw [if_neg (fun hn => hn h)]

/-- The execution of a FOK order whose feasibility scan succeeds, and the execution of an
IOC order on the same order object and view, in any view: the same trades, the same books
and the same filled quantities; the same order objects too when the FOK execution returns
true, the order then being FILLED. -/
theorem executeFOKOrder_as_IOC (T : Int) (v : SymbolView)
    (hc : canFill v.orderMap (deref v.orderMap T).type (deref v.orderMap T).price
      (deref v.orderMap T).quantity (oppositeBook v (deref v.orderMap T).type) 0 = true) :
    (executeFOKOrder T v).2.buyBook = (executeIOCOrder T v).buyBook ∧
    (executeFOKOrder T v).2.sellBook = (executeIOCOrder T v).sellBook ∧
    (executeFOKOrder T v).2.tradeHistory = (executeIOCOrder T v).tradeHistory ∧
    (∀ k, (deref (executeFOKOrder T v).2.orderMap k).filled_quantity =
      (deref (executeIOCOrder T v).orderMap k).filled_quantity) ∧
    (∀ k, k ≠ T → (executeFOKOrder T v).2.orderMap k = (executeIOCOrder T v).orderMap k) ∧
    ((executeFOKOrder T v).1 = true →
      (executeFOKOrder T v).2 = executeIOCOrder T v ∧
      (deref (executeIOCOrder T v).orderMap T).status = FILLED) := by
  generalize hr : sweepBook T (deref v.orderMap T).type (deref v.orderMap T).price
    (oppositeBook v (deref v.orderMap T).type)
    ⟨v.orderMap, v.tradeHistory, (deref v.orderMap T).quantity⟩ = r
  have hF : executeFOKOrder T v =
      (decide ((deref (modifyOrder r.2.orderMap T updateOrderStatus) T).status = FILLED),
        setOppositeBook v (deref v.orderMap T).type r.1
          { r.2 with orderMap := modifyOrder r.2.orderMap T updateOrderStatus }) := by
    unfold executeFOKOrder
    simp only [hc, if_true, hr]
  have hI : executeIOCOrder T v =
      setOppositeBook v (deref v.orderMap T).type r.1
        { r.2 with orderMap := modifyOrder r.2.orderMap T iocFinal } := by
    unfold executeIOCOrder
    simp only [hr, iocHeap_eq]
  rw [hF, hI]
  refine ⟨(setOppositeBook_sides _ _ _ _ _).1, (setOppositeBook_sides _ _ _ _ _).2, ?_,
    fun k => ?_, fun k hk => ?_, fun hfl => ?_⟩
  · rw [(setOppositeBook_heap _ _ _ _).2, (setOppositeBook_heap _ _ _ _).2]
  · rw [(setOppositeBook_heap _ _ _ _).1, (setOppositeBook_heap _ _ _ _).1]
    by_cases e : k = T
    · subst e
      cases hm : r.2.orderMap k with
      | none => simp [deref, modifyOrder, hm]
      | some o =>
        simp only [deref, modifyOrder, hm, if_true, Option.map_some', Option.getD_some]
        rw [(updateOrderStatus_fields o).2.2.2.2.2.1, (iocFinal_fields o).2]
    · rw [deref_congr (modifyOrder_other _ _ e), deref_congr (modifyOrder_other _ _ e)]
  · rw [(setOppositeBook_heap _ _ _ _).1, (setOppositeBook_heap _ _ _ _).1]
    simp only [modifyOrder_other _ _ hk]
  · simp only [decide_eq_true_eq] at hfl
    have hm : modifyOrder r.2.orderMap T iocFinal =
        modifyOrder r.2.orderMap T updateOrderStatus := by
      funext k
      by_cases e : k = T
      · subst e
        cases hk : r.2.orderMap k with
        | none => simp [modifyOrder, hk]
        | some o =>
          simp only [deref, modifyOrder, hk, if_true, Option.map_some', Option.getD_some]
            at hfl ⊢
          rw [iocFinal_of_filled hfl]
      · rw [modifyOrder_other _ _ e, modifyOrder_other _ _ e]
    rw [hm]
    refine ⟨rfl, ?_⟩
    rw [(setOppositeBook_heap _ _ _ _).1]
    exact hfl

/-- A FOK placement whose feasibility scan succeeds, in a state satisfying the invariant:
the IOC placement of the same side, price and quantity from the same state makes the same
trades and leaves the same books and the same order objects, the new order apart, which is
FILLED with the same filled quantity in both and differs by its variant only. -/
theorem Inv.fok_as_ioc {s : OrderBook} (hinv : Inv s)
    (hN : s.circuitBreaker.status = NORMAL_TRADING) (type : OrderType) (price quantity : Int)
    (symbol : String)
    (hc : canFill s.orderMap type price quantity (bookOf s (opposite type) symbol) 0 = true) :
    (placeFOKOrder s type price quantity symbol).1 = s.nextOrderId ∧
    (placeIOCOrder s type price quantity symbol).1 = s.nextOrderId ∧
    (placeFOKOrder s type price quantity symbol).2.tradeHistory =
      (placeIOCOrder s type price quantity symbol).2.tradeHistory ∧
    (placeFOKOrder s type price quantity symbol).2.buyOrders =
      (placeIOCOrder s type price quantity symbol).2.buyOrders ∧
    (placeFOKOrder s type price quantity symbol).2.sellOrders =
      (placeIOCOrder s type price quantity symbol).2.sellOrders ∧
    (∀ k, k ≠ s.nextOrderId → (placeFOKOrder s type price quantity symbol).2.orderMap k =
      (placeIOCOrder s type price quantity symbol).2.orderMap k) ∧
    ∃ x, (placeFOKOrder s type price quantity symbol).2.orderMap s.nextOrderId = some x ∧
      (placeIOCOrder s type price quantity symbol).2.orderMap s.nextOrderId =
        some (x.withVariant IOC) ∧
      x.variant = FOK ∧ x.status = FILLED ∧ x.quantity = quantity ∧
      x.filled_quantity = max quantity 0 := by
  have hlt : ∀ l ∈ bookOf s (opposite type) symbol, ∀ h ∈ l.2,
      storeOrder s.orderMap (Order.create s.nextOrderId type FOK price quantity symbol) h =
        s.orderMap h := by
    intro l hl h hh
    have := hinv.handle_lt hl hh
    exact storeOrder_other _ _ (by show h ≠ s.nextOrderId; omega)
  have hcF : canFill (storeOrder s.orderMap
      (Order.create s.nextOrderId type FOK price quantity symbol)) type price quantity
      (bookOf s (opposite type) symbol) 0 = true := by
    rw [canFill_congr type price quantity _ hlt]
    exact hc
  have hw : (⟨storeOrder s.orderMap (Order.create s.nextOrderId type IOC price quantity symbol),
      s.tradeHistory, quantity⟩ : Sweep) =
      Sweep.retag s.nextOrderId IOC
        ⟨storeOrder s.orderMap (Order.create s.nextOrderId type FOK price quantity symbol),
          s.tradeHistory, quantity⟩ := by
    simp only [Sweep.retag, Sweep.mk.injEq, and_true]
    funext k
    simp only [modifyOrder, storeOrder, Order.create]
    split_ifs <;> simp [Order.withVariant]
  have key : ∃ f : Int, (sweepWhile (fun p => marketable type p price) s.nextOrderId type
        (bookOf s (opposite type) symbol)
        ⟨storeOrder s.orderMap (Order.create s.nextOrderId type FOK price quantity symbol),
          s.tradeHistory, quantity⟩).2.orderMap s.nextOrderId =
        some { Order.create s.nextOrderId type FOK price quantity symbol with
          filled_quantity := f } ∧ f = max quantity 0 ∧ quantity ≤ f := by
    by_cases hq : 0 < quantity
    · have hsw := hinv.sweep (fun p => marketable type p price)
        (Order.create s.nextOrderId type FOK price quantity symbol) rfl symbol (le_of_lt hq)
      have hrem : (sweepWhile (fun p => marketable type p price) s.nextOrderId type
          (bookOf s (opposite type) symbol)
          ⟨storeOrder s.orderMap (Order.create s.nextOrderId type FOK price quantity symbol),
            s.tradeHistory, quantity⟩).2.remainingQty = quantity - min quantity
          (prefixLiquidity (fun p => marketable type p price) s.orderMap
            (bookOf s (opposite type) symbol)) :=
        hinv.sweep_rem (fun p => marketable type p price)
          (Order.create s.nextOrderId type FOK price quantity symbol) rfl symbol (le_of_lt hq)
      have hL : quantity ≤ 0 + prefixLiquidity (fun p => marketable type p price) s.orderMap
          (bookOf s (opposite type) symbol) :=
        canFill_sound s.orderMap type symbol price quantity
          (bookOf s (opposite type) symbol) 0 (by omega) (hinv.side (opposite type) symbol) hc
      refine ⟨_, hsw.taker, ?_, ?_⟩
      · show 0 + (quantity - (sweepWhile (fun p => marketable type p price) s.nextOrderId type
          (bookOf s (opposite type) symbol)
          ⟨storeOrder s.orderMap (Order.create s.nextOrderId type FOK price quantity symbol),
            s.tradeHistory, quantity⟩).2.remainingQty) = _
        rw [hrem, max_eq_left (le_of_lt hq)]
        omega
      · show quantity ≤ 0 + (quantity - (sweepWhile (fun p => marketable type p price)
          s.nextOrderId type (bookOf s (opposite type) symbol)
          ⟨storeOrder s.orderMap (Order.create s.nextOrderId type FOK price quantity symbol),
            s.tradeHistory, quantity⟩).2.remainingQty)
        rw [hrem]
        omega
    · rw [sweepWhile_done _ _ _ _ (by show quantity ≤ 0; omega)]
      refine ⟨0, ?_, ?_, by omega⟩
      · exact storeOrder_same s.orderMap
          (Order.create s.nextOrderId type FOK price quantity symbol)
      · rw [max_eq_right (by omega)]
  obtain ⟨f, hx0, hf, hqf⟩ := key
  have hF := placeFOKOrder_feasible s type price quantity symbol hN ⟨_, hx0⟩ hcF
  have hI := placeIOCOrder_eq s type price quantity symbol hN
  rw [hw, sweepWhile_retag] at hI
  have hup : (updateOrderStatus { Order.create s.nextOrderId type FOK price quantity symbol with
      filled_quantity := f }).status = FILLED := updateOrderStatus_of_le hqf
  rw [hF, hI]
  refine ⟨rfl, rfl, rfl, rfl, rfl, fun k hk => ?_,
    fokFinal { Order.create s.nextOrderId type FOK price quantity symbol with
      filled_quantity := f }, ?_, ?_, ?_, ?_, ?_, ?_⟩
  · show modifyOrder _ s.nextOrderId fokFinal k =
      modifyOrder (modifyOrder _ s.nextOrderId (Order.withVariant IOC)) s.nextOrderId iocFinal k
    rw [modifyOrder_other _ _ hk, modifyOrder_other _ _ hk, modifyOrder_other _ _ hk]
  · show modifyOrder _ s.nextOrderId fokFinal s.nextOrderId = _
    rw [modifyOrder_same, hx0]
    rfl
  · show modifyOrder (modifyOrder _ s.nextOrderId (Order.withVariant IOC)) s.nextOrderId
      iocFinal s.nextOrderId = _
    rw [modifyOrder_same, modifyOrder_same, hx0]
    simp only [Option.map_some', Option.some.injEq]
    have h1 : (updateOrderStatus (Order.withVariant IOC
        { Order.create s.nextOrderId type FOK price quantity symbol with
          filled_quantity := f })).status = FILLED := by
      rw [updateOrderStatus_withVariant]
      exact hup
    rw [iocFinal_of_filled h1, updateOrderStatus_withVariant]
    unfold fokFinal
    rw [if_pos hup]
  · rw [(fokFinal_fields _).2.2.2.2.1]
    rfl
  · unfold fokFinal
    rw [if_pos hup]
    exact hup
  · rw [(fokFinal_fields _).1]
    rfl
  · rw [(fokFinal_fields _).2.1]
    exact hf

end FokAsIoc
section ClaimFokAsIoc

/-- C34: FOK execution is the IOC sweep. (1) In any view, for any order object whose
feasibility scan succeeds, `executeFOKOrder` and `executeIOCOrder` run on that order object
make the same trades and leave the same side books and the same filled quantity in every
order object, and the same order objects but for the status of the order itself; when
`executeFOKOrder` returns true the two resulting views are equal and the order is FILLED.
(2) In a state satisfying the book invariant (every reachable state does), in normal
trading, for every side, limit price and quantity for which the scan succeeds, the FOK
placement and the IOC placement of that side, price and quantity return the same id, append
the same trades (counterparty, price, quantity), and leave the same side books and the same
order objects, the new order apart: it is FILLED in both, with the same filled quantity (the
quantity asked for, or 0 when that is not positive), and differs by its variant only. (3) On
the book of test case 4 of `main`, BUY 151.00 x 5 as FOK and as IOC: one trade 5 at 151.00
with ask 2, the sell side left with ask 3, the order FILLED 5 of 5. -/
theorem c34_fok_execution_is_ioc_sweep :
    (∀ (taker : Int) (v : SymbolView),
      canFill v.orderMap (deref v.orderMap taker).type (deref v.orderMap taker).price
        (deref v.orderMap taker).quantity (oppositeBook v (deref v.orderMap taker).type) 0 =
        true →
      (executeFOKOrder taker v).2.buyBook = (executeIOCOrder taker v).buyBook ∧
      (executeFOKOrder taker v).2.sellBook = (executeIOCOrder taker v).sellBook ∧
      (executeFOKOrder taker v).2.tradeHistory = (executeIOCOrder taker v).tradeHistory ∧
      (∀ k, (deref (executeFOKOrder taker v).2.orderMap k).filled_quantity =
        (deref (executeIOCOrder taker v).orderMap k).filled_quantity) ∧
      (∀ k, k ≠ taker →
        (executeFOKOrder taker v).2.orderMap k = (executeIOCOrder taker v).orderMap k) ∧
      ((executeFOKOrder taker v).1 = true →
        (executeFOKOrder taker v).2 = executeIOCOrder taker v ∧
        (deref (executeIOCOrder taker v).orderMap taker).status = FILLED)) ∧
    (∀ s : OrderBook, Inv s → s.circuitBreaker.status = NORMAL_TRADING →
      ∀ (type : OrderType) (price quantity : Int) (symbol : String),
      canFill s.orderMap type price quantity (bookOf s (opposite type) symbol) 0 = true →
      (placeFOKOrder s type price quantity symbol).1 = s.nextOrderId ∧
      (placeIOCOrder s type price quantity symbol).1 = s.nextOrderId ∧
      (placeFOKOrder s type price quantity symbol).2.tradeHistory =
        (placeIOCOrder s type price quantity symbol).2.tradeHistory ∧
      (placeFOKOrder s type price quantity symbol).2.buyOrders =
        (placeIOCOrder s type price quantity symbol).2.buyOrders ∧
      (placeFOKOrder s type price quantity symbol).2.sellOrders =
        (placeIOCOrder s type price quantity symbol).2.sellOrders ∧
      (∀ k, k ≠ s.nextOrderId → (placeFOKOrder s type price quantity symbol).2.orderMap k =
        (placeIOCOrder s type price quantity symbol).2.orderMap k) ∧
      ∃ x, (placeFOKOrder s type price quantity symbol).2.orderMap s.nextOrderId = some x ∧
        (placeIOCOrder s type price quantity symbol).2.orderMap s.nextOrderId =
          some (x.withVariant IOC) ∧
        x.variant = FOK ∧ x.status = FILLED ∧ x.quantity = quantity ∧
        x.filled_quantity = max quantity 0) ∧
    (∀ s : OrderBook, Reachable s → Inv s) ∧
    (canFill amznBook.orderMap BUY 15100 5 (bookOf amznBook SELL "AMZN") 0 = true ∧
      amznBook.tradeHistory = [] ∧
      (placeOrder amznBook BUY FOK 15100 5 "AMZN").map
          (fun r => (r.1, r.2.tradeHistory, bookOf r.2 SELL "AMZN")) =
        some (4, [⟨4, 2, "AMZN", 15100, 5⟩], [(15200, [3])]) ∧
      (placeOrder amznBook BUY IOC 15100 5 "AMZN").map
          (fun r => (r.1, r.2.tradeHistory, bookOf r.2 SELL "AMZN")) =
        some (4, [⟨4, 2, "AMZN", 15100, 5⟩], [(15200, [3])]) ∧
      (placeOrder amznBook BUY FOK 15100 5 "AMZN").map (fun r => r.2.orderMap 4) =
        some (some ⟨4, BUY, FOK, 15100, 5, 5, FILLED, "AMZN"⟩) ∧
      (placeOrder amznBook BUY IOC 15100 5 "AMZN").map (fun r => r.2.orderMap 4) =
        some (some ⟨4, BUY, IOC, 15100, 5, 5, FILLED, "AMZN"⟩)) :=
  ⟨fun taker v hc => executeFOKOrder_as_IOC taker v hc,
    fun s hinv hN type price quantity symbol hc =>
      hinv.fok_as_ioc hN type price quantity symbol hc,
    fun s hs => hs.inv, by decide, by decide, by decide, by decide, by decide, by decide⟩

end ClaimFokAsIoc

section TerminationShared

theorem sharedHead_eq (m : OrderMap) (bp b : Int) (bq : PriceLevel) (brest : SideBook)
    (sp a : Int) (sq : PriceLevel) (srest : SideBook) (tr : List Trade) :
    sharedHead ⟨m, (bp, b :: bq) :: brest, (sp, a :: sq) :: srest, tr⟩ =
      if sp ≤ bp ∧ b = a ∧ (deref m b).status ≠ CANCELLED ∧
          0 ≤ (deref m b).getRemainingQuantity then 1
      else 0 := rfl

theorem sharedHead_le (v : SymbolView) :
    sharedHead v ≤ 1 ∧ sharedHead v ≤ bookSize v.buyBook := by
  unfold sharedHead
  split
  · rename_i bp b bq brest sp a sq srest hb hs
    rw [hb, bookSize_cons]
    split_ifs
    · exact ⟨le_refl _, by simp only [List.length_cons]; omega⟩
    · exact ⟨Nat.zero_le _, Nat.zero_le _⟩
  · exact ⟨Nat.zero_le _, Nat.zero_le _⟩

/-- The two fills and status updates of the loop body of `matchOrders` when one order
object heads both sides. -/
theorem fillSame_spec {m : OrderMap} {b : Int} (mq : Int) {o : Order} (hb : m b = some o) :
    ∃ o2, modifyOrder (modifyOrder (addFilled (addFilled m b mq) b mq) b updateOrderStatus) b
        updateOrderStatus b = some o2 ∧
      o2.quantity = o.quantity ∧ o2.filled_quantity = o.filled_quantity + mq + mq ∧
      (o.quantity ≤ o.filled_quantity + mq + mq → o2.status = FILLED) := by
  refine ⟨updateOrderStatus (updateOrderStatus
    ⟨o.id, o.type, o.variant, o.price, o.quantity, o.filled_quantity + mq + mq, o.status,
      o.symbol⟩), by simp [addFilled, modifyOrder, hb], ?_, ?_, fun hle => ?_⟩
  · rw [(updateOrderStatus_fields _).2.2.2.2.1, (updateOrderStatus_fields _).2.2.2.2.1]
  · rw [(updateOrderStatus_fields _).2.2.2.2.2.1, (updateOrderStatus_fields _).2.2.2.2.2.1]
  · refine updateOrderStatus_of_le ?_
    rw [(updateOrderStatus_fields _).2.2.2.2.1, (updateOrderStatus_fields _).2.2.2.2.2.1]
    exact hle

/-- One run of the loop body of `matchOrders` lowers the number of queued handles less
`sharedHead`, whatever the order objects hold, also when one order object is queued on
both sides. -/
theorem matchStep_measure {symbol : String} {v v' : SymbolView}
    (hB : Stored v.orderMap v.buyBook) (hS : Stored v.orderMap v.sellBook)
    (h : matchStep symbol v = some v') :
    bookSize v'.buyBook + bookSize v'.sellBook + sharedHead v <
      bookSize v.buyBook + bookSize v.sellBook + sharedHead v' := by
  obtain ⟨bp, b, bq, brest, sp, a, sq, srest, hb, hs, hc⟩ := matchStep_shape h
  by_cases hne : b = a
  swap
  · have h1 := matchStep_pops hB hS (fun bp' b' bq' brest' sp' a' sq' srest' hb' hs' => by
      rw [hb] at hb'
      rw [hs] at hs'
      simp only [List.cons.injEq, Prod.mk.injEq] at hb' hs'
      rw [← hb'.1.2.1, ← hs'.1.2.1]
      exact hne) h
    have h0 : sharedHead v = 0 := by
      obtain ⟨m, bb, sb, tr⟩ := v
      simp only at hb hs
      subst hb hs
      rw [sharedHead_eq, if_neg (fun hx => hne hx.2.1)]
    omega
  subst hne
  obtain ⟨m, bb, sb, tr⟩ := v
  simp only at hb hs hB
  subst hb hs
  obtain ⟨o, ho⟩ := Option.isSome_iff_exists.mp
    (hB _ (List.mem_cons_self _ _) b (List.mem_cons_self _ _))
  have e1 := bookSize_popBest bp b bq brest
  have e2 := bookSize_popBest sp b sq srest
  have hle := (sharedHead_le ⟨m, (bp, b :: bq) :: brest, (sp, b :: sq) :: srest, tr⟩).1
  rw [matchStep_eq, if_pos hc] at h
  rw [deref_of_some ho] at h
  by_cases hcond : o.status ≠ CANCELLED ∧ o.status ≠ CANCELLED
  · rw [if_pos hcond] at h
    have h' := Option.some.inj h
    subst h'
    obtain ⟨o2, f1, hq, hf, hfill⟩ :=
      fillSame_spec (min o.getRemainingQuantity o.getRemainingQuantity) ho
    by_cases hx : o2.status = FILLED ∨ o2.status = CANCELLED
    · show bookSize (if _ then _ else _) + bookSize (if _ then _ else _) + _ < _
      simp only [deref_of_some f1, if_pos hx]
      omega
    · have hr : ¬ 0 ≤ o.getRemainingQuantity := by
        intro h0
        refine hx (Or.inl (hfill ?_))
        simp only [Order.getRemainingQuantity] at h0 ⊢
        rw [min_self]
        omega
      have h0 : sharedHead ⟨m, (bp, b :: bq) :: brest, (sp, b :: sq) :: srest, tr⟩ = 0 := by
        rw [sharedHead_eq, deref_of_some ho, if_neg (fun hy => hr hy.2.2.2)]
      show bookSize (if _ then _ else _) + bookSize (if _ then _ else _) + _ <
        _ + sharedHead ⟨_, if _ then _ else _, if _ then _ else _, _⟩
      simp only [deref_of_some f1, if_neg hx]
      rw [h0, sharedHead_eq, deref_of_some f1, if_pos ⟨hc, rfl, fun hy => hx (Or.inr hy), by
        simp only [Order.getRemainingQuantity] at hr ⊢
        rw [hq, hf, min_self]
        simp only [Order.getRemainingQuantity]
        omega⟩]
      omega
  · rw [if_neg hcond] at h
    have h' := Option.some.inj h
    subst h'
    have hx : o.status = CANCELLED := by
      by_contra hy
      exact hcond ⟨hy, hy⟩
    show bookSize (if _ then _ else _) + bookSize (if _ then _ else _) + _ < _
    simp only [if_pos hx]
    omega

/-- The loop of `matchOrders` ends whatever the order objects hold, also when one order
object is queued on both sides: with the fuel of `matchOrders` or more it returns, at a
view where the loop body finds no match. -/
theorem matchLoop_returns {symbol : String} :
    ∀ (n : Nat) (v : SymbolView), Stored v.orderMap v.buyBook → Stored v.orderMap v.sellBook →
      bookSize v.buyBook + bookSize v.sellBook < n + sharedHead v →
      ∃ v', matchLoop symbol n v = some v' ∧ matchStep symbol v' = none := by
  intro n
  induction n with
  | zero =>
    intro v _ _ h
    have := (sharedHead_le v).2
    omega
  | succ n ih =>
    intro v hB hS h
    simp only [matchLoop]
    cases hm : matchStep symbol v with
    | none => exact ⟨v, rfl, hm⟩
    | some v1 =>
      have hlt := matchStep_measure hB hS hm
      obtain ⟨pb, ps⟩ := matchStep_pruned hm
      have hk := (matchStep_evolved hm (Evolved.self v.orderMap v.tradeHistory)).keys
      exact ih v1 (hB.shrink pb.1 hk) (hS.shrink ps.1 hk) (by omega)

end TerminationShared
section ClaimTermination

/-- The method `matchOrders` returns whatever the order objects hold, also when one order
object is queued on both sides. -/
theorem matchOrders_returns {s : OrderBook} {symbol : String}
    (hB : Stored s.orderMap (s.buyOrders symbol)) (hS : Stored s.orderMap (s.sellOrders symbol)) :
    ∃ s', matchOrders s symbol = some s' := by
  obtain ⟨v', hv', _⟩ := @matchLoop_returns symbol (matchFuel (s.view symbol)) (s.view symbol)
    hB hS (by simp only [matchFuel]; omega)
  exact ⟨s.commit symbol v', by simp [matchOrders, hv']⟩

/-- C32: termination of matching in every book state, reachable or not.  Nothing is assumed
of the prices, the key order, the quantities, the fills, the statuses, the sides and symbols
of the orders, handles queued twice on one side, or empty levels; `Stored` says that the
queued handles refer to order objects.  (1) In a view in which, besides, no order is queued
on both sides (`BookState`), every run of the loop body of `matchOrders` that sets
`matchFound` removes at least one order from a price-level queue, and leaves such a view.
(2) The loop returns with the fuel of `matchOrders` or more, at a view where the body finds
no match, and (3) `matchOrders` returns: in every view whose handles refer to order objects,
also one with an order queued on both sides.  (4) The inner loop of `executeMarketOrder` is
a structural recursion on the queue, and it leaves the level empty or the incoming order
with nothing to fill; (5) so the outer loop returns with any fuel above the number of levels
and (6) `executeMarketOrder` returns: for every book whose handles refer to order objects and
every order object not itself queued there.  (7) The view `strayView`, which no call
sequence produces, is a book state, and both methods return on it. -/
theorem c32_matching_terminates :
    (∀ (symbol : String) (v v' : SymbolView), BookState v → matchStep symbol v = some v' →
      bookSize v'.buyBook + bookSize v'.sellBook < bookSize v.buyBook + bookSize v.sellBook ∧
      BookState v') ∧
    (∀ (symbol : String) (v : SymbolView) (n : Nat), Stored v.orderMap v.buyBook →
      Stored v.orderMap v.sellBook → matchFuel v ≤ n →
      ∃ v', matchLoop symbol n v = some v' ∧ matchStep symbol v' = none) ∧
    (∀ (s : OrderBook) (symbol : String), Stored s.orderMap (s.buyOrders symbol) →
      Stored s.orderMap (s.sellOrders symbol) → ∃ s', matchOrders s symbol = some s') ∧
    (∀ (taker : Int) (side : OrderType) (p : Int) (q : PriceLevel) (w : Sweep),
      (w.orderMap taker).isSome = true →
      (∀ h ∈ q, (w.orderMap h).isSome = true ∧ h ≠ taker) →
      (marketLevel taker side p q w).1 = [] ∨
        (marketLevel taker side p q w).2.remainingQty ≤ 0) ∧
    (∀ (taker : Int) (side : OrderType) (bk : SideBook) (w : Sweep) (n : Nat),
      (w.orderMap taker).isSome = true → Stored w.orderMap bk → (∀ l ∈ bk, taker ∉ l.2) →
      bk.length + 1 ≤ n → ∃ r, marketLoop taker side n bk w = some r) ∧
    (∀ (taker : Int) (v : SymbolView), (v.orderMap taker).isSome = true →
      Stored v.orderMap (oppositeBook v (deref v.orderMap taker).type) →
      (∀ l ∈ oppositeBook v (deref v.orderMap taker).type, taker ∉ l.2) →
      ∃ v', executeMarketOrder taker v = some v') ∧
    (BookState strayView ∧
      (matchLoop "X" (matchFuel strayView) strayView).map
          (fun v => (v.buyBook, v.sellBook)) =
        some ([(10000, []), (9900, [1, 2])], [(8000, [3]), (7000, [4, 3])]) ∧
      (executeMarketOrder 5 strayView).map (fun v => (v.buyBook, v.sellBook)) =
        some ([(9000, [2, 1]), (10000, []), (9900, [1, 2])], [])) := by
  refine ⟨fun symbol v v' hv h => ⟨matchStep_smaller hv h, matchStep_bookState hv h⟩,
    fun symbol v n hB hS hn => ?_, fun s symbol hB hS => matchOrders_returns hB hS,
    fun taker side p q w hT hq => marketLevel_progress side p q w hT hq,
    fun taker side bk w n hT hS hTb hn => marketLoop_ends side n bk w hT hS hTb (by omega),
    fun taker v hT hS hTb => executeMarketOrder_ends hT hS hTb,
    strayView_bookState, by decide, by decide⟩
  exact @matchLoop_returns symbol n v hB hS (by simp only [matchFuel] at hn; omega)

end ClaimTermination

section ClaimNoEmptyLevel

/-- No call sequence, whatever the quantities placed, leaves an empty price level. -/
theorem Attainable.noEmptyLevel {s : OrderBook} (h : Attainable s) (side : OrderType)
    (symbol : String) : NoEmptyLevel (bookOf s side symbol) := by
  induction h generalizing side symbol with
  | init =>
    intro l hl
    cases side <;> simp [bookOf, OrderBook.init] at hl
  | place type variant price quantity y _ hp ih =>
    rcases placeOrder_pruned hp side symbol with h1 | ⟨_, e1, e2, _, h1⟩
    · exact h1.2 (ih side symbol)
    · refine h1.2 (insertOrder_noEmpty ?_)
      rw [← e1, ← e2]
      exact ih side symbol
  | cancel orderId _ ih =>
    rw [cancelOrder_books]
    exact ih side symbol
  | matchPass y _ hm ih => exact (matchOrders_pruned hm side symbol).2 (ih side symbol)
  | index newValue currentTime _ ih =>
    intro l hl
    exact ih side symbol l (by cases side <;> exact hl)
  | band y referencePrice bandPercentage _ ih =>
    intro l hl
    exact ih side symbol l (by cases side <;> exact hl)

/-- C31: no empty price level. (1) In every reachable state, and in every state of a call
sequence whatever the quantities placed (`Attainable`), every price key present in a side
book of any symbol maps to a non-empty queue. (2) In any engine state and for any
arguments, a placement (LIMIT, MARKET, IOC or FOK) that starts from books without an empty
level ends with books without an empty level, and so does (3) a call of `matchOrders`; (4)
the same holds of the MARKET, IOC and FOK executions on any view. (5) In the test cases of
`main`: the SELL LIMIT 100.00 x 8 empties the bid queue at 101.00 and the level is gone
from the buy side; the BUY MARKET 7 empties the ask queue at 25.50, the SELL IOC 50.00 x 7
the only bid queue, and the BUY FOK 151.00 x 5 the ask queue at 151.00, and each of these
levels is gone. -/
theorem c31_no_empty_price_level :
    (∀ s : OrderBook, Reachable s →
      ∀ (side : OrderType) (symbol : String), ∀ l ∈ bookOf s side symbol, l.2 ≠ []) ∧
    (∀ s : OrderBook, Attainable s →
      ∀ (side : OrderType) (symbol : String), ∀ l ∈ bookOf s side symbol, l.2 ≠ []) ∧
    (∀ (s s' : OrderBook) (type : OrderType) (variant : OrderVariant) (price quantity : Int)
      (symbol : String) (id : Int),
      placeOrder s type variant price quantity symbol = some (id, s') →
      (∀ (side : OrderType) (y : String), NoEmptyLevel (bookOf s side y)) →
      ∀ (side : OrderType) (y : String), NoEmptyLevel (bookOf s' side y)) ∧
    (∀ (s s' : OrderBook) (symbol : String), matchOrders s symbol = some s' →
      (∀ (side : OrderType) (y : String), NoEmptyLevel (bookOf s side y)) →
      ∀ (side : OrderType) (y : String), NoEmptyLevel (bookOf s' side y)) ∧
    (∀ (taker : Int) (v : SymbolView), NoEmptyLevel v.buyBook → NoEmptyLevel v.sellBook →
      (NoEmptyLevel (executeIOCOrder taker v).buyBook ∧
        NoEmptyLevel (executeIOCOrder taker v).sellBook) ∧
      (NoEmptyLevel (executeFOKOrder taker v).2.buyBook ∧
        NoEmptyLevel (executeFOKOrder taker v).2.sellBook) ∧
      ∀ v', executeMarketOrder taker v = some v' →
        NoEmptyLevel v'.buyBook ∧ NoEmptyLevel v'.sellBook) ∧
    (bookOf twoBids BUY "AAPL" = [(10100, [2]), (10050, [1])] ∧
      (placeOrder twoBids SELL LIMIT 10000 8 "AAPL").map (fun r => bookOf r.2 BUY "AAPL") =
        some [(10050, [1])]) ∧
    (bookOf msftBook SELL "MSFT" = [(2550, [3]), (2600, [4])] ∧
      (placeOrder msftBook BUY MARKET 0 7 "MSFT").map (fun r => bookOf r.2 SELL "MSFT") =
        some [(2600, [4])]) ∧
    (bookOf googBook BUY "GOOG" = [(5000, [1])] ∧
      (placeOrder googBook SELL IOC 5000 7 "GOOG").map (fun r => bookOf r.2 BUY "GOOG") =
        some []) ∧
    (bookOf amznBook SELL "AMZN" = [(15100, [2]), (15200, [3])] ∧
      (placeOrder amznBook BUY FOK 15100 5 "AMZN").map (fun r => bookOf r.2 SELL "AMZN") =
        some [(15200, [3])]) := by
  refine ⟨fun s hs side symbol l hl => ((hs.inv.side side symbol).levels l hl).nonempty,
    fun s hs side symbol => hs.noEmptyLevel side symbol,
    fun s s' type variant price quantity symbol id h hn side y => ?_,
    fun s s' symbol h hn side y => (matchOrders_pruned h side y).2 (hn side y),
    fun taker v hb hs => ⟨⟨(executeIOCOrder_pruned taker v).1.2 hb,
      (executeIOCOrder_pruned taker v).2.2 hs⟩, ⟨(executeFOKOrder_pruned taker v).1.2 hb,
      (executeFOKOrder_pruned taker v).2.2 hs⟩, fun v' h =>
        ⟨(executeMarketOrder_pruned h).1.2 hb, (executeMarketOrder_pruned h).2.2 hs⟩⟩,
    ⟨by decide, by decide⟩, ⟨by decide, by decide⟩, ⟨by decide, by decide⟩,
    ⟨by decide, by decide⟩⟩
  rcases placeOrder_pruned h side y with hp | ⟨_, e1, e2, _, hp⟩
  · exact hp.2 (hn side y)
  · refine hp.2 (insertOrder_noEmpty ?_)
    rw [← e1, ← e2]
    exact hn side y

end ClaimNoEmptyLevel

section ClaimOrderIds

/-- C27: order ids are unique and monotonic. (1) The counter of a fresh engine is 1.
(2) In any state, a placement of any variant either returns -1 and changes nothing, or
returns the current counter value, increments the counter by one and stores under the
returned id an order carrying that id. (3) In every reachable state the counter is at
least 1, the keys of the order map are exactly `1 .. nextOrderId - 1`, and each key maps to
the order carrying that id. (4) After any later calls from a reachable state the counter
is not lower and every key still maps to the same order, up to its filled quantity and
status. (5) Of two accepted placements, the later one returns the greater id. (6) Ids are
issued: in a reachable state in normal trading a placement of any variant and any quantity,
a LIMIT order outside its band apart, returns the counter, which is not -1, increments it
and stores the order under it; while the counter is below 2^31 - 1 the increment stays in
the range of `int`. (7) On a fresh engine a LIMIT, a MARKET, an IOC and a FOK placement
in a row return 1, 2, 3 and 4, and leave the counter at 5. -/
theorem c27_order_ids :
    OrderBook.init.nextOrderId = 1 ∧
    (∀ (s s' : OrderBook) (type : OrderType) (variant : OrderVariant) (price quantity : Int)
      (symbol : String) (id : Int),
      placeOrder s type variant price quantity symbol = some (id, s') →
      (id = -1 ∧ s' = s) ∨
      (id = s.nextOrderId ∧ s'.nextOrderId = s.nextOrderId + 1 ∧
        ∃ o, s'.orderMap id = some o ∧ o.id = id)) ∧
    (∀ s : OrderBook, Reachable s →
      1 ≤ s.nextOrderId ∧
      (∀ k, (∃ o, s.orderMap k = some o) ↔ 1 ≤ k ∧ k < s.nextOrderId) ∧
      ∀ k o, s.orderMap k = some o → o.id = k) ∧
    (∀ s s' : OrderBook, Reachable s → Later s s' →
      s.nextOrderId ≤ s'.nextOrderId ∧
      ∀ k o, s.orderMap k = some o → ∃ o', s'.orderMap k = some o' ∧ SameOrder o o') ∧
    (∀ (s s1 s2 s3 : OrderBook) (t1 t2 : OrderType) (v1 v2 : OrderVariant)
      (p1 q1 p2 q2 : Int) (y1 y2 : String) (id1 id2 : Int),
      placeOrder s t1 v1 p1 q1 y1 = some (id1, s1) → id1 ≠ -1 → Later s1 s2 →
      placeOrder s2 t2 v2 p2 q2 y2 = some (id2, s3) → id2 ≠ -1 → id1 < id2) ∧
    (∀ s : OrderBook, Reachable s → s.circuitBreaker.status = NORMAL_TRADING →
      ∀ (type : OrderType) (variant : OrderVariant) (price quantity : Int) (symbol : String),
      (variant = LIMIT → bandViolation s price symbol = false) →
      ∃ s', placeOrder s type variant price quantity symbol = some (s.nextOrderId, s') ∧
        s.nextOrderId ≠ -1 ∧ s'.nextOrderId = s.nextOrderId + 1 ∧
        (∃ o, s'.orderMap s.nextOrderId = some o ∧ o.id = s.nextOrderId) ∧
        (s.nextOrderId < 2147483647 → wrapInt (s.nextOrderId + 1) = s'.nextOrderId)) ∧
    ((placeOrder OrderBook.init BUY LIMIT 10000 10 "AAPL").bind fun r1 =>
      (placeOrder r1.2 SELL MARKET 0 4 "AAPL").bind fun r2 =>
        (placeOrder r2.2 BUY IOC 9900 5 "AAPL").bind fun r3 =>
          (placeOrder r3.2 SELL FOK 9000 5 "AAPL").map fun r4 =>
            ([r1.1, r2.1, r3.1, r4.1], r4.2.nextOrderId)) = some ([1, 2, 3, 4], 5) := by
  refine ⟨rfl, fun s s' type variant price quantity symbol id h => ?_, fun s hs => ?_,
    fun s s' hs hl => ⟨hl.next_le, (hs.dense.later hl).2⟩,
    fun s s1 s2 s3 t1 t2 v1 v2 p1 q1 p2 q2 y1 y2 id1 id2 h1 n1 hl h2 n2 => ?_,
    fun s hs hN type variant price quantity symbol hb => ?_, by decide⟩
  · rcases placeOrder_evolved h with e | ⟨e1, e2, o, hid, _, _, _, _, _, hE⟩
    · exact Or.inl e
    · obtain ⟨o', ho', so⟩ := hE.kept (k := o.id) (storeOrder_same _ _)
      refine Or.inr ⟨e1, e2, o', ?_, ?_⟩
      · rw [e1, ← hid]
        exact ho'
      · rw [so.1, e1, hid]
  · have hd := hs.dense
    refine ⟨hd.next_pos, fun k => ?_, hs.sound.ledger.ids⟩
    rw [← hd.keys k, Option.isSome_iff_exists]
  · have := hl.next_le
    rcases placeOrder_evolved h1 with ⟨e, _⟩ | ⟨e1, e2, _⟩
    · exact absurd e n1
    · rcases placeOrder_evolved h2 with ⟨e, _⟩ | ⟨e3, _, _⟩
      · exact absurd e n2
      · omega
  · have hpos := hs.dense.next_pos
    have hne : s.nextOrderId ≠ -1 := by omega
    obtain ⟨s', h⟩ := hs.attainable.typed.admits hN type variant price quantity symbol hb
    rcases placeOrder_evolved h with ⟨e, _⟩ | ⟨_, e2, o, hid, _, _, _, _, _, hE⟩
    · exact absurd e hne
    · obtain ⟨o', ho', so⟩ := hE.kept (k := o.id) (storeOrder_same _ _)
      refine ⟨s', h, hne, e2, ⟨o', ?_, ?_⟩, fun hlt => ?_⟩
      · rw [← hid]
        exact ho'
      · rw [so.1, hid]
      · rw [e2]
        exact wrapInt_of_range (by omega) (by omega)

end ClaimOrderIds

end StockMatching
